import Mathlib

/-!
# AVRizer: Intel HEX codec and page-buffered AVR ISP programming

A shallow embedding of `src/main.cpp` and `src/isp.h`.

Conventions.
* Bytes, characters and addresses are natural numbers; every place where the
  C++ code narrows to `uint8_t` or computes in 16-bit `unsigned` (the AVR `int`
  is 16 bits wide) carries an explicit `% 256` or `% 65536`.
* Memory buffers (`char *str`, `uint8_t *data`, `uint8_t *page`) are functions
  from index to byte, written with `Function.update`.  A freshly allocated
  buffer has arbitrary contents, so its initial value is always a parameter.
* The SD file `f` is the list of bytes that have not been read yet.
-/

namespace AVRizer

/-! ## Constants of `main.cpp` and `isp.h` -/

/-- Values of `enum hextype_t : uint8_t`. -/
abbrev hextype_t := Nat

def HEX_BIN : hextype_t := 0
def HEX_END : hextype_t := 1
def HEX_SEGMENT : hextype_t := 2
def HEX_START : hextype_t := 3
def HEX_EXTADDR : hextype_t := 4
def HEX_START32 : hextype_t := 5

/-- Result codes of `parseHexLine` (`enum hexparse_t`, with `USE_HEAP` defined). -/
inductive hexparse_t where
  | HEX_OK
  | HEX_NOMEM
  | HEX_TOOSHORT
  | HEX_WRONGSTART
  | HEX_WRONGLEN
  | HEX_WRONGADDRHI
  | HEX_WRONGADDRLO
  | HEX_WRONGTYPE
  | HEX_WRONGDATA
  | HEX_WRONGCRC
  deriving DecidableEq, Repr

open hexparse_t

def HEX_PAGE_SIZE : Nat := 16
def EEPROM_SIZE : Nat := 1024
def EEPROM_PAGE_SIZE : Nat := 4
def FLASH_SIZE : Nat := 32768
def FLASH_PAGE_SIZE : Nat := 64

/-- The constant `LINE_SIZE` local to `parseHexLine`. -/
def LINE_SIZE : Nat := HEX_PAGE_SIZE * 2 + 13 + 1

/-- A byte buffer in RAM, indexed from its first element. -/
abbrev Buf := Nat → Nat

/-! ## Line reader -/

/-- The loop of `Stream::readBytesUntil(terminator, buffer, length)` of the
Arduino core, on which `freadUntil` is built: characters are stored until
`length` of them have been stored, the stream is exhausted, or the terminator
is met; the terminator is consumed and not stored.  Returns the number of
characters stored, the buffer and the unread rest of the file. -/
def readBytesUntil (terminator : Nat) : Nat → List Nat → Buf → Nat → Nat × Buf × List Nat
  | 0, f, buffer, index => (index, buffer, f)
  | _ + 1, [], buffer, index => (index, buffer, [])
  | n + 1, c :: f, buffer, index =>
    if c = terminator then (index, buffer, f)
    else readBytesUntil terminator n f (Function.update buffer index c) (index + 1)

/-- The function `freadUntil(str, size, terminator, tail)`. -/
def freadUntil (str : Buf) (size terminator tail : Nat) (f : List Nat) : Nat × Buf × List Nat :=
  let r := readBytesUntil terminator (size - 1) f str 0
  let size1 := r.1
  let str1 := r.2.1
  let size2 := if size1 ≠ 0 ∧ str1 (size1 - 1) = tail then size1 - 1 else size1
  (size2, Function.update str1 size2 0, r.2.2)

/-! ## Hex numbers -/

/-- One hexadecimal digit as `parseHexNum` reads it: `0-9`, `A-F`, `a-f`. -/
def parseHexDigit (c : Nat) : Option Nat :=
  if 48 ≤ c ∧ c ≤ 57 then some (c - 48)
  else if 65 ≤ c ∧ c ≤ 70 then some (c - 65 + 10)
  else if 97 ≤ c ∧ c ≤ 102 then some (c - 97 + 10)
  else none

/-- The function `parseHexNum(&str[i], num)`: `some num` when it returns true. The
second character is read only when the first one is a digit. -/
def parseHexNum (str : Buf) (i : Nat) : Option Nat :=
  match parseHexDigit (str i) with
  | none => none
  | some hi =>
    let result := (hi <<< 4) % 256
    match parseHexDigit (str (i + 1)) with
    | none => none
    | some lo => some (result ||| lo)

/-- The function `hex(str, value)`: the two characters written to `str`. -/
def hex (value : Nat) : List Nat :=
  let d := value / 16
  let c0 := if d > 9 then 65 + d - 10 else 48 + d
  let d := value &&& 0x0F
  let c1 := if d > 9 then 65 + d - 10 else 48 + d
  [c0, c1]

/-- The function `isEmpty(data, size)`. -/
def isEmpty (data : Buf) : Nat → Nat → Bool
  | 0, _ => true
  | size + 1, i => if data i ≠ 0xFF then false else isEmpty data size (i + 1)

/-! ## HEX line parser -/

/-- The output parameters `len`, `addr`, `type`, `data` of `parseHexLine`. -/
structure HexVars where
  len : Nat
  addr : Nat
  type : hextype_t
  data : Buf

/-- The data loop of `parseHexLine`, `for (i = 0; i < len; ++i)`, entered at
index `i` with `n = len - i` iterations left. Returns whether every byte
parsed, the data buffer and the running checksum. -/
def parseHexData (str : Buf) : Nat → Nat → Buf → Nat → Bool × Buf × Nat
  | 0, _, data, crc => (true, data, crc)
  | n + 1, i, data, crc =>
    match parseHexNum str (9 + i * 2) with
    | none => (false, data, crc)
    | some d => parseHexData str n (i + 1) (Function.update data i d) ((crc + d) % 256)

/-- The function `parseHexLine(len, addr, type, data)`. `heap` is the outcome of
`new char[LINE_SIZE]`: `none` when the allocation fails, otherwise the
uninitialised line buffer. The output parameters keep what was stored in them
before an early exit. -/
def parseHexLine (heap : Option Buf) (f : List Nat) (v : HexVars) :
    hexparse_t × HexVars × List Nat :=
  match heap with
  | none => (HEX_NOMEM, v, f)
  | some str0 =>
    let r := freadUntil str0 LINE_SIZE 10 13 f
    let l := r.1
    let str := r.2.1
    let f := r.2.2
    if l < 11 then (HEX_TOOSHORT, v, f)
    else if str 0 ≠ 58 then (HEX_WRONGSTART, v, f)
    else
      match parseHexNum str 1 with
      | none => (HEX_WRONGLEN, v, f)
      | some len =>
        let v := { v with len := len }
        if len > HEX_PAGE_SIZE then (HEX_WRONGLEN, v, f)
        else
          let crc := len
          match parseHexNum str 3 with
          | none => (HEX_WRONGADDRHI, v, f)
          | some l =>
            let v := { v with addr := (l <<< 8) % 65536 }
            let crc := (crc + l) % 256
            match parseHexNum str 5 with
            | none => (HEX_WRONGADDRLO, v, f)
            | some l =>
              let v := { v with addr := v.addr ||| l }
              let crc := (crc + l) % 256
              match parseHexNum str 7 with
              | none => (HEX_WRONGTYPE, v, f)
              | some l =>
                if l > HEX_START32 then (HEX_WRONGTYPE, v, f)
                else
                  let v := { v with type := l }
                  let crc := (crc + l) % 256
                  let d := parseHexData str len 0 v.data crc
                  let v := { v with data := d.2.1 }
                  if d.1 = false then (HEX_WRONGDATA, v, f)
                  else
                    let crc := (256 - d.2.2) % 256
                    match parseHexNum str (9 + len * 2) with
                    | none => (HEX_WRONGCRC, v, f)
                    | some l =>
                      if l ≠ crc then (HEX_WRONGCRC, v, f)
                      else (HEX_OK, v, f)

/-- Character codes of a string literal. -/
def bytes (s : String) : List Nat := s.toList.map Char.toNat

/-! ## Lines and records as lists (specification side)

The definitions of this section do not come from the source. They describe a
text line as a list of characters and the record it denotes, following the
decoding steps of the specification, and are what the embedded parser is
compared with. -/

/-- The characters of `f` up to the first terminator `t`, at most `n` of them. -/
def takeLine (t : Nat) : Nat → List Nat → List Nat
  | 0, _ => []
  | _ + 1, [] => []
  | n + 1, c :: f => if c = t then [] else c :: takeLine t n f

/-- What is left of `f` once `takeLine t n f` has been read: the terminator is
consumed unless the count `n` was reached first. -/
def dropLine (t : Nat) : Nat → List Nat → List Nat
  | 0, f => f
  | _ + 1, [] => []
  | n + 1, c :: f => if c = t then f else dropLine t n f

/-- A list without its last element when that element is `tail`. -/
def stripTail (tail : Nat) (cs : List Nat) : List Nat :=
  if cs.getLast? = some tail then cs.dropLast else cs

/-- The next text line of the file as the HEX parser sees it: at most 45
characters up to the first line feed, one trailing carriage return removed. -/
def nextLine (f : List Nat) : List Nat := stripTail 13 (takeLine 10 (LINE_SIZE - 1) f)

/-- The file after its next line has been read. -/
def afterLine (f : List Nat) : List Nat := dropLine 10 (LINE_SIZE - 1) f

/-- The value of the two hex digits at positions `i` and `i + 1` of a line; a
position past the end of the line holds no digit. -/
def hexPairAt (line : List Nat) (i : Nat) : Option Nat :=
  match parseHexDigit (line.getD i 0), parseHexDigit (line.getD (i + 1) 0) with
  | some h, some l => some (16 * h + l)
  | _, _ => none

/-- A decoded record: byte count, 16-bit address, record type, data bytes. -/
structure HexRecord where
  len : Nat
  addr : Nat
  type : Nat
  data : List Nat
  deriving DecidableEq, Repr

/-- The values of `n` data byte fields of a line, from the field of index `i` on. -/
def decodeData (line : List Nat) : Nat → Nat → Option (List Nat)
  | 0, _ => some []
  | n + 1, i =>
    match hexPairAt line (9 + i * 2) with
    | none => none
    | some d =>
      match decodeData line n (i + 1) with
      | none => none
      | some ds => some (d :: ds)

/-- The decoding of a line `:LLAAAATTDD..DDCC` by the eight steps of the
specification, each with its own error kind. -/
def decodeLine (line : List Nat) : Except hexparse_t HexRecord :=
  if line.length < 11 then .error HEX_TOOSHORT
  else if line.getD 0 0 ≠ 58 then .error HEX_WRONGSTART
  else
    match hexPairAt line 1 with
    | none => .error HEX_WRONGLEN
    | some len =>
      if len > 16 then .error HEX_WRONGLEN
      else
        match hexPairAt line 3 with
        | none => .error HEX_WRONGADDRHI
        | some ah =>
          match hexPairAt line 5 with
          | none => .error HEX_WRONGADDRLO
          | some al =>
            match hexPairAt line 7 with
            | none => .error HEX_WRONGTYPE
            | some tt =>
              if tt > 5 then .error HEX_WRONGTYPE
              else
                match decodeData line len 0 with
                | none => .error HEX_WRONGDATA
                | some ds =>
                  match hexPairAt line (9 + len * 2) with
                  | none => .error HEX_WRONGCRC
                  | some cc =>
                    if (len + ah + al + tt + ds.sum + cc) % 256 = 0 then
                      .ok { len := len, addr := ah * 256 + al, type := tt, data := ds }
                    else .error HEX_WRONGCRC

/-! ## Well-formed record text (specification side) -/

/-- The value of a pair of hex digit characters. -/
def pairVal (p : Nat × Nat) : Option Nat :=
  match parseHexDigit p.1, parseHexDigit p.2 with
  | some h, some l => some (16 * h + l)
  | _, _ => none

/-- The values of a list of pairs of hex digit characters. -/
def pairVals : List (Nat × Nat) → Option (List Nat)
  | [] => some []
  | p :: ps =>
    match pairVal p, pairVals ps with
    | some d, some ds => some (d :: ds)
    | _, _ => none

/-- The characters of a list of pairs, in order. -/
def pairChars : List (Nat × Nat) → List Nat
  | [] => []
  | p :: ps => p.1 :: p.2 :: pairChars ps

/-- The fields of a line `:LLAAAATTDD..DDCC`, each one a pair of characters. -/
structure HexText where
  ll : Nat × Nat
  ah : Nat × Nat
  al : Nat × Nat
  tt : Nat × Nat
  dd : List (Nat × Nat)
  cc : Nat × Nat

/-- The characters of the line, without line ending. -/
def HexText.chars (t : HexText) : List Nat :=
  [58, t.ll.1, t.ll.2, t.ah.1, t.ah.2, t.al.1, t.al.2, t.tt.1, t.tt.2] ++
    (pairChars t.dd ++ [t.cc.1, t.cc.2])

/-- What may follow a line in the file: the end of the file, a lone carriage
return at the end of the file, a line feed, or carriage return and line feed. -/
def LineEnd (e : List Nat) : Prop :=
  e = [] ∨ e = [13] ∨ (∃ r, e = 10 :: r) ∨ (∃ r, e = 13 :: 10 :: r)

/-- A character of a record line: the colon or a hex digit. -/
def RecordChar (c : Nat) : Prop := c = 58 ∨ parseHexDigit c ≠ none

/-- The text `:10000000214601360121470136007EFE09D2190141` by fields. -/
def sampleText : HexText where
  ll := (49, 48)
  ah := (48, 48)
  al := (48, 48)
  tt := (48, 48)
  dd := [(50, 49), (52, 54), (48, 49), (51, 54), (48, 49), (50, 49), (52, 55), (48, 49),
    (51, 54), (48, 48), (55, 69), (70, 69), (48, 57), (68, 50), (49, 57), (48, 49)]
  cc := (52, 49)

/-- The data bytes of `sampleText`. -/
def sampleData : List Nat :=
  [0x21, 0x46, 0x01, 0x36, 0x01, 0x21, 0x47, 0x01, 0x36, 0x00, 0x7E, 0xFE, 0x09, 0xD2, 0x19, 0x01]

/-- Output parameters holding zeroes. -/
def zeroVars : HexVars := { len := 0, addr := 0, type := 0, data := fun _ => 0 }

/-! ## Decoding steps (specification side) -/

/-- The result code that stands for an outcome of the list-level decoder. -/
def resultCode : Except hexparse_t HexRecord → hexparse_t
  | .error e => e
  | .ok _ => HEX_OK

/-- Steps 1 and 2 pass: at least 11 characters, the first one a colon. -/
def StartOk (line : List Nat) : Prop := 11 ≤ line.length ∧ line.getD 0 0 = 58

/-- Step 3 passes too: the byte count is two hex digits of value `len ≤ 16`. -/
def LenOk (line : List Nat) (len : Nat) : Prop :=
  StartOk line ∧ hexPairAt line 1 = some len ∧ len ≤ 16

/-- Step 4 passes too: the address high byte is two hex digits. -/
def AddrHiOk (line : List Nat) (len : Nat) : Prop := LenOk line len ∧ hexPairAt line 3 ≠ none

/-- Step 5 passes too: the address low byte is two hex digits. -/
def AddrLoOk (line : List Nat) (len : Nat) : Prop := AddrHiOk line len ∧ hexPairAt line 5 ≠ none

/-- Step 6 passes too: the record type is two hex digits of value at most 5. -/
def TypeOk (line : List Nat) (len : Nat) : Prop :=
  AddrLoOk line len ∧ ∃ t, hexPairAt line 7 = some t ∧ t ≤ 5

/-! ## The programming link (`isp.h`)

The target is reached through `ispTransfer`, which clocks one byte out and one
byte in, and through the reset line. What the target answers is not part of the
program: it is a parameter `T`. Every byte exchanged, every change of the reset
line and every `delay` is recorded in a log, the most recent event first. -/

/-- What the programmer does on the wires. -/
inductive Event where
  | xfer (out inp : Nat)
  | rst (level : Bool)
  | delay (ms : Nat)
  deriving DecidableEq, Repr

/-- A target with states `σ`: its answer to one byte exchange, and what a change
of the reset line or the passing of time does to it. -/
structure Target (σ : Type) where
  xfer : σ → Nat → σ × Nat
  rst : σ → Bool → σ
  delay : σ → Nat → σ

/-- The state of the link: the target and the log of events so far, the most
recent one first. -/
structure Isp (σ : Type) where
  dev : σ
  log : List Event

/-- The Arduino `delay(ms)`. -/
def delay {σ : Type} (T : Target σ) (s : Isp σ) (ms : Nat) : Isp σ :=
  { dev := T.delay s.dev ms, log := Event.delay ms :: s.log }

/-- Driving the `ISP_RST` bit of `ISP_PORT` to a level. -/
def setReset {σ : Type} (T : Target σ) (s : Isp σ) (level : Bool) : Isp σ :=
  { dev := T.rst s.dev level, log := Event.rst level :: s.log }

/-- The function `ispReset()`. -/
def ispReset {σ : Type} (T : Target σ) (s : Isp σ) : Isp σ :=
  setReset T (delay T (setReset T s true) 1) false

/-- The function `ispTransfer(data)`: eight clock pulses, most significant bit
first, taken as one exchange of a byte with the target. The result is a
`uint8_t`. -/
def ispTransfer {σ : Type} (T : Target σ) (s : Isp σ) (data : Nat) : Isp σ × Nat :=
  let r := T.xfer s.dev data
  ({ dev := r.1, log := Event.xfer data (r.2 % 256) :: s.log }, r.2 % 256)

/-- The loop `while (retry--)` of `ispBegin()`, with `retry` attempts left. -/
def ispBeginLoop {σ : Type} (T : Target σ) : Nat → Isp σ → Bool → Isp σ × Bool
  | 0, s, result => (s, result)
  | retry + 1, s, _ =>
    let s := setReset T s false
    let s := delay T s 20
    let s := (ispTransfer T s 0xAC).1
    let s := (ispTransfer T s 0x53).1
    let r := ispTransfer T s 0x00
    let result := decide (r.2 = 0x53)
    let s := (ispTransfer T r.1 0x00).1
    if result then (s, result) else ispBeginLoop T retry (ispReset T s) result

/-- The function `ispBegin()`. The local `result` is assigned in the first pass
of the loop before it is read. -/
def ispBegin {σ : Type} (T : Target σ) (s : Isp σ) : Isp σ × Bool :=
  ispBeginLoop T 5 s false

/-- The function `ispCommand(cmd1, cmd2, cmd3, cmd4)`; the parameters are
`uint8_t`. -/
def ispCommand {σ : Type} (T : Target σ) (s : Isp σ) (cmd1 cmd2 cmd3 cmd4 : Nat) : Isp σ × Nat :=
  let s := (ispTransfer T s (cmd1 % 256)).1
  let s := (ispTransfer T s (cmd2 % 256)).1
  let s := (ispTransfer T s (cmd3 % 256)).1
  ispTransfer T s (cmd4 % 256)

/-- The function `ispWait()`. The loop runs for as long as the target answers
busy; `fuel` bounds the number of polls and `none` means the bound was reached. -/
def ispWait {σ : Type} (T : Target σ) : Nat → Isp σ → Option (Isp σ)
  | 0, _ => none
  | fuel + 1, s =>
    let r := ispCommand T s 0xF0 0x00 0x00 0x00
    if r.2 &&& 0x01 ≠ 0 then ispWait T fuel (delay T r.1 1) else some r.1

def ispReadLockBits {σ : Type} (T : Target σ) (s : Isp σ) : Isp σ × Nat :=
  ispCommand T s 0x58 0x00 0x00 0x00

def ispWriteLockBits {σ : Type} (T : Target σ) (s : Isp σ) (bits : Nat) : Isp σ :=
  (ispCommand T s 0xAC 0xE0 0x00 bits).1

def ispReadLowFuseBits {σ : Type} (T : Target σ) (s : Isp σ) : Isp σ × Nat :=
  ispCommand T s 0x50 0x00 0x00 0x00

def ispWriteLowFuseBits {σ : Type} (T : Target σ) (s : Isp σ) (bits : Nat) : Isp σ :=
  (ispCommand T s 0xAC 0xA0 0x00 bits).1

def ispReadHighFuseBits {σ : Type} (T : Target σ) (s : Isp σ) : Isp σ × Nat :=
  ispCommand T s 0x58 0x08 0x00 0x00

def ispWriteHighFuseBits {σ : Type} (T : Target σ) (s : Isp σ) (bits : Nat) : Isp σ :=
  (ispCommand T s 0xAC 0xA8 0x00 bits).1

def ispReadExtFuseBits {σ : Type} (T : Target σ) (s : Isp σ) : Isp σ × Nat :=
  ispCommand T s 0x50 0x08 0x00 0x00

def ispWriteExtFuseBits {σ : Type} (T : Target σ) (s : Isp σ) (bits : Nat) : Isp σ :=
  (ispCommand T s 0xAC 0xA4 0x00 bits).1

/-- The function `ispChipErase()`. -/
def ispChipErase {σ : Type} (T : Target σ) (fuel : Nat) (s : Isp σ) : Option (Isp σ) :=
  ispWait T fuel (ispCommand T s 0xAC 0x80 0x00 0x00).1

/-- The function `ispReadEeprom(addr)`. -/
def ispReadEeprom {σ : Type} (T : Target σ) (s : Isp σ) (addr : Nat) : Isp σ × Nat :=
  ispCommand T s 0xA0 (addr / 256) addr 0x00

/-- The function `ispWriteEeprom(addr, data, verify)`. -/
def ispWriteEeprom {σ : Type} (T : Target σ) (fuel : Nat) (s : Isp σ) (addr data : Nat)
    (verify : Bool) : Option (Isp σ × Bool) :=
  let s := (ispCommand T s 0xC0 (addr / 256) addr data).1
  match ispWait T fuel s with
  | none => none
  | some s =>
    if verify then
      let r := ispReadEeprom T s addr
      some (r.1, decide (r.2 = data))
    else some (s, true)

/-- The function `ispReadFlash(addr)`. -/
def ispReadFlash {σ : Type} (T : Target σ) (s : Isp σ) (addr : Nat) : Isp σ × Nat :=
  ispCommand T s (0x20 + 0x08 * (addr &&& 0x01)) (addr / 512) (addr / 2) 0x00

/-- The first loop of `ispWriteFlashPage`, entered at word `i` with `n` words left. -/
def loadFlashPage {σ : Type} (T : Target σ) (page : Buf) : Nat → Nat → Isp σ → Isp σ
  | 0, _, s => s
  | n + 1, i, s =>
    let s := (ispCommand T s 0x40 0x00 i (page (i * 2))).1
    let s := (ispCommand T s 0x48 0x00 i (page (i * 2 + 1))).1
    loadFlashPage T page n (i + 1) s

/-- The verification loop of `ispWriteFlashPage`, entered at word `i` with `n`
words left; `addr` is the masked word address. The high byte of a word is read
only when its low byte matched. -/
def verifyFlashPage {σ : Type} (T : Target σ) (addr : Nat) (page : Buf) :
    Nat → Nat → Isp σ → Isp σ × Bool
  | 0, _, s => (s, true)
  | n + 1, i, s =>
    let r := ispReadFlash T s ((addr * 2 + i * 2) % 65536)
    if r.2 ≠ page (i * 2) then (r.1, false)
    else
      let r := ispReadFlash T r.1 ((addr * 2 + i * 2 + 1) % 65536)
      if r.2 ≠ page (i * 2 + 1) then (r.1, false)
      else verifyFlashPage T addr page n (i + 1) r.1

/-- The function `ispWriteFlashPage(addr, page, verify)`. -/
def ispWriteFlashPage {σ : Type} (T : Target σ) (fuel : Nat) (s : Isp σ) (addr : Nat)
    (page : Buf) (verify : Bool) : Option (Isp σ × Bool) :=
  let addr := addr / 2
  let addr := addr &&& 0xFFC0
  let s := loadFlashPage T page FLASH_PAGE_SIZE 0 s
  let s := (ispCommand T s 0x4C (addr / 256) addr 0).1
  match ispWait T fuel s with
  | none => none
  | some s =>
    if verify then some (verifyFlashPage T addr page FLASH_PAGE_SIZE 0 s)
    else some (s, true)

/-! ## Dumping (`main.cpp`) -/

/-- The inner loop of the dump functions,
`for (i = 0; i < HEX_PAGE_SIZE; ++i) { data[i] = read(addr + i); crc += data[i]; }`,
entered at index `i` with `n` bytes left. `read` is `ispReadEeprom` in
`dumpEeprom` and `ispReadFlash` in `dumpFlash`. -/
def dumpRead {σ : Type} (read : Isp σ → Nat → Isp σ × Nat) (addr : Nat) :
    Nat → Nat → Isp σ → Buf → Nat → Isp σ × Buf × Nat
  | 0, _, s, data, crc => (s, data, crc)
  | n + 1, i, s, data, crc =>
    let r := read s ((addr + i) % 65536)
    dumpRead read addr n (i + 1) r.1 (Function.update data i r.2) ((crc + r.2) % 256)

/-- The loop `for (i = 0; i < HEX_PAGE_SIZE; ++i) f.print(hex(name, data[i]))`. -/
def printData (data : Buf) : Nat → Nat → List Nat
  | 0, _ => []
  | n + 1, i => hex (data i) ++ printData data n (i + 1)

/-- The characters written for one record by the block guarded by
`! isEmpty(data, HEX_PAGE_SIZE)`: `":10"`, the address, `"00"`, the data, the
checksum `0 - crc` and the CR LF of `println`. -/
def printRecord (addr : Nat) (data : Buf) (crc : Nat) : List Nat :=
  [58, 49, 48] ++ (hex (addr / 256 % 256) ++ (hex (addr % 256) ++ ([48, 48] ++
    (printData data HEX_PAGE_SIZE 0 ++ (hex ((256 - crc) % 256) ++ [13, 10])))))

/-- The loop `for (addr = 0; addr < bound; addr += HEX_PAGE_SIZE)` of
`dumpEeprom` and `dumpFlash`, entered at `addr` with the text written so far.
`fuel` bounds the number of passes. -/
def dumpLoop {σ : Type} (read : Isp σ → Nat → Isp σ × Nat) (bound : Nat) :
    Nat → Nat → Isp σ → Buf → List Nat → Isp σ × Buf × List Nat
  | 0, _, s, data, out => (s, data, out)
  | fuel + 1, addr, s, data, out =>
    if addr < bound then
      let crc := (16 + addr / 256 + (addr &&& 0xFF)) % 256
      let r := dumpRead read addr HEX_PAGE_SIZE 0 s data crc
      let out := if isEmpty r.2.1 HEX_PAGE_SIZE 0 then out else out ++ printRecord addr r.2.1 r.2.2
      dumpLoop read bound fuel ((addr + HEX_PAGE_SIZE) % 65536) r.1 r.2.1 out
    else (s, data, out)

/-- The text `":00000001FF"` and the CR LF of `println`. -/
def endRecord : List Nat := [58, 48, 48, 48, 48, 48, 48, 48, 49, 70, 70, 13, 10]

/-- The function `dumpEeprom(fileName)`: the new state of the link, the content
of the file and the result. `opened` tells whether `SD.open` succeeded and
`heap` is the outcome of `new uint8_t[HEX_PAGE_SIZE]`. -/
def dumpEeprom {σ : Type} (T : Target σ) (opened : Bool) (heap : Option Buf) (s : Isp σ) :
    Isp σ × List Nat × Bool :=
  if opened = false then (s, [], false)
  else
    match heap with
    | none => (s, [], false)
    | some data =>
      let d := dumpLoop (ispReadEeprom T) EEPROM_SIZE EEPROM_SIZE 0 s data []
      (d.1, d.2.2 ++ endRecord, true)

/-- The end of the dumped flash range chosen by `dumpFlash` from the high fuse. -/
def flashTailOf (highFuse : Nat) : Nat :=
  let crc := highFuse &&& 0x06
  if crc = 0x06 then 0x3F00
  else if crc = 0x04 then 0x3E00
  else if crc = 0x02 then 0x3C00
  else 0x3800

/-- The function `dumpFlash(fileName)`, with the conventions of `dumpEeprom`. -/
def dumpFlash {σ : Type} (T : Target σ) (opened : Bool) (heap : Option Buf) (s : Isp σ) :
    Isp σ × List Nat × Bool :=
  if opened = false then (s, [], false)
  else
    match heap with
    | none => (s, [], false)
    | some data =>
      let r := ispReadHighFuseBits T s
      let flashTail := flashTailOf r.2
      let d := dumpLoop (ispReadFlash T) flashTail flashTail 0 r.1 data []
      (d.1, d.2.2 ++ endRecord, true)

/-! ## Programming (`main.cpp`) -/

/-- The state of a programming pass: the link, the unread part of the file, the
variables `len`, `addr`, `type`, `data`, the open page and its base address, and
the number of lines parsed so far. -/
structure Prog (σ : Type) where
  isp : Isp σ
  f : List Nat
  v : HexVars
  pageAddr : Nat
  page : Buf
  lines : Nat

/-- The loop `for (i = 0; i < len; ++i) page[(addr + i) & 0x7F] = data[i]`. -/
def copyToPage (addr : Nat) (data : Buf) : Nat → Nat → Buf → Buf
  | 0, _, page => page
  | n + 1, i, page =>
    copyToPage addr data n (i + 1) (Function.update page (((addr + i) % 65536) &&& 0x7F) (data i))

/-- The call `memset(page, 0xFF, FLASH_PAGE_SIZE * 2)`. -/
def memsetPage (page : Buf) : Buf := fun i => if i < FLASH_PAGE_SIZE * 2 then 0xFF else page i

/-- One pass of the body of the `do ... while (ok)` loop of `programFlash`:
`ok`, whether the loop was left with `break`, and the new state. `heap k` is the
outcome of the allocation of the line buffer for line `k`. `none` means that a
wait for the target ran out of fuel. -/
def programFlashStep {σ : Type} (T : Target σ) (heap : Nat → Option Buf) (fuel : Nat)
    (p : Prog σ) : Option (Bool × Bool × Prog σ) :=
  let r := parseHexLine (heap p.lines) p.f p.v
  let p := { p with f := r.2.2, v := r.2.1, lines := p.lines + 1 }
  if r.1 = HEX_OK then
    if p.v.type = HEX_EXTADDR then
      if p.v.len = 2 ∧ p.v.addr = 0 then
        some (true, false, { p with isp := (ispCommand T p.isp 0x4D 0x00 (p.v.data 1) 0x00).1 })
      else some (false, false, p)
    else if p.v.type = HEX_BIN then
      if (p.v.addr + p.v.len) % 65536 ≤ FLASH_SIZE then
        if (p.v.addr &&& 0xFF80) ≠ p.pageAddr then
          if p.pageAddr ≠ 0xFFFF then
            match ispWriteFlashPage T fuel p.isp p.pageAddr p.page true with
            | none => none
            | some (isp, false) => some (false, true, { p with isp := isp })
            | some (isp, true) =>
              some (true, false, { p with
                isp := isp
                pageAddr := p.v.addr &&& 0xFF80
                page := copyToPage p.v.addr p.v.data p.v.len 0 (memsetPage p.page) })
          else
            some (true, false, { p with
              pageAddr := p.v.addr &&& 0xFF80
              page := copyToPage p.v.addr p.v.data p.v.len 0 (memsetPage p.page) })
        else some (true, false, { p with page := copyToPage p.v.addr p.v.data p.v.len 0 p.page })
      else some (false, false, p)
    else if p.v.type = HEX_END then
      if p.v.len = 0 ∧ p.v.addr = 0 then
        if p.pageAddr ≠ 0xFFFF then
          match ispWriteFlashPage T fuel p.isp p.pageAddr p.page true with
          | none => none
          | some (isp, ok) => some (ok, true, { p with isp := isp })
        else some (true, true, p)
      else some (false, false, p)
    else some (false, false, p)
  else some (false, false, p)

/-- The `do ... while (ok)` loop of `programFlash`; `n` bounds the number of
passes. -/
def programFlashLoop {σ : Type} (T : Target σ) (heap : Nat → Option Buf) (fuel : Nat) :
    Nat → Prog σ → Option (Bool × Prog σ)
  | 0, _ => none
  | n + 1, p =>
    match programFlashStep T heap fuel p with
    | none => none
    | some (ok, brk, p) =>
      if brk then some (ok, p)
      else if ok then programFlashLoop T heap fuel n p
      else some (ok, p)

/-- The function `programFlash(fileName)`. `file` is the content of the file,
`none` when `SD.open` fails; `pageHeap` and `dataHeap` are the outcomes of the two
`new` expressions; `v0` holds the indeterminate initial values of `len`, `addr`
and `type`. The result is `none` when a loop ran out of `fuel`, else the value
returned together with the final state. -/
def programFlash {σ : Type} (T : Target σ) (fuel : Nat) (file : Option (List Nat))
    (pageHeap dataHeap : Option Buf) (heap : Nat → Option Buf) (v0 : HexVars) (s : Isp σ) :
    Option (Bool × Prog σ) :=
  let p0 : Prog σ := { isp := s, f := file.getD [], v := v0, pageAddr := 0xFFFF,
                       page := pageHeap.getD (fun _ => 0), lines := 0 }
  match file, pageHeap, dataHeap with
  | some f, some page, some data =>
    match ispChipErase T fuel s with
    | none => none
    | some s =>
      programFlashLoop T heap fuel fuel
        { isp := s, f := f, v := { v0 with data := data }, pageAddr := 0xFFFF, page := page,
          lines := 0 }
  | _, _, _ => some (false, p0)

/-- The loop `for (i = 0; i < len; ++i)` of `programEeprom`, which stops at the
first byte that does not verify. -/
def writeEepromBytes {σ : Type} (T : Target σ) (fuel : Nat) (addr : Nat) (data : Buf) :
    Nat → Nat → Isp σ → Option (Isp σ × Bool)
  | 0, _, s => some (s, true)
  | n + 1, i, s =>
    match ispWriteEeprom T fuel s ((addr + i) % 65536) (data i) true with
    | none => none
    | some (s, false) => some (s, false)
    | some (s, true) => writeEepromBytes T fuel addr data n (i + 1) s

/-- One pass of the body of the `do ... while (ok)` loop of `programEeprom`. -/
def programEepromStep {σ : Type} (T : Target σ) (heap : Nat → Option Buf) (fuel : Nat)
    (p : Prog σ) : Option (Bool × Bool × Prog σ) :=
  let r := parseHexLine (heap p.lines) p.f p.v
  let p := { p with f := r.2.2, v := r.2.1, lines := p.lines + 1 }
  if r.1 = HEX_OK then
    if p.v.type = HEX_BIN then
      if (p.v.addr + p.v.len) % 65536 ≤ EEPROM_SIZE then
        match writeEepromBytes T fuel p.v.addr p.v.data p.v.len 0 p.isp with
        | none => none
        | some (isp, ok) => some (ok, false, { p with isp := isp })
      else some (false, false, p)
    else if p.v.type = HEX_END then
      if p.v.len = 0 ∧ p.v.addr = 0 then some (true, true, p)
      else some (false, false, p)
    else some (false, false, p)
  else some (false, false, p)

/-- The `do ... while (ok)` loop of `programEeprom`. -/
def programEepromLoop {σ : Type} (T : Target σ) (heap : Nat → Option Buf) (fuel : Nat) :
    Nat → Prog σ → Option (Bool × Prog σ)
  | 0, _ => none
  | n + 1, p =>
    match programEepromStep T heap fuel p with
    | none => none
    | some (ok, brk, p) =>
      if brk then some (ok, p)
      else if ok then programEepromLoop T heap fuel n p
      else some (ok, p)

/-- The function `programEeprom(fileName)`, with the conventions of
`programFlash`; the fields `pageAddr` and `page` of the state are not used. -/
def programEeprom {σ : Type} (T : Target σ) (fuel : Nat) (file : Option (List Nat))
    (dataHeap : Option Buf) (heap : Nat → Option Buf) (v0 : HexVars) (s : Isp σ) :
    Option (Bool × Prog σ) :=
  let p0 : Prog σ := { isp := s, f := file.getD [], v := v0, pageAddr := 0xFFFF,
                       page := fun _ => 0, lines := 0 }
  match file, dataHeap with
  | some f, some data => programEepromLoop T heap fuel fuel { p0 with f := f, v := { v0 with data := data } }
  | _, _ => some (false, p0)

/-! ## A model of the target chip

Modelled from the spec: the target is hardware and not part of the repository.
The model answers the four-byte frames of the opcode table of the specification
for the one supported family (32768 bytes of flash in pages of 128 bytes,
1024 bytes of EEPROM). -/

/-- Modelled from the spec: how the chip behaves where the specification leaves
room. `latency` is the number of polls answered busy after a write or erase;
`store a old new` is what a flash or EEPROM cell at `a` holding `old` holds
after `new` is written to it. -/
structure Chip where
  latency : Nat
  store : Nat → Nat → Nat → Nat

/-- Modelled from the spec: a chip that stores what is written. -/
def idealChip (latency : Nat) : Chip := { latency := latency, store := fun _ _ new => new }

/-- Modelled from the spec: the state of the target: the memories, the page
latch filled by the load frames, the four fuse-like bytes, the number of polls
that will still be answered busy, and the bytes of the frame being received. -/
structure Avr where
  flash : Nat → Nat
  eeprom : Nat → Nat
  latch : Nat → Nat
  lock : Nat
  lfuse : Nat
  hfuse : Nat
  efuse : Nat
  busy : Nat
  frame : List Nat

/-- Modelled from the spec: the byte the target sends during the fourth
transfer of a frame whose first three bytes are `c1 c2 c3`. -/
def Avr.reply (a : Avr) (c1 c2 c3 : Nat) : Nat :=
  if c1 = 0x20 then a.flash ((c2 * 256 + c3) % 16384 * 2)
  else if c1 = 0x28 then a.flash ((c2 * 256 + c3) % 16384 * 2 + 1)
  else if c1 = 0xA0 then a.eeprom ((c2 * 256 + c3) % 1024)
  else if c1 = 0xF0 then (if a.busy = 0 then 0 else 1)
  else if c1 = 0x58 ∧ c2 = 0x00 then a.lock
  else if c1 = 0x50 ∧ c2 = 0x00 then a.lfuse
  else if c1 = 0x58 ∧ c2 = 0x08 then a.hfuse
  else if c1 = 0x50 ∧ c2 = 0x08 then a.efuse
  else if c1 = 0x30 then (if c3 % 4 = 0 then 0x1E else if c3 % 4 = 1 then 0x95 else 0x0F)
  else c3

/-- Modelled from the spec: the effect of a complete frame `c1 c2 c3 c4` on the
target. -/
def Avr.exec (c : Chip) (a : Avr) (c1 c2 c3 c4 : Nat) : Avr :=
  if c1 = 0xAC ∧ c2 = 0x80 then { a with flash := fun _ => 0xFF, busy := c.latency }
  else if c1 = 0x40 then { a with latch := Function.update a.latch (c3 % 64 * 2) c4 }
  else if c1 = 0x48 then { a with latch := Function.update a.latch (c3 % 64 * 2 + 1) c4 }
  else if c1 = 0x4C then
    { a with
      flash := fun x =>
        if (c2 * 256 + c3) % 16384 / 64 * 128 ≤ x ∧ x < (c2 * 256 + c3) % 16384 / 64 * 128 + 128 then
          c.store x (a.flash x) (a.latch (x - (c2 * 256 + c3) % 16384 / 64 * 128))
        else a.flash x
      busy := c.latency }
  else if c1 = 0xC0 then
    { a with
      eeprom := fun x =>
        if x = (c2 * 256 + c3) % 1024 then c.store x (a.eeprom x) c4 else a.eeprom x
      busy := c.latency }
  else if c1 = 0xF0 then { a with busy := a.busy - 1 }
  else if c1 = 0xAC ∧ c2 = 0xE0 then { a with lock := c4, busy := c.latency }
  else if c1 = 0xAC ∧ c2 = 0xA0 then { a with lfuse := c4, busy := c.latency }
  else if c1 = 0xAC ∧ c2 = 0xA8 then { a with hfuse := c4, busy := c.latency }
  else if c1 = 0xAC ∧ c2 = 0xA4 then { a with efuse := c4, busy := c.latency }
  else a

/-- Modelled from the spec: one byte exchange. A byte is echoed during the next
transfer; the fourth transfer carries the reply, and the frame takes effect when
its fourth byte has arrived. -/
def Avr.xfer (c : Chip) (a : Avr) (b : Nat) : Avr × Nat :=
  match a.frame with
  | [c1, c2, c3] => ({ Avr.exec c a c1 c2 c3 b with frame := [] }, a.reply c1 c2 c3)
  | [c1, c2] => ({ a with frame := [c1, c2, b] }, c2)
  | [c1] => ({ a with frame := [c1, b] }, c1)
  | _ => ({ a with frame := [b] }, 0)

/-- Modelled from the spec: the target as seen from the link. A change of the
reset line makes the target forget a frame that is not complete. -/
def avr (c : Chip) : Target Avr where
  xfer := Avr.xfer c
  rst := fun a _ => { a with frame := [] }
  delay := fun a _ => a

/-- A target with all memory cells and fuse bytes at `0xFF`, not busy, between
two frames. -/
def blankAvr : Avr :=
  { flash := fun _ => 0xFF, eeprom := fun _ => 0xFF, latch := fun _ => 0xFF, lock := 0xFF,
    lfuse := 0xFF, hfuse := 0xFF, efuse := 0xFF, busy := 0, frame := [] }

/-! ## The encoder as text (specification side) -/

/-- The two characters `hex` writes for a byte, as a pair. -/
def hexPair (v : Nat) : Nat × Nat := ((hex v).getD 0 0, (hex v).getD 1 0)

/-- The fields of the record text that `printRecord` writes. -/
def recordText (addr : Nat) (data : Buf) (crc : Nat) : HexText where
  ll := (49, 48)
  ah := hexPair (addr / 256 % 256)
  al := hexPair (addr % 256)
  tt := (48, 48)
  dd := (List.range' 0 HEX_PAGE_SIZE).map fun i => hexPair (data i)
  cc := hexPair ((256 - crc) % 256)

/-- The record text that the body of the dump loop writes when the sixteen bytes
it reads at `addr` are the bytes `data 0`, ..., `data 15`: the checksum is
accumulated by `dumpRead` and the text is written by `printRecord`. -/
def encodeDataRecord (addr : Nat) (data : Buf) : List Nat :=
  let r := dumpRead (fun (s : Isp Unit) a => (s, data ((a + 65536 - addr) % 65536) % 256)) addr
    HEX_PAGE_SIZE 0 { dev := (), log := [] } (fun _ => 0) ((16 + addr / 256 + (addr &&& 0xFF)) % 256)
  printRecord addr r.2.1 r.2.2

/-- A lower-case hex digit turned into upper case; other characters are kept. -/
def upperHex (c : Nat) : Nat := if 97 ≤ c ∧ c ≤ 102 then c - 32 else c

/-! ## Reading the log (specification side) -/

/-- The bytes sent to the target, in order. -/
def outs : List Event → List Nat
  | [] => []
  | Event.xfer out _ :: l => out :: outs l
  | _ :: l => outs l

/-- A list of bytes cut into frames of four; an incomplete last frame is left out. -/
def chunk4 : List Nat → List (List Nat)
  | a :: b :: c :: d :: rest => [a, b, c, d] :: chunk4 rest
  | _ => []

/-- The events of a log in the order in which they happened. -/
def trace (log : List Event) : List Event := log.reverse

/-- The four-byte frames sent to the target, in the order in which they were sent. -/
def frames (log : List Event) : List (List Nat) := chunk4 (outs (trace log))

/-- The flash byte address written by a frame `4C hi lo xx`. -/
def pageWriteOf : List Nat → Option Nat
  | [c1, hi, lo, _] => if c1 = 0x4C then some ((hi * 256 + lo) * 2) else none
  | _ => none

/-- The byte addresses of the flash pages written, one for each page write
frame of the log, in the order in which they were sent. -/
def pageWrites (log : List Event) : List Nat := (frames log).filterMap pageWriteOf

/-! ## Sample files -/

/-- A data record of 16 bytes `00 .. 0F` at address `0x0078`, which ends in the
next flash page, and the end record. -/
def straddleFile : List Nat :=
  bytes ":10007800000102030405060708090A0B0C0D0E0F00\r\n:00000001FF\r\n"

/-- A data record of 16 bytes `00 .. 0F` at address `0xFFF0` and the end record. -/
def wrapFile : List Nat :=
  bytes ":10FFF000000102030405060708090A0B0C0D0E0F89\r\n:00000001FF\r\n"

/-- Data records at addresses `0x0000`, `0x0080` and `0x0010`, and the end record. -/
def revisitFile : List Nat :=
  bytes (":10000000000102030405060708090A0B0C0D0E0F78\r\n" ++
    ":10008000000102030405060708090A0B0C0D0E0FF8\r\n" ++
    ":10001000000102030405060708090A0B0C0D0E0F68\r\n" ++ ":00000001FF\r\n")

/-- A line buffer, data buffer or page buffer holding zeroes. -/
def zeroBuf : Buf := fun _ => 0

/-- The link to a blank target, with an empty log. -/
def blankLink : Isp Avr := { dev := blankAvr, log := [] }

/-- The flash byte address read by a frame `20 hi lo xx` or `28 hi lo xx`. -/
def flashReadOf : List Nat → Option Nat
  | [c1, hi, lo, _] =>
    if c1 = 0x20 then some ((hi * 256 + lo) * 2)
    else if c1 = 0x28 then some ((hi * 256 + lo) * 2 + 1)
    else none
  | _ => none

/-- The flash byte addresses read back, one for each read frame of a list of
frames, in order. -/
def flashReads (fs : List (List Nat)) : List Nat := fs.filterMap flashReadOf

/-- A log made of complete frames: the number of bytes sent is a multiple of four. -/
def Framed (log : List Event) : Prop := (outs (trace log)).length % 4 = 0

/-- Between the states `s` and `s'` of the link exactly the frames `fs` were
sent, provided the log of `s` is made of complete frames. -/
def Sends {σ : Type} (s s' : Isp σ) (fs : List (List Nat)) : Prop :=
  Framed s.log → Framed s'.log ∧ frames s'.log = frames s.log ++ fs

/-- The target model after a complete frame. -/
def Avr.step (c : Chip) (a : Avr) (c1 c2 c3 c4 : Nat) : Avr :=
  { Avr.exec c a c1 c2 c3 c4 with frame := [] }

/-- The frames sent by the first loop of `ispWriteFlashPage` for the words
`i`, ..., `i + n - 1` of a page. -/
def loadFrames (page : Buf) : Nat → Nat → List (List Nat)
  | 0, _ => []
  | n + 1, i =>
    [0x40, 0x00, i % 256, page (i * 2) % 256] ::
      [0x48, 0x00, i % 256, page (i * 2 + 1) % 256] :: loadFrames page n (i + 1)

/-- The frame sent by `ispReadFlash(addr)`. -/
def readFrame (addr : Nat) : List Nat :=
  [(0x20 + 0x08 * (addr &&& 0x01)) % 256, addr / 512 % 256, addr / 2 % 256, 0]

/-- The frames sent to read `k` flash bytes from byte address `a0` on, the
addresses being 16-bit values. -/
def readFrames : Nat → Nat → List (List Nat)
  | _, 0 => []
  | a0, k + 1 => readFrame (a0 % 65536) :: readFrames (a0 + 1) k

/-! ## Record files and page flushes (specification side) -/

/-- The base address of the flash page that holds byte address `a`. -/
def pageBase (a : Nat) : Nat := a - a % 128

/-- A list without the repetitions of an element right after itself. -/
def collapse : List Nat → List Nat
  | [] => []
  | [a] => [a]
  | a :: b :: l => if a = b then collapse (b :: l) else a :: collapse (b :: l)

/-- A file made of lines that decode to the given data records, each one in the
range of the flash, followed by the line of the end record. -/
def FlashFile : List HexRecord → List Nat → Prop
  | [], f => decodeLine (nextLine f) = .ok { len := 0, addr := 0, type := 1, data := [] }
  | r :: rs, f =>
    decodeLine (nextLine f) = .ok r ∧ r.type = 0 ∧ r.addr + r.len ≤ 32768 ∧
      FlashFile rs (afterLine f)

/-- Between `s` and `s'` the page buffer `page` was written to the flash page
at `B`, taken modulo the size of the flash, of the target model and took effect
as it is, and the one page write frame sent was for `B`. -/
def Flushed (s s' : Isp Avr) (B : Nat) (page : Buf) : Prop :=
  s'.dev = { s.dev with
    flash := fun x =>
      if B % 32768 ≤ x ∧ x < B % 32768 + 128 then page (x - B % 32768) else s.dev.flash x
    latch := fun x => if x < 128 then page x else s.dev.latch x
    busy := 0 } ∧
  ∃ fs, Sends s s' fs ∧ fs.filterMap pageWriteOf = [B]

/-- The data bytes `00 .. 0F` of the records of the sample files. -/
def countData : List Nat := [0, 1, 2, 3, 4, 5, 6, 7, 8, 9, 10, 11, 12, 13, 14, 15]

/-- The data records of `revisitFile`. -/
def revisitRecords : List HexRecord :=
  [{ len := 16, addr := 0x0000, type := 0, data := countData },
   { len := 16, addr := 0x0080, type := 0, data := countData },
   { len := 16, addr := 0x0010, type := 0, data := countData }]

/-- The flash content a programming pass is about to leave at byte address `x`:
the byte of the open page when `x` lies in it, else the byte in the flash of
the target model. -/
def Prog.view (p : Prog Avr) (x : Nat) : Nat :=
  if p.pageAddr ≠ 0xFFFF ∧ p.pageAddr ≤ x ∧ x < p.pageAddr + 128 then p.page (x - p.pageAddr)
  else p.isp.dev.flash x

/-- The invariant of a programming pass over the dump of the flash content of
`a0`, when the blocks below `addr` have been dealt with: the target is between
two frames; the open page, if there is one, is aligned, lies in the flash and
starts at or below `addr`, and holds bytes; the flash is blank from the open
page on; and what the pass is about to leave is the dumped content below `addr`
and blank from `addr` on. -/
def DumpInv (a0 : Avr) (addr : Nat) (p : Prog Avr) : Prop :=
  p.isp.dev.frame = [] ∧
  (p.pageAddr = 0xFFFF ∨ (p.pageAddr % 128 = 0 ∧ p.pageAddr ≤ addr ∧ p.pageAddr < 32768)) ∧
  (p.pageAddr ≠ 0xFFFF → ∀ x, x < 128 → p.page x < 256) ∧
  (∀ x, (p.pageAddr = 0xFFFF ∨ p.pageAddr ≤ x) → p.isp.dev.flash x = 0xFF) ∧
  (∀ x, x < addr → p.view x = a0.flash x % 256) ∧
  (∀ x, addr ≤ x → p.view x = 0xFF)

/-- The link to a target whose flash holds `0xFF` in every second block of 16
bytes and a pattern of bytes elsewhere, with the high fuse at `0xD9`. -/
def patternLink : Isp Avr :=
  { dev := { blankAvr with
      flash := fun x => if x / 16 % 2 = 0 then 0xFF else x * 7 % 256
      hfuse := 0xD9 },
    log := [] }

/-- The line `:10000000214601360121470136007efe09d2190141 `, a well-formed data
record in lower case followed by a space, ended by a line feed, and the
end-of-file record. -/
def trailingFile : List Nat :=
  bytes ":10000000214601360121470136007efe09d2190141 \n:00000001FF\r\n"

/-! ## The parser against the list-level decoder (specification side) -/

/-- A buffer holds a line when it agrees with it up to and including the NUL
that follows the last character. -/
def Holds (str : Buf) (line : List Nat) : Prop :=
  ∀ i, i ≤ line.length → str i = line.getD i 0

/-- The outcome of the list-level decoder, as a statement about the result
code and output parameters of the parser. -/
def Decoded (d : Except hexparse_t HexRecord) (v : HexVars)
    (r : hexparse_t × HexVars × List Nat) : Prop :=
  match d with
  | .error e => r.1 = e ∧ e ≠ HEX_OK
  | .ok rec =>
    r.1 = HEX_OK ∧ r.2.1.len = rec.len ∧ r.2.1.addr = rec.addr ∧ r.2.1.type = rec.type ∧
    rec.data.length = rec.len ∧
    ∀ j, r.2.1.data j = if j < rec.len then rec.data.getD j 0 else v.data j

/-! ## Entering programming mode (specification side) -/

/-- The events of one attempt to enter programming mode: reset driven low, a
wait of 20 ms, and the frame `AC 53 00 00`, during which the four bytes of `r`
are received. -/
def attemptEvents (r : Nat × Nat × Nat × Nat) : List Event :=
  [Event.rst false, Event.delay 20, Event.xfer 0xAC r.1, Event.xfer 0x53 r.2.1,
    Event.xfer 0x00 r.2.2.1, Event.xfer 0x00 r.2.2.2]

/-- An attempt succeeds when the byte received during the third transfer is `0x53`. -/
def attemptOk (r : Nat × Nat × Nat × Nat) : Bool := decide (r.2.2.1 = 0x53)

/-- The events of a reset pulse: reset high, 1 ms, reset low. -/
def pulseEvents : List Event := [Event.rst true, Event.delay 1, Event.rst false]

/-- The events of a sequence of attempts, given by the bytes received in each:
every failed attempt is followed by a reset pulse. -/
def syncEvents : List (Nat × Nat × Nat × Nat) → List Event
  | [] => []
  | r :: rs => attemptEvents r ++ ((if attemptOk r then [] else pulseEvents) ++ syncEvents rs)

/-! ## Writes and polling in a trace (specification side) -/

/-- Polling until ready, as a list of events: frames `F0 00 00 00`, each
answered busy (bit 0 of the fourth byte received set) and followed by a wait of
1 ms, and a last one answered ready. -/
inductive Polls : List Event → Prop where
  | ready (r1 r2 r3 r4 : Nat) (h : r4 &&& 0x01 = 0) :
    Polls [Event.xfer 0xF0 r1, Event.xfer 0x00 r2, Event.xfer 0x00 r3, Event.xfer 0x00 r4]
  | busy (r1 r2 r3 r4 : Nat) (h : r4 &&& 0x01 ≠ 0) (rest : List Event) (hrest : Polls rest) :
    Polls (Event.xfer 0xF0 r1 :: Event.xfer 0x00 r2 :: Event.xfer 0x00 r3 ::
      Event.xfer 0x00 r4 :: Event.delay 1 :: rest)

/-- A trace in which every write is waited for, read from its first event on.
`W c1 c2` says which frames, by their first two bytes, are writes that must be
polled, and `F c1 c2` which ones are writes that must be followed by a reset
pulse. The flag tells whether a write is waiting for its polling. With no write
waiting, the trace goes on with a change of the reset line, a wait, a frame
that is neither kind of write, a write frame of the first kind, after which a
write is waiting, or a write frame of the second kind and right after it a
reset pulse (reset high, 1 ms, reset low). With a write waiting, the only
events allowed are polls `F0 00 00 00`: one answered busy and its wait of 1 ms,
or one answered ready, after which no write is waiting. -/
inductive Polled (W F : Nat → Nat → Prop) : Bool → List Event → Prop where
  | done : Polled W F false []
  | rst (level : Bool) (rest : List Event) (h : Polled W F false rest) :
    Polled W F false (Event.rst level :: rest)
  | delay (ms : Nat) (rest : List Event) (h : Polled W F false rest) :
    Polled W F false (Event.delay ms :: rest)
  | frame (c1 c2 c3 c4 r1 r2 r3 r4 : Nat) (hw : ¬ W c1 c2) (hf : ¬ F c1 c2) (rest : List Event)
    (h : Polled W F false rest) :
    Polled W F false (Event.xfer c1 r1 :: Event.xfer c2 r2 :: Event.xfer c3 r3 ::
      Event.xfer c4 r4 :: rest)
  | write (c1 c2 c3 c4 r1 r2 r3 r4 : Nat) (hw : W c1 c2) (rest : List Event)
    (h : Polled W F true rest) :
    Polled W F false (Event.xfer c1 r1 :: Event.xfer c2 r2 :: Event.xfer c3 r3 ::
      Event.xfer c4 r4 :: rest)
  | pulsed (c1 c2 c3 c4 r1 r2 r3 r4 : Nat) (hf : F c1 c2) (rest : List Event)
    (h : Polled W F false rest) :
    Polled W F false (Event.xfer c1 r1 :: Event.xfer c2 r2 :: Event.xfer c3 r3 ::
      Event.xfer c4 r4 :: Event.rst true :: Event.delay 1 :: Event.rst false :: rest)
  | busy (r1 r2 r3 r4 : Nat) (hb : r4 &&& 0x01 ≠ 0) (rest : List Event)
    (h : Polled W F true rest) :
    Polled W F true (Event.xfer 0xF0 r1 :: Event.xfer 0x00 r2 :: Event.xfer 0x00 r3 ::
      Event.xfer 0x00 r4 :: Event.delay 1 :: rest)
  | ready (r1 r2 r3 r4 : Nat) (hb : r4 &&& 0x01 = 0) (rest : List Event)
    (h : Polled W F false rest) :
    Polled W F true (Event.xfer 0xF0 r1 :: Event.xfer 0x00 r2 :: Event.xfer 0x00 r3 ::
      Event.xfer 0x00 r4 :: rest)

/-- The memory writes and the erase: flash page write `4C`, EEPROM byte write
`C0`, EEPROM page write `C2`, chip erase `AC 80`. -/
def MemoryWrite (c1 c2 : Nat) : Prop :=
  c1 = 0x4C ∨ c1 = 0xC0 ∨ c1 = 0xC2 ∨ (c1 = 0xAC ∧ c2 = 0x80)

/-- The writes of fuse and lock bytes: `AC A0`, `AC A8`, `AC A4`, `AC E0`. -/
def FuseWrite (c1 c2 : Nat) : Prop :=
  c1 = 0xAC ∧ (c2 = 0xA0 ∨ c2 = 0xA8 ∨ c2 = 0xA4 ∨ c2 = 0xE0)

/-- Every write to the target: memory, erase, fuses and lock. -/
def AnyWrite (c1 c2 : Nat) : Prop := MemoryWrite c1 c2 ∨ FuseWrite c1 c2

/-- No frame. -/
def NoWrite (_ _ : Nat) : Prop := False

/-- A piece of a trace in which every write is waited for: it can be put in
front of any such trace. -/
def Seg (W F : Nat → Nat → Prop) (evs : List Event) : Prop :=
  ∀ rest, Polled W F false rest → Polled W F false (evs ++ rest)

/-- Between `s` and `s'` the link did a piece of trace in which every write is
waited for. -/
def Does {σ : Type} (W F : Nat → Nat → Prop) (s s' : Isp σ) : Prop :=
  ∃ evs, s'.log = evs.reverse ++ s.log ∧ Seg W F evs

/-! ## Fuses (`main.cpp`) -/

/-- The function `dumpFuses(fileName)`: the new state of the link, the content
of the file and the result. `opened` tells whether `SD.open` succeeded. The four
bytes are read in the order lock, low, high, extended, and `println` ends a
line with CR LF. -/
def dumpFuses {σ : Type} (T : Target σ) (opened : Bool) (s : Isp σ) : Isp σ × List Nat × Bool :=
  if opened = false then (s, [], false)
  else
    let lb := ispReadLockBits T s
    let out := [76, 66, 58] ++ hex lb.2 ++ [13, 10]
    let lf := ispReadLowFuseBits T lb.1
    let out := out ++ [76, 58] ++ hex lf.2
    let hf := ispReadHighFuseBits T lf.1
    let out := out ++ [59, 72, 58] ++ hex hf.2
    let ef := ispReadExtFuseBits T hf.1
    let out := out ++ [59, 69, 58] ++ hex ef.2 ++ [13, 10]
    (ef.1, out, true)

/-- The constant `STR_SIZE` of `programFuses`. -/
def STR_SIZE : Nat := 17

/-- The test `! strncmp_P(&str[i], PSTR(pat), n)` for a pattern `pat` of `n`
characters, none of them NUL: the `n` characters of `str` from index `i` on are
those of the pattern. -/
def strncmpEq (str : Buf) (i : Nat) : List Nat → Bool
  | [] => true
  | c :: pat => decide (str i = c) && strncmpEq str (i + 1) pat

/-- The conditions of the two nested `if` statements of `programFuses`, which
read the lines `LB:XX` and `L:XX;H:XX;E:XX` from the file into the buffer `str`:
the values `lb`, `lf`, `hf`, `ef` when both conditions hold. The second line is
read only when the first one is accepted, and a `parseHexNum` is evaluated only
when what stands to its left in the `&&` chain holds. -/
def readFuseFile (str : Buf) (f : List Nat) : Option (Nat × Nat × Nat × Nat) :=
  let l1 := freadUntil str STR_SIZE 10 13 f
  if l1.1 = 5 ∧ strncmpEq l1.2.1 0 [76, 66, 58] = true then
    match parseHexNum l1.2.1 3 with
    | none => none
    | some lb =>
      let l2 := freadUntil l1.2.1 STR_SIZE 10 13 l1.2.2
      if l2.1 = 14 ∧ strncmpEq l2.2.1 0 [76, 58] = true then
        match parseHexNum l2.2.1 2 with
        | none => none
        | some lf =>
          if strncmpEq l2.2.1 5 [72, 58] = true then
            match parseHexNum l2.2.1 7 with
            | none => none
            | some hf =>
              if strncmpEq l2.2.1 10 [69, 58] = true then
                match parseHexNum l2.2.1 12 with
                | none => none
                | some ef => some (lb, lf, hf, ef)
              else none
          else none
      else none
  else none

/-- The body of the inner `if` of `programFuses`: the fuse writes, each followed
by `ispReset()` and `result = ispBegin()`. -/
def writeFuses {σ : Type} (T : Target σ) (lock : Bool) (lb lf hf ef : Nat) (s : Isp σ) :
    Isp σ × Bool :=
  let r := ispBegin T (ispReset T (ispWriteLowFuseBits T s lf))
  let r := if r.2 then ispBegin T (ispReset T (ispWriteHighFuseBits T r.1 hf)) else r
  let r := if r.2 then ispBegin T (ispReset T (ispWriteExtFuseBits T r.1 ef)) else r
  if r.2 && lock then ispBegin T (ispReset T (ispWriteLockBits T r.1 lb)) else r

/-- The function `programFuses(fileName, lock)`: the new state of the link and
the result. `file` is the content of the file, `none` when `SD.open` fails, and
`heap` is the outcome of `new char[STR_SIZE]`. -/
def programFuses {σ : Type} (T : Target σ) (file : Option (List Nat)) (heap : Option Buf)
    (lock : Bool) (s : Isp σ) : Isp σ × Bool :=
  match file, heap with
  | some f, some str =>
    match readFuseFile str f with
    | some (lb, lf, hf, ef) => writeFuses T lock lb lf hf ef s
    | none => (s, false)
  | _, _ => (s, false)

/-- The fuse file of Scenario C. -/
def scenarioFuses : List Nat := bytes "LB:FF\nL:E2;H:D9;E:FD\n"

/-- Between the states `s` and `s'` of the link, every flash page write, EEPROM
write and chip erase was polled until ready before anything else was done, and
every fuse or lock write was followed right away by a reset pulse. -/
def WritesWaited {σ : Type} (s s' : Isp σ) : Prop :=
  ∃ evs, trace s'.log = trace s.log ++ evs ∧ Polled MemoryWrite FuseWrite false evs

/-! ## The text of a dump (specification side) -/

/-- The bytes read one after the other at the addresses `addr + i`, ...,
`addr + i + n - 1`, and the state of the link after the reads. -/
def readBlock {σ : Type} (read : Isp σ → Nat → Isp σ × Nat) (addr : Nat) :
    Nat → Nat → Isp σ → Isp σ × List Nat
  | 0, _, s => (s, [])
  | n + 1, i, s =>
    let r := read s (addr + i)
    let t := readBlock read addr n (i + 1) r.1
    (t.1, r.2 :: t.2)

/-- The text of a dump over a list of block addresses, in the order of the
list: for each address the 16 bytes are read there, and the data record of
these bytes is written if one of them differs from `0xFF`, and nothing if all
16 are `0xFF`. -/
def dumpText {σ : Type} (read : Isp σ → Nat → Isp σ × Nat) :
    List Nat → Isp σ → Isp σ × List Nat
  | [], s => (s, [])
  | a :: rest, s =>
    let b := readBlock read a 16 0 s
    let t := dumpText read rest b.1
    (t.1, (if b.2.all (fun x => x == 0xFF) then []
      else encodeDataRecord a (fun i => b.2.getD i 0)) ++ t.2)

/-- The 16-byte-aligned addresses below a bound, in ascending order. -/
def blockAddrs (bound : Nat) : List Nat := List.range' 0 (bound / 16) 16

/-! ## Fuse files (specification side) -/

/-- The text of a fuse file: the line `LB:XX`, a line ending `e1`, the line
`L:XX;H:XX;E:XX`, and what follows it, `e2`. Each `XX` is a pair of characters. -/
def fuseText (b l h e : Nat × Nat) (e1 e2 : List Nat) : List Nat :=
  [76, 66, 58, b.1, b.2] ++
    (e1 ++ ([76, 58, l.1, l.2, 59, 72, 58, h.1, h.2, 59, 69, 58, e.1, e.2] ++ e2))

/-- A fuse or lock write `AC c2 00 v`, the reset pulse and the re-entry into
programming mode that follow it: the link after them and whether the re-entry
succeeded. -/
def fuseStep {σ : Type} (T : Target σ) (c2 v : Nat) (s : Isp σ) : Isp σ × Bool :=
  ispBegin T (ispReset T (ispCommand T s 0xAC c2 0x00 v).1)

/-- The frame of an attempt to enter programming mode. -/
def syncFrame : List Nat := [0xAC, 0x53, 0x00, 0x00]

/-- A frame that writes the lock bits: `AC E0 .. ..`. -/
def LockWrite (fr : List Nat) : Prop := fr.take 2 = [0xAC, 0xE0]

/-- The frames of a fuse or lock write `AC c2 00 v` and of the `k` attempts of
the re-entry that follows it. -/
def fuseFrames (c2 v k : Nat) : List (List Nat) :=
  [0xAC, c2, 0x00, v] :: List.replicate k syncFrame

/-! ## Writing an EEPROM file (specification side) -/

/-- A file made of lines that decode to the given data records, each one in the
range of the EEPROM, followed by the line of the end record. -/
def EepromFile : List HexRecord → List Nat → Prop
  | [], f => decodeLine (nextLine f) = .ok { len := 0, addr := 0, type := 1, data := [] }
  | r :: rs, f =>
    decodeLine (nextLine f) = .ok r ∧ r.type = 0 ∧ r.addr + r.len ≤ 1024 ∧
      EepromFile rs (afterLine f)

/-- The data bytes of a record, each with its address, in ascending order. -/
def recordBytes (r : HexRecord) : List (Nat × Nat) :=
  (List.range' 0 r.len).map fun i => (r.addr + i, r.data.getD i 0)

/-- The data bytes of a list of records with their addresses, in the order of
the records. -/
def fileBytes (rs : List HexRecord) : List (Nat × Nat) := rs.flatMap recordBytes

/-- Writing a list of bytes, each given with its address, one by one with
`ispWriteEeprom(addr, data, true)`, up to the first one whose readback differs:
the link after the last write made, and whether every byte verified. `none`
means that a wait ran out of fuel. -/
def writeAll {σ : Type} (T : Target σ) (fuel : Nat) : List (Nat × Nat) → Isp σ → Option (Isp σ × Bool)
  | [], s => some (s, true)
  | b :: rest, s =>
    match ispWriteEeprom T fuel s b.1 b.2 true with
    | none => none
    | some (s1, false) => some (s1, false)
    | some (s1, true) => writeAll T fuel rest s1

/-- The address and the byte written by a frame `C0 hi lo data`. -/
def eepromWriteOf : List Nat → Option (Nat × Nat)
  | [c1, hi, lo, d] => if c1 = 0xC0 then some (hi * 256 + lo, d) else none
  | _ => none

/-- The EEPROM byte writes of a list of frames, in order. -/
def eepromWrites (fs : List (List Nat)) : List (Nat × Nat) := fs.filterMap eepromWriteOf

/-- A frame of the byte-wise EEPROM programming: a byte write `C0`, a poll `F0`
or a byte read `A0`. -/
def EepromOp (fr : List Nat) : Prop :=
  fr.getD 0 0 = 0xC0 ∨ fr.getD 0 0 = 0xF0 ∨ fr.getD 0 0 = 0xA0

/-- An EEPROM file with the four bytes `DE AD BE EF` at address 0. -/
def eepromSample : List Nat := bytes ":04000000DEADBEEFC4\r\n:00000001FF\r\n"

/-! ## What a programming pass prints (`main.cpp`) -/

/-- The messages a pass of the loop body of `programFlash` or `programEeprom`
prints on `Serial`: the text of `printParseError(parse)` for a result code, or
one of the texts `"wrong EXTADDR!"`, `"Flash write error!"`,
`"wrong flash address!"`, `"wrong END!"`, `"unexpected type!"`,
`"EEPROM write error!"`, `"wrong EEPROM address!"`. -/
inductive Message where
  | parseError (parse : hexparse_t)
  | wrongExtaddr
  | flashWriteError
  | wrongFlashAddress
  | wrongEnd
  | unexpectedType
  | eepromWriteError
  | wrongEepromAddress
  deriving DecidableEq, Repr

/-- What one pass of the body of the loop of `programFlash` prints: `some none`
when it prints nothing, `none` when a wait for the target ran out of fuel. The
branches are those of `programFlashStep`. -/
def programFlashSays {σ : Type} (T : Target σ) (heap : Nat → Option Buf) (fuel : Nat)
    (p : Prog σ) : Option (Option Message) :=
  let r := parseHexLine (heap p.lines) p.f p.v
  let v := r.2.1
  if r.1 = HEX_OK then
    if v.type = HEX_EXTADDR then
      if v.len = 2 ∧ v.addr = 0 then some none
      else some (some Message.wrongExtaddr)
    else if v.type = HEX_BIN then
      if (v.addr + v.len) % 65536 ≤ FLASH_SIZE then
        if (v.addr &&& 0xFF80) ≠ p.pageAddr then
          if p.pageAddr ≠ 0xFFFF then
            match ispWriteFlashPage T fuel p.isp p.pageAddr p.page true with
            | none => none
            | some (_, false) => some (some Message.flashWriteError)
            | some (_, true) => some none
          else some none
        else some none
      else some (some Message.wrongFlashAddress)
    else if v.type = HEX_END then
      if v.len = 0 ∧ v.addr = 0 then
        if p.pageAddr ≠ 0xFFFF then
          match ispWriteFlashPage T fuel p.isp p.pageAddr p.page true with
          | none => none
          | some (_, false) => some (some Message.flashWriteError)
          | some (_, true) => some none
        else some none
      else some (some Message.wrongEnd)
    else some (some Message.unexpectedType)
  else some (some (Message.parseError r.1))

/-- What one pass of the body of the loop of `programEeprom` prints, with the
conventions of `programFlashSays`. The branches are those of
`programEepromStep`. -/
def programEepromSays {σ : Type} (T : Target σ) (heap : Nat → Option Buf) (fuel : Nat)
    (p : Prog σ) : Option (Option Message) :=
  let r := parseHexLine (heap p.lines) p.f p.v
  let v := r.2.1
  if r.1 = HEX_OK then
    if v.type = HEX_BIN then
      if (v.addr + v.len) % 65536 ≤ EEPROM_SIZE then
        match writeEepromBytes T fuel v.addr v.data v.len 0 p.isp with
        | none => none
        | some (_, false) => some (some Message.eepromWriteError)
        | some (_, true) => some none
      else some (some Message.wrongEepromAddress)
    else if v.type = HEX_END then
      if v.len = 0 ∧ v.addr = 0 then some none
      else some (some Message.wrongEnd)
    else some (some Message.unexpectedType)
  else some (some (Message.parseError r.1))

/-- An extended linear address record with upper address 0, and the end record. -/
def extFile : List Nat := bytes ":020000040000FA\r\n:00000001FF\r\n"

/-- The state of a programming pass before its first line: the link to a blank
target and the given file. -/
def firstPass (f : List Nat) : Prog Avr :=
  { isp := blankLink, f := f, v := zeroVars, pageAddr := 0xFFFF, page := zeroBuf, lines := 0 }

/-! ## Scenario A (specification side) -/

/-- The first line of Scenario A as the specification prints it: 41 characters,
of which the last two are the data byte `01`; no checksum field follows. -/
def scenarioALine : List Nat := bytes ":10000000214601360121470136007EFE09D21901"

/-- The file made of `scenarioALine` and of the end record, each with CR LF. -/
def scenarioAPrinted : List Nat :=
  bytes ":10000000214601360121470136007EFE09D21901\r\n:00000001FF\r\n"

/-- The text `:00000001FF` by fields. -/
def endText : HexText where
  ll := (48, 48)
  ah := (48, 48)
  al := (48, 48)
  tt := (48, 49)
  dd := []
  cc := (70, 70)

/-- The file of Scenario A with the checksum field `41` at the end of its first
line: the data record, a line ending `e1`, the end record, and what follows
it, `e2`. -/
def scenarioAFile (e1 e2 : List Nat) : List Nat :=
  sampleText.chars ++ (e1 ++ (endText.chars ++ e2))

/-- The data record of Scenario A. -/
def scenarioARecord : HexRecord := { len := 16, addr := 0, type := 0, data := sampleData }

/-! ## The characters the parser reads (`main.cpp`)

The functions of this section are `parseHexNum`, the data loop and
`parseHexLine` once more, each returning in addition the indices of the line
buffer that it reads, in the order of the reads. -/

/-- The function `parseHexNum(&str[i], num)` with the indices of `str` it reads:
`i`, and `i + 1` only when the character at `i` is a hex digit. -/
def parseHexNumTraced (str : Buf) (i : Nat) : Option Nat × List Nat :=
  match parseHexDigit (str i) with
  | none => (none, [i])
  | some hi =>
    let result := (hi <<< 4) % 256
    match parseHexDigit (str (i + 1)) with
    | none => (none, [i, i + 1])
    | some lo => (some (result ||| lo), [i, i + 1])

/-- The data loop of `parseHexLine` with the indices of `str` it reads, added to
the reads `rd` made before. -/
def parseHexDataTraced (str : Buf) :
    Nat → Nat → Buf → Nat → List Nat → (Bool × Buf × Nat) × List Nat
  | 0, _, data, crc, rd => ((true, data, crc), rd)
  | n + 1, i, data, crc, rd =>
    let t := parseHexNumTraced str (9 + i * 2)
    match t.1 with
    | none => ((false, data, crc), rd ++ t.2)
    | some d =>
      parseHexDataTraced str n (i + 1) (Function.update data i d) ((crc + d) % 256) (rd ++ t.2)

/-- The function `parseHexLine(len, addr, type, data)` with the indices of the
line buffer it reads after `freadUntil` has returned. -/
def parseHexLineTraced (heap : Option Buf) (f : List Nat) (v : HexVars) :
    (hexparse_t × HexVars × List Nat) × List Nat :=
  match heap with
  | none => ((HEX_NOMEM, v, f), [])
  | some str0 =>
    let r := freadUntil str0 LINE_SIZE 10 13 f
    let l := r.1
    let str := r.2.1
    let f := r.2.2
    if l < 11 then ((HEX_TOOSHORT, v, f), [])
    else if str 0 ≠ 58 then ((HEX_WRONGSTART, v, f), [0])
    else
      let t := parseHexNumTraced str 1
      let rd := 0 :: t.2
      match t.1 with
      | none => ((HEX_WRONGLEN, v, f), rd)
      | some len =>
        let v := { v with len := len }
        if len > HEX_PAGE_SIZE then ((HEX_WRONGLEN, v, f), rd)
        else
          let crc := len
          let t := parseHexNumTraced str 3
          let rd := rd ++ t.2
          match t.1 with
          | none => ((HEX_WRONGADDRHI, v, f), rd)
          | some l =>
            let v := { v with addr := (l <<< 8) % 65536 }
            let crc := (crc + l) % 256
            let t := parseHexNumTraced str 5
            let rd := rd ++ t.2
            match t.1 with
            | none => ((HEX_WRONGADDRLO, v, f), rd)
            | some l =>
              let v := { v with addr := v.addr ||| l }
              let crc := (crc + l) % 256
              let t := parseHexNumTraced str 7
              let rd := rd ++ t.2
              match t.1 with
              | none => ((HEX_WRONGTYPE, v, f), rd)
              | some l =>
                if l > HEX_START32 then ((HEX_WRONGTYPE, v, f), rd)
                else
                  let v := { v with type := l }
                  let crc := (crc + l) % 256
                  let d := parseHexDataTraced str len 0 v.data crc rd
                  let rd := d.2
                  let v := { v with data := d.1.2.1 }
                  if d.1.1 = false then ((HEX_WRONGDATA, v, f), rd)
                  else
                    let crc := (256 - d.1.2.2) % 256
                    let t := parseHexNumTraced str (9 + len * 2)
                    let rd := rd ++ t.2
                    match t.1 with
                    | none => ((HEX_WRONGCRC, v, f), rd)
                    | some l =>
                      if l ≠ crc then ((HEX_WRONGCRC, v, f), rd)
                      else ((HEX_OK, v, f), rd)

/-- A line of 11 characters that declares 16 data bytes and whose address
field is not made of hex digits, and the end record. -/
def badAddressFile : List Nat := bytes ":10ZZ000000\r\n:00000001FF\r\n"

/-- A data record cut after its sixth data byte, and the end record. -/
def cutFile : List Nat := bytes ":10000000214601360121\r\n:00000001FF\r\n"

/-- A line buffer holding the character `A` everywhere. -/
def staleBuf : Buf := fun _ => 65

/-! ## The layout of a fuse file (specification side) -/

/-- The next line of the file as `programFuses` reads it: at most 16 characters
up to the first line feed, one trailing carriage return removed. -/
def fuseLine (f : List Nat) : List Nat := stripTail 13 (takeLine 10 (STR_SIZE - 1) f)

/-- The file after `fuseLine f` has been read. -/
def afterFuseLine (f : List Nat) : List Nat := dropLine 10 (STR_SIZE - 1) f

/-- Two lines with the labels and hex digits of a fuse file: the first one is
`LB:` and two hex digits, 5 characters; the second one has 14 characters, with
`L:` at position 0, `H:` at position 5, `E:` at position 10, and two hex digits
after each label. Nothing is said of the characters at positions 4 and 9 of the
second line. -/
def FuseLabels (l1 l2 : List Nat) : Prop :=
  l1.length = 5 ∧ (l1.getD 0 0 = 76 ∧ l1.getD 1 0 = 66 ∧ l1.getD 2 0 = 58) ∧
  hexPairAt l1 3 ≠ none ∧
  l2.length = 14 ∧ (l2.getD 0 0 = 76 ∧ l2.getD 1 0 = 58) ∧ hexPairAt l2 2 ≠ none ∧
  (l2.getD 5 0 = 72 ∧ l2.getD 6 0 = 58) ∧ hexPairAt l2 7 ≠ none ∧
  (l2.getD 10 0 = 69 ∧ l2.getD 11 0 = 58) ∧ hexPairAt l2 12 ≠ none

/-- The exact layout `LB:XX` and `L:XX;H:XX;E:XX`: the labels and hex digits,
and a semicolon at positions 4 and 9 of the second line. -/
def FuseLayout (l1 l2 : List Nat) : Prop :=
  FuseLabels l1 l2 ∧ l2.getD 4 0 = 59 ∧ l2.getD 9 0 = 59

/-- The fuse file of Scenario C with the letters `x` and `y` in the place of
the two semicolons. -/
def separatorFile : List Nat := bytes "LB:FF\nL:E2xH:D9yE:FD\n"

/-! # Theorems -/

/-! ## Hex digits -/

theorem parseHexDigit_lt {c d : Nat} (h : parseHexDigit c = some d) : d < 16 := by
  unfold parseHexDigit at h
  split_ifs at h <;> simp at h <;> omega

theorem parseHexDigit_ne_zero {c d : Nat} (h : parseHexDigit c = some d) : c ≠ 0 := by
  rintro rfl
  simp [parseHexDigit] at h

theorem hex_nibbles_or (hi lo : Nat) (h1 : hi < 16) (h2 : lo < 16) :
    ((hi <<< 4) % 256 ||| lo) = 16 * hi + lo := by
  have e := Nat.mul_add_lt_is_or (i := 4) (b := lo) (by simpa using h2) hi
  rw [Nat.shiftLeft_eq, Nat.mod_eq_of_lt (by omega)]
  simp only [Nat.reducePow] at e
  rw [Nat.mul_comm hi 16, ← e]

theorem addr_bytes_or (hi lo : Nat) (h1 : hi < 256) (h2 : lo < 256) :
    ((hi <<< 8) % 65536 ||| lo) = hi * 256 + lo := by
  have e := Nat.mul_add_lt_is_or (i := 8) (b := lo) (by simpa using h2) hi
  rw [Nat.shiftLeft_eq, Nat.mod_eq_of_lt (by omega)]
  simp only [Nat.reducePow] at e
  rw [Nat.mul_comm hi 256, ← e]

/-- On a buffer that agrees with a line at positions `i` and `i + 1`,
`parseHexNum` computes the value of the hex pair of the line. -/
theorem parseHexNum_eq_hexPairAt (str : Buf) (line : List Nat) (i : Nat)
    (h0 : str i = line.getD i 0)
    (h1 : parseHexDigit (str i) ≠ none → str (i + 1) = line.getD (i + 1) 0) :
    parseHexNum str i = hexPairAt line i := by
  unfold parseHexNum hexPairAt
  rw [← h0]
  cases hd : parseHexDigit (str i) with
  | none => simp
  | some hi =>
    rw [← h1 (by simp [hd])]
    cases hl : parseHexDigit (str (i + 1)) with
    | none => simp
    | some lo =>
      simp [hex_nibbles_or hi lo (parseHexDigit_lt hd) (parseHexDigit_lt hl)]

theorem hexPairAt_lt {line : List Nat} {i v : Nat} (h : hexPairAt line i = some v) : v < 256 := by
  unfold hexPairAt at h
  split at h
  · rename_i a b ha hb
    simp at h
    have := parseHexDigit_lt ha
    have := parseHexDigit_lt hb
    omega
  · simp at h

theorem hexPairAt_inside {line : List Nat} {i v : Nat} (h : hexPairAt line i = some v) :
    i + 1 < line.length := by
  unfold hexPairAt at h
  split at h
  · rename_i a b ha hb
    by_contra hc
    have : line.getD (i + 1) 0 = 0 := by
      rw [List.getD_eq_default]
      omega
    rw [this] at hb
    exact parseHexDigit_ne_zero hb rfl
  · simp at h

/-! ## The line reader -/

theorem readBytesUntil_count (t : Nat) (n : Nat) (f : List Nat) (buf : Buf) (idx : Nat) :
    (readBytesUntil t n f buf idx).1 = idx + (takeLine t n f).length := by
  induction n generalizing f buf idx with
  | zero => simp [readBytesUntil, takeLine]
  | succ n ih =>
    cases f with
    | nil => simp [readBytesUntil, takeLine]
    | cons c f =>
      by_cases hc : c = t
      · simp [readBytesUntil, takeLine, hc]
      · simp only [readBytesUntil, takeLine, hc, if_false, ih, List.length_cons]
        omega

theorem readBytesUntil_rest (t : Nat) (n : Nat) (f : List Nat) (buf : Buf) (idx : Nat) :
    (readBytesUntil t n f buf idx).2.2 = dropLine t n f := by
  induction n generalizing f buf idx with
  | zero => simp [readBytesUntil, dropLine]
  | succ n ih =>
    cases f with
    | nil => simp [readBytesUntil, dropLine]
    | cons c f =>
      by_cases hc : c = t
      · simp [readBytesUntil, dropLine, hc]
      · simp only [readBytesUntil, dropLine, hc, if_false, ih]

theorem readBytesUntil_buf (t : Nat) (n : Nat) (f : List Nat) (buf : Buf) (idx j : Nat) :
    (readBytesUntil t n f buf idx).2.1 j =
      if idx ≤ j ∧ j < idx + (takeLine t n f).length then (takeLine t n f).getD (j - idx) 0
      else buf j := by
  have hempty : ∀ (b : Buf) (k : Nat), b j = if k ≤ j ∧ j < k then 0 else b j := by
    intro b k
    rw [if_neg (by omega)]
  induction n generalizing f buf idx with
  | zero => simpa [readBytesUntil, takeLine] using hempty buf idx
  | succ n ih =>
    cases f with
    | nil => simpa [readBytesUntil, takeLine] using hempty buf idx
    | cons c f =>
      by_cases hc : c = t
      · simpa [readBytesUntil, takeLine, hc] using hempty buf idx
      · simp only [readBytesUntil, takeLine, hc, if_false, ih, List.length_cons]
        by_cases hj : j = idx
        · subst hj
          simp
        · by_cases h1 : idx + 1 ≤ j ∧ j < idx + 1 + (takeLine t n f).length
          · have h2 : idx ≤ j ∧ j < idx + ((takeLine t n f).length + 1) := by omega
            rw [if_pos h1, if_pos h2]
            obtain ⟨k, hk⟩ : ∃ k, j - idx = k + 1 := ⟨j - idx - 1, by omega⟩
            have hk2 : j - (idx + 1) = k := by omega
            rw [hk, hk2]
            simp
          · have h2 : ¬ (idx ≤ j ∧ j < idx + ((takeLine t n f).length + 1)) := by omega
            rw [if_neg h1, if_neg h2, Function.update_noteq hj]

theorem takeLine_length_le (t n : Nat) (f : List Nat) : (takeLine t n f).length ≤ n := by
  induction n generalizing f with
  | zero => simp [takeLine]
  | succ n ih =>
    cases f with
    | nil => simp [takeLine]
    | cons c f =>
      by_cases hc : c = t
      · simp [takeLine, hc]
      · simp only [takeLine, hc, if_false, List.length_cons]
        have := ih f
        omega

theorem stripTail_length_le (tail : Nat) (cs : List Nat) : (stripTail tail cs).length ≤ cs.length := by
  unfold stripTail
  split_ifs <;> simp

theorem stripTail_getD (tail : Nat) (cs : List Nat) (i : Nat) (h : i < (stripTail tail cs).length) :
    (stripTail tail cs).getD i 0 = cs.getD i 0 := by
  unfold stripTail at h ⊢
  split_ifs at h ⊢ with hl
  · rw [List.length_dropLast] at h
    rw [List.getD_eq_getElem _ _ (by rw [List.length_dropLast]; exact h),
      List.getD_eq_getElem _ _ (by omega)]
    simp [List.getElem_dropLast]
  · rfl

theorem nextLine_length_le (f : List Nat) : (nextLine f).length ≤ 45 := by
  unfold nextLine
  have h1 := stripTail_length_le 13 (takeLine 10 (LINE_SIZE - 1) f)
  have h2 := takeLine_length_le 10 (LINE_SIZE - 1) f
  simp only [LINE_SIZE, HEX_PAGE_SIZE] at h1 h2 ⊢
  omega

/-- What `freadUntil` leaves behind: the length of the next line, the line
itself at the start of the buffer followed by NUL, and the rest of the file. -/
theorem freadUntil_spec (str0 : Buf) (f : List Nat) :
    (freadUntil str0 LINE_SIZE 10 13 f).1 = (nextLine f).length ∧
    (∀ i, i ≤ (nextLine f).length →
      (freadUntil str0 LINE_SIZE 10 13 f).2.1 i = (nextLine f).getD i 0) ∧
    (freadUntil str0 LINE_SIZE 10 13 f).2.2 = afterLine f := by
  have hlen : (freadUntil str0 LINE_SIZE 10 13 f).1 = (nextLine f).length := by
    simp only [freadUntil, readBytesUntil_count, readBytesUntil_buf, nextLine, stripTail,
      Nat.zero_add, Nat.zero_le, true_and, Nat.sub_zero]
    generalize takeLine 10 (LINE_SIZE - 1) f = cs
    rcases List.eq_nil_or_concat cs with h | ⟨L, b, h⟩
    · subst h; simp
    · subst h
      by_cases hb : b = 13
      · simp [hb]
      · simp [hb]
  refine ⟨hlen, ?_, ?_⟩
  · intro i hi
    have hlen2 := hlen
    simp only [freadUntil] at hlen2 ⊢
    rw [hlen2]
    by_cases hil : i = (nextLine f).length
    · subst hil
      rw [Function.update_same, List.getD_eq_default _ _ (le_refl _)]
    · have hlt : i < (nextLine f).length := by omega
      rw [Function.update_noteq hil, readBytesUntil_buf]
      unfold nextLine at hlt ⊢
      have h1 := stripTail_length_le 13 (takeLine 10 (LINE_SIZE - 1) f)
      rw [if_pos (by omega), stripTail_getD _ _ _ hlt]
      simp
  · simp [freadUntil, readBytesUntil_rest, afterLine]

/-! ## The parser against the list-level decoder -/

theorem parseHexNum_holds {str : Buf} {line : List Nat} (h : Holds str line) (i : Nat)
    (hi : i ≤ line.length) : parseHexNum str i = hexPairAt line i := by
  apply parseHexNum_eq_hexPairAt _ _ _ (h i hi)
  intro hd
  apply h
  by_contra hc
  have hil : i = line.length := by omega
  have hz : str i = 0 := by
    rw [h i hi, hil, List.getD_eq_default _ _ (le_refl _)]
  rw [hz] at hd
  exact hd (by simp [parseHexDigit])

theorem parseHexData_spec {str : Buf} {line : List Nat} (h : Holds str line) (n : Nat) :
    ∀ (i : Nat) (data : Buf) (crc : Nat), 9 + i * 2 ≤ line.length → crc < 256 →
      (decodeData line n i = none → (parseHexData str n i data crc).1 = false) ∧
      (∀ ds, decodeData line n i = some ds →
        (parseHexData str n i data crc).1 = true ∧
        (parseHexData str n i data crc).2.2 = (crc + ds.sum) % 256 ∧
        ds.length = n ∧
        ∀ j, (parseHexData str n i data crc).2.1 j =
          if i ≤ j ∧ j < i + n then ds.getD (j - i) 0 else data j) := by
  induction n with
  | zero =>
    intro i data crc _ hcrc
    refine ⟨by simp [decodeData], ?_⟩
    intro ds hds
    simp only [decodeData, Option.some.injEq] at hds
    subst hds
    refine ⟨rfl, ?_, rfl, ?_⟩
    · simp only [parseHexData, List.sum_nil]
      omega
    · intro j
      rw [if_neg (by omega)]
      rfl
  | succ n ih =>
    intro i data crc hi hcrc
    have hp := parseHexNum_holds h (9 + i * 2) hi
    simp only [decodeData, parseHexData, hp]
    cases hd : hexPairAt line (9 + i * 2) with
    | none => simp
    | some d =>
      have hin := hexPairAt_inside hd
      have hi2 : 9 + (i + 1) * 2 ≤ line.length := by omega
      obtain ⟨ih1, ih2⟩ := ih (i + 1) (Function.update data i d) ((crc + d) % 256) hi2
        (Nat.mod_lt _ (by norm_num))
      cases hr : decodeData line n (i + 1) with
      | none => simpa using ih1 hr
      | some ds =>
        obtain ⟨a1, a2, a3, a4⟩ := ih2 ds hr
        refine ⟨by simp, ?_⟩
        intro ds2 hds2
        simp only [Option.some.injEq] at hds2
        subst hds2
        refine ⟨a1, ?_, by simp [a3], ?_⟩
        · rw [a2, List.sum_cons]
          omega
        · intro j
          rw [a4]
          by_cases hj : j = i
          · subst hj
            rw [if_neg (by omega), if_pos (by omega), Function.update_same]
            simp
          · rw [Function.update_noteq hj]
            by_cases h1 : i + 1 ≤ j ∧ j < i + 1 + n
            · rw [if_pos h1, if_pos (by omega)]
              obtain ⟨k, hk⟩ : ∃ k, j - i = k + 1 := ⟨j - i - 1, by omega⟩
              have hk2 : j - (i + 1) = k := by omega
              rw [hk, hk2]
              simp
            · rw [if_neg h1, if_neg (by omega)]

/-- Refinement: with the line buffer allocated, whatever it held before,
`parseHexLine` computes the list-level decoding of the next line of the file
and leaves the file after that line. -/
theorem parseHexLine_decode (str0 : Buf) (f : List Nat) (v : HexVars) :
    (parseHexLine (some str0) f v).2.2 = afterLine f ∧
    Decoded (decodeLine (nextLine f)) v (parseHexLine (some str0) f v) := by
  obtain ⟨hl, hbuf, hrest⟩ := freadUntil_spec str0 f
  have hold : Holds (freadUntil str0 LINE_SIZE 10 13 f).2.1 (nextLine f) := hbuf
  generalize nextLine f = line at *
  constructor
  · simp only [parseHexLine, hrest]
    repeat (first | rfl | split)
  simp only [parseHexLine, hl, hrest]
  generalize (freadUntil str0 LINE_SIZE 10 13 f).2.1 = str at *
  unfold decodeLine
  by_cases h11 : line.length < 11
  · simp [h11, Decoded]
  simp only [h11, if_false]
  rw [hold 0 (by omega)]
  by_cases h58 : line.getD 0 0 ≠ 58
  · simp [h58, Decoded, -List.getD_eq_getElem?_getD]
  simp only [h58, if_false]
  rw [parseHexNum_holds hold 1 (by omega), parseHexNum_holds hold 3 (by omega),
    parseHexNum_holds hold 5 (by omega), parseHexNum_holds hold 7 (by omega)]
  cases e1 : hexPairAt line 1 with
  | none => simp [Decoded]
  | some len =>
    simp only [HEX_PAGE_SIZE]
    by_cases hlen : len > 16
    · simp [hlen, Decoded]
    simp only [hlen, if_false]
    cases e3 : hexPairAt line 3 with
    | none => simp [Decoded]
    | some ah =>
      cases e5 : hexPairAt line 5 with
      | none => simp [Decoded]
      | some al =>
        cases e7 : hexPairAt line 7 with
        | none => simp [Decoded]
        | some tt =>
          simp only [HEX_START32]
          by_cases htt : tt > 5
          · simp [htt, Decoded]
          simp only [htt, if_false]
          have hcrc0 : (((len + ah) % 256 + al) % 256 + tt) % 256 = (len + ah + al + tt) % 256 := by
            omega
          rw [hcrc0]
          obtain ⟨d1, d2⟩ := parseHexData_spec hold len 0 v.data
            ((len + ah + al + tt) % 256) (by omega) (Nat.mod_lt _ (by norm_num))
          cases ed : decodeData line len 0 with
          | none => simp [d1 ed, Decoded]
          | some ds =>
            obtain ⟨b1, b2, b3, b4⟩ := d2 ds ed
            have hcrcpos : 9 + len * 2 ≤ line.length := by
              rcases Nat.eq_zero_or_pos len with hz | hp
              · omega
              · have hlast : decodeData line len 0 = some ds := ed
                clear d1 d2 b1 b2 b4
                -- every data pair lies inside the line
                have key : ∀ (n i : Nat) (xs : List Nat), decodeData line n i = some xs →
                    9 + i * 2 ≤ line.length → 9 + (i + n) * 2 ≤ line.length := by
                  intro n
                  induction n with
                  | zero => intro i xs _ hi; simpa using hi
                  | succ n ih =>
                    intro i xs hx hi
                    simp only [decodeData] at hx
                    cases hd : hexPairAt line (9 + i * 2) with
                    | none => simp [hd] at hx
                    | some d =>
                      have hin := hexPairAt_inside hd
                      cases hr : decodeData line n (i + 1) with
                      | none => simp [hd, hr] at hx
                      | some ys =>
                        have := ih (i + 1) ys hr (by omega)
                        omega
                have := key len 0 ds hlast (by omega)
                omega
            rw [parseHexNum_holds hold (9 + len * 2) hcrcpos]
            simp only [b1, Bool.true_eq_false, if_false]
            cases ec : hexPairAt line (9 + len * 2) with
            | none => simp [Decoded]
            | some cc =>
              have hcc := hexPairAt_lt ec
              dsimp only
              rw [b2]
              by_cases hsum : (len + ah + al + tt + ds.sum + cc) % 256 = 0
              · have hne : ¬ cc ≠ (256 - ((len + ah + al + tt) % 256 + ds.sum) % 256) % 256 := by
                  omega
                rw [if_neg hne, if_pos hsum]
                refine ⟨rfl, rfl, ?_, rfl, b3, ?_⟩
                · exact addr_bytes_or ah al (hexPairAt_lt e3) (hexPairAt_lt e5)
                · intro j
                  have := b4 j
                  simp only [Nat.zero_le, true_and, Nat.zero_add, Nat.sub_zero] at this
                  exact this
              · have hne : cc ≠ (256 - ((len + ah + al + tt) % 256 + ds.sum) % 256) % 256 := by
                  omega
                rw [if_pos hne, if_neg hsum]
                exact ⟨rfl, by decide⟩

/-! ## Reading a line that is followed by a line ending -/

theorem takeLine_append (t n : Nat) (cs e : List Nat) (hcs : ∀ c ∈ cs, c ≠ t)
    (hn : cs.length ≤ n) :
    takeLine t n (cs ++ e) = cs ++ takeLine t (n - cs.length) e := by
  induction cs generalizing n with
  | nil => simp
  | cons c cs ih =>
    obtain ⟨m, rfl⟩ : ∃ m, n = m + 1 := ⟨n - 1, by simp at hn; omega⟩
    have hc : c ≠ t := hcs c (by simp)
    simp only [List.cons_append, takeLine, hc, if_false, List.length_cons, List.append_eq]
    rw [ih m (fun x hx => hcs x (by simp [hx])) (by simpa using hn)]
    simp

theorem dropLine_append (t n : Nat) (cs e : List Nat) (hcs : ∀ c ∈ cs, c ≠ t)
    (hn : cs.length ≤ n) :
    dropLine t n (cs ++ e) = dropLine t (n - cs.length) e := by
  induction cs generalizing n with
  | nil => simp
  | cons c cs ih =>
    obtain ⟨m, rfl⟩ : ∃ m, n = m + 1 := ⟨n - 1, by simp at hn; omega⟩
    have hc : c ≠ t := hcs c (by simp)
    simp only [List.cons_append, dropLine, hc, if_false, List.length_cons, List.append_eq]
    rw [ih m (fun x hx => hcs x (by simp [hx])) (by simpa using hn)]
    simp

theorem stripTail_concat (cs : List Nat) : stripTail 13 (cs ++ [13]) = cs := by
  simp [stripTail]

theorem stripTail_of_ne (cs : List Nat) (h : cs.getLast? ≠ some 13) : stripTail 13 cs = cs := by
  simp [stripTail, h]

/-- A line of fewer than 45 characters, none a line feed and the last one not a
carriage return, is what the reader returns when a line ending follows it. -/
theorem nextLine_append (cs e : List Nat) (hcs : ∀ c ∈ cs, c ≠ 10)
    (hlast : cs.getLast? ≠ some 13) (hn : cs.length + 1 ≤ 45) (he : LineEnd e) :
    nextLine (cs ++ e) = cs := by
  unfold nextLine
  have hsz : LINE_SIZE - 1 = 45 := by decide
  rw [hsz, takeLine_append 10 45 cs e hcs (by omega)]
  obtain ⟨m, hm⟩ : ∃ m, 45 - cs.length = m + 1 := ⟨45 - cs.length - 1, by omega⟩
  rw [hm]
  rcases he with rfl | rfl | ⟨r, rfl⟩ | ⟨r, rfl⟩
  · simpa [takeLine] using stripTail_of_ne cs hlast
  · cases m <;> simpa [takeLine] using stripTail_concat cs
  · simpa [takeLine] using stripTail_of_ne cs hlast
  · cases m <;> simpa [takeLine] using stripTail_concat cs

theorem afterLine_append_lf (cs r : List Nat) (hcs : ∀ c ∈ cs, c ≠ 10)
    (hn : cs.length + 1 ≤ 45) : afterLine (cs ++ 10 :: r) = r := by
  unfold afterLine
  have hsz : LINE_SIZE - 1 = 45 := by decide
  rw [hsz, dropLine_append 10 45 cs _ hcs (by omega)]
  obtain ⟨m, hm⟩ : ∃ m, 45 - cs.length = m + 1 := ⟨45 - cs.length - 1, by omega⟩
  rw [hm]
  simp [dropLine]

theorem afterLine_append_crlf (cs r : List Nat) (hcs : ∀ c ∈ cs, c ≠ 10)
    (hn : cs.length + 2 ≤ 45) : afterLine (cs ++ 13 :: 10 :: r) = r := by
  unfold afterLine
  have hsz : LINE_SIZE - 1 = 45 := by decide
  rw [hsz, dropLine_append 10 45 cs _ hcs (by omega)]
  obtain ⟨m, hm⟩ : ∃ m, 45 - cs.length = m + 2 := ⟨45 - cs.length - 2, by omega⟩
  rw [hm]
  simp [dropLine]

/-! ## Well-formed record text -/

theorem RecordChar.ne_lf {c : Nat} (h : RecordChar c) : c ≠ 10 := by
  rintro rfl
  rcases h with h | h
  · omega
  · exact h (by decide)

theorem RecordChar.ne_cr {c : Nat} (h : RecordChar c) : c ≠ 13 := by
  rintro rfl
  rcases h with h | h
  · omega
  · exact h (by decide)

theorem pairVal_recordChar {p : Nat × Nat} {v : Nat} (h : pairVal p = some v) :
    RecordChar p.1 ∧ RecordChar p.2 := by
  unfold pairVal at h
  split at h
  · rename_i a b ha hb
    exact ⟨Or.inr (by simp [ha]), Or.inr (by simp [hb])⟩
  · simp at h

theorem pairVals_length {ps : List (Nat × Nat)} {ds : List Nat} (h : pairVals ps = some ds) :
    ds.length = ps.length := by
  induction ps generalizing ds with
  | nil => simp [pairVals] at h; simp [h]
  | cons p ps ih =>
    simp only [pairVals] at h
    split at h
    · rename_i d ds1 hd hds
      simp only [Option.some.injEq] at h
      subst h
      simp [ih hds]
    · simp at h

theorem pairChars_length (ps : List (Nat × Nat)) : (pairChars ps).length = 2 * ps.length := by
  induction ps with
  | nil => rfl
  | cons p ps ih => simp only [pairChars, List.length_cons, ih]; omega

theorem pairChars_recordChar {ps : List (Nat × Nat)} {ds : List Nat} (h : pairVals ps = some ds) :
    ∀ c ∈ pairChars ps, RecordChar c := by
  induction ps generalizing ds with
  | nil => simp [pairChars]
  | cons p ps ih =>
    simp only [pairVals] at h
    split at h
    · rename_i d ds1 hd hds
      intro c hc
      simp only [pairChars, List.mem_cons] at hc
      rcases hc with rfl | rfl | hc
      · exact (pairVal_recordChar hd).1
      · exact (pairVal_recordChar hd).2
      · exact ih hds c hc
    · simp at h

/-- The hex pair found right after a given number of leading characters. -/
theorem hexPairAt_append (pre post : List Nat) (a b : Nat) :
    hexPairAt (pre ++ a :: b :: post) pre.length = pairVal (a, b) := by
  unfold hexPairAt pairVal
  rw [List.getD_append_right _ _ _ _ (le_refl _), List.getD_append_right _ _ _ _ (by omega)]
  simp

theorem decodeData_pairChars (ps : List (Nat × Nat)) :
    ∀ (pre post : List Nat) (ds : List Nat) (i : Nat), pre.length = 9 + i * 2 →
      pairVals ps = some ds →
      decodeData (pre ++ (pairChars ps ++ post)) ps.length i = some ds := by
  induction ps with
  | nil =>
    intro pre post ds i _ h
    simp only [pairVals, Option.some.injEq] at h
    simp [decodeData, h]
  | cons p ps ih =>
    intro pre post ds i hpre h
    simp only [pairVals] at h
    split at h
    · rename_i d ds1 hd hds
      simp only [Option.some.injEq] at h
      subst h
      simp only [List.length_cons, decodeData, pairChars, List.cons_append]
      rw [← hpre, hexPairAt_append, hd]
      have e : pre ++ p.1 :: p.2 :: (pairChars ps ++ post) =
          (pre ++ [p.1, p.2]) ++ (pairChars ps ++ post) := by simp
      rw [e, ih (pre ++ [p.1, p.2]) post ds1 (i + 1) (by simp [hpre]; omega) hds]
    · simp at h

theorem HexText.chars_length (t : HexText) : t.chars.length = 11 + 2 * t.dd.length := by
  simp only [HexText.chars, List.length_append, List.length_cons, List.length_nil,
    pairChars_length]
  omega

theorem HexText.chars_recordChar (t : HexText) {LL AH AL TT CC : Nat} {ds : List Nat}
    (hll : pairVal t.ll = some LL) (hah : pairVal t.ah = some AH)
    (hal : pairVal t.al = some AL) (htt : pairVal t.tt = some TT)
    (hdd : pairVals t.dd = some ds) (hcc : pairVal t.cc = some CC) :
    ∀ c ∈ t.chars, RecordChar c := by
  intro c hc
  simp only [HexText.chars, List.mem_append, List.mem_cons, List.mem_singleton,
    List.mem_nil_iff, or_false] at hc
  have h1 := pairVal_recordChar hll
  have h2 := pairVal_recordChar hah
  have h3 := pairVal_recordChar hal
  have h4 := pairVal_recordChar htt
  have h5 := pairVal_recordChar hcc
  rcases hc with (rfl | rfl | rfl | rfl | rfl | rfl | rfl | rfl | rfl) | hc | rfl | rfl
  · exact Or.inl rfl
  · exact h1.1
  · exact h1.2
  · exact h2.1
  · exact h2.2
  · exact h3.1
  · exact h3.2
  · exact h4.1
  · exact h4.2
  · exact pairChars_recordChar hdd c hc
  · exact h5.1
  · exact h5.2

/-- The list-level decoding of a well-formed record text. -/
theorem decodeLine_chars (t : HexText) {LL AH AL TT CC : Nat} {ds : List Nat}
    (hll : pairVal t.ll = some LL) (hah : pairVal t.ah = some AH)
    (hal : pairVal t.al = some AL) (htt : pairVal t.tt = some TT)
    (hdd : pairVals t.dd = some ds) (hcc : pairVal t.cc = some CC)
    (hLL : LL ≤ 16) (hTT : TT ≤ 5) (hcount : t.dd.length = LL) :
    decodeLine t.chars =
      if (LL + AH + AL + TT + ds.sum + CC) % 256 = 0 then
        .ok { len := LL, addr := AH * 256 + AL, type := TT, data := ds }
      else .error HEX_WRONGCRC := by
  have hlen := t.chars_length
  have p1 : hexPairAt t.chars 1 = some LL := by
    have := hexPairAt_append [58] (t.ah.1 :: t.ah.2 :: t.al.1 :: t.al.2 :: t.tt.1 :: t.tt.2 ::
      (pairChars t.dd ++ [t.cc.1, t.cc.2])) t.ll.1 t.ll.2
    simpa [HexText.chars, hll] using this
  have p3 : hexPairAt t.chars 3 = some AH := by
    have := hexPairAt_append [58, t.ll.1, t.ll.2] (t.al.1 :: t.al.2 :: t.tt.1 :: t.tt.2 ::
      (pairChars t.dd ++ [t.cc.1, t.cc.2])) t.ah.1 t.ah.2
    simpa [HexText.chars, hah] using this
  have p5 : hexPairAt t.chars 5 = some AL := by
    have := hexPairAt_append [58, t.ll.1, t.ll.2, t.ah.1, t.ah.2] (t.tt.1 :: t.tt.2 ::
      (pairChars t.dd ++ [t.cc.1, t.cc.2])) t.al.1 t.al.2
    simpa [HexText.chars, hal] using this
  have p7 : hexPairAt t.chars 7 = some TT := by
    have := hexPairAt_append [58, t.ll.1, t.ll.2, t.ah.1, t.ah.2, t.al.1, t.al.2]
      (pairChars t.dd ++ [t.cc.1, t.cc.2]) t.tt.1 t.tt.2
    simpa [HexText.chars, htt] using this
  have pd : decodeData t.chars LL 0 = some ds := by
    have := decodeData_pairChars t.dd
      [58, t.ll.1, t.ll.2, t.ah.1, t.ah.2, t.al.1, t.al.2, t.tt.1, t.tt.2] [t.cc.1, t.cc.2]
      ds 0 (by simp) hdd
    rw [hcount] at this
    exact this
  have pc : hexPairAt t.chars (9 + LL * 2) = some CC := by
    have := hexPairAt_append
      ([58, t.ll.1, t.ll.2, t.ah.1, t.ah.2, t.al.1, t.al.2, t.tt.1, t.tt.2] ++ pairChars t.dd)
      [] t.cc.1 t.cc.2
    rw [List.length_append, pairChars_length, hcount, hcc] at this
    rw [← this]
    simp only [HexText.chars, List.append_assoc, List.length_cons, List.length_nil]
    congr 1
    omega
  unfold decodeLine
  rw [if_neg (by omega)]
  have h0 : t.chars.getD 0 0 = 58 := rfl
  rw [if_neg (by rw [h0]; simp), p1]
  dsimp only
  rw [if_neg (by omega), p3, p5, p7]
  dsimp only
  rw [if_neg (by omega), pd, pc]

/-! ## Well-formed lines through the parser -/

/-- The parser on a well-formed record text followed by a line ending. -/
theorem parseHexLine_chars (t : HexText) (LL AH AL TT CC : Nat) (ds : List Nat)
    (hll : pairVal t.ll = some LL) (hah : pairVal t.ah = some AH)
    (hal : pairVal t.al = some AL) (htt : pairVal t.tt = some TT)
    (hdd : pairVals t.dd = some ds) (hcc : pairVal t.cc = some CC)
    (hLL : LL ≤ 16) (hTT : TT ≤ 5) (hcount : t.dd.length = LL)
    (e : List Nat) (he : LineEnd e) (str0 : Buf) (v : HexVars) :
    ((parseHexLine (some str0) (t.chars ++ e) v).1 = HEX_OK ↔
      (LL + AH + AL + TT + ds.sum + CC) % 256 = 0) ∧
    ((parseHexLine (some str0) (t.chars ++ e) v).1 ≠ HEX_OK →
      (parseHexLine (some str0) (t.chars ++ e) v).1 = HEX_WRONGCRC) ∧
    ((parseHexLine (some str0) (t.chars ++ e) v).1 = HEX_OK →
      (parseHexLine (some str0) (t.chars ++ e) v).2.1.len = LL ∧
      (parseHexLine (some str0) (t.chars ++ e) v).2.1.addr = AH * 256 + AL ∧
      (parseHexLine (some str0) (t.chars ++ e) v).2.1.type = TT ∧
      ∀ i, i < LL → (parseHexLine (some str0) (t.chars ++ e) v).2.1.data i = ds.getD i 0) := by
  have hrc := t.chars_recordChar hll hah hal htt hdd hcc
  have hline : nextLine (t.chars ++ e) = t.chars := by
    apply nextLine_append _ _ (fun c hc => (hrc c hc).ne_lf) _ _ he
    · intro h
      exact (hrc 13 (List.mem_of_getLast?_eq_some h)).ne_cr rfl
    · rw [t.chars_length]
      omega
  have hd := (parseHexLine_decode str0 (t.chars ++ e) v).2
  rw [hline, decodeLine_chars t hll hah hal htt hdd hcc hLL hTT hcount] at hd
  generalize parseHexLine (some str0) (t.chars ++ e) v = r at hd ⊢
  by_cases hsum : (LL + AH + AL + TT + ds.sum + CC) % 256 = 0
  · rw [if_pos hsum] at hd
    obtain ⟨h1, h2, h3, h4, _, h6⟩ := hd
    refine ⟨⟨fun _ => hsum, fun _ => h1⟩, fun h => absurd h1 h, fun _ => ⟨h2, h3, h4, ?_⟩⟩
    intro i hi
    have := h6 i
    simp only [hi, if_true] at this
    exact this
  · rw [if_neg hsum] at hd
    obtain ⟨h1, _⟩ := hd
    refine ⟨⟨fun h => ?_, fun h => absurd h hsum⟩, fun _ => h1, fun h => ?_⟩
    · rw [h1] at h
      exact absurd h (by decide)
    · rw [h1] at h
      exact absurd h (by decide)

/-! ## C1: checksum rule on well-formed lines -/

/-- C1. For a line `:LLAAAATTDD..DDCC` whose fields are all pairs of hex digits,
with `LL ≤ 16`, `TT ≤ 5` and exactly `LL` data bytes, followed by a line ending,
`parseHexLine` answers `HEX_OK` exactly when
`(LL + addrHi + addrLo + TT + Σ data + CC) mod 256 = 0` and `HEX_WRONGCRC`
otherwise; on `HEX_OK` the outputs are `len = LL`, `addr = addrHi * 256 + addrLo`,
`type = TT` and the `LL` data bytes in order. -/
theorem parseHexLine_wellformed (t : HexText) (LL AH AL TT CC : Nat) (ds : List Nat)
    (hll : pairVal t.ll = some LL) (hah : pairVal t.ah = some AH)
    (hal : pairVal t.al = some AL) (htt : pairVal t.tt = some TT)
    (hdd : pairVals t.dd = some ds) (hcc : pairVal t.cc = some CC)
    (hLL : LL ≤ 16) (hTT : TT ≤ 5) (hcount : t.dd.length = LL)
    (e : List Nat) (he : LineEnd e) (str0 : Buf) (v : HexVars) :
    ((parseHexLine (some str0) (t.chars ++ e) v).1 = HEX_OK ↔
      (LL + AH + AL + TT + ds.sum + CC) % 256 = 0) ∧
    ((parseHexLine (some str0) (t.chars ++ e) v).1 ≠ HEX_OK →
      (parseHexLine (some str0) (t.chars ++ e) v).1 = HEX_WRONGCRC) ∧
    ((parseHexLine (some str0) (t.chars ++ e) v).1 = HEX_OK →
      (parseHexLine (some str0) (t.chars ++ e) v).2.1.len = LL ∧
      (parseHexLine (some str0) (t.chars ++ e) v).2.1.addr = AH * 256 + AL ∧
      (parseHexLine (some str0) (t.chars ++ e) v).2.1.type = TT ∧
      ∀ i, i < LL → (parseHexLine (some str0) (t.chars ++ e) v).2.1.data i = ds.getD i 0) :=
  parseHexLine_chars t LL AH AL TT CC ds hll hah hal htt hdd hcc hLL hTT hcount e he str0 v

/-- The line `:10000000214601360121470136007EFE09D2190141` followed by CR LF is
accepted and decodes to its sixteen data bytes. -/
theorem parseHexLine_wellformed_witness :
    (parseHexLine (some fun _ => 0) (sampleText.chars ++ [13, 10]) zeroVars).1 = HEX_OK ∧
    (parseHexLine (some fun _ => 0) (sampleText.chars ++ [13, 10]) zeroVars).2.1.len = 16 :=
  have h := parseHexLine_wellformed sampleText 16 0 0 0 0x41 sampleData
    (by decide) (by decide) (by decide) (by decide) (by decide) (by decide)
    (by decide) (by decide) (by decide) [13, 10] (Or.inr (Or.inr (Or.inr ⟨[], rfl⟩)))
    (fun _ => 0) zeroVars
  ⟨h.1.2 (by decide), (h.2.2 (h.1.2 (by decide))).1⟩

/-! ## C5: the error kind is that of the first failing step -/

theorem parseHexLine_code (str0 : Buf) (f : List Nat) (v : HexVars) :
    (parseHexLine (some str0) f v).1 = resultCode (decodeLine (nextLine f)) := by
  have hd := (parseHexLine_decode str0 f v).2
  cases h : decodeLine (nextLine f) with
  | error e => rw [h] at hd; exact hd.1
  | ok r => rw [h] at hd; exact hd.1

theorem decodeData_eq_none_iff (line : List Nat) (n : Nat) :
    ∀ i, decodeData line n i = none ↔ ∃ j, i ≤ j ∧ j < i + n ∧ hexPairAt line (9 + j * 2) = none := by
  induction n with
  | zero =>
    intro i
    simp only [decodeData]
    constructor
    · intro h; cases h
    · rintro ⟨j, h1, h2, _⟩; omega
  | succ n ih =>
    intro i
    simp only [decodeData]
    cases hd : hexPairAt line (9 + i * 2) with
    | none =>
      simp only [true_iff]
      exact ⟨i, le_refl _, by omega, hd⟩
    | some d =>
      have hih := ih (i + 1)
      cases hr : decodeData line n (i + 1) with
      | none =>
        simp only [true_iff]
        obtain ⟨j, h1, h2, h3⟩ := hih.1 hr
        exact ⟨j, by omega, by omega, h3⟩
      | some ds =>
        simp only [reduceCtorEq, false_iff]
        rintro ⟨j, h1, h2, h3⟩
        rcases Nat.eq_or_lt_of_le h1 with rfl | hlt
        · rw [hd] at h3; cases h3
        · have : decodeData line n (i + 1) = none := hih.2 ⟨j, hlt, by omega, h3⟩
          rw [hr] at this; cases this

/-- C5. `parseHexLine` reports the error kind of the first decoding step that
fails, in the order TooShort, WrongStart, WrongLength, WrongAddressHigh,
WrongAddressLow, WrongType, WrongData: for every file and every previous content
of the line buffer, with `line` the next line of the file, each of these result
codes is returned exactly when the earlier steps pass and its own step fails. -/
theorem parseHexLine_first_failure (str0 : Buf) (f : List Nat) (v : HexVars) :
    ((parseHexLine (some str0) f v).1 = HEX_TOOSHORT ↔ (nextLine f).length < 11) ∧
    ((parseHexLine (some str0) f v).1 = HEX_WRONGSTART ↔
      11 ≤ (nextLine f).length ∧ (nextLine f).getD 0 0 ≠ 58) ∧
    ((parseHexLine (some str0) f v).1 = HEX_WRONGLEN ↔
      StartOk (nextLine f) ∧
        (hexPairAt (nextLine f) 1 = none ∨ ∃ n, hexPairAt (nextLine f) 1 = some n ∧ 16 < n)) ∧
    ((parseHexLine (some str0) f v).1 = HEX_WRONGADDRHI ↔
      ∃ len, LenOk (nextLine f) len ∧ hexPairAt (nextLine f) 3 = none) ∧
    ((parseHexLine (some str0) f v).1 = HEX_WRONGADDRLO ↔
      ∃ len, AddrHiOk (nextLine f) len ∧ hexPairAt (nextLine f) 5 = none) ∧
    ((parseHexLine (some str0) f v).1 = HEX_WRONGTYPE ↔
      ∃ len, AddrLoOk (nextLine f) len ∧
        (hexPairAt (nextLine f) 7 = none ∨ ∃ t, hexPairAt (nextLine f) 7 = some t ∧ 5 < t)) ∧
    ((parseHexLine (some str0) f v).1 = HEX_WRONGDATA ↔
      ∃ len, TypeOk (nextLine f) len ∧
        ∃ i, i < len ∧ hexPairAt (nextLine f) (9 + i * 2) = none) := by
  rw [parseHexLine_code]
  generalize nextLine f = line
  unfold decodeLine TypeOk AddrLoOk AddrHiOk LenOk StartOk
  by_cases h11 : line.length < 11
  · have h11b : ¬ 11 ≤ line.length := by omega
    simp [h11, h11b, resultCode]
  have h11b : 11 ≤ line.length := by omega
  simp only [h11, if_false, h11b, true_and]
  by_cases h58 : line.getD 0 0 ≠ 58
  · simp [h58, resultCode, -List.getD_eq_getElem?_getD]
  have h58b : line.getD 0 0 = 58 := by simpa using h58
  simp only [h58, if_false, h58b, true_and]
  cases e1 : hexPairAt line 1 with
  | none => simp [resultCode]
  | some len =>
    by_cases hlen : len > 16
    · have : ¬ len ≤ 16 := by omega
      simp [hlen, this, resultCode]
    have hlenb : len ≤ 16 := by omega
    simp only [hlen, if_false]
    cases e3 : hexPairAt line 3 with
    | none => simp [resultCode, hlenb, hlen]
    | some ah =>
      cases e5 : hexPairAt line 5 with
      | none => simp [resultCode, hlenb, hlen]
      | some al =>
        cases e7 : hexPairAt line 7 with
        | none => simp [resultCode, hlenb, hlen]
        | some tt =>
          by_cases htt : tt > 5
          · have : ¬ tt ≤ 5 := by omega
            simp [resultCode, hlenb, hlen, htt, this]
          have httb : tt ≤ 5 := by omega
          simp only [htt, if_false]
          cases ed : decodeData line len 0 with
          | none =>
            obtain ⟨j, _, hj, hj2⟩ := (decodeData_eq_none_iff line len 0).1 ed
            have hex : ∃ i, i < len ∧ hexPairAt line (9 + i * 2) = none := ⟨j, by omega, hj2⟩
            simp [resultCode, hlenb, httb, hex]
            exact ⟨len, ⟨rfl, hlenb⟩, hex⟩
          | some ds =>
            have hall : ∀ i, i < len → ¬ hexPairAt line (9 + i * 2) = none := by
              intro i hi hn
              have : decodeData line len 0 = none :=
                (decodeData_eq_none_iff line len 0).2 ⟨i, by omega, by omega, hn⟩
              rw [ed] at this
              cases this
            cases ec : hexPairAt line (9 + len * 2) with
            | none => simpa [resultCode, hlenb, httb] using hall
            | some cc =>
              by_cases hsum : (len + ah + al + tt + ds.sum + cc) % 256 = 0
              · simpa [resultCode, hlenb, httb, hsum] using hall
              · simpa [resultCode, hlenb, httb, hsum] using hall

/-! ## The encoder: `hex` and `printRecord` -/

theorem hex_eq_hexPair (v : Nat) : hex v = [(hexPair v).1, (hexPair v).2] := rfl

set_option maxRecDepth 100000 in
theorem pairVal_hexPair : ∀ v, v < 256 → pairVal (hexPair v) = some v := by
  decide

theorem printData_eq (data : Buf) (n : Nat) :
    ∀ i, printData data n i = pairChars ((List.range' i n).map fun j => hexPair (data j)) := by
  induction n with
  | zero => intro i; rfl
  | succ n ih =>
    intro i
    simp only [printData, List.range'_succ, List.map_cons, pairChars, ih (i + 1), hex_eq_hexPair]
    rfl

theorem pairVals_hexPair (data : Buf) (n : Nat) :
    ∀ i, (∀ j, i ≤ j → j < i + n → data j < 256) →
      pairVals ((List.range' i n).map fun j => hexPair (data j)) =
        some ((List.range' i n).map data) := by
  induction n with
  | zero => intro i _; rfl
  | succ n ih =>
    intro i h
    simp only [List.range'_succ, List.map_cons, pairVals]
    rw [pairVal_hexPair _ (h i (le_refl _) (by omega)), ih (i + 1) (fun j h1 h2 => h j (by omega) (by omega))]

theorem printRecord_eq (addr : Nat) (data : Buf) (crc : Nat) :
    printRecord addr data crc = (recordText addr data crc).chars ++ [13, 10] := by
  simp only [printRecord, HexText.chars, recordText, printData_eq, hex_eq_hexPair]
  simp

/-- What the read loop of the dump functions leaves in `data` and `crc`. -/
theorem dumpRead_spec {σ : Type} (read : Isp σ → Nat → Isp σ × Nat)
    (hread : ∀ s a, (read s a).2 < 256) (addr : Nat) (n : Nat) :
    ∀ (i : Nat) (s : Isp σ) (data : Buf) (crc : Nat), crc < 256 →
      (dumpRead read addr n i s data crc).2.2 =
        (crc + ((List.range' i n).map (dumpRead read addr n i s data crc).2.1).sum) % 256 ∧
      (∀ j, i ≤ j → j < i + n → (dumpRead read addr n i s data crc).2.1 j < 256) ∧
      (∀ j, j < i → (dumpRead read addr n i s data crc).2.1 j = data j) := by
  induction n with
  | zero =>
    intro i s data crc hcrc
    refine ⟨?_, ?_, ?_⟩
    · simp only [dumpRead, List.range'_zero, List.map_nil, List.sum_nil]
      omega
    · intro j h1 h2; omega
    · intro j _; rfl
  | succ n ih =>
    intro i s data crc hcrc
    simp only [dumpRead]
    obtain ⟨h1, h2, h3⟩ := ih (i + 1) (read s ((addr + i) % 65536)).1
      (Function.update data i (read s ((addr + i) % 65536)).2)
      ((crc + (read s ((addr + i) % 65536)).2) % 256) (Nat.mod_lt _ (by norm_num))
    have hi := h3 i (by omega)
    rw [Function.update_same] at hi
    refine ⟨?_, ?_, ?_⟩
    · rw [h1, List.range'_succ, List.map_cons, List.sum_cons, hi]
      omega
    · intro j hj1 hj2
      rcases Nat.eq_or_lt_of_le hj1 with rfl | hlt
      · rw [hi]; exact hread _ _
      · exact h2 j hlt (by omega)
    · intro j hj
      rw [h3 j (by omega), Function.update_noteq (by omega)]

/-! ## C2: a dumped record reads back -/

theorem range'_map_getD (data : Buf) (n i : Nat) (h : i < n) :
    ((List.range' 0 n).map data).getD i 0 = data i := by
  rw [List.getD_eq_getElem _ _ (by simpa using h)]
  simp

theorem recordText_recordChar (addr : Nat) (data : Buf) (crc : Nat)
    (hdata : ∀ j, j < 16 → data j < 256) :
    pairVal (recordText addr data crc).ll = some 16 ∧
    pairVal (recordText addr data crc).ah = some (addr / 256 % 256) ∧
    pairVal (recordText addr data crc).al = some (addr % 256) ∧
    pairVal (recordText addr data crc).tt = some 0 ∧
    pairVals (recordText addr data crc).dd = some ((List.range' 0 16).map data) ∧
    pairVal (recordText addr data crc).cc = some ((256 - crc) % 256) ∧
    (recordText addr data crc).dd.length = 16 := by
  refine ⟨by show pairVal (49, 48) = some 16; decide,
    pairVal_hexPair _ (Nat.mod_lt _ (by norm_num)),
    pairVal_hexPair _ (Nat.mod_lt _ (by norm_num)), by show pairVal (48, 48) = some 0; decide, ?_,
    pairVal_hexPair _ (Nat.mod_lt _ (by norm_num)), by simp [recordText, HEX_PAGE_SIZE]⟩
  exact pairVals_hexPair data 16 0 (fun j _ h => hdata j (by omega))

/-- A record written by `printRecord` with the checksum of its address and data
is parsed back as that record, and the file is left after its line. -/
theorem parseHexLine_printRecord (addr : Nat) (data : Buf) (crc : Nat) (haddr : addr < 65536)
    (hdata : ∀ j, j < 16 → data j < 256)
    (hcrc : crc = (16 + addr / 256 + (addr &&& 0xFF) + ((List.range' 0 16).map data).sum) % 256)
    (rest : List Nat) (str0 : Buf) (v : HexVars) :
    (parseHexLine (some str0) (printRecord addr data crc ++ rest) v).1 = HEX_OK ∧
    (parseHexLine (some str0) (printRecord addr data crc ++ rest) v).2.1.len = 16 ∧
    (parseHexLine (some str0) (printRecord addr data crc ++ rest) v).2.1.addr = addr ∧
    (parseHexLine (some str0) (printRecord addr data crc ++ rest) v).2.1.type = HEX_BIN ∧
    (∀ i, i < 16 →
      (parseHexLine (some str0) (printRecord addr data crc ++ rest) v).2.1.data i = data i) ∧
    (parseHexLine (some str0) (printRecord addr data crc ++ rest) v).2.2 = rest := by
  obtain ⟨h1, h2, h3, h4, h5, h6, h7⟩ := recordText_recordChar addr data crc hdata
  have hfile : printRecord addr data crc ++ rest =
      (recordText addr data crc).chars ++ 13 :: 10 :: rest := by
    rw [printRecord_eq]; simp
  have hand : addr &&& 0xFF = addr % 256 := Nat.and_pow_two_sub_one_eq_mod addr 8
  rw [hand] at hcrc
  obtain ⟨a1, _, a3⟩ := parseHexLine_chars (recordText addr data crc) 16 (addr / 256 % 256)
    (addr % 256) 0 ((256 - crc) % 256) _ h1 h2 h3 h4 h5 h6 (le_refl _) (by omega) h7
    (13 :: 10 :: rest) (Or.inr (Or.inr (Or.inr ⟨rest, rfl⟩))) str0 v
  have hok := a1.2 (by omega)
  obtain ⟨b1, b2, b3, b4⟩ := a3 hok
  have hrc := (recordText addr data crc).chars_recordChar h1 h2 h3 h4 h5 h6
  have hrest := (parseHexLine_decode str0 ((recordText addr data crc).chars ++ 13 :: 10 :: rest) v).1
  rw [afterLine_append_crlf _ _ (fun c hc => (hrc c hc).ne_lf)
    (by rw [HexText.chars_length, h7])] at hrest
  rw [hfile]
  refine ⟨hok, b1, ?_, b3, ?_, hrest⟩
  · rw [b2]; omega
  · intro i hi
    rw [b4 i hi, range'_map_getD data 16 i hi]

/-- The bytes the read loop of the dump functions stores, for a reader whose
answers are a function of the address as long as an invariant of the link holds. -/
theorem dumpRead_data {σ : Type} (read : Isp σ → Nat → Isp σ × Nat) (P : Isp σ → Prop)
    (g : Nat → Nat) (hP : ∀ s a, P s → P (read s a).1 ∧ (read s a).2 = g a) (addr : Nat)
    (n : Nat) :
    ∀ (i : Nat) (s : Isp σ) (data : Buf) (crc : Nat), P s →
      P (dumpRead read addr n i s data crc).1 ∧
      ∀ j, i ≤ j → j < i + n →
        (dumpRead read addr n i s data crc).2.1 j = g ((addr + j) % 65536) := by
  induction n with
  | zero =>
    intro i s data crc hs
    exact ⟨hs, fun j h1 h2 => by omega⟩
  | succ n ih =>
    intro i s data crc hs
    simp only [dumpRead]
    obtain ⟨hs1, hr⟩ := hP s ((addr + i) % 65536) hs
    obtain ⟨h1, h2⟩ := ih (i + 1) (read s ((addr + i) % 65536)).1
      (Function.update data i (read s ((addr + i) % 65536)).2)
      ((crc + (read s ((addr + i) % 65536)).2) % 256) hs1
    refine ⟨h1, ?_⟩
    intro j hj1 hj2
    rcases Nat.eq_or_lt_of_le hj1 with rfl | hlt
    · have hkeep : ∀ (m k : Nat) (s1 : Isp σ) (d : Buf) (c : Nat), ∀ x, x < k →
          (dumpRead read addr m k s1 d c).2.1 x = d x := by
        intro m
        induction m with
        | zero => intro k s1 d c x _; rfl
        | succ m ihm =>
          intro k s1 d c x hx
          simp only [dumpRead]
          rw [ihm (k + 1) _ _ _ x (by omega), Function.update_noteq (by omega)]
      rw [hkeep n (i + 1) _ _ _ i (by omega), Function.update_same, hr]
    · exact h2 j hlt (by omega)

theorem encodeDataRecord_eq (addr : Nat) (data : Buf) (haddr : addr < 65536)
    (hdata : ∀ j, j < 16 → data j < 256) :
    ∃ (d : Buf) (crc : Nat), encodeDataRecord addr data = printRecord addr d crc ∧
      (∀ j, j < 16 → d j = data j) ∧
      crc = (16 + addr / 256 + (addr &&& 0xFF) + ((List.range' 0 16).map d).sum) % 256 := by
  let read : Isp Unit → Nat → Isp Unit × Nat :=
    fun s a => (s, data ((a + 65536 - addr) % 65536) % 256)
  let s0 : Isp Unit := { dev := (), log := [] }
  let crc0 := (16 + addr / 256 + (addr &&& 0xFF)) % 256
  refine ⟨(dumpRead read addr 16 0 s0 (fun _ => 0) crc0).2.1,
    (dumpRead read addr 16 0 s0 (fun _ => 0) crc0).2.2, rfl, ?_, ?_⟩
  · intro j hj
    have h := (dumpRead_data read (fun _ => True)
      (fun a => data ((a + 65536 - addr) % 65536) % 256) (fun s a _ => ⟨trivial, rfl⟩) addr 16 0
      s0 (fun _ => 0) crc0 trivial).2 j (Nat.zero_le _) (by omega)
    rw [h, Nat.mod_eq_of_lt]
    · congr 1
      omega
    · have e : (((addr + j) % 65536 + 65536 - addr) % 65536) = j := by omega
      rw [e]
      exact hdata j hj
  · have hbytes : ∀ (s : Isp Unit) (a : Nat), (read s a).2 < 256 :=
      fun s a => Nat.mod_lt _ (by norm_num)
    rw [(dumpRead_spec read hbytes addr 16 0 s0 (fun _ => 0) crc0
      (Nat.mod_lt _ (by norm_num))).1]
    omega

/-- C2. For every 16-bit address and every sixteen data bytes, the record line
the dump encoder emits (`:10`, address, `00`, the data and the checksum
`0 - crc`, each through `hex`, then CR LF), followed by anything, is read back
by `parseHexLine` as `HEX_OK` with `len = 16`, the same address, type `HEX_BIN`
and the same data bytes, and the file is left right after the line. -/
theorem parseHexLine_encodeDataRecord (addr : Nat) (data : Buf) (haddr : addr < 65536)
    (hdata : ∀ j, j < 16 → data j < 256) (rest : List Nat) (str0 : Buf) (v : HexVars) :
    (parseHexLine (some str0) (encodeDataRecord addr data ++ rest) v).1 = HEX_OK ∧
    (parseHexLine (some str0) (encodeDataRecord addr data ++ rest) v).2.1.len = 16 ∧
    (parseHexLine (some str0) (encodeDataRecord addr data ++ rest) v).2.1.addr = addr ∧
    (parseHexLine (some str0) (encodeDataRecord addr data ++ rest) v).2.1.type = HEX_BIN ∧
    (∀ i, i < 16 →
      (parseHexLine (some str0) (encodeDataRecord addr data ++ rest) v).2.1.data i = data i) ∧
    (parseHexLine (some str0) (encodeDataRecord addr data ++ rest) v).2.2 = rest := by
  obtain ⟨d, crc, he, hd, hcrc⟩ := encodeDataRecord_eq addr data haddr hdata
  rw [he]
  obtain ⟨a1, a2, a3, a4, a5, a6⟩ := parseHexLine_printRecord addr d crc haddr
    (fun j hj => by rw [hd j hj]; exact hdata j hj) hcrc rest str0 v
  exact ⟨a1, a2, a3, a4, fun i hi => by rw [a5 i hi, hd i hi], a6⟩

/-- The record of address `0x1234` with the data bytes `0x11 * i` reads back. -/
theorem parseHexLine_encodeDataRecord_witness :
    (parseHexLine (some fun _ => 0)
      (encodeDataRecord 0x1234 (fun i => 0x11 * (i % 15)) ++ endRecord) zeroVars).1 = HEX_OK ∧
    (parseHexLine (some fun _ => 0)
      (encodeDataRecord 0x1234 (fun i => 0x11 * (i % 15)) ++ endRecord) zeroVars).2.1.addr
        = 0x1234 :=
  have h := parseHexLine_encodeDataRecord 0x1234 (fun i => 0x11 * (i % 15)) (by decide)
    (fun j _ => by show 0x11 * (j % 15) < 256; omega) endRecord (fun _ => 0) zeroVars
  ⟨h.1, h.2.2.1⟩

/-! ## Frames in the log -/

theorem outs_append (a b : List Event) : outs (a ++ b) = outs a ++ outs b := by
  induction a with
  | nil => rfl
  | cons e a ih =>
    cases e <;> simp [outs, ih]

theorem chunk4_append : ∀ (xs ys : List Nat), xs.length % 4 = 0 →
    chunk4 (xs ++ ys) = chunk4 xs ++ chunk4 ys
  | [], ys, _ => by simp [chunk4]
  | [_], _, h => by simp at h
  | [_, _], _, h => by simp at h
  | [_, _, _], _, h => by simp at h
  | a :: b :: c :: d :: xs, ys, h => by
    have h2 : xs.length % 4 = 0 := by
      simp only [List.length_cons] at h
      omega
    simp [chunk4, chunk4_append xs ys h2]

theorem frames_append (L log : List Event) (h : Framed log) :
    frames (L ++ log) = frames log ++ frames L := by
  have h2 : (outs log.reverse).length % 4 = 0 := h
  unfold frames trace
  rw [List.reverse_append, outs_append, chunk4_append _ _ h2]

theorem framed_append (L log : List Event) (h : Framed log) (hL : Framed L) :
    Framed (L ++ log) := by
  unfold Framed trace at *
  rw [List.reverse_append, outs_append, List.length_append]
  omega

theorem Sends.refl {σ : Type} (s : Isp σ) : Sends s s [] := by
  intro h
  exact ⟨h, by simp⟩

theorem Sends.trans {σ : Type} {s1 s2 s3 : Isp σ} {f1 f2 : List (List Nat)}
    (h1 : Sends s1 s2 f1) (h2 : Sends s2 s3 f2) : Sends s1 s3 (f1 ++ f2) := by
  intro h
  obtain ⟨a1, a2⟩ := h1 h
  obtain ⟨b1, b2⟩ := h2 a1
  exact ⟨b1, by rw [b2, a2, List.append_assoc]⟩

/-- A step that adds to the log a list of events made of complete frames. -/
theorem sends_of_log {σ : Type} (s s' : Isp σ) (L : List Event) (hlog : s'.log = L ++ s.log)
    (hL : Framed L) : Sends s s' (frames L) := by
  intro h
  rw [hlog]
  exact ⟨framed_append L s.log h hL, frames_append L s.log h⟩

theorem sends_delay {σ : Type} (T : Target σ) (s : Isp σ) (ms : Nat) :
    Sends s (delay T s ms) [] :=
  sends_of_log s _ [Event.delay ms] rfl (by simp [Framed, trace, outs])

theorem sends_setReset {σ : Type} (T : Target σ) (s : Isp σ) (level : Bool) :
    Sends s (setReset T s level) [] :=
  sends_of_log s _ [Event.rst level] rfl (by simp [Framed, trace, outs])

theorem sends_ispCommand {σ : Type} (T : Target σ) (s : Isp σ) (c1 c2 c3 c4 : Nat) :
    Sends s (ispCommand T s c1 c2 c3 c4).1 [[c1 % 256, c2 % 256, c3 % 256, c4 % 256]] := by
  have h := sends_of_log s (ispCommand T s c1 c2 c3 c4).1
    [Event.xfer (c4 % 256) (ispCommand T s c1 c2 c3 c4).2,
     Event.xfer (c3 % 256) (ispTransfer T (ispTransfer T (ispTransfer T s (c1 % 256)).1
       (c2 % 256)).1 (c3 % 256)).2,
     Event.xfer (c2 % 256) (ispTransfer T (ispTransfer T s (c1 % 256)).1 (c2 % 256)).2,
     Event.xfer (c1 % 256) (ispTransfer T s (c1 % 256)).2] rfl (by simp [Framed, trace, outs])
  simpa [frames, trace, outs, chunk4] using h

theorem sends_ispWait {σ : Type} (T : Target σ) (fuel : Nat) :
    ∀ (s s' : Isp σ), ispWait T fuel s = some s' →
      ∃ k, Sends s s' (List.replicate k [0xF0, 0, 0, 0]) := by
  induction fuel with
  | zero => intro s s' h; simp [ispWait] at h
  | succ fuel ih =>
    intro s s' h
    simp only [ispWait] at h
    have hc := sends_ispCommand T s 0xF0 0 0 0
    split_ifs at h with hb
    · obtain ⟨k, hk⟩ := ih _ _ h
      refine ⟨k + 1, ?_⟩
      have := (hc.trans (sends_delay T _ 1)).trans hk
      simpa [List.replicate_succ] using this
    · simp only [Option.some.injEq] at h
      subst h
      exact ⟨1, by simpa using hc⟩

theorem sends_loadFlashPage {σ : Type} (T : Target σ) (page : Buf) (n : Nat) :
    ∀ (i : Nat) (s : Isp σ), Sends s (loadFlashPage T page n i s) (loadFrames page n i) := by
  induction n with
  | zero => intro i s; exact Sends.refl s
  | succ n ih =>
    intro i s
    simp only [loadFlashPage, loadFrames]
    have h1 := sends_ispCommand T s 0x40 0x00 i (page (i * 2))
    have h2 := sends_ispCommand T (ispCommand T s 0x40 0x00 i (page (i * 2))).1 0x48 0x00 i
      (page (i * 2 + 1))
    have h3 := (h1.trans h2).trans (ih (i + 1) _)
    simpa using h3

theorem sends_ispReadFlash {σ : Type} (T : Target σ) (s : Isp σ) (addr : Nat) :
    Sends s (ispReadFlash T s addr).1 [readFrame addr] := by
  have h := sends_ispCommand T s (0x20 + 0x08 * (addr &&& 0x01)) (addr / 512) (addr / 2) 0x00
  simpa [readFrame, ispReadFlash] using h

/-- The verification loop reads flash bytes in ascending order from the first
byte of word `i` on, and all of them when it answers true. -/
theorem sends_verifyFlashPage {σ : Type} (T : Target σ) (addr : Nat) (page : Buf) (n : Nat) :
    ∀ (i : Nat) (s : Isp σ), ∃ k, k ≤ 2 * n ∧
      Sends s (verifyFlashPage T addr page n i s).1 (readFrames (addr * 2 + i * 2) k) ∧
      ((verifyFlashPage T addr page n i s).2 = true → k = 2 * n) := by
  induction n with
  | zero =>
    intro i s
    exact ⟨0, le_refl _, Sends.refl s, fun _ => rfl⟩
  | succ n ih =>
    intro i s
    simp only [verifyFlashPage]
    have h1 := sends_ispReadFlash T s ((addr * 2 + i * 2) % 65536)
    split_ifs with hb1 hb2
    · exact ⟨1, by omega, by simpa [readFrames] using h1, fun h => by simp at h⟩
    · have h2 := sends_ispReadFlash T (ispReadFlash T s ((addr * 2 + i * 2) % 65536)).1
        ((addr * 2 + i * 2 + 1) % 65536)
      exact ⟨2, by omega, by simpa [readFrames] using h1.trans h2, fun h => by simp at h⟩
    · have h2 := sends_ispReadFlash T (ispReadFlash T s ((addr * 2 + i * 2) % 65536)).1
        ((addr * 2 + i * 2 + 1) % 65536)
      obtain ⟨k, hk, hs, hr⟩ := ih (i + 1)
        (ispReadFlash T (ispReadFlash T s ((addr * 2 + i * 2) % 65536)).1
          ((addr * 2 + i * 2 + 1) % 65536)).1
      refine ⟨k + 2, by omega, ?_, fun h => by rw [hr h]; omega⟩
      have h3 := (h1.trans h2).trans hs
      have e : addr * 2 + (i + 1) * 2 = addr * 2 + i * 2 + 1 + 1 := by omega
      rw [e] at h3
      simpa [readFrames] using h3

/-- The frames of one call of `ispWriteFlashPage`: the 128 load frames, the page
write frame with the masked word address, the polls, and the reads of the
verification. -/
theorem sends_ispWriteFlashPage {σ : Type} (T : Target σ) (fuel : Nat) (s s' : Isp σ)
    (addr : Nat) (page : Buf) (verify res : Bool)
    (h : ispWriteFlashPage T fuel s addr page verify = some (s', res)) :
    ∃ p k, k ≤ 128 ∧ (verify = false → k = 0) ∧ (verify = true → res = true → k = 128) ∧
      Sends s s' (loadFrames page 64 0 ++
        [[0x4C, (addr / 2 &&& 0xFFC0) / 256 % 256, (addr / 2 &&& 0xFFC0) % 256, 0]] ++
        List.replicate p [0xF0, 0, 0, 0] ++ readFrames ((addr / 2 &&& 0xFFC0) * 2) k) := by
  simp only [ispWriteFlashPage, FLASH_PAGE_SIZE] at h
  have h1 := sends_loadFlashPage T page 64 0 s
  have h2 := sends_ispCommand T (loadFlashPage T page 64 0 s) 0x4C
    ((addr / 2 &&& 0xFFC0) / 256) (addr / 2 &&& 0xFFC0) 0
  cases hw : ispWait T fuel (ispCommand T (loadFlashPage T page 64 0 s) 0x4C
    ((addr / 2 &&& 0xFFC0) / 256) (addr / 2 &&& 0xFFC0) 0).1 with
  | none => rw [hw] at h; simp at h
  | some s1 =>
    rw [hw] at h
    obtain ⟨p, hp⟩ := sends_ispWait T fuel _ _ hw
    cases verify with
    | false =>
      simp only [Bool.false_eq_true, if_false, Option.some.injEq, Prod.mk.injEq] at h
      obtain ⟨rfl, rfl⟩ := h
      refine ⟨p, 0, by omega, fun _ => rfl, fun h => by simp at h, ?_⟩
      simpa [readFrames] using (h1.trans h2).trans hp
    | true =>
      simp only [if_true, Option.some.injEq] at h
      obtain ⟨k, hk, hs, hr⟩ := sends_verifyFlashPage T (addr / 2 &&& 0xFFC0) page 64 0 s1
      rw [h] at hs hr
      refine ⟨p, k, by omega, fun h => by simp at h, fun _ h => hr h, ?_⟩
      simpa using ((h1.trans h2).trans hp).trans hs

/-! ## The link on the target model -/

theorem Avr.exec_frame (c : Chip) (a : Avr) (F : List Nat) (c1 c2 c3 c4 : Nat) :
    { Avr.exec c { a with frame := F } c1 c2 c3 c4 with frame := [] } =
      Avr.step c a c1 c2 c3 c4 := by
  unfold Avr.step Avr.exec
  by_cases h1 : c1 = 0xAC ∧ c2 = 0x80
  · rw [if_pos h1, if_pos h1]
  rw [if_neg h1, if_neg h1]
  by_cases h2 : c1 = 0x40
  · rw [if_pos h2, if_pos h2]
  rw [if_neg h2, if_neg h2]
  by_cases h3 : c1 = 0x48
  · rw [if_pos h3, if_pos h3]
  rw [if_neg h3, if_neg h3]
  by_cases h4 : c1 = 0x4C
  · rw [if_pos h4, if_pos h4]
  rw [if_neg h4, if_neg h4]
  by_cases h5 : c1 = 0xC0
  · rw [if_pos h5, if_pos h5]
  rw [if_neg h5, if_neg h5]
  by_cases h6 : c1 = 0xF0
  · rw [if_pos h6, if_pos h6]
  rw [if_neg h6, if_neg h6]
  by_cases h7 : c1 = 0xAC ∧ c2 = 0xE0
  · rw [if_pos h7, if_pos h7]
  rw [if_neg h7, if_neg h7]
  by_cases h8 : c1 = 0xAC ∧ c2 = 0xA0
  · rw [if_pos h8, if_pos h8]
  rw [if_neg h8, if_neg h8]
  by_cases h9 : c1 = 0xAC ∧ c2 = 0xA8
  · rw [if_pos h9, if_pos h9]
  rw [if_neg h9, if_neg h9]
  by_cases h10 : c1 = 0xAC ∧ c2 = 0xA4
  · rw [if_pos h10, if_pos h10]
  rw [if_neg h10, if_neg h10]

theorem Avr.reply_frame (a : Avr) (F : List Nat) (c1 c2 c3 : Nat) :
    Avr.reply { a with frame := F } c1 c2 c3 = a.reply c1 c2 c3 := rfl

/-- A frame sent to the target model between two frames: the new state of the
target and the reply. -/
theorem avr_ispCommand (c : Chip) (s : Isp Avr) (c1 c2 c3 c4 : Nat) (hf : s.dev.frame = []) :
    (ispCommand (avr c) s c1 c2 c3 c4).1.dev =
      Avr.step c s.dev (c1 % 256) (c2 % 256) (c3 % 256) (c4 % 256) ∧
    (ispCommand (avr c) s c1 c2 c3 c4).2 =
      s.dev.reply (c1 % 256) (c2 % 256) (c3 % 256) % 256 := by
  simp only [ispCommand, ispTransfer, avr, Avr.xfer, hf]
  exact ⟨Avr.exec_frame c s.dev _ _ _ _ _, rfl⟩

theorem Avr.step_frame (c : Chip) (a : Avr) (c1 c2 c3 c4 : Nat) :
    (Avr.step c a c1 c2 c3 c4).frame = [] := rfl

theorem Avr.eta_frame (a : Avr) (h : a.frame = []) : { a with frame := [] } = a := by
  cases a
  simp at h
  simp [h]

theorem Avr.step_20 (c : Chip) (a : Avr) (c2 c3 c4 : Nat) :
    Avr.step c a 0x20 c2 c3 c4 = { a with frame := [] } := by
  simp [Avr.step, Avr.exec]

theorem Avr.step_28 (c : Chip) (a : Avr) (c2 c3 c4 : Nat) :
    Avr.step c a 0x28 c2 c3 c4 = { a with frame := [] } := by
  simp [Avr.step, Avr.exec]

theorem Avr.step_F0 (c : Chip) (a : Avr) (c2 c3 c4 : Nat) :
    Avr.step c a 0xF0 c2 c3 c4 = { a with busy := a.busy - 1, frame := [] } := by
  simp [Avr.step, Avr.exec]

theorem Avr.step_40 (c : Chip) (a : Avr) (c2 c3 c4 : Nat) :
    Avr.step c a 0x40 c2 c3 c4 =
      { a with latch := Function.update a.latch (c3 % 64 * 2) c4, frame := [] } := by
  simp [Avr.step, Avr.exec]

theorem Avr.step_48 (c : Chip) (a : Avr) (c2 c3 c4 : Nat) :
    Avr.step c a 0x48 c2 c3 c4 =
      { a with latch := Function.update a.latch (c3 % 64 * 2 + 1) c4, frame := [] } := by
  simp [Avr.step, Avr.exec]

theorem Avr.step_4C (c : Chip) (a : Avr) (c2 c3 c4 : Nat) :
    Avr.step c a 0x4C c2 c3 c4 =
      { a with
        flash := fun x =>
          if (c2 * 256 + c3) % 16384 / 64 * 128 ≤ x ∧
              x < (c2 * 256 + c3) % 16384 / 64 * 128 + 128 then
            c.store x (a.flash x) (a.latch (x - (c2 * 256 + c3) % 16384 / 64 * 128))
          else a.flash x
        busy := c.latency
        frame := [] } := by
  simp [Avr.step, Avr.exec]

theorem Avr.step_erase (c : Chip) (a : Avr) (c3 c4 : Nat) :
    Avr.step c a 0xAC 0x80 c3 c4 =
      { a with flash := fun _ => 0xFF, busy := c.latency, frame := [] } := by
  simp [Avr.step, Avr.exec]

/-- Reading a flash byte from the target model: the target is left as it was
and the reply is the content of the cell, the address taken modulo the size of
the flash. -/
theorem avr_ispReadFlash (c : Chip) (s : Isp Avr) (addr : Nat) (hf : s.dev.frame = []) :
    (ispReadFlash (avr c) s addr).1.dev = s.dev ∧
    (ispReadFlash (avr c) s addr).2 = s.dev.flash (addr % 32768) % 256 := by
  obtain ⟨h1, h2⟩ := avr_ispCommand c s (0x20 + 0x08 * (addr &&& 0x01)) (addr / 512) (addr / 2)
    0x00 hf
  unfold ispReadFlash
  rw [h1, h2]
  have hand : addr &&& 1 = addr % 2 := Nat.and_one_is_mod addr
  rw [hand]
  rcases Nat.mod_two_eq_zero_or_one addr with h0 | h0
  · rw [h0]
    constructor
    · rw [show (0x20 + 0x08 * 0) % 256 = 0x20 from rfl, Avr.step_20]
      exact Avr.eta_frame _ hf
    · simp only [Avr.reply]
      norm_num
      congr 2
      omega
  · rw [h0]
    constructor
    · rw [show (0x20 + 0x08 * 1) % 256 = 0x28 from rfl, Avr.step_28]
      exact Avr.eta_frame _ hf
    · simp only [Avr.reply]
      norm_num
      congr 2
      omega

/-! ## Masks -/

theorem and_FFC0 (x : Nat) (h : x < 65536) : x &&& 0xFFC0 = x / 64 * 64 := by
  apply Nat.eq_of_testBit_eq
  intro i
  have e : x / 64 * 64 = (x >>> 6) <<< 6 := by
    rw [Nat.shiftRight_eq_div_pow, Nat.shiftLeft_eq]
  rw [e, Nat.testBit_and, Nat.testBit_shiftLeft, Nat.testBit_shiftRight]
  by_cases hi : i < 16
  · interval_cases i <;> simp [Nat.testBit]
  · have hx : x.testBit i = false := by
      apply Nat.testBit_lt_two_pow
      calc x < 2 ^ 16 := h
        _ ≤ 2 ^ i := Nat.pow_le_pow_right (by norm_num) (by omega)
    have h6 : 6 ≤ i := by omega
    simp [hx, h6]

theorem and_FF80 (x : Nat) (h : x < 65536) : x &&& 0xFF80 = x / 128 * 128 := by
  apply Nat.eq_of_testBit_eq
  intro i
  have e : x / 128 * 128 = (x >>> 7) <<< 7 := by
    rw [Nat.shiftRight_eq_div_pow, Nat.shiftLeft_eq]
  rw [e, Nat.testBit_and, Nat.testBit_shiftLeft, Nat.testBit_shiftRight]
  by_cases hi : i < 16
  · interval_cases i <;> simp [Nat.testBit]
  · have hx : x.testBit i = false := by
      apply Nat.testBit_lt_two_pow
      calc x < 2 ^ 16 := h
        _ ≤ 2 ^ i := Nat.pow_le_pow_right (by norm_num) (by omega)
    have h7 : 7 ≤ i := by omega
    simp [hx, h7]

theorem and_7F (x : Nat) : x &&& 0x7F = x % 128 := Nat.and_pow_two_sub_one_eq_mod x 7

/-! ## Waiting, loading and verifying on the target model -/

theorem avr_delay (c : Chip) (s : Isp Avr) (ms : Nat) : (delay (avr c) s ms).dev = s.dev := rfl

/-- On the target model the wait ends as soon as the fuel exceeds the number
of polls that are still answered busy. -/
theorem avr_ispWait (c : Chip) (fuel : Nat) :
    ∀ (s : Isp Avr), s.dev.frame = [] → s.dev.busy < fuel →
      ∃ s', ispWait (avr c) fuel s = some s' ∧ s'.dev = { s.dev with busy := 0 } := by
  induction fuel with
  | zero => intro s _ h; omega
  | succ fuel ih =>
    intro s hf hb
    obtain ⟨h1, h2⟩ := avr_ispCommand c s 0xF0 0x00 0x00 0x00 hf
    rw [show (0xF0 : Nat) % 256 = 0xF0 from rfl, show (0x00 : Nat) % 256 = 0 from rfl,
      Avr.step_F0] at h1
    simp only [ispWait]
    rw [h2]
    rcases Nat.eq_zero_or_pos s.dev.busy with hz | hp
    · have hr : s.dev.reply (0xF0 % 256) (0 % 256) (0 % 256) % 256 = 0 := by
        simp [Avr.reply, hz]
      rw [hr]
      refine ⟨(ispCommand (avr c) s 0xF0 0x00 0x00 0x00).1, by simp, ?_⟩
      rw [h1, hz]
      cases hd : s.dev
      rw [hd] at hf
      simp at hf
      simp [hf]
    · have hr : s.dev.reply (0xF0 % 256) (0 % 256) (0 % 256) % 256 = 1 := by
        have : s.dev.busy ≠ 0 := by omega
        simp [Avr.reply, this]
      rw [hr]
      obtain ⟨s', hs1, hs2⟩ := ih (delay (avr c) (ispCommand (avr c) s 0xF0 0x00 0x00 0x00).1 1)
        (by rw [avr_delay, h1]) (by rw [avr_delay, h1]; show s.dev.busy - 1 < fuel; omega)
      refine ⟨s', by simpa using hs1, ?_⟩
      rw [hs2, avr_delay, h1]
      cases hd : s.dev
      rw [hd] at hf
      simp at hf
      simp [hf]

/-- The load loop fills the page latch of the target model with the bytes of
the page buffer. -/
theorem avr_loadFlashPage (c : Chip) (page : Buf) (n : Nat) :
    ∀ (i : Nat) (s : Isp Avr), s.dev.frame = [] → i + n ≤ 64 →
      (loadFlashPage (avr c) page n i s).dev =
        { s.dev with latch := fun x =>
            if i * 2 ≤ x ∧ x < (i + n) * 2 then page x % 256 else s.dev.latch x } := by
  induction n with
  | zero =>
    intro i s hf _
    simp only [loadFlashPage]
    cases hd : s.dev
    congr
    funext x
    rw [if_neg (by omega)]
  | succ n ih =>
    intro i s hf hi
    simp only [loadFlashPage]
    obtain ⟨h1, _⟩ := avr_ispCommand c s 0x40 0x00 i (page (i * 2)) hf
    rw [show (0x40 : Nat) % 256 = 0x40 from rfl, Avr.step_40] at h1
    obtain ⟨h2, _⟩ := avr_ispCommand c (ispCommand (avr c) s 0x40 0x00 i (page (i * 2))).1 0x48 0x00
      i (page (i * 2 + 1)) (by rw [h1])
    rw [show (0x48 : Nat) % 256 = 0x48 from rfl, Avr.step_48, h1] at h2
    rw [ih (i + 1) _ (by rw [h2]) (by omega), h2]
    have hi64 : i % 256 % 64 = i := by omega
    rw [hi64]
    cases hd : s.dev
    simp only [Avr.mk.injEq, true_and, and_true]
    refine ⟨?_, by rw [hd] at hf; simpa using hf⟩
    funext x
    by_cases hx1 : (i + 1) * 2 ≤ x ∧ x < (i + 1 + n) * 2
    · rw [if_pos hx1, if_pos (by omega)]
    · rw [if_neg hx1]
      by_cases hx2 : x = i * 2 + 1
      · subst hx2
        rw [Function.update_same, if_pos (by omega)]
      · rw [Function.update_noteq hx2]
        by_cases hx3 : x = i * 2
        · subst hx3
          rw [Function.update_same, if_pos (by omega)]
        · rw [Function.update_noteq hx3, if_neg (by omega)]

/-- The verification loop on the target model leaves the target as it was and
answers true exactly when every byte of the words `i`, ..., `i + n - 1` reads
back as the page buffer holds it. -/
theorem avr_verifyFlashPage (c : Chip) (addr : Nat) (page : Buf) (n : Nat) :
    ∀ (i : Nat) (s : Isp Avr), s.dev.frame = [] → addr * 2 + (i + n) * 2 ≤ 65536 →
      (verifyFlashPage (avr c) addr page n i s).1.dev = s.dev ∧
      ((verifyFlashPage (avr c) addr page n i s).2 = true ↔
        ∀ x, i * 2 ≤ x → x < (i + n) * 2 →
          s.dev.flash ((addr * 2 + x) % 32768) % 256 = page x) := by
  induction n with
  | zero =>
    intro i s _ _
    exact ⟨rfl, by simp only [verifyFlashPage, true_iff]; intro x h1 h2; omega⟩
  | succ n ih =>
    intro i s hf hi
    obtain ⟨h1, h2⟩ := avr_ispReadFlash c s ((addr * 2 + i * 2) % 65536) hf
    obtain ⟨h3, h4⟩ := avr_ispReadFlash c (ispReadFlash (avr c) s ((addr * 2 + i * 2) % 65536)).1
      ((addr * 2 + i * 2 + 1) % 65536) (by rw [h1]; exact hf)
    rw [h1] at h3 h4
    have e1 : (addr * 2 + i * 2) % 65536 % 32768 = (addr * 2 + i * 2) % 32768 := by omega
    have e2 : (addr * 2 + i * 2 + 1) % 65536 % 32768 = (addr * 2 + (i * 2 + 1)) % 32768 := by
      omega
    rw [e1] at h2
    rw [e2] at h4
    simp only [verifyFlashPage]
    rw [h2]
    by_cases hb1 : s.dev.flash ((addr * 2 + i * 2) % 32768) % 256 ≠ page (i * 2)
    · rw [if_pos hb1]
      refine ⟨h1, ?_⟩
      simp only [Bool.false_eq_true, false_iff, not_forall]
      exact ⟨i * 2, le_refl _, by omega, hb1⟩
    · rw [if_neg hb1, h4]
      by_cases hb2 : s.dev.flash ((addr * 2 + (i * 2 + 1)) % 32768) % 256 ≠ page (i * 2 + 1)
      · rw [if_pos hb2]
        refine ⟨h3, ?_⟩
        simp only [Bool.false_eq_true, false_iff, not_forall]
        exact ⟨i * 2 + 1, by omega, by omega, hb2⟩
      · rw [if_neg hb2]
        obtain ⟨a1, a2⟩ := ih (i + 1)
          (ispReadFlash (avr c) (ispReadFlash (avr c) s ((addr * 2 + i * 2) % 65536)).1
            ((addr * 2 + i * 2 + 1) % 65536)).1 (by rw [h3]; exact hf) (by omega)
        rw [h3] at a1 a2
        refine ⟨a1, ?_⟩
        rw [a2]
        constructor
        · intro h x hx1 hx2
          by_cases hx3 : x = i * 2
          · subst hx3; simpa using hb1
          · by_cases hx4 : x = i * 2 + 1
            · subst hx4; simpa using hb2
            · exact h x (by omega) (by omega)
        · intro h x hx1 hx2
          exact h x (by omega) (by omega)

/-- A page write on the target model. With `B` the address of the page that
holds byte `base` taken modulo the size of the flash, the call returns once the
fuel exceeds the latency of the chip; the cells of the page then hold what the
chip stores for the bytes of the page buffer, and with verification the result
is true exactly when all 128 cells read back as the page buffer holds them. -/
theorem avr_ispWriteFlashPage (c : Chip) (fuel : Nat) (s : Isp Avr) (base : Nat) (page : Buf)
    (verify : Bool) (hf : s.dev.frame = []) (hb : base < 65536) (hfuel : c.latency < fuel) :
    ∃ s' res, ispWriteFlashPage (avr c) fuel s base page verify = some (s', res) ∧
      s'.dev = { s.dev with
        flash := fun x =>
          if base / 128 * 128 % 32768 ≤ x ∧ x < base / 128 * 128 % 32768 + 128 then
            c.store x (s.dev.flash x) (page (x - base / 128 * 128 % 32768) % 256)
          else s.dev.flash x
        latch := fun x => if x < 128 then page x % 256 else s.dev.latch x
        busy := 0 } ∧
      (res = true ↔ (verify = true → ∀ x, x < 128 →
        s'.dev.flash (base / 128 * 128 % 32768 + x) % 256 = page x)) := by
  have hW : base / 2 &&& 0xFFC0 = base / 2 / 64 * 64 := and_FFC0 _ (by omega)
  have hl := avr_loadFlashPage c page 64 0 s hf (by omega)
  obtain ⟨hc1, _⟩ := avr_ispCommand c (loadFlashPage (avr c) page 64 0 s) 0x4C
    ((base / 2 &&& 0xFFC0) / 256) (base / 2 &&& 0xFFC0) 0 (by rw [hl]; exact hf)
  rw [show (0x4C : Nat) % 256 = 0x4C from rfl, Avr.step_4C, hl, hW] at hc1
  have hdev : (base / 2 / 64 * 64 / 256 % 256 * 256 + base / 2 / 64 * 64 % 256) % 16384 / 64 * 128
      = base / 128 * 128 % 32768 := by omega
  rw [hdev] at hc1
  obtain ⟨s1, hw1, hw2⟩ := avr_ispWait c fuel
    (ispCommand (avr c) (loadFlashPage (avr c) page 64 0 s) 0x4C
      ((base / 2 &&& 0xFFC0) / 256) (base / 2 &&& 0xFFC0) 0).1
    (by rw [hW, hc1]) (by rw [hW, hc1]; exact hfuel)
  rw [hW, hc1] at hw2
  have hs1 : s1.dev = { s.dev with
        flash := fun x =>
          if base / 128 * 128 % 32768 ≤ x ∧ x < base / 128 * 128 % 32768 + 128 then
            c.store x (s.dev.flash x) (page (x - base / 128 * 128 % 32768) % 256)
          else s.dev.flash x
        latch := fun x => if x < 128 then page x % 256 else s.dev.latch x
        busy := 0 } := by
    rw [hw2]
    cases hd : s.dev
    rw [hd] at hf
    simp only [Avr.mk.injEq, true_and, and_true]
    simp only at hf
    refine ⟨?_, ?_, hf.symm⟩
    · funext x
      by_cases hx : base / 128 * 128 % 32768 ≤ x ∧ x < base / 128 * 128 % 32768 + 128
      · rw [if_pos hx, if_pos hx, if_pos (by omega)]
      · rw [if_neg hx, if_neg hx]
    · funext x
      by_cases hx : x < 128
      · rw [if_pos (by omega), if_pos hx]
      · rw [if_neg (by omega), if_neg hx]
  simp only [ispWriteFlashPage, FLASH_PAGE_SIZE]
  rw [hw1]
  cases verify with
  | false =>
    refine ⟨s1, true, by simp, hs1, by simp⟩
  | true =>
    obtain ⟨v1, v2⟩ := avr_verifyFlashPage c (base / 2 &&& 0xFFC0) page 64 0 s1
      (by rw [hs1]; exact hf) (by rw [hW]; omega)
    refine ⟨(verifyFlashPage (avr c) (base / 2 &&& 0xFFC0) page 64 0 s1).1,
      (verifyFlashPage (avr c) (base / 2 &&& 0xFFC0) page 64 0 s1).2, by simp, by rw [v1, hs1], ?_⟩
    rw [v2, v1]
    simp only [true_implies]
    constructor
    · intro h x hx
      have := h x (by omega) (by omega)
      have e : (base / 2 / 64 * 64 * 2 + x) % 32768 = base / 128 * 128 % 32768 + x := by omega
      rw [hW, e] at this
      exact this
    · intro h x _ hx
      have := h x (by omega)
      have e : (base / 2 / 64 * 64 * 2 + x) % 32768 = base / 128 * 128 % 32768 + x := by omega
      rw [hW, e]
      exact this

/-! ## C9: the result of a page write -/

theorem flashReadOf_readFrame (a : Nat) (h : a < 65536) : flashReadOf (readFrame a) = some a := by
  have hand : a &&& 1 = a % 2 := Nat.and_one_is_mod a
  rcases Nat.mod_two_eq_zero_or_one a with h0 | h0
  · simp only [readFrame, flashReadOf, hand, h0]
    norm_num
    omega
  · simp only [readFrame, flashReadOf, hand, h0]
    norm_num
    omega

theorem flashReads_readFrames (k : Nat) : ∀ a0, a0 + k ≤ 65536 →
    flashReads (readFrames a0 k) = List.range' a0 k := by
  induction k with
  | zero => intro a0 _; rfl
  | succ k ih =>
    intro a0 h
    have e : a0 % 65536 = a0 := Nat.mod_eq_of_lt (by omega)
    simp only [readFrames, flashReads, List.filterMap_cons, e,
      flashReadOf_readFrame a0 (by omega), List.range'_succ]
    exact congrArg _ (ih (a0 + 1) (by omega))

theorem flashReads_loadFrames (page : Buf) (n : Nat) : ∀ i, flashReads (loadFrames page n i) = [] := by
  induction n with
  | zero => intro i; rfl
  | succ n ih =>
    intro i
    have := ih (i + 1)
    simp only [flashReads] at this
    simp only [loadFrames, flashReads, List.filterMap_cons, flashReadOf, this]
    norm_num

theorem flashReads_polls (p : Nat) : flashReads (List.replicate p [0xF0, 0, 0, 0]) = [] := by
  induction p with
  | zero => rfl
  | succ p ih =>
    simp only [flashReads] at ih
    simp only [List.replicate_succ, flashReads, List.filterMap_cons, flashReadOf, ih]
    norm_num

theorem flashReads_append (a b : List (List Nat)) :
    flashReads (a ++ b) = flashReads a ++ flashReads b := by
  simp [flashReads]

/-- C9. On the target model, whatever its cells store, for every page-aligned
byte address `base < 32768` and every page buffer, `ispWriteFlashPage` returns
(the fuel exceeding the latency of the chip), and it returns false if and only
if verification is requested and for some `i < 128` the byte read back from
flash byte address `base + i` differs from `page i`. The read frames it sends
address `base`, `base + 1`, ... in ascending order and nothing else: all of
`base .. base + 127` when the verification succeeds, a first part of them when
it stops at a mismatch, none without verification. -/
theorem ispWriteFlashPage_verifies (c : Chip) (fuel : Nat) (s : Isp Avr) (base : Nat)
    (page : Buf) (verify : Bool) (hf : s.dev.frame = []) (hlog : Framed s.log)
    (halign : base % 128 = 0) (hbase : base < 32768) (hfuel : c.latency < fuel) :
    ∃ s' res, ispWriteFlashPage (avr c) fuel s base page verify = some (s', res) ∧
      (res = false ↔ verify = true ∧
        ∃ i, i < 128 ∧ (ispReadFlash (avr c) s' (base + i)).2 ≠ page i) ∧
      ∃ k, k ≤ 128 ∧
        flashReads (frames s'.log) = flashReads (frames s.log) ++ List.range' base k ∧
        (verify = true → res = true → k = 128) ∧ (verify = false → k = 0) := by
  obtain ⟨s', res, h1, h2, h3⟩ := avr_ispWriteFlashPage c fuel s base page verify hf (by omega) hfuel
  have hB : base / 128 * 128 % 32768 = base := by omega
  rw [hB] at h2 h3
  have hf' : s'.dev.frame = [] := by rw [h2]; exact hf
  refine ⟨s', res, h1, ?_, ?_⟩
  · have hrd : ∀ i, i < 128 →
        (ispReadFlash (avr c) s' (base + i)).2 = s'.dev.flash (base + i) % 256 := by
      intro i hi
      rw [(avr_ispReadFlash c s' (base + i) hf').2,
        Nat.mod_eq_of_lt (show base + i < 32768 by omega)]
    constructor
    · intro hres
      have hnot : ¬ (verify = true → ∀ x, x < 128 → s'.dev.flash (base + x) % 256 = page x) := by
        rw [← h3, hres]; simp
      simp only [Classical.not_imp, not_forall] at hnot
      obtain ⟨hv, x, hx, hne⟩ := hnot
      exact ⟨hv, x, hx, by rw [hrd x hx]; exact hne⟩
    · rintro ⟨hv, i, hi, hne⟩
      cases hres : res with
      | false => rfl
      | true =>
        rw [hres] at h3
        have := h3.1 rfl hv i hi
        rw [hrd i hi] at hne
        exact absurd this hne
  · obtain ⟨p, k, hk, hk0, hk1, hs⟩ := sends_ispWriteFlashPage (avr c) fuel s s' base page verify
      res h1
    obtain ⟨_, hfr⟩ := hs hlog
    refine ⟨k, hk, ?_, hk1, hk0⟩
    have hW : base / 2 &&& 0xFFC0 = base / 2 / 64 * 64 := and_FFC0 _ (by omega)
    have hW2 : (base / 2 &&& 0xFFC0) * 2 = base := by rw [hW]; omega
    rw [hfr, hW2]
    have h4C : ∀ a b : Nat, flashReads [[0x4C, a, b, 0]] = [] := by
      intro a b
      simp [flashReads, flashReadOf]
    simp only [flashReads_append, flashReads_loadFrames, flashReads_polls, h4C,
      flashReads_readFrames k base (by omega), List.append_nil, List.nil_append]

/-- A page of zeroes written to the first page of a blank target verifies: the
call returns true and reads back the addresses 0 to 127. -/
theorem ispWriteFlashPage_verifies_witness :
    ∃ s' res, ispWriteFlashPage (avr (idealChip 0)) 1 blankLink 0 zeroBuf true = some (s', res) ∧
      (res = false ↔ true = true ∧
        ∃ i, i < 128 ∧ (ispReadFlash (avr (idealChip 0)) s' (0 + i)).2 ≠ zeroBuf i) ∧
      ∃ k, k ≤ 128 ∧
        flashReads (frames s'.log) = flashReads (frames blankLink.log) ++ List.range' 0 k ∧
        (true = true → res = true → k = 128) ∧ (true = false → k = 0) :=
  ispWriteFlashPage_verifies (idealChip 0) 1 blankLink 0 zeroBuf true rfl rfl (by decide)
    (by decide) (by decide)

/-! ## Flushing a page to an ideal target -/

theorem pageWriteOf_loadFrames (page : Buf) (n : Nat) :
    ∀ i, (loadFrames page n i).filterMap pageWriteOf = [] := by
  induction n with
  | zero => intro i; rfl
  | succ n ih =>
    intro i
    simp only [loadFrames, List.filterMap_cons, pageWriteOf, ih (i + 1)]
    norm_num

theorem pageWriteOf_polls (p : Nat) :
    (List.replicate p [0xF0, 0, 0, 0]).filterMap pageWriteOf = [] := by
  induction p with
  | zero => rfl
  | succ p ih =>
    simp only [List.replicate_succ, List.filterMap_cons, pageWriteOf, ih]
    norm_num

theorem pageWriteOf_readFrames (k : Nat) :
    ∀ a0, (readFrames a0 k).filterMap pageWriteOf = [] := by
  induction k with
  | zero => intro a0; rfl
  | succ k ih =>
    intro a0
    have hand : a0 % 65536 &&& 1 = a0 % 65536 % 2 := Nat.and_one_is_mod _
    simp only [readFrames, readFrame, List.filterMap_cons, pageWriteOf, ih (a0 + 1), hand]
    rcases Nat.mod_two_eq_zero_or_one (a0 % 65536) with h | h <;> rw [h] <;> norm_num

/-- The page writes among the frames of one call of `ispWriteFlashPage` for a
page-aligned address: the one for that address. -/
theorem pageWriteOf_ispWriteFlashPage (page : Buf) (B p k : Nat) (hB : B % 128 = 0)
    (hB2 : B < 65536) :
    (loadFrames page 64 0 ++
        [[0x4C, (B / 2 &&& 0xFFC0) / 256 % 256, (B / 2 &&& 0xFFC0) % 256, 0]] ++
        List.replicate p [0xF0, 0, 0, 0] ++ readFrames ((B / 2 &&& 0xFFC0) * 2) k).filterMap
      pageWriteOf = [B] := by
  have hW : B / 2 &&& 0xFFC0 = B / 2 / 64 * 64 := and_FFC0 _ (by omega)
  simp only [List.filterMap_append, pageWriteOf_loadFrames, pageWriteOf_polls,
    pageWriteOf_readFrames, List.append_nil, List.nil_append, hW]
  simp only [List.filterMap_cons, pageWriteOf, List.filterMap_nil, if_true]
  congr 1
  omega

/-- A page of bytes written with verification to an ideal target: the call
returns true and the page has taken effect. -/
theorem flush_ideal (L fuel : Nat) (s : Isp Avr) (B : Nat) (page : Buf)
    (hf : s.dev.frame = []) (hfuel : L < fuel) (hB : B % 128 = 0) (hB2 : B < 65536)
    (hpage : ∀ x, x < 128 → page x < 256) :
    ∃ s', ispWriteFlashPage (avr (idealChip L)) fuel s B page true = some (s', true) ∧
      Flushed s s' B page := by
  obtain ⟨s', res, h1, h2, h3⟩ := avr_ispWriteFlashPage (idealChip L) fuel s B page true hf
    (by omega) hfuel
  have hBB : B / 128 * 128 % 32768 = B % 32768 := by omega
  rw [hBB] at h2 h3
  have hdev : s'.dev = { s.dev with
      flash := fun x =>
        if B % 32768 ≤ x ∧ x < B % 32768 + 128 then page (x - B % 32768) else s.dev.flash x
      latch := fun x => if x < 128 then page x else s.dev.latch x
      busy := 0 } := by
    rw [h2]
    cases hd : s.dev
    simp only [Avr.mk.injEq, true_and, and_true, idealChip]
    constructor
    · funext x
      by_cases hx : B % 32768 ≤ x ∧ x < B % 32768 + 128
      · rw [if_pos hx, if_pos hx, Nat.mod_eq_of_lt (hpage _ (by omega))]
      · rw [if_neg hx, if_neg hx]
    · funext x
      by_cases hx : x < 128
      · rw [if_pos hx, if_pos hx, Nat.mod_eq_of_lt (hpage _ hx)]
      · rw [if_neg hx, if_neg hx]
  have hres : res = true := by
    rw [h3]
    intro _ x hx
    rw [hdev]
    simp only
    rw [if_pos (by omega), Nat.add_sub_cancel_left, Nat.mod_eq_of_lt (hpage x hx)]
  subst hres
  refine ⟨s', h1, hdev, ?_⟩
  obtain ⟨p, k, _, _, _, hs⟩ := sends_ispWriteFlashPage (avr (idealChip L)) fuel s s' B page true
    true h1
  exact ⟨_, hs, pageWriteOf_ispWriteFlashPage page B p k hB (by omega)⟩

/-! ## One line of a flash programming pass on an ideal target -/

/-- A data record in the range of the flash: the pass goes on; the open page
is flushed first when the record belongs to another page, and the bytes of the
record are copied into the open page. -/
theorem programFlashStep_data (L fuel : Nat) (heap : Nat → Option Buf) (p : Prog Avr)
    (hfuel : L < fuel) (hf : p.isp.dev.frame = [])
    (hpa : p.pageAddr = 0xFFFF ∨ (p.pageAddr % 128 = 0 ∧ p.pageAddr < 65536))
    (hpage : p.pageAddr ≠ 0xFFFF → ∀ x, x < 128 → p.page x < 256)
    (hok : (parseHexLine (heap p.lines) p.f p.v).1 = HEX_OK)
    (hty : (parseHexLine (heap p.lines) p.f p.v).2.1.type = HEX_BIN)
    (hrange : (parseHexLine (heap p.lines) p.f p.v).2.1.addr +
      (parseHexLine (heap p.lines) p.f p.v).2.1.len ≤ 32768) :
    ∃ isp', programFlashStep (avr (idealChip L)) heap fuel p =
        some (true, false,
          { isp := isp'
            f := (parseHexLine (heap p.lines) p.f p.v).2.2
            v := (parseHexLine (heap p.lines) p.f p.v).2.1
            pageAddr := (parseHexLine (heap p.lines) p.f p.v).2.1.addr / 128 * 128
            page := copyToPage (parseHexLine (heap p.lines) p.f p.v).2.1.addr
              (parseHexLine (heap p.lines) p.f p.v).2.1.data
              (parseHexLine (heap p.lines) p.f p.v).2.1.len 0
              (if (parseHexLine (heap p.lines) p.f p.v).2.1.addr / 128 * 128 = p.pageAddr
                then p.page else memsetPage p.page)
            lines := p.lines + 1 }) ∧
      (((parseHexLine (heap p.lines) p.f p.v).2.1.addr / 128 * 128 = p.pageAddr ∨
        p.pageAddr = 0xFFFF) → isp' = p.isp) ∧
      ((parseHexLine (heap p.lines) p.f p.v).2.1.addr / 128 * 128 ≠ p.pageAddr →
        p.pageAddr ≠ 0xFFFF → Flushed p.isp isp' p.pageAddr p.page) := by
  simp only [programFlashStep]
  generalize parseHexLine (heap p.lines) p.f p.v = r at *
  obtain ⟨code, v, f'⟩ := r
  simp only at hok hty hrange
  subst hok
  have hA : v.addr < 65536 := by omega
  have hmask : v.addr &&& 0xFF80 = v.addr / 128 * 128 := and_FF80 _ hA
  have hsum : (v.addr + v.len) % 65536 ≤ FLASH_SIZE := by
    simp only [FLASH_SIZE]; omega
  have hne4 : ¬ HEX_BIN = HEX_EXTADDR := by decide
  simp only [if_true, hne4, if_false, hty, hsum, hmask]
  by_cases hsame : v.addr / 128 * 128 = p.pageAddr
  · refine ⟨p.isp, ?_, fun _ => rfl, fun h => absurd hsame h⟩
    simp [hsame]
  · by_cases hopen : p.pageAddr = 0xFFFF
    · refine ⟨p.isp, ?_, fun _ => rfl, fun _ h => absurd hopen h⟩
      have hne : ¬ v.addr / 128 * 128 = 65535 := by omega
      simp [hsame, hopen, hne]
    · have hpa2 : p.pageAddr % 128 = 0 ∧ p.pageAddr < 65536 := by
        rcases hpa with h | h
        · exact absurd h hopen
        · exact h
      obtain ⟨s', hw, hfl⟩ := flush_ideal L fuel p.isp p.pageAddr p.page hf hfuel hpa2.1 hpa2.2
        (hpage hopen)
      refine ⟨s', ?_, fun h => ?_, fun _ _ => hfl⟩
      · simp [hsame, hopen, hw]
      · rcases h with h | h
        · exact absurd h hsame
        · exact absurd h hopen

/-- The end record: the pass ends with success, after the open page, if there
is one, has been flushed. -/
theorem programFlashStep_end (L fuel : Nat) (heap : Nat → Option Buf) (p : Prog Avr)
    (hfuel : L < fuel) (hf : p.isp.dev.frame = [])
    (hpa : p.pageAddr = 0xFFFF ∨ (p.pageAddr % 128 = 0 ∧ p.pageAddr < 65536))
    (hpage : p.pageAddr ≠ 0xFFFF → ∀ x, x < 128 → p.page x < 256)
    (hok : (parseHexLine (heap p.lines) p.f p.v).1 = HEX_OK)
    (hty : (parseHexLine (heap p.lines) p.f p.v).2.1.type = HEX_END)
    (hlen : (parseHexLine (heap p.lines) p.f p.v).2.1.len = 0)
    (haddr : (parseHexLine (heap p.lines) p.f p.v).2.1.addr = 0) :
    ∃ isp', programFlashStep (avr (idealChip L)) heap fuel p =
        some (true, true,
          { p with
            isp := isp'
            f := (parseHexLine (heap p.lines) p.f p.v).2.2
            v := (parseHexLine (heap p.lines) p.f p.v).2.1
            lines := p.lines + 1 }) ∧
      (p.pageAddr = 0xFFFF → isp' = p.isp) ∧
      (p.pageAddr ≠ 0xFFFF → Flushed p.isp isp' p.pageAddr p.page) := by
  simp only [programFlashStep]
  generalize parseHexLine (heap p.lines) p.f p.v = r at *
  obtain ⟨code, v, f'⟩ := r
  simp only at hok hty hlen haddr
  subst hok
  have hne4 : ¬ HEX_END = HEX_EXTADDR := by decide
  have hne0 : ¬ HEX_END = HEX_BIN := by decide
  simp only [if_true, hne4, hne0, if_false, hty, hlen, haddr, and_self]
  by_cases hopen : p.pageAddr = 0xFFFF
  · refine ⟨p.isp, ?_, fun _ => rfl, fun h => absurd hopen h⟩
    simp [hopen]
  · have hpa2 : p.pageAddr % 128 = 0 ∧ p.pageAddr < 65536 := by
      rcases hpa with h | h
      · exact absurd h hopen
      · exact h
    obtain ⟨s', hw, hfl⟩ := flush_ideal L fuel p.isp p.pageAddr p.page hf hfuel hpa2.1 hpa2.2
      (hpage hopen)
    refine ⟨s', ?_, fun h => absurd h hopen, fun _ => hfl⟩
    simp [hopen, hw]

/-! ## Decoded records hold bytes -/

theorem decodeData_bytes (line : List Nat) (n : Nat) :
    ∀ i ds, decodeData line n i = some ds → ds.length = n ∧ ∀ j, j < n → ds.getD j 0 < 256 := by
  induction n with
  | zero =>
    intro i ds h
    simp only [decodeData, Option.some.injEq] at h
    subst h
    exact ⟨rfl, fun j hj => by omega⟩
  | succ n ih =>
    intro i ds h
    simp only [decodeData] at h
    cases hd : hexPairAt line (9 + i * 2) with
    | none => simp [hd] at h
    | some d =>
      cases hr : decodeData line n (i + 1) with
      | none => simp [hd, hr] at h
      | some ds1 =>
        simp only [hd, hr, Option.some.injEq] at h
        subst h
        obtain ⟨h1, h2⟩ := ih (i + 1) ds1 hr
        refine ⟨by simp [h1], ?_⟩
        intro j hj
        cases j with
        | zero => simpa using hexPairAt_lt hd
        | succ j => simpa using h2 j (by omega)

/-- What a successful list-level decoding guarantees about the record. -/
theorem decodeLine_ok {line : List Nat} {r : HexRecord} (h : decodeLine line = .ok r) :
    r.len ≤ 16 ∧ r.addr < 65536 ∧ r.type ≤ 5 ∧ r.data.length = r.len ∧
      ∀ j, j < r.len → r.data.getD j 0 < 256 := by
  unfold decodeLine at h
  split_ifs at h with h1 h2
  split at h
  · cases h
  · rename_i len e1
    split_ifs at h with h3
    split at h
    · cases h
    · rename_i ah e3
      split at h
      · cases h
      · rename_i al e5
        split at h
        · cases h
        · rename_i tt e7
          split_ifs at h with h4
          split at h
          · cases h
          · rename_i ds ed
            split at h
            · cases h
            · rename_i cc ec
              split_ifs at h with h5
              simp only [Except.ok.injEq] at h
              subst h
              have := hexPairAt_lt e3
              have := hexPairAt_lt e5
              obtain ⟨d1, d2⟩ := decodeData_bytes line len 0 ds ed
              exact ⟨by simpa using h3, by simp only; omega, by simpa using h4, d1, d2⟩

theorem copyToPage_bytes (addr : Nat) (data : Buf) (n : Nat) :
    ∀ (i : Nat) (page : Buf), (∀ j, i ≤ j → j < i + n → data j < 256) →
      (∀ x, x < 128 → page x < 256) → ∀ x, x < 128 → copyToPage addr data n i page x < 256 := by
  induction n with
  | zero => intro i page _ hp x hx; exact hp x hx
  | succ n ih =>
    intro i page hd hp x hx
    simp only [copyToPage]
    apply ih (i + 1) _ (fun j h1 h2 => hd j (by omega) (by omega)) _ x hx
    intro y hy
    by_cases hy2 : y = (addr + i) % 65536 &&& 0x7F
    · rw [hy2, Function.update_same]
      exact hd i (le_refl _) (by omega)
    · rw [Function.update_noteq hy2]
      exact hp y hy

theorem memsetPage_bytes (page : Buf) : ∀ x, x < 128 → memsetPage page x < 256 := by
  intro x hx
  simp [memsetPage, FLASH_PAGE_SIZE, hx]

/-- The outputs of the parser when the next line decodes to a record. -/
theorem parseHexLine_of_decodeLine (str0 : Buf) (f : List Nat) (v : HexVars) (r : HexRecord)
    (h : decodeLine (nextLine f) = .ok r) :
    (parseHexLine (some str0) f v).1 = HEX_OK ∧
    (parseHexLine (some str0) f v).2.1.len = r.len ∧
    (parseHexLine (some str0) f v).2.1.addr = r.addr ∧
    (parseHexLine (some str0) f v).2.1.type = r.type ∧
    (∀ j, j < r.len → (parseHexLine (some str0) f v).2.1.data j < 256) ∧
    (parseHexLine (some str0) f v).2.2 = afterLine f := by
  obtain ⟨h1, h2⟩ := parseHexLine_decode str0 f v
  rw [h] at h2
  obtain ⟨a1, a2, a3, a4, _, a6⟩ := h2
  obtain ⟨_, _, _, _, b5⟩ := decodeLine_ok h
  refine ⟨a1, a2, a3, a4, ?_, h1⟩
  intro j hj
  rw [a6 j, if_pos hj]
  exact b5 j hj

/-! ## Page writes in the log -/

theorem pageWrites_of_sends {σ : Type} {s s' : Isp σ} {fs : List (List Nat)}
    (h : Sends s s' fs) (hlog : Framed s.log) :
    pageWrites s'.log = pageWrites s.log ++ fs.filterMap pageWriteOf := by
  obtain ⟨_, h2⟩ := h hlog
  simp [pageWrites, h2]

theorem Flushed.frame {s s' : Isp Avr} {B : Nat} {page : Buf} (h : Flushed s s' B page)
    (hf : s.dev.frame = []) : s'.dev.frame = [] := by
  rw [h.1]; exact hf

theorem Flushed.framed {s s' : Isp Avr} {B : Nat} {page : Buf} (h : Flushed s s' B page)
    (hlog : Framed s.log) : Framed s'.log := by
  obtain ⟨fs, hs, _⟩ := h.2
  exact (hs hlog).1

theorem Flushed.pageWrites {s s' : Isp Avr} {B : Nat} {page : Buf} (h : Flushed s s' B page)
    (hlog : Framed s.log) : pageWrites s'.log = pageWrites s.log ++ [B] := by
  obtain ⟨fs, hs, hfs⟩ := h.2
  rw [pageWrites_of_sends hs hlog, hfs]

/-! ## The pages flushed by a flash programming pass -/

theorem pageBase_eq (a : Nat) : a / 128 * 128 = pageBase a := by
  unfold pageBase; omega

theorem collapse_cons_same (b : Nat) (l : List Nat) : collapse (b :: b :: l) = collapse (b :: l) := by
  simp [collapse]

theorem collapse_cons_ne {a b : Nat} (h : a ≠ b) (l : List Nat) :
    collapse (a :: b :: l) = a :: collapse (b :: l) := by
  simp [collapse, h]

/-- The loop of `programFlash` on an ideal target, on a file of data records in
the range of the flash followed by the end record: it returns true, and the page
writes it adds to the log are the open page, if there is one, and the page bases
of the records, without the repetitions of a base right after itself. -/
theorem programFlashLoop_flushes (L fuel : Nat) (heap : Nat → Option Buf) (hfuel : L < fuel)
    (hheap : ∀ k, heap k ≠ none) :
    ∀ (recs : List HexRecord) (n : Nat) (p : Prog Avr), recs.length < n → FlashFile recs p.f →
      p.isp.dev.frame = [] → Framed p.isp.log →
      (p.pageAddr = 0xFFFF ∨ (p.pageAddr % 128 = 0 ∧ p.pageAddr < 65536)) →
      (p.pageAddr ≠ 0xFFFF → ∀ x, x < 128 → p.page x < 256) →
      ∃ p', programFlashLoop (avr (idealChip L)) heap fuel n p = some (true, p') ∧
        pageWrites p'.isp.log = pageWrites p.isp.log ++
          collapse ((if p.pageAddr = 0xFFFF then [] else [p.pageAddr]) ++
            recs.map fun r => pageBase r.addr) := by
  intro recs
  induction recs with
  | nil =>
    intro n p hn hfile hf hlog hpa hpage
    obtain ⟨m, rfl⟩ : ∃ m, n = m + 1 := ⟨n - 1, by simp at hn; omega⟩
    obtain ⟨str0, hstr⟩ := Option.ne_none_iff_exists'.1 (hheap p.lines)
    obtain ⟨a1, a2, a3, a4, _, _⟩ := parseHexLine_of_decodeLine str0 p.f p.v _ hfile
    rw [← hstr] at a1 a2 a3 a4
    obtain ⟨isp', hstep, hsame, hflush⟩ := programFlashStep_end L fuel heap p hfuel hf hpa hpage
      a1 a4 a2 a3
    simp only [programFlashLoop, hstep, if_true]
    refine ⟨_, rfl, ?_⟩
    by_cases hopen : p.pageAddr = 0xFFFF
    · rw [hsame hopen]
      simp [hopen, collapse]
    · rw [(hflush hopen).pageWrites hlog]
      simp [hopen, collapse]
  | cons r rs ih =>
    intro n p hn hfile hf hlog hpa hpage
    obtain ⟨m, rfl⟩ : ∃ m, n = m + 1 := ⟨n - 1, by simp at hn; omega⟩
    obtain ⟨hdec, hty, hrange, hrest⟩ := hfile
    obtain ⟨str0, hstr⟩ := Option.ne_none_iff_exists'.1 (hheap p.lines)
    obtain ⟨a1, a2, a3, a4, a5, a6⟩ := parseHexLine_of_decodeLine str0 p.f p.v r hdec
    obtain ⟨b1, b2, _, _, _⟩ := decodeLine_ok hdec
    rw [← hstr] at a1 a2 a3 a4 a5 a6
    obtain ⟨isp', hstep, hsame, hflush⟩ := programFlashStep_data L fuel heap p hfuel hf hpa hpage
      a1 (by rw [a4, hty]; rfl) (by rw [a2, a3]; exact hrange)
    rw [a3, a2, a6] at hstep
    rw [a3] at hsame hflush
    simp only [programFlashLoop, hstep, Bool.false_eq_true, if_false, if_true]
    have hbase : r.addr / 128 * 128 % 128 = 0 ∧ r.addr / 128 * 128 < 65536 := by omega
    have hne : r.addr / 128 * 128 ≠ 0xFFFF := by omega
    have hpage' : ∀ x, x < 128 →
        copyToPage r.addr (parseHexLine (heap p.lines) p.f p.v).2.1.data r.len 0
          (if r.addr / 128 * 128 = p.pageAddr then p.page else memsetPage p.page) x < 256 := by
      apply copyToPage_bytes _ _ _ _ _ (fun j _ hj => a5 j (by omega))
      by_cases hs : r.addr / 128 * 128 = p.pageAddr
      · rw [if_pos hs]
        exact hpage (by rw [← hs]; exact hne)
      · rw [if_neg hs]
        exact memsetPage_bytes _
    by_cases hcase : r.addr / 128 * 128 = p.pageAddr ∨ p.pageAddr = 0xFFFF
    · have hisp := hsame hcase
      subst hisp
      obtain ⟨p', hp1, hp2⟩ := ih m
        { isp := p.isp, f := afterLine p.f, v := (parseHexLine (heap p.lines) p.f p.v).2.1,
          pageAddr := r.addr / 128 * 128,
          page := copyToPage r.addr (parseHexLine (heap p.lines) p.f p.v).2.1.data r.len 0
            (if r.addr / 128 * 128 = p.pageAddr then p.page else memsetPage p.page),
          lines := p.lines + 1 }
        (by simp at hn; omega) hrest hf hlog (Or.inr hbase) (fun _ => hpage')
      refine ⟨p', hp1, ?_⟩
      rw [hp2]
      dsimp only
      rw [if_neg hne, List.map_cons, ← pageBase_eq r.addr]
      rcases hcase with hs | ho
      · have hopen : ¬ p.pageAddr = 0xFFFF := by rw [← hs]; exact hne
        rw [if_neg hopen, ← hs]
        simp only [List.singleton_append]
        rw [collapse_cons_same]
      · rw [if_pos ho]
        simp
    · have hs : r.addr / 128 * 128 ≠ p.pageAddr := fun h => hcase (Or.inl h)
      have hopen : p.pageAddr ≠ 0xFFFF := fun h => hcase (Or.inr h)
      have hfl := hflush hs hopen
      obtain ⟨p', hp1, hp2⟩ := ih m
        { isp := isp', f := afterLine p.f, v := (parseHexLine (heap p.lines) p.f p.v).2.1,
          pageAddr := r.addr / 128 * 128,
          page := copyToPage r.addr (parseHexLine (heap p.lines) p.f p.v).2.1.data r.len 0
            (if r.addr / 128 * 128 = p.pageAddr then p.page else memsetPage p.page),
          lines := p.lines + 1 }
        (by simp at hn; omega) hrest (hfl.frame hf) (hfl.framed hlog) (Or.inr hbase)
        (fun _ => hpage')
      refine ⟨p', hp1, ?_⟩
      rw [hp2, hfl.pageWrites hlog]
      dsimp only
      rw [if_neg hne, if_neg hopen, List.map_cons, ← pageBase_eq r.addr]
      simp only [List.singleton_append, List.append_assoc]
      rw [collapse_cons_ne (Ne.symm hs)]

/-- The chip erase on the target model: the flash is blank afterwards, and
the frames sent are the erase frame and the polls. -/
theorem avr_ispChipErase (c : Chip) (fuel : Nat) (s : Isp Avr) (hf : s.dev.frame = [])
    (hfuel : c.latency < fuel) :
    ∃ s' p, ispChipErase (avr c) fuel s = some s' ∧
      s'.dev = { s.dev with flash := fun _ => 0xFF, busy := 0 } ∧
      Sends s s' ([[0xAC, 0x80, 0, 0]] ++ List.replicate p [0xF0, 0, 0, 0]) := by
  obtain ⟨h1, _⟩ := avr_ispCommand c s 0xAC 0x80 0x00 0x00 hf
  rw [show (0xAC : Nat) % 256 = 0xAC from rfl, show (0x80 : Nat) % 256 = 0x80 from rfl,
    Avr.step_erase] at h1
  obtain ⟨s', hw1, hw2⟩ := avr_ispWait c fuel (ispCommand (avr c) s 0xAC 0x80 0x00 0x00).1
    (by rw [h1]) (by rw [h1]; exact hfuel)
  obtain ⟨p, hp⟩ := sends_ispWait (avr c) fuel _ _ hw1
  refine ⟨s', p, hw1, ?_, (sends_ispCommand (avr c) s 0xAC 0x80 0x00 0x00).trans hp⟩
  rw [hw2, h1]
  cases hd : s.dev
  rw [hd] at hf
  simp only at hf
  simp [hf]

/-- A flash programming pass on an ideal target, on a file of data records in
the range of the flash followed by the end record: it returns true, and the page
writes it sends are the page bases of the records, without the repetitions of a
base right after itself. -/
theorem programFlash_flushes_runs (L fuel : Nat) (heap : Nat → Option Buf) (hfuel : L < fuel)
    (hheap : ∀ k, heap k ≠ none) (recs : List HexRecord) (f : List Nat)
    (hfile : FlashFile recs f) (hn : recs.length < fuel) (page0 data0 : Buf) (v0 : HexVars)
    (s : Isp Avr) (hf : s.dev.frame = []) (hlog : Framed s.log) :
    ∃ p', programFlash (avr (idealChip L)) fuel (some f) (some page0) (some data0) heap v0 s =
        some (true, p') ∧
      pageWrites p'.isp.log = pageWrites s.log ++ collapse (recs.map fun r => pageBase r.addr) := by
  obtain ⟨s1, p, he1, he2, he3⟩ := avr_ispChipErase (idealChip L) fuel s hf hfuel
  obtain ⟨hfr1, _⟩ := he3 hlog
  have hpw : pageWrites s1.log = pageWrites s.log := by
    rw [pageWrites_of_sends he3 hlog]
    simp [pageWriteOf_polls, pageWriteOf]
  obtain ⟨p', hp1, hp2⟩ := programFlashLoop_flushes L fuel heap hfuel hheap recs fuel
    { isp := s1, f := f, v := { v0 with data := data0 }, pageAddr := 0xFFFF, page := page0,
      lines := 0 } hn hfile (by rw [he2]; exact hf) hfr1 (Or.inl rfl) (fun h => absurd rfl h)
  refine ⟨p', ?_, ?_⟩
  · simp only [programFlash, he1]
    exact hp1
  · rw [hp2, hpw]
    simp

/-! ## C7: one flush for each run of records of the same page -/

theorem flashFile_revisit : FlashFile revisitRecords revisitFile := by
  refine ⟨by rfl, rfl, by decide, by rfl, rfl, by decide, by rfl, rfl, by decide, by rfl⟩

/-- C7, as stated, fails: for the data records at `0x0000`, `0x0080` and
`0x0010` followed by the end record, on an ideal target, `programFlash` returns
true and sends three page writes, for the bases 0, 128 and 0: the page at base 0
is flushed twice. -/
theorem programFlash_revisit_flushes_twice :
    FlashFile revisitRecords revisitFile ∧
    (revisitRecords.map fun r => pageBase r.addr) = [0, 128, 0] ∧
    ∃ p', programFlash (avr (idealChip 0)) 4 (some revisitFile) (some zeroBuf) (some zeroBuf)
        (fun _ => some zeroBuf) zeroVars blankLink = some (true, p') ∧
      pageWrites p'.isp.log = [0, 128, 0] := by
  refine ⟨flashFile_revisit, by decide, ?_⟩
  obtain ⟨p', h1, h2⟩ := programFlash_flushes_runs 0 4 (fun _ => some zeroBuf) (by decide)
    (fun _ => by simp) revisitRecords revisitFile flashFile_revisit (by decide) zeroBuf zeroBuf
    zeroVars blankLink rfl rfl
  refine ⟨p', h1, ?_⟩
  rw [h2]
  decide

/-- C7, amended. For every file of valid data records in the range of the flash
followed by the end record, on an ideal target (every page verification
succeeds), `programFlash` returns true and flushes one page for each maximal
run of consecutive records with the same page base `A - (A mod 128)`, in file
order: the page writes it sends are the page bases of the records without the
repetitions of a base right after itself. -/
theorem programFlash_flushes (L fuel : Nat) (heap : Nat → Option Buf) (hfuel : L < fuel)
    (hheap : ∀ k, heap k ≠ none) (recs : List HexRecord) (f : List Nat)
    (hfile : FlashFile recs f) (hn : recs.length < fuel) (page0 data0 : Buf) (v0 : HexVars)
    (s : Isp Avr) (hf : s.dev.frame = []) (hlog : Framed s.log) :
    ∃ p', programFlash (avr (idealChip L)) fuel (some f) (some page0) (some data0) heap v0 s =
        some (true, p') ∧
      pageWrites p'.isp.log = pageWrites s.log ++ collapse (recs.map fun r => pageBase r.addr) :=
  programFlash_flushes_runs L fuel heap hfuel hheap recs f hfile hn page0 data0 v0 s hf hlog

theorem flashFile_straddle :
    FlashFile [{ len := 16, addr := 0x0078, type := 0, data := countData }] straddleFile := by
  refine ⟨by rfl, rfl, by decide, by rfl⟩

/-- The file of one data record at `0x0078` and the end record is programmed
with one page write, for the page at base 0. -/
theorem programFlash_flushes_witness :
    ∃ p', programFlash (avr (idealChip 0)) 2 (some straddleFile) (some zeroBuf) (some zeroBuf)
        (fun _ => some zeroBuf) zeroVars blankLink = some (true, p') ∧
      pageWrites p'.isp.log = pageWrites blankLink.log ++
        collapse ([({ len := 16, addr := 0x0078, type := 0, data := countData } : HexRecord)].map
          fun r => pageBase r.addr) :=
  programFlash_flushes 0 2 (fun _ => some zeroBuf) (by decide) (fun _ => by simp)
    [{ len := 16, addr := 0x0078, type := 0, data := countData }] straddleFile flashFile_straddle
    (by decide) zeroBuf zeroBuf zeroVars blankLink rfl rfl

/-! ## C6: a record that ends in the next page -/

set_option maxRecDepth 100000 in
/-- C6, at a failing input. The data record of 16 bytes `00 .. 0F` at address
`0x0078` is accepted, and on a blank ideal target the pass returns true; byte 8
of the record belongs at flash byte address `0x0080`, but that cell is left
blank and the byte is written to flash byte address 0, the start of the page
of the first byte. -/
theorem programFlash_straddle_misplaced :
    (programFlash (avr (idealChip 0)) 2 (some straddleFile) (some zeroBuf) (some zeroBuf)
        (fun _ => some zeroBuf) zeroVars blankLink).map
      (fun r => (r.1, r.2.page 0, r.2.isp.dev.flash 0x80, r.2.isp.dev.flash 0)) =
      some (true, 8, 0xFF, 8) := by
  decide

/-! ## C8: records close to the end of the 16-bit address space -/

set_option maxRecDepth 100000 in
/-- C8, at a failing input. The data record of 16 bytes `00 .. 0F` at address
`0xFFF0` lies outside the flash and outside the EEPROM, yet `addr + len` wraps
to 0 in 16 bits and passes both range checks: `programFlash` returns true, has
merged the record into the page buffer (offset `0x71` holds byte 1) and the
target model has written it (at the address modulo the flash size);
`programEeprom` returns true and the target model has written byte 1 (at the
address modulo the EEPROM size). -/
theorem program_wrapped_record_accepted :
    (programFlash (avr (idealChip 0)) 2 (some wrapFile) (some zeroBuf) (some zeroBuf)
        (fun _ => some zeroBuf) zeroVars blankLink).map
      (fun r => (r.1, r.2.pageAddr, r.2.page 0x71, r.2.isp.dev.flash 0x7FF1)) =
      some (true, 0xFF80, 1, 1) ∧
    (programEeprom (avr (idealChip 0)) 2 (some wrapFile) (some zeroBuf)
        (fun _ => some zeroBuf) zeroVars blankLink).map
      (fun r => (r.1, r.2.isp.dev.eeprom 0x3F1)) = some (true, 1) := by
  constructor <;> decide

/-! ## The dump loop -/

theorem isEmpty_iff (data : Buf) (n : Nat) :
    ∀ i, isEmpty data n i = true ↔ ∀ j, i ≤ j → j < i + n → data j = 0xFF := by
  induction n with
  | zero =>
    intro i
    simp only [isEmpty, true_iff]
    intro j h1 h2
    omega
  | succ n ih =>
    intro i
    simp only [isEmpty]
    by_cases h : data i ≠ 0xFF
    · rw [if_pos h]
      simp only [Bool.false_eq_true, false_iff, not_forall]
      exact ⟨i, le_refl _, by omega, h⟩
    · rw [if_neg h, ih (i + 1)]
      have h' : data i = 0xFF := by simpa using h
      constructor
      · intro hh j h1 h2
        rcases Nat.eq_or_lt_of_le h1 with rfl | hlt
        · exact h'
        · exact hh j hlt (by omega)
      · intro hh j h1 h2
        exact hh j (by omega) (by omega)

/-- The text written by the dump loop is appended to what was written before. -/
theorem dumpLoop_out {σ : Type} (read : Isp σ → Nat → Isp σ × Nat) (bound : Nat) (fuel : Nat) :
    ∀ (addr : Nat) (s : Isp σ) (data : Buf) (out : List Nat),
      (dumpLoop read bound fuel addr s data out).2.2 =
        out ++ (dumpLoop read bound fuel addr s data []).2.2 ∧
      (dumpLoop read bound fuel addr s data out).1 = (dumpLoop read bound fuel addr s data []).1 := by
  induction fuel with
  | zero => intro addr s data out; simp [dumpLoop]
  | succ fuel ih =>
    intro addr s data out
    simp only [dumpLoop]
    by_cases hb : addr < bound
    · simp only [hb, if_true]
      split_ifs with he
      · exact ih _ _ _ _
      · obtain ⟨h1, h2⟩ := ih ((addr + HEX_PAGE_SIZE) % 65536)
          (dumpRead read addr HEX_PAGE_SIZE 0 s data ((16 + addr / 256 + (addr &&& 0xFF)) % 256)).1
          (dumpRead read addr HEX_PAGE_SIZE 0 s data ((16 + addr / 256 + (addr &&& 0xFF)) % 256)).2.1
          (out ++ printRecord addr
            (dumpRead read addr HEX_PAGE_SIZE 0 s data
              ((16 + addr / 256 + (addr &&& 0xFF)) % 256)).2.1
            (dumpRead read addr HEX_PAGE_SIZE 0 s data
              ((16 + addr / 256 + (addr &&& 0xFF)) % 256)).2.2)
        obtain ⟨h3, h4⟩ := ih ((addr + HEX_PAGE_SIZE) % 65536)
          (dumpRead read addr HEX_PAGE_SIZE 0 s data ((16 + addr / 256 + (addr &&& 0xFF)) % 256)).1
          (dumpRead read addr HEX_PAGE_SIZE 0 s data ((16 + addr / 256 + (addr &&& 0xFF)) % 256)).2.1
          ([] ++ printRecord addr
            (dumpRead read addr HEX_PAGE_SIZE 0 s data
              ((16 + addr / 256 + (addr &&& 0xFF)) % 256)).2.1
            (dumpRead read addr HEX_PAGE_SIZE 0 s data
              ((16 + addr / 256 + (addr &&& 0xFF)) % 256)).2.2)
        rw [h1, h3, h2, h4]
        simp
    · simp [hb]

/-- The sixteen bytes the read loop of `dumpFlash` stores for the block at
`addr`, on the target model: the flash cells of the block. The target is left
as it was. -/
theorem avr_dumpRead (c : Chip) (a0 : Avr) (hf0 : a0.frame = []) (addr : Nat)
    (ha : addr + 16 ≤ 32768) (s : Isp Avr) (hs : s.dev = a0) (data : Buf) (crc : Nat)
    (hcrc : crc < 256) :
    (dumpRead (ispReadFlash (avr c)) addr 16 0 s data crc).1.dev = a0 ∧
    (∀ j, j < 16 →
      (dumpRead (ispReadFlash (avr c)) addr 16 0 s data crc).2.1 j = a0.flash (addr + j) % 256) ∧
    (dumpRead (ispReadFlash (avr c)) addr 16 0 s data crc).2.2 =
      (crc + ((List.range' 0 16).map
        (dumpRead (ispReadFlash (avr c)) addr 16 0 s data crc).2.1).sum) % 256 := by
  have hP : ∀ (s : Isp Avr) (a : Nat), s.dev = a0 →
      (ispReadFlash (avr c) s a).1.dev = a0 ∧
        (ispReadFlash (avr c) s a).2 = a0.flash (a % 32768) % 256 := by
    intro s a hs
    obtain ⟨h1, h2⟩ := avr_ispReadFlash c s a (by rw [hs]; exact hf0)
    rw [hs] at h1 h2
    exact ⟨h1, h2⟩
  obtain ⟨d1, d2⟩ := dumpRead_data (ispReadFlash (avr c)) (fun s => s.dev = a0)
    (fun a => a0.flash (a % 32768) % 256) hP addr 16 0 s data crc hs
  have hbytes : ∀ (s : Isp Avr) (a : Nat), (ispReadFlash (avr c) s a).2 < 256 := by
    intro s a
    exact Nat.mod_lt _ (by norm_num)
  refine ⟨d1, ?_, (dumpRead_spec (ispReadFlash (avr c)) hbytes addr 16 0 s data crc hcrc).1⟩
  intro j hj
  rw [d2 j (Nat.zero_le _) (by omega)]
  have e : (addr + j) % 65536 % 32768 = addr + j := by omega
  rw [e]

/-! ## Programming a dumped file: the invariant -/

theorem copyToPage_block (addr : Nat) (data : Buf) (n : Nat) :
    ∀ (i : Nat) (page : Buf), addr + i + n ≤ 65536 → addr % 128 + i + n ≤ 128 →
      ∀ y, copyToPage addr data n i page y =
        if addr % 128 + i ≤ y ∧ y < addr % 128 + i + n then data (y - addr % 128) else page y := by
  induction n with
  | zero =>
    intro i page _ _ y
    rw [if_neg (by omega)]
    rfl
  | succ n ih =>
    intro i page h1 h2 y
    simp only [copyToPage]
    rw [ih (i + 1) _ (by omega) (by omega) y]
    have hidx : (addr + i) % 65536 &&& 0x7F = addr % 128 + i := by
      rw [and_7F]; omega
    rw [hidx]
    by_cases hy : addr % 128 + (i + 1) ≤ y ∧ y < addr % 128 + (i + 1) + n
    · rw [if_pos hy, if_pos (by omega)]
    · rw [if_neg hy]
      by_cases hy2 : y = addr % 128 + i
      · rw [hy2, Function.update_same, if_pos (by omega)]
        congr 1
        omega
      · rw [Function.update_noteq hy2, if_neg (by omega)]

theorem decodeLine_endRecord :
    decodeLine (nextLine endRecord) = .ok { len := 0, addr := 0, type := 1, data := [] } := by
  rfl

/-- The end of the pass on a dumped file: when only the end record is left, the
pass ends with success and the flash holds what the pass was about to leave. -/
theorem programFlashLoop_endRecord (L fuel : Nat) (heap : Nat → Option Buf) (hfuel : L < fuel)
    (hheap : ∀ k, heap k ≠ none) (n : Nat) (p : Prog Avr) (hn : 0 < n) (hfile : p.f = endRecord)
    (hf : p.isp.dev.frame = [])
    (hpa : p.pageAddr = 0xFFFF ∨ (p.pageAddr % 128 = 0 ∧ p.pageAddr < 32768))
    (hpage : p.pageAddr ≠ 0xFFFF → ∀ x, x < 128 → p.page x < 256) :
    ∃ p', programFlashLoop (avr (idealChip L)) heap fuel n p = some (true, p') ∧
      p'.isp.dev.frame = [] ∧ ∀ x, p'.isp.dev.flash x = p.view x := by
  obtain ⟨m, rfl⟩ : ∃ m, n = m + 1 := ⟨n - 1, by omega⟩
  obtain ⟨str0, hstr⟩ := Option.ne_none_iff_exists'.1 (hheap p.lines)
  have hdec : decodeLine (nextLine p.f) = .ok { len := 0, addr := 0, type := 1, data := [] } := by
    rw [hfile]; exact decodeLine_endRecord
  obtain ⟨a1, a2, a3, a4, _, _⟩ := parseHexLine_of_decodeLine str0 p.f p.v _ hdec
  rw [← hstr] at a1 a2 a3 a4
  have hpa2 : p.pageAddr = 0xFFFF ∨ (p.pageAddr % 128 = 0 ∧ p.pageAddr < 65536) := by
    rcases hpa with h | h
    · exact Or.inl h
    · exact Or.inr ⟨h.1, by omega⟩
  obtain ⟨isp', hstep, hsame, hflush⟩ := programFlashStep_end L fuel heap p hfuel hf hpa2 hpage
    a1 a4 a2 a3
  simp only [programFlashLoop, hstep, if_true]
  refine ⟨_, rfl, ?_, ?_⟩
  · by_cases hopen : p.pageAddr = 0xFFFF
    · rw [hsame hopen]; exact hf
    · exact (hflush hopen).frame hf
  · intro x
    by_cases hopen : p.pageAddr = 0xFFFF
    · simp only [Prog.view, hsame hopen, hopen, ne_eq, not_true_eq_false, false_and, if_false]
    · have hlt : p.pageAddr < 32768 := by
        rcases hpa with h | h
        · exact absurd h hopen
        · exact h.2
      have hmod : p.pageAddr % 32768 = p.pageAddr := Nat.mod_eq_of_lt hlt
      simp only [Prog.view, (hflush hopen).1, hmod, ne_eq, hopen, not_false_eq_true, true_and]

/-- A block that was blank at dump time, and left out of the dump, keeps the
invariant. -/
theorem DumpInv.skip {a0 : Avr} {addr : Nat} {p : Prog Avr} (h : DumpInv a0 addr p)
    (hblank : ∀ j, j < 16 → a0.flash (addr + j) % 256 = 0xFF) : DumpInv a0 (addr + 16) p := by
  obtain ⟨h1, h2, h3, h4, h5, h6⟩ := h
  refine ⟨h1, ?_, h3, h4, ?_, fun x hx => h6 x (by omega)⟩
  · rcases h2 with h | ⟨a, b, c⟩
    · exact Or.inl h
    · exact Or.inr ⟨a, by omega, c⟩
  · intro x hx
    by_cases hlt : x < addr
    · exact h5 x hlt
    · rw [h6 x (by omega)]
      have := hblank (x - addr) (by omega)
      rw [show addr + (x - addr) = x by omega] at this
      exact this.symm

/-- A dumped block, parsed and merged by one step of the pass, keeps the
invariant. -/
theorem DumpInv.step {a0 : Avr} {addr : Nat} {p : Prog Avr} (h : DumpInv a0 addr p)
    (halign : addr % 16 = 0) (hlt : addr + 16 ≤ 32768) (D : Buf)
    (hD : ∀ j, j < 16 → D j = a0.flash (addr + j) % 256) (isp' : Isp Avr) (f' : List Nat)
    (v' : HexVars) (l' : Nat)
    (hsame : (addr / 128 * 128 = p.pageAddr ∨ p.pageAddr = 0xFFFF) → isp' = p.isp)
    (hflush : addr / 128 * 128 ≠ p.pageAddr → p.pageAddr ≠ 0xFFFF →
      Flushed p.isp isp' p.pageAddr p.page) :
    DumpInv a0 (addr + 16)
      { isp := isp', f := f', v := v', pageAddr := addr / 128 * 128,
        page := copyToPage addr D 16 0
          (if addr / 128 * 128 = p.pageAddr then p.page else memsetPage p.page),
        lines := l' } := by
  obtain ⟨h1, h2, h3, h4, h5, h6⟩ := h
  have hB : addr / 128 * 128 ≠ 0xFFFF := by omega
  have hpage : ∀ (pg : Buf) (y : Nat), copyToPage addr D 16 0 pg y =
        if addr % 128 ≤ y ∧ y < addr % 128 + 16 then D (y - addr % 128) else pg y := by
    intro pg y
    have := copyToPage_block addr D 16 0 pg (by omega) (by omega) y
    simpa using this
  have hi2 : addr / 128 * 128 % 128 = 0 ∧ addr / 128 * 128 ≤ addr + 16 ∧
      addr / 128 * 128 < 32768 := by omega
  have hDb : ∀ j, 0 ≤ j → j < 0 + 16 → D j < 256 := by
    intro j _ hj
    rw [hD j (by omega)]
    exact Nat.mod_lt _ (by norm_num)
  have hblock : ∀ x, addr ≤ x → x < addr + 16 →
      D (x - addr / 128 * 128 - addr % 128) = a0.flash x % 256 := by
    intro x hx1 hx2
    have e : x - addr / 128 * 128 - addr % 128 = x - addr := by omega
    rw [e, hD (x - addr) (by omega), show addr + (x - addr) = x by omega]
  have hmem : ∀ y, y < 128 → memsetPage p.page y = 0xFF := by
    intro y hy
    simp [memsetPage, FLASH_PAGE_SIZE, hy]
  by_cases hcA : addr / 128 * 128 = p.pageAddr
  · -- the record belongs to the open page
    have hisp := hsame (Or.inl hcA)
    subst hisp
    have hopen : p.pageAddr ≠ 0xFFFF := by rw [← hcA]; exact hB
    have hview : ∀ x, p.view x =
        if p.pageAddr ≤ x ∧ x < p.pageAddr + 128 then p.page (x - p.pageAddr)
        else p.isp.dev.flash x := by
      intro x
      simp [Prog.view, hopen]
    refine ⟨h1, Or.inr hi2, fun _ => ?_, ?_, ?_, ?_⟩
    · rw [if_pos hcA]
      exact copyToPage_bytes addr D 16 0 p.page hDb (h3 hopen)
    · intro x hx
      exact h4 x (by rw [← hcA]; simpa [hB] using hx)
    · intro x hx
      simp only [Prog.view, hpage, if_pos hcA, ne_eq, hB, not_false_eq_true, true_and]
      by_cases hin : addr / 128 * 128 ≤ x ∧ x < addr / 128 * 128 + 128
      · rw [if_pos hin]
        by_cases hb : addr % 128 ≤ x - addr / 128 * 128 ∧ x - addr / 128 * 128 < addr % 128 + 16
        · rw [if_pos hb]
          exact hblock x (by omega) (by omega)
        · rw [if_neg hb, ← h5 x (by omega), hview, ← hcA, if_pos hin]
      · rw [if_neg hin, ← h5 x (by omega), hview, ← hcA, if_neg hin]
    · intro x hx
      simp only [Prog.view, hpage, if_pos hcA, ne_eq, hB, not_false_eq_true, true_and]
      by_cases hin : addr / 128 * 128 ≤ x ∧ x < addr / 128 * 128 + 128
      · rw [if_pos hin, if_neg (by omega), ← h6 x (by omega), hview, ← hcA, if_pos hin]
      · rw [if_neg hin, ← h6 x (by omega), hview, ← hcA, if_neg hin]
  · by_cases hcB : p.pageAddr = 0xFFFF
    · -- no page is open yet
      have hisp := hsame (Or.inr hcB)
      subst hisp
      have hflash : ∀ x, p.isp.dev.flash x = 0xFF := fun x => h4 x (Or.inl hcB)
      have hview : ∀ x, p.view x = 0xFF := by
        intro x
        simp [Prog.view, hcB, hflash]
      refine ⟨h1, Or.inr hi2, fun _ => ?_, fun x _ => hflash x, ?_, ?_⟩
      · rw [if_neg hcA]
        exact copyToPage_bytes addr D 16 0 _ hDb (memsetPage_bytes _)
      · intro x hx
        simp only [Prog.view, hpage, if_neg hcA, ne_eq, hB, not_false_eq_true, true_and]
        by_cases hin : addr / 128 * 128 ≤ x ∧ x < addr / 128 * 128 + 128
        · rw [if_pos hin]
          by_cases hb : addr % 128 ≤ x - addr / 128 * 128 ∧ x - addr / 128 * 128 < addr % 128 + 16
          · rw [if_pos hb]
            exact hblock x (by omega) (by omega)
          · rw [if_neg hb, hmem _ (by omega), ← h5 x (by omega), hview]
        · rw [if_neg hin, hflash, ← h5 x (by omega), hview]
      · intro x hx
        simp only [Prog.view, hpage, if_neg hcA, ne_eq, hB, not_false_eq_true, true_and]
        by_cases hin : addr / 128 * 128 ≤ x ∧ x < addr / 128 * 128 + 128
        · rw [if_pos hin, if_neg (by omega), hmem _ (by omega)]
        · rw [if_neg hin, hflash]
    · -- another page is open: it has been flushed
      have hfl := hflush hcA hcB
      obtain ⟨a, b, c⟩ : p.pageAddr % 128 = 0 ∧ p.pageAddr ≤ addr ∧ p.pageAddr < 32768 := by
        rcases h2 with h | h
        · exact absurd h hcB
        · exact h
      have hmod : p.pageAddr % 32768 = p.pageAddr := Nat.mod_eq_of_lt c
      have hfar : p.pageAddr + 128 ≤ addr / 128 * 128 := by omega
      have hview : ∀ x, p.view x =
          if p.pageAddr ≤ x ∧ x < p.pageAddr + 128 then p.page (x - p.pageAddr)
          else p.isp.dev.flash x := by
        intro x
        simp [Prog.view, hcB]
      have hflash : ∀ x, isp'.dev.flash x = p.view x := by
        intro x
        rw [hview, hfl.1, hmod]
      have hhigh : ∀ x, addr / 128 * 128 ≤ x → p.view x = 0xFF := by
        intro x hx
        rw [hview, if_neg (by omega)]
        exact h4 x (Or.inr (by omega))
      refine ⟨hfl.frame h1, Or.inr hi2, fun _ => ?_, ?_, ?_, ?_⟩
      · rw [if_neg hcA]
        exact copyToPage_bytes addr D 16 0 _ hDb (memsetPage_bytes _)
      · intro x hx
        have hx2 : addr / 128 * 128 ≤ x := by simpa [hB] using hx
        show isp'.dev.flash x = 0xFF
        rw [hflash, hhigh x hx2]
      · intro x hx
        simp only [Prog.view, hpage, if_neg hcA, ne_eq, hB, not_false_eq_true, true_and]
        by_cases hin : addr / 128 * 128 ≤ x ∧ x < addr / 128 * 128 + 128
        · rw [if_pos hin]
          by_cases hb : addr % 128 ≤ x - addr / 128 * 128 ∧ x - addr / 128 * 128 < addr % 128 + 16
          · rw [if_pos hb]
            exact hblock x (by omega) (by omega)
          · rw [if_neg hb, hmem _ (by omega), ← h5 x (by omega), hhigh x hin.1]
        · rw [if_neg hin, hflash, h5 x (by omega)]
      · intro x hx
        simp only [Prog.view, hpage, if_neg hcA, ne_eq, hB, not_false_eq_true, true_and]
        by_cases hin : addr / 128 * 128 ≤ x ∧ x < addr / 128 * 128 + 128
        · rw [if_pos hin, if_neg (by omega), hmem _ (by omega)]
        · rw [if_neg hin, hflash, hhigh x (by omega)]

/-! ## Programming a dumped file -/

/-- The loop of `programFlash` on an ideal target, on the rest of the text
that the dump loop writes from the block at `addr` on, followed by the end
record: it returns true and the flash then holds, below the bound of the dump,
what was read at dump time. -/
theorem programFlashLoop_dump (c0 : Chip) (a0 : Avr) (hf0 : a0.frame = []) (bound : Nat)
    (hbound : bound % 16 = 0) (hb2 : bound ≤ 32768) (L fuel : Nat) (heap : Nat → Option Buf)
    (hfuel : L < fuel) (hheap : ∀ k, heap k ≠ none) (k : Nat) :
    ∀ (addr : Nat) (s : Isp Avr) (data : Buf) (n : Nat) (p : Prog Avr),
      s.dev = a0 → addr % 16 = 0 → addr ≤ bound → bound ≤ addr + 16 * k →
      (bound - addr) / 16 < n →
      p.f = (dumpLoop (ispReadFlash (avr c0)) bound k addr s data []).2.2 ++ endRecord →
      DumpInv a0 addr p →
      ∃ p', programFlashLoop (avr (idealChip L)) heap fuel n p = some (true, p') ∧
        p'.isp.dev.frame = [] ∧ ∀ x, x < bound → p'.isp.dev.flash x = a0.flash x % 256 := by
  have hend : ∀ (addr : Nat) (n : Nat) (p : Prog Avr), bound ≤ addr → 0 < n →
      p.f = endRecord → DumpInv a0 addr p →
      ∃ p', programFlashLoop (avr (idealChip L)) heap fuel n p = some (true, p') ∧
        p'.isp.dev.frame = [] ∧ ∀ x, x < bound → p'.isp.dev.flash x = a0.flash x % 256 := by
    intro addr n p hge hn hfile hinv
    obtain ⟨h1, h2, h3, h4, h5, h6⟩ := hinv
    have hpa : p.pageAddr = 0xFFFF ∨ (p.pageAddr % 128 = 0 ∧ p.pageAddr < 32768) := by
      rcases h2 with h | ⟨a, _, b⟩
      · exact Or.inl h
      · exact Or.inr ⟨a, b⟩
    obtain ⟨p', e1, e2, e3⟩ := programFlashLoop_endRecord L fuel heap hfuel hheap n p hn hfile h1
      hpa h3
    exact ⟨p', e1, e2, fun x hx => by rw [e3 x, h5 x (by omega)]⟩
  induction k with
  | zero =>
    intro addr s data n p _ _ _ hk hn hfile hinv
    exact hend addr n p (by omega) (by omega) (by simpa [dumpLoop] using hfile) hinv
  | succ k ih =>
    intro addr s data n p hs halign hle hk hn hfile hinv
    by_cases hlt : addr < bound
    · have hcrc0 : (16 + addr / 256 + (addr &&& 0xFF)) % 256 < 256 := Nat.mod_lt _ (by norm_num)
      have hadd : addr + 16 ≤ bound := by omega
      obtain ⟨r1, r2, r3⟩ := avr_dumpRead c0 a0 hf0 addr (by omega) s hs data
        ((16 + addr / 256 + (addr &&& 0xFF)) % 256) hcrc0
      have hnext : (addr + 16) % 65536 = addr + 16 := by omega
      simp only [dumpLoop, hlt, if_true, HEX_PAGE_SIZE, hnext] at hfile
      generalize hrd : dumpRead (ispReadFlash (avr c0)) addr 16 0 s data
        ((16 + addr / 256 + (addr &&& 0xFF)) % 256) = rd at hfile r1 r2 r3
      obtain ⟨s1, data1, crc1⟩ := rd
      simp only at hfile r1 r2 r3
      by_cases hempty : isEmpty data1 16 0 = true
      · rw [if_pos hempty] at hfile
        have hblank : ∀ j, j < 16 → a0.flash (addr + j) % 256 = 0xFF := by
          intro j hj
          rw [← r2 j hj]
          exact (isEmpty_iff data1 16 0).1 hempty j (Nat.zero_le _) (by omega)
        exact ih (addr + 16) s1 data1 n p r1 (by omega) hadd (by omega) (by omega) hfile
          (hinv.skip hblank)
      · rw [if_neg hempty, (dumpLoop_out _ _ _ _ _ _ _).1, List.nil_append, List.append_assoc]
          at hfile
        obtain ⟨m, rfl⟩ : ∃ m, n = m + 1 := ⟨n - 1, by omega⟩
        have hm : (bound - (addr + 16)) / 16 < m := by omega
        obtain ⟨str0, hstr⟩ := Option.ne_none_iff_exists'.1 (hheap p.lines)
        have hbytes : ∀ j, j < 16 → data1 j < 256 := by
          intro j hj
          rw [r2 j hj]
          exact Nat.mod_lt _ (by norm_num)
        have hcrc : crc1 = (16 + addr / 256 + (addr &&& 0xFF) +
            ((List.range' 0 16).map data1).sum) % 256 := by
          rw [r3]; omega
        obtain ⟨q1, q2, q3, q4, q5, q6⟩ := parseHexLine_printRecord addr data1 crc1 (by omega)
          hbytes hcrc
          ((dumpLoop (ispReadFlash (avr c0)) bound k (addr + 16) s1 data1 []).2.2 ++ endRecord)
          str0 p.v
        rw [← hfile, ← hstr] at q1 q2 q3 q4 q5 q6
        obtain ⟨h1, h2, h3, h4, h5, h6⟩ := hinv
        have hpa : p.pageAddr = 0xFFFF ∨ (p.pageAddr % 128 = 0 ∧ p.pageAddr < 65536) := by
          rcases h2 with h | ⟨a, _, b⟩
          · exact Or.inl h
          · exact Or.inr ⟨a, by omega⟩
        obtain ⟨isp', hstep, hsame, hflush⟩ := programFlashStep_data L fuel heap p hfuel h1 hpa h3
          q1 q4 (by rw [q2, q3]; omega)
        rw [q3, q2, q6] at hstep
        rw [q3] at hsame hflush
        simp only [programFlashLoop, hstep, Bool.false_eq_true, if_false, if_true]
        have hD : ∀ j, j < 16 →
            (parseHexLine (heap p.lines) p.f p.v).2.1.data j = a0.flash (addr + j) % 256 := by
          intro j hj
          rw [q5 j hj, r2 j hj]
        have hinv' := DumpInv.step ⟨h1, h2, h3, h4, h5, h6⟩ halign (by omega)
          (parseHexLine (heap p.lines) p.f p.v).2.1.data hD isp'
          ((dumpLoop (ispReadFlash (avr c0)) bound k (addr + 16) s1 data1 []).2.2 ++ endRecord)
          (parseHexLine (heap p.lines) p.f p.v).2.1 (p.lines + 1) hsame hflush
        exact ih (addr + 16) s1 data1 m _ r1 (by omega) hadd (by omega) hm rfl hinv'
    · have hfile2 : p.f = endRecord := by
        simpa [dumpLoop, hlt] using hfile
      exact hend addr n p (by omega) (by omega) hfile2 hinv

theorem flashTailOf_cases (v : Nat) :
    flashTailOf v = 0x3F00 ∨ flashTailOf v = 0x3E00 ∨ flashTailOf v = 0x3C00 ∨
      flashTailOf v = 0x3800 := by
  simp only [flashTailOf]
  split_ifs <;> simp

theorem Avr.step_58 (c : Chip) (a : Avr) (c2 c3 c4 : Nat) :
    Avr.step c a 0x58 c2 c3 c4 = { a with frame := [] } := by
  simp [Avr.step, Avr.exec]

theorem avr_ispReadHighFuseBits (c : Chip) (s : Isp Avr) (hf : s.dev.frame = []) :
    (ispReadHighFuseBits (avr c) s).1.dev = s.dev ∧
    (ispReadHighFuseBits (avr c) s).2 = s.dev.hfuse % 256 := by
  obtain ⟨h1, h2⟩ := avr_ispCommand c s 0x58 0x08 0x00 0x00 hf
  unfold ispReadHighFuseBits
  rw [h1, h2, show (0x58 : Nat) % 256 = 0x58 from rfl, Avr.step_58]
  exact ⟨Avr.eta_frame _ hf, by simp [Avr.reply]⟩

/-- The round trip of a flash dump and a programming pass on the target model. -/
theorem programFlash_dumpFlash (c0 : Chip) (L fuel : Nat) (heap : Nat → Option Buf)
    (hfuel : L < fuel) (hlines : 1008 < fuel) (hheap : ∀ k, heap k ≠ none)
    (s0 : Isp Avr) (hf0 : s0.dev.frame = []) (data0 : Buf)
    (s2 : Isp Avr) (hf2 : s2.dev.frame = []) (page0 data1 : Buf) (v0 : HexVars) :
    (dumpFlash (avr c0) true (some data0) s0).2.2 = true ∧
    ∃ p', programFlash (avr (idealChip L)) fuel (some (dumpFlash (avr c0) true (some data0) s0).2.1)
        (some page0) (some data1) heap v0 s2 = some (true, p') ∧
      ∀ x, x < flashTailOf (ispReadHighFuseBits (avr c0) s0).2 →
        (ispReadFlash (avr (idealChip L)) p'.isp x).2 = (ispReadFlash (avr c0) s0 x).2 := by
  refine ⟨rfl, ?_⟩
  obtain ⟨g1, _⟩ := avr_ispReadHighFuseBits c0 s0 hf0
  generalize hb : flashTailOf (ispReadHighFuseBits (avr c0) s0).2 = bound
  have hbc : bound = 0x3F00 ∨ bound = 0x3E00 ∨ bound = 0x3C00 ∨ bound = 0x3800 := by
    rw [← hb]; exact flashTailOf_cases _
  have htext : (dumpFlash (avr c0) true (some data0) s0).2.1 =
      (dumpLoop (ispReadFlash (avr c0)) bound bound 0 (ispReadHighFuseBits (avr c0) s0).1 data0
        []).2.2 ++ endRecord := by
    simp [dumpFlash, hb]
  obtain ⟨s3, q, he1, he2, _⟩ := avr_ispChipErase (idealChip L) fuel s2 hf2 hfuel
  have hinv : DumpInv s0.dev 0
      { isp := s3, f := (dumpFlash (avr c0) true (some data0) s0).2.1,
        v := { v0 with data := data1 }, pageAddr := 0xFFFF, page := page0, lines := 0 } := by
    refine ⟨by rw [he2]; exact hf2, Or.inl rfl, fun h => absurd rfl h, fun x _ => by rw [he2],
      fun x hx => by omega, fun x _ => ?_⟩
    simp [Prog.view, he2]
  obtain ⟨p', hp1, hp2, hp3⟩ := programFlashLoop_dump c0 s0.dev hf0 bound (by omega) (by omega) L
    fuel heap hfuel hheap bound 0 (ispReadHighFuseBits (avr c0) s0).1 data0 fuel
    { isp := s3, f := (dumpFlash (avr c0) true (some data0) s0).2.1,
      v := { v0 with data := data1 }, pageAddr := 0xFFFF, page := page0, lines := 0 }
    g1 rfl (Nat.zero_le _) (by omega) (by omega) htext hinv
  refine ⟨p', ?_, ?_⟩
  · simp only [programFlash, he1]
    exact hp1
  · intro x hx
    have hx2 : x % 32768 = x := Nat.mod_eq_of_lt (by omega)
    rw [(avr_ispReadFlash (idealChip L) p'.isp x hp2).2, (avr_ispReadFlash c0 s0 x hf0).2, hx2,
      hp3 x hx, Nat.mod_mod]

/-! ## C10: dump, erase, program -/

/-- C10. Scenario D: for every flash content and every high-fuse value of the
target model at dump time, `programFlash` run on the text that `dumpFlash`
wrote, against an ideal target in any state between two frames (the chip erase
of the pass blanks it, page writes are stored and read back faithfully), with
enough fuel for its loops, returns true, and afterwards every byte address of
the dumped range reads the value it read at dump time; so the 16-byte blocks
that read all `0xFF` at dump time, and were left out of the text, read `0xFF`. -/
theorem programFlash_dumpFlash_roundtrip (c0 : Chip) (L fuel : Nat) (heap : Nat → Option Buf)
    (hfuel : L < fuel) (hlines : 1008 < fuel) (hheap : ∀ k, heap k ≠ none)
    (s0 : Isp Avr) (hf0 : s0.dev.frame = []) (data0 : Buf)
    (s2 : Isp Avr) (hf2 : s2.dev.frame = []) (page0 data1 : Buf) (v0 : HexVars) :
    (dumpFlash (avr c0) true (some data0) s0).2.2 = true ∧
    ∃ p', programFlash (avr (idealChip L)) fuel (some (dumpFlash (avr c0) true (some data0) s0).2.1)
        (some page0) (some data1) heap v0 s2 = some (true, p') ∧
      ∀ x, x < flashTailOf (ispReadHighFuseBits (avr c0) s0).2 →
        (ispReadFlash (avr (idealChip L)) p'.isp x).2 = (ispReadFlash (avr c0) s0 x).2 :=
  programFlash_dumpFlash c0 L fuel heap hfuel hlines hheap s0 hf0 data0 s2 hf2 page0 data1 v0

/-- The round trip for a target whose flash holds a pattern with blank blocks,
dumped and then programmed into a blank target. -/
theorem programFlash_dumpFlash_roundtrip_witness :
    (dumpFlash (avr (idealChip 3)) true (some zeroBuf) patternLink).2.2 = true ∧
    ∃ p', programFlash (avr (idealChip 3)) 1009
        (some (dumpFlash (avr (idealChip 3)) true (some zeroBuf) patternLink).2.1)
        (some zeroBuf) (some zeroBuf) (fun _ => some zeroBuf) zeroVars blankLink = some (true, p') ∧
      ∀ x, x < flashTailOf (ispReadHighFuseBits (avr (idealChip 3)) patternLink).2 →
        (ispReadFlash (avr (idealChip 3)) p'.isp x).2 =
          (ispReadFlash (avr (idealChip 3)) patternLink x).2 :=
  programFlash_dumpFlash_roundtrip (idealChip 3) 3 1009 (fun _ => some zeroBuf) (by decide)
    (by decide) (fun _ => by simp) patternLink rfl zeroBuf blankLink rfl zeroBuf zeroBuf zeroVars

/-! ## Changing one field of a line -/

theorem getD_set (l : List Nat) (p c i : Nat) :
    (l.set p c).getD i 0 = if i = p ∧ p < l.length then c else l.getD i 0 := by
  induction l generalizing p i with
  | nil => simp
  | cons a l ih =>
    cases p with
    | zero =>
      cases i with
      | zero => simp
      | succ i => simp
    | succ p =>
      cases i with
      | zero => simp
      | succ i =>
        have := ih p i
        simp only [List.set_cons_succ, List.getD_cons_succ, List.length_cons] at this ⊢
        rw [this]
        simp

theorem parseHexDigit_not_end {c d : Nat} (h : parseHexDigit c = some d) : c ≠ 10 ∧ c ≠ 13 := by
  unfold parseHexDigit at h
  split_ifs at h <;> omega

theorem pairVal_not_end {c1 c2 v : Nat} (h : pairVal (c1, c2) = some v) :
    (c1 ≠ 10 ∧ c1 ≠ 13) ∧ (c2 ≠ 10 ∧ c2 ≠ 13) := by
  unfold pairVal at h
  split at h
  · rename_i a b ha hb
    exact ⟨parseHexDigit_not_end ha, parseHexDigit_not_end hb⟩
  · simp at h

/-- A line with the two characters at `p` and `p + 1` replaced. -/
theorem hexPairAt_setPair (line : List Nat) (p c1 c2 : Nat) (hp : p + 1 < line.length) :
    hexPairAt ((line.set p c1).set (p + 1) c2) p = pairVal (c1, c2) ∧
    ∀ q, q + 1 < p ∨ p + 1 < q →
      hexPairAt ((line.set p c1).set (p + 1) c2) q = hexPairAt line q := by
  constructor
  · unfold hexPairAt pairVal
    rw [getD_set, getD_set, getD_set, getD_set]
    rw [if_neg (by omega), if_pos ⟨rfl, by omega⟩, if_pos ⟨rfl, by simpa using hp⟩]
  · intro q hq
    unfold hexPairAt
    rw [getD_set, getD_set, getD_set, getD_set]
    rw [if_neg (by omega), if_neg (by omega), if_neg (by omega), if_neg (by omega)]

theorem decodeData_changed (line line1 : List Nat) (j old new : Nat)
    (hsame : ∀ i, i ≠ j → hexPairAt line1 (9 + i * 2) = hexPairAt line (9 + i * 2))
    (hold : hexPairAt line (9 + j * 2) = some old)
    (hnew : hexPairAt line1 (9 + j * 2) = some new) (n : Nat) :
    ∀ i ds, decodeData line n i = some ds → ∃ ds1, decodeData line1 n i = some ds1 ∧
      ds1.sum + (if i ≤ j ∧ j < i + n then old else 0) =
        ds.sum + (if i ≤ j ∧ j < i + n then new else 0) := by
  induction n with
  | zero =>
    intro i ds h
    refine ⟨[], rfl, ?_⟩
    simp only [decodeData, Option.some.injEq] at h
    subst h
    rw [if_neg (by omega), if_neg (by omega)]
  | succ n ih =>
    intro i ds h
    simp only [decodeData] at h ⊢
    cases hd : hexPairAt line (9 + i * 2) with
    | none => simp [hd] at h
    | some d =>
      cases hr : decodeData line n (i + 1) with
      | none => simp [hd, hr] at h
      | some ds0 =>
        simp only [hd, hr, Option.some.injEq] at h
        subst h
        obtain ⟨ds1, e1, e2⟩ := ih (i + 1) ds0 hr
        by_cases hij : i = j
        · subst hij
          rw [hnew, e1]
          refine ⟨new :: ds1, rfl, ?_⟩
          rw [hold] at hd
          simp only [Option.some.injEq] at hd
          subst hd
          rw [if_neg (by omega), if_neg (by omega)] at e2
          rw [if_pos (by omega), if_pos (by omega)]
          simp only [List.sum_cons]
          omega
        · rw [hsame i hij, hd, e1]
          refine ⟨d :: ds1, rfl, ?_⟩
          simp only [List.sum_cons]
          by_cases hin : i + 1 ≤ j ∧ j < i + 1 + n
          · rw [if_pos hin, if_pos hin] at e2
            rw [if_pos (by omega), if_pos (by omega)]
            omega
          · rw [if_neg hin, if_neg hin] at e2
            rw [if_neg (by omega), if_neg (by omega)]
            omega

/-- The fields behind a successful list-level decoding. -/
theorem decodeLine_fields {line : List Nat} {r : HexRecord} (h : decodeLine line = .ok r) :
    11 ≤ line.length ∧ line.getD 0 0 = 58 ∧ ∃ ah al cc,
      hexPairAt line 1 = some r.len ∧ r.len ≤ 16 ∧ hexPairAt line 3 = some ah ∧
      hexPairAt line 5 = some al ∧ hexPairAt line 7 = some r.type ∧ r.type ≤ 5 ∧
      decodeData line r.len 0 = some r.data ∧ hexPairAt line (9 + r.len * 2) = some cc ∧
      (r.len + ah + al + r.type + r.data.sum + cc) % 256 = 0 ∧ r.addr = ah * 256 + al := by
  unfold decodeLine at h
  split_ifs at h with h1 h2
  split at h
  · cases h
  · rename_i len e1
    split_ifs at h with h3
    split at h
    · cases h
    · rename_i ah e3
      split at h
      · cases h
      · rename_i al e5
        split at h
        · cases h
        · rename_i tt e7
          split_ifs at h with h4
          split at h
          · cases h
          · rename_i ds ed
            split at h
            · cases h
            · rename_i cc ec
              split_ifs at h with h5
              simp only [Except.ok.injEq] at h
              subst h
              exact ⟨by omega, by simpa using h2, ah, al, cc, e1, by simpa using h3, e3, e5, e7,
                by simpa using h4, ed, ec, h5, rfl⟩

/-- A line that decodes, with one data or checksum field changed to another
value, fails the checksum test. -/
theorem decodeLine_changed (line line1 : List Nat) (r : HexRecord) (j old new : Nat)
    (h : decodeLine line = .ok r) (hj : j ≤ r.len)
    (hlen : line1.length = line.length) (h0 : line1.getD 0 0 = line.getD 0 0)
    (hhead : ∀ q, q < 8 → hexPairAt line1 q = hexPairAt line q)
    (hsame : ∀ i, i ≠ j → hexPairAt line1 (9 + i * 2) = hexPairAt line (9 + i * 2))
    (hold : hexPairAt line (9 + j * 2) = some old)
    (hnew : hexPairAt line1 (9 + j * 2) = some new) (hne : new ≠ old) :
    decodeLine line1 = .error HEX_WRONGCRC := by
  obtain ⟨a1, a2, ah, al, cc, b1, b2, b3, b4, b5, b6, b7, b8, b9, _⟩ := decodeLine_fields h
  obtain ⟨ds1, e1, e2⟩ := decodeData_changed line line1 j old new hsame hold hnew r.len 0 r.data b7
  have hold1 := hexPairAt_lt hold
  have hnew1 := hexPairAt_lt hnew
  unfold decodeLine
  rw [if_neg (by omega), h0, if_neg (fun hc => hc a2), hhead 1 (by omega), b1]
  simp only
  rw [if_neg (by omega), hhead 3 (by omega), b3]
  simp only
  rw [hhead 5 (by omega), b4]
  simp only
  rw [hhead 7 (by omega), b5]
  simp only
  rw [if_neg (by omega), e1]
  simp only
  by_cases hjl : j = r.len
  · subst hjl
    rw [hnew]
    simp only
    rw [hold] at b8
    simp only [Option.some.injEq] at b8
    subst b8
    rw [if_neg (by omega), if_neg (by omega)] at e2
    rw [if_neg]
    omega
  · rw [hsame r.len (fun e => hjl e.symm), b8]
    simp only
    rw [if_pos (by omega), if_pos (by omega)] at e2
    rw [if_neg]
    omega

theorem takeLine_set (t : Nat) (n : Nat) :
    ∀ (f : List Nat) (p c : Nat), p < (takeLine t n f).length → c ≠ t →
      takeLine t n (f.set p c) = (takeLine t n f).set p c := by
  induction n with
  | zero => intro f p c hp; simp [takeLine] at hp
  | succ n ih =>
    intro f p c hp hc
    cases f with
    | nil => simp [takeLine] at hp
    | cons a f =>
      by_cases ha : a = t
      · simp [takeLine, ha] at hp
      · cases p with
        | zero => simp [takeLine, ha, hc]
        | succ p =>
          simp only [takeLine, ha, if_false, List.length_cons, Nat.add_lt_add_iff_right] at hp
          simp only [List.set_cons_succ, takeLine, ha, if_false]
          rw [ih f p c hp hc]

theorem stripTail_set (cs : List Nat) (p c : Nat) (hp : p < (stripTail 13 cs).length)
    (hc : c ≠ 13) : stripTail 13 (cs.set p c) = (stripTail 13 cs).set p c := by
  rcases List.eq_nil_or_concat cs with h | ⟨L, b, h⟩
  · subst h
    simp [stripTail] at hp
  · rw [List.concat_eq_append] at h
    subst h
    by_cases hb : b = 13
    · subst hb
      rw [stripTail_concat] at hp ⊢
      rw [List.set_append_left _ _ hp, stripTail_concat]
    · have e : stripTail 13 (L ++ [b]) = L ++ [b] := stripTail_of_ne _ (by simp [hb])
      rw [e] at hp ⊢
      apply stripTail_of_ne
      by_cases hpl : p < L.length
      · rw [List.set_append_left _ _ hpl]
        simp [hb]
      · rw [List.set_append_right _ _ (by omega)]
        have : p - L.length = 0 := by simp at hp; omega
        rw [this]
        simp [hc]

theorem nextLine_set (f : List Nat) (p c : Nat) (hp : p < (nextLine f).length)
    (h10 : c ≠ 10) (h13 : c ≠ 13) : nextLine (f.set p c) = (nextLine f).set p c := by
  unfold nextLine at hp ⊢
  rw [takeLine_set 10 _ f p c (lt_of_lt_of_le hp (stripTail_length_le _ _)) h10,
    stripTail_set _ p c hp h13]

theorem nextLine_setPair (f : List Nat) (p c1 c2 v : Nat) (hp : p + 1 < (nextLine f).length)
    (hv : pairVal (c1, c2) = some v) :
    nextLine ((f.set p c1).set (p + 1) c2) = ((nextLine f).set p c1).set (p + 1) c2 := by
  obtain ⟨⟨a1, a2⟩, b1, b2⟩ := pairVal_not_end hv
  have e := nextLine_set f p c1 (by omega) a1 a2
  rw [nextLine_set (f.set p c1) (p + 1) c2 (by rw [e]; simpa using hp) b1 b2, e]

theorem xor_bit_ne (old k : Nat) : old ^^^ (1 <<< k) ≠ old := by
  intro h
  have h1 : old ^^^ (1 <<< k) = old ^^^ 0 := by simpa using h
  have h2 := Nat.xor_right_injective h1
  rw [Nat.one_shiftLeft] at h2
  exact absurd h2 (by positivity)

theorem decodeData_get (line : List Nat) (n : Nat) :
    ∀ i ds, decodeData line n i = some ds →
      ∀ j, j < n → hexPairAt line (9 + (i + j) * 2) = some (ds.getD j 0) := by
  induction n with
  | zero => intro i ds _ j hj; omega
  | succ n ih =>
    intro i ds h j hj
    simp only [decodeData] at h
    cases hd : hexPairAt line (9 + i * 2) with
    | none => simp [hd] at h
    | some d =>
      cases hr : decodeData line n (i + 1) with
      | none => simp [hd, hr] at h
      | some ds0 =>
        simp only [hd, hr, Option.some.injEq] at h
        subst h
        cases j with
        | zero => simpa using hd
        | succ j =>
          have := ih (i + 1) ds0 hr j (by omega)
          rw [show i + (j + 1) = i + 1 + j by omega]
          simpa using this

/-! ## C4: a flipped bit fails the checksum -/

/-- An accepted line decodes to a record that the output parameters hold. -/
theorem parseHexLine_ok_record (str0 : Buf) (f : List Nat) (v : HexVars)
    (h : (parseHexLine (some str0) f v).1 = HEX_OK) :
    ∃ r, decodeLine (nextLine f) = .ok r ∧
      (parseHexLine (some str0) f v).2.1.len = r.len ∧
      (parseHexLine (some str0) f v).2.1.addr = r.addr ∧
      (parseHexLine (some str0) f v).2.1.type = r.type ∧
      ∀ j, j < r.len → (parseHexLine (some str0) f v).2.1.data j = r.data.getD j 0 := by
  have hd := (parseHexLine_decode str0 f v).2
  cases hdl : decodeLine (nextLine f) with
  | error e =>
    rw [hdl] at hd
    exact absurd (hd.1.symm.trans h) hd.2
  | ok r =>
    rw [hdl] at hd
    obtain ⟨_, a2, a3, a4, _, a6⟩ := hd
    exact ⟨r, rfl, a2, a3, a4, fun j hj => by rw [a6 j, if_pos hj]⟩

/-- C4. Take any file whose next line `parseHexLine` accepts with `HEX_OK`,
and any field index `j` up to the decoded byte count: `j < len` is the data
byte `j`, `j = len` is the checksum. The two characters of that field denote a
byte `old` (for a data byte, the decoded `data[j]`), and replacing them, and
nothing else, by two hex digits that denote `old` with bit `k` flipped makes
`parseHexLine` return `HEX_WRONGCRC`, whatever the line buffer and the output
parameters held before. -/
theorem parseHexLine_bit_flip (str0 str1 : Buf) (f : List Nat) (v v1 : HexVars)
    (hok : (parseHexLine (some str0) f v).1 = HEX_OK) (j : Nat)
    (hj : j ≤ (parseHexLine (some str0) f v).2.1.len) :
    ∃ old, hexPairAt (nextLine f) (9 + j * 2) = some old ∧
      (j < (parseHexLine (some str0) f v).2.1.len →
        (parseHexLine (some str0) f v).2.1.data j = old) ∧
      ∀ k c1 c2, k < 8 → pairVal (c1, c2) = some (old ^^^ (1 <<< k)) →
        (parseHexLine (some str1) ((f.set (9 + j * 2) c1).set (9 + j * 2 + 1) c2) v1).1 =
          HEX_WRONGCRC := by
  obtain ⟨r, hdl, hlen, _, _, hdata⟩ := parseHexLine_ok_record str0 f v hok
  rw [hlen] at hj ⊢
  obtain ⟨_, _, ah, al, cc, _, _, _, _, _, _, b7, b8, _, _⟩ := decodeLine_fields hdl
  have hfield : ∃ old, hexPairAt (nextLine f) (9 + j * 2) = some old ∧
      (j < r.len → (parseHexLine (some str0) f v).2.1.data j = old) := by
    by_cases hjl : j < r.len
    · refine ⟨r.data.getD j 0, ?_, fun _ => hdata j hjl⟩
      have := decodeData_get _ _ 0 _ b7 j hjl
      rwa [Nat.zero_add] at this
    · have e : j = r.len := by omega
      subst e
      exact ⟨cc, b8, fun hc => absurd hc hjl⟩
  obtain ⟨old, hold, hd⟩ := hfield
  refine ⟨old, hold, hd, ?_⟩
  intro k c1 c2 _ hnew
  have hin := hexPairAt_inside hold
  obtain ⟨s1, s2⟩ := hexPairAt_setPair (nextLine f) (9 + j * 2) c1 c2 hin
  have hline := nextLine_setPair f (9 + j * 2) c1 c2 _ hin hnew
  have hbad := decodeLine_changed (nextLine f) _ r j old (old ^^^ (1 <<< k)) hdl hj
    (by simp) (by rw [getD_set, getD_set, if_neg (by omega), if_neg (by omega)])
    (fun q hq => s2 q (Or.inl (by omega)))
    (fun i hi => s2 (9 + i * 2) (by omega)) hold (s1.trans hnew) (xor_bit_ne old k)
  rw [parseHexLine_code, hline, hbad]
  rfl

/-- In the line `:10000000214601360121470136007EFE09D2190141` the checksum
field denotes `0x41`, and the line with any one bit of it flipped is refused. -/
theorem parseHexLine_bit_flip_witness :
    (parseHexLine (some zeroBuf) (sampleText.chars ++ [13, 10]) zeroVars).1 = HEX_OK ∧
    16 ≤ (parseHexLine (some zeroBuf) (sampleText.chars ++ [13, 10]) zeroVars).2.1.len ∧
    ∃ old, hexPairAt (nextLine (sampleText.chars ++ [13, 10])) (9 + 16 * 2) = some old ∧
      (16 < (parseHexLine (some zeroBuf) (sampleText.chars ++ [13, 10]) zeroVars).2.1.len →
        (parseHexLine (some zeroBuf) (sampleText.chars ++ [13, 10]) zeroVars).2.1.data 16 = old) ∧
      ∀ k c1 c2, k < 8 → pairVal (c1, c2) = some (old ^^^ (1 <<< k)) →
        (parseHexLine (some zeroBuf)
          (((sampleText.chars ++ [13, 10]).set (9 + 16 * 2) c1).set (9 + 16 * 2 + 1) c2)
          zeroVars).1 = HEX_WRONGCRC :=
  ⟨by decide, by decide,
    parseHexLine_bit_flip zeroBuf zeroBuf (sampleText.chars ++ [13, 10]) zeroVars zeroVars
      (by decide) 16 (by decide)⟩

/-! ## C3: the encoder on a decoded record -/

theorem hexDigit_upper {c h : Nat} (hc : parseHexDigit c = some h) :
    (if h > 9 then 65 + h - 10 else 48 + h) = upperHex c := by
  unfold parseHexDigit at hc
  unfold upperHex
  split_ifs at hc with h1 h2 h3 <;> simp only [Option.some.injEq] at hc <;> subst hc <;>
    split_ifs <;> omega

/-- The encoder writes the upper-case form of any two digits that denote the byte. -/
theorem hexPair_upper {c1 c2 v : Nat} (h : pairVal (c1, c2) = some v) :
    hexPair v = (upperHex c1, upperHex c2) := by
  unfold pairVal at h
  split at h
  · rename_i a b ha hb
    simp only [Option.some.injEq] at h
    subst h
    have ha1 := parseHexDigit_lt ha
    have hb1 := parseHexDigit_lt hb
    have e1 : (16 * a + b) / 16 = a := by omega
    have e2 : (16 * a + b) &&& 0x0F = b := by
      rw [Nat.and_pow_two_sub_one_eq_mod _ 4]
      omega
    simp only [hexPair, hex, e1, e2, List.getD_cons_zero, List.getD_cons_succ]
    rw [hexDigit_upper ha, hexDigit_upper hb]
  · simp at h

theorem take_map_getD (n : Nat) : ∀ (l : List Nat), n ≤ l.length →
    l.take n = (List.range' 0 n).map (fun k => l.getD k 0) := by
  intro l h
  apply List.ext_getElem
  · simp [h]
  · intro i h1 h2
    simp only [List.length_take, lt_min_iff] at h1
    simp [List.getElem?_eq_getElem h1.2]

theorem decodeData_eq_map (line : List Nat) (n : Nat) :
    ∀ i ds, decodeData line n i = some ds →
      ds = (List.range' i n).map (fun j => (hexPairAt line (9 + j * 2)).getD 0) := by
  induction n with
  | zero =>
    intro i ds h
    simpa [decodeData] using h.symm
  | succ n ih =>
    intro i ds h
    simp only [decodeData] at h
    cases hd : hexPairAt line (9 + i * 2) with
    | none => simp [hd] at h
    | some d =>
      cases hr : decodeData line n (i + 1) with
      | none => simp [hd, hr] at h
      | some ds0 =>
        simp only [hd, hr, Option.some.injEq] at h
        subst h
        rw [List.range'_succ, List.map_cons, hd, ← ih (i + 1) ds0 hr]
        rfl

/-- The text of the encoder for the record a line decodes to, when the record
is a data record of sixteen bytes: the first 43 characters of the line in
upper case. -/
theorem recordText_of_decodeLine (line : List Nat) (r : HexRecord)
    (h : decodeLine line = .ok r) (hlen : r.len = 16) (htype : r.type = 0) (d : Buf)
    (hd : ∀ j, j < 16 → d j = r.data.getD j 0) (crc : Nat)
    (hcrc : crc = (16 + r.addr / 256 + (r.addr &&& 0xFF) + ((List.range' 0 16).map d).sum) % 256) :
    43 ≤ line.length ∧
      (recordText r.addr d crc).chars = (line.take 43).map upperHex := by
  obtain ⟨_, a2, ah, al, cc, b1, _, b3, b4, b5, _, b7, b8, b9, b10⟩ := decodeLine_fields h
  rw [hlen] at b1 b7 b8 b9
  rw [htype] at b5 b9
  have hah := hexPairAt_lt b3
  have hal := hexPairAt_lt b4
  have hcc := hexPairAt_lt b8
  have h43 : 43 ≤ line.length := by
    have := hexPairAt_inside b8
    omega
  refine ⟨h43, ?_⟩
  have hdata := decodeData_eq_map line 16 0 r.data b7
  have hsum : ((List.range' 0 16).map d).sum = r.data.sum := by
    rw [hdata]
    congr 1
    apply List.map_congr_left
    intro j hj
    have hj16 : j < 16 := by simpa using hj
    rw [hd j hj16]
    have := decodeData_get line 16 0 r.data b7 j hj16
    rw [Nat.zero_add] at this
    rw [this]
    rfl
  have hand : r.addr &&& 0xFF = r.addr % 256 := Nat.and_pow_two_sub_one_eq_mod r.addr 8
  rw [hsum, hand, b10] at hcrc
  have e1a : (ah * 256 + al) / 256 = ah := by omega
  have e1 : (ah * 256 + al) / 256 % 256 = ah := by omega
  have e2 : (ah * 256 + al) % 256 = al := by omega
  have e3 : (256 - crc) % 256 = cc := by
    have key : ∀ S x, x < 256 → (16 + ah + al + 0 + S + x) % 256 = 0 →
        (256 - (16 + ah + al + S) % 256) % 256 = x := by
      intro S x h1 h2
      omega
    rw [hcrc, e1a, e2]
    exact key _ _ hcc b9
  have p1 : ((49 : Nat), (48 : Nat)) = (upperHex (line.getD 1 0), upperHex (line.getD 2 0)) :=
    @hexPair_upper (line.getD 1 0) (line.getD 2 0) 16 b1
  have p3 := @hexPair_upper (line.getD 3 0) (line.getD 4 0) ah b3
  have p5 := @hexPair_upper (line.getD 5 0) (line.getD 6 0) al b4
  have p7 : ((48 : Nat), (48 : Nat)) = (upperHex (line.getD 7 0), upperHex (line.getD 8 0)) :=
    @hexPair_upper (line.getD 7 0) (line.getD 8 0) 0 b5
  have p41 := @hexPair_upper (line.getD 41 0) (line.getD 42 0) cc b8
  have pd : ((List.range' 0 16).map fun i => hexPair (d i)) =
      (List.range' 0 16).map fun i =>
        (upperHex (line.getD (9 + i * 2) 0), upperHex (line.getD (9 + i * 2 + 1) 0)) := by
    apply List.map_congr_left
    intro j hj
    have hj16 : j < 16 := by simpa using hj
    have := decodeData_get line 16 0 r.data b7 j hj16
    rw [Nat.zero_add] at this
    rw [hd j hj16]
    exact hexPair_upper this
  have p0 : (58 : Nat) = upperHex (line.getD 0 0) := by rw [a2]; rfl
  have ht : recordText r.addr d crc =
      { ll := (upperHex (line.getD 1 0), upperHex (line.getD 2 0)),
        ah := (upperHex (line.getD 3 0), upperHex (line.getD 4 0)),
        al := (upperHex (line.getD 5 0), upperHex (line.getD 6 0)),
        tt := (upperHex (line.getD 7 0), upperHex (line.getD 8 0)),
        dd := (List.range' 0 16).map fun i =>
          (upperHex (line.getD (9 + i * 2) 0), upperHex (line.getD (9 + i * 2 + 1) 0)),
        cc := (upperHex (line.getD 41 0), upperHex (line.getD 42 0)) } := by
    simp only [recordText, b10, e1, e2, e3, HEX_PAGE_SIZE, pd, p3, p5, p41]
    rw [p1, p7]
  rw [take_map_getD 43 line h43, List.map_map, ht, HexText.chars]
  simp only []
  rw [p0]
  rfl

/-- C3, as stated, fails on a line with a character after the checksum. The
file `trailingFile` starts with the 44-character line
`:10000000214601360121470136007efe09d2190141 `, a well-formed record followed
by a space. `parseHexLine` reads exactly that line, leaves the file at the
next record, and returns `HEX_OK` with type `HEX_BIN` and `len = 16`. The text
the dump encoder writes for the decoded address and data is the record in
upper case without the space: it differs from the upper-case form of the line,
with or without the CR LF that the encoder appends. -/
theorem parseHexLine_trailing_not_reencoded :
    (parseHexLine (some zeroBuf) trailingFile zeroVars).1 = HEX_OK ∧
    (parseHexLine (some zeroBuf) trailingFile zeroVars).2.1.type = HEX_BIN ∧
    (parseHexLine (some zeroBuf) trailingFile zeroVars).2.1.len = 16 ∧
    (parseHexLine (some zeroBuf) trailingFile zeroVars).2.2 = endRecord ∧
    nextLine trailingFile = bytes ":10000000214601360121470136007efe09d2190141 " ∧
    (nextLine trailingFile).map upperHex =
      bytes ":10000000214601360121470136007EFE09D2190141 " ∧
    encodeDataRecord (parseHexLine (some zeroBuf) trailingFile zeroVars).2.1.addr
        (parseHexLine (some zeroBuf) trailingFile zeroVars).2.1.data =
      bytes ":10000000214601360121470136007EFE09D2190141\r\n" ∧
    encodeDataRecord (parseHexLine (some zeroBuf) trailingFile zeroVars).2.1.addr
        (parseHexLine (some zeroBuf) trailingFile zeroVars).2.1.data ≠
      (nextLine trailingFile).map upperHex ∧
    encodeDataRecord (parseHexLine (some zeroBuf) trailingFile zeroVars).2.1.addr
        (parseHexLine (some zeroBuf) trailingFile zeroVars).2.1.data ≠
      (nextLine trailingFile).map upperHex ++ [13, 10] := by
  decide

/-- C3, amended. For every file whose next line `parseHexLine` accepts with
`HEX_OK`, type `HEX_BIN` and `len = 16`, whatever the line buffer and the
output parameters held before, the line has at least 43 characters, and the
text the dump encoder writes for the decoded address and data bytes is the
first 43 characters of the line (the record up to and including its checksum),
hex digits in upper case, followed by CR LF. Characters of the line after the
checksum are not reproduced. -/
theorem parseHexLine_reencoded (str0 : Buf) (f : List Nat) (v : HexVars)
    (hok : (parseHexLine (some str0) f v).1 = HEX_OK)
    (htype : (parseHexLine (some str0) f v).2.1.type = HEX_BIN)
    (hlen : (parseHexLine (some str0) f v).2.1.len = 16) :
    43 ≤ (nextLine f).length ∧
    encodeDataRecord (parseHexLine (some str0) f v).2.1.addr
        (parseHexLine (some str0) f v).2.1.data =
      ((nextLine f).take 43).map upperHex ++ [13, 10] := by
  obtain ⟨r, hdl, el, ea, et, hdata⟩ := parseHexLine_ok_record str0 f v hok
  obtain ⟨_, haddr, _, _, hbytes⟩ := decodeLine_ok hdl
  rw [el] at hlen
  rw [et] at htype
  rw [hlen] at hdata hbytes
  obtain ⟨d, crc, he, hd, hcrc⟩ := encodeDataRecord_eq (parseHexLine (some str0) f v).2.1.addr
    (parseHexLine (some str0) f v).2.1.data (by rw [ea]; exact haddr)
    (fun j hj => by rw [hdata j hj]; exact hbytes j hj)
  rw [ea] at he hcrc
  obtain ⟨h43, hchars⟩ := recordText_of_decodeLine (nextLine f) r hdl hlen htype d
    (fun j hj => by rw [hd j hj, hdata j hj]) crc hcrc
  refine ⟨h43, ?_⟩
  rw [ea, he, printRecord_eq, hchars]

/-- The first line of `trailingFile`, in lower case and with a space after the
checksum, is accepted, and the encoder writes its first 43 characters in upper
case. -/
theorem parseHexLine_reencoded_witness :
    encodeDataRecord (parseHexLine (some zeroBuf) trailingFile zeroVars).2.1.addr
        (parseHexLine (some zeroBuf) trailingFile zeroVars).2.1.data =
      ((nextLine trailingFile).take 43).map upperHex ++ [13, 10] :=
  (parseHexLine_reencoded zeroBuf trailingFile zeroVars (by decide) (by decide) (by decide)).2

/-! ## C13: entering programming mode -/

theorem syncEvents_append (a b : List (Nat × Nat × Nat × Nat)) :
    syncEvents (a ++ b) = syncEvents a ++ syncEvents b := by
  induction a with
  | nil => rfl
  | cons r a ih => simp [syncEvents, ih]

/-- The loop of `ispBegin` with `n` attempts left: failed attempts, each with
its reset pulse, then either a successful attempt or no attempt left. -/
theorem ispBeginLoop_attempts {σ : Type} (T : Target σ) (n : Nat) :
    ∀ (s : Isp σ) (b : Bool), ∃ fails : List (Nat × Nat × Nat × Nat),
      (∀ r ∈ fails, attemptOk r = false) ∧
      ((∃ r, attemptOk r = true ∧ fails.length < n ∧ (ispBeginLoop T n s b).2 = true ∧
          (ispBeginLoop T n s b).1.log = (syncEvents (fails ++ [r])).reverse ++ s.log) ∨
        (fails.length = n ∧ (ispBeginLoop T n s b).2 = (if n = 0 then b else false) ∧
          (ispBeginLoop T n s b).1.log = (syncEvents fails).reverse ++ s.log)) := by
  induction n with
  | zero =>
    intro s b
    exact ⟨[], by simp, Or.inr ⟨rfl, rfl, rfl⟩⟩
  | succ n ih =>
    intro s b
    let s1 := delay T (setReset T s false) 20
    let t1 := ispTransfer T s1 0xAC
    let t2 := ispTransfer T t1.1 0x53
    let t3 := ispTransfer T t2.1 0x00
    let t4 := ispTransfer T t3.1 0x00
    let r : Nat × Nat × Nat × Nat := (t1.2, t2.2, t3.2, t4.2)
    have hlog : t4.1.log = (attemptEvents r).reverse ++ s.log := rfl
    by_cases hok : t3.2 = 0x53
    · have hr : attemptOk r = true := by simp [attemptOk, r, hok]
      have hloop : ispBeginLoop T (n + 1) s b = (t4.1, true) := by
        have hd : decide (t3.2 = 0x53) = true := by simpa using hok
        show (if decide (t3.2 = 0x53) = true then (t4.1, decide (t3.2 = 0x53))
          else ispBeginLoop T n (ispReset T t4.1) (decide (t3.2 = 0x53))) = _
        rw [hd]
        rfl
      refine ⟨[], by simp, Or.inl ⟨r, hr, by simp, by rw [hloop], ?_⟩⟩
      rw [hloop]
      simp only [List.nil_append, syncEvents, hr, if_true, List.append_nil]
      exact hlog
    · have hr : attemptOk r = false := by simp [attemptOk, r, hok]
      have hloop : ispBeginLoop T (n + 1) s b = ispBeginLoop T n (ispReset T t4.1) false := by
        have hd : decide (t3.2 = 0x53) = false := by simpa using hok
        show (if decide (t3.2 = 0x53) = true then (t4.1, decide (t3.2 = 0x53))
          else ispBeginLoop T n (ispReset T t4.1) (decide (t3.2 = 0x53))) = _
        rw [hd]
        rfl
      have hplog : (ispReset T t4.1).log =
          (attemptEvents r ++ pulseEvents).reverse ++ s.log := by
        show pulseEvents.reverse ++ t4.1.log = _
        rw [hlog, List.reverse_append, List.append_assoc]
      obtain ⟨fails, hf, hcase⟩ := ih (ispReset T t4.1) false
      refine ⟨r :: fails, ?_, ?_⟩
      · intro x hx
        rcases List.mem_cons.mp hx with rfl | hx
        · exact hr
        · exact hf x hx
      rw [hloop]
      rcases hcase with ⟨r2, h1, h2, h3, h4⟩ | ⟨h2, h3, h4⟩
      · refine Or.inl ⟨r2, h1, by simpa using h2, h3, ?_⟩
        rw [h4, hplog]
        simp [syncEvents, hr]
      · refine Or.inr ⟨by simpa using h2, ?_, ?_⟩
        · rw [h3]
          simp
        · rw [h4, hplog]
          simp [syncEvents, hr]

/-- C13. Whatever the target answers, `ispBegin` makes a number of failed
attempts and then either a successful one, at most five attempts in all, and
returns true, or none after five failed attempts, and returns false. Each
attempt drives reset low, waits 20 ms and transfers exactly `AC 53 00 00`; it
succeeds exactly when the byte received during the third transfer is `0x53`;
every failed attempt, the fifth included, is followed by a reset pulse, and
nothing follows the successful attempt. -/
theorem ispBegin_attempts {σ : Type} (T : Target σ) (s : Isp σ) :
    ∃ fails : List (Nat × Nat × Nat × Nat),
      (∀ r ∈ fails, attemptOk r = false) ∧
      ((∃ r, attemptOk r = true ∧ fails.length < 5 ∧ (ispBegin T s).2 = true ∧
          trace (ispBegin T s).1.log = trace s.log ++ syncEvents (fails ++ [r])) ∨
        (fails.length = 5 ∧ (ispBegin T s).2 = false ∧
          trace (ispBegin T s).1.log = trace s.log ++ syncEvents fails)) := by
  obtain ⟨fails, hf, hcase⟩ := ispBeginLoop_attempts T 5 s false
  refine ⟨fails, hf, ?_⟩
  rcases hcase with ⟨r, h1, h2, h3, h4⟩ | ⟨h2, h3, h4⟩
  · refine Or.inl ⟨r, h1, h2, h3, ?_⟩
    unfold ispBegin trace
    rw [h4]
    simp
  · refine Or.inr ⟨h2, by simpa using h3, ?_⟩
    unfold ispBegin trace
    rw [h4]
    simp

/-! ## C20: the frames of a flash page write -/

theorem loadFrames_eq (page : Buf) (hpage : ∀ x, x < 128 → page x < 256) (n : Nat) :
    ∀ i, i + n ≤ 64 → loadFrames page n i =
      (List.range' i n).flatMap fun k => [[0x40, 0x00, k, page (2 * k)], [0x48, 0x00, k, page (2 * k + 1)]] := by
  induction n with
  | zero => intro i _; rfl
  | succ n ih =>
    intro i hi
    simp only [loadFrames, List.range'_succ, List.flatMap_cons]
    rw [ih (i + 1) (by omega), Nat.mod_eq_of_lt (show i < 256 by omega),
      Nat.mod_eq_of_lt (hpage (i * 2) (by omega)), Nat.mod_eq_of_lt (hpage (i * 2 + 1) (by omega)),
      Nat.mul_comm i 2]
    rfl

theorem wordAddr_pageBase (a : Nat) (ha : a < 65536) : a / 2 &&& 0xFFC0 = pageBase a / 2 := by
  rw [and_FFC0 _ (by omega)]
  unfold pageBase
  omega

/-- C20. For every flash byte address `a < 32768` and every page buffer of 128
bytes, `ispWriteFlashPage` first sends, for `i = 0..63` in ascending order, the
frame `40 00 i page[2i]` and then the frame `48 00 i page[2i+1]`, and after them
the one frame `4C hi lo 00` in which `hi:lo` is the word address of the page
base `a - a mod 128`, which is `a / 2` masked with `0xFFC0`. These 129 frames
are sent whatever the target answers; the rest of the call (the wait and the
verification) starts from the state `s1` they lead to. -/
theorem ispWriteFlashPage_frames {σ : Type} (T : Target σ) (fuel : Nat) (s : Isp σ) (a : Nat)
    (page : Buf) (verify : Bool) (ha : a < 32768) (hpage : ∀ x, x < 128 → page x < 256)
    (hs : Framed s.log) :
    ∃ s1 : Isp σ, Framed s1.log ∧
      frames s1.log = frames s.log ++
        ((List.range' 0 64).flatMap fun i =>
          [[0x40, 0x00, i, page (2 * i)], [0x48, 0x00, i, page (2 * i + 1)]]) ++
        [[0x4C, pageBase a / 2 / 256, pageBase a / 2 % 256, 0x00]] ∧
      pageBase a / 2 = a / 2 &&& 0xFFC0 ∧
      ispWriteFlashPage T fuel s a page verify =
        (ispWait T fuel s1).map fun s2 =>
          if verify then verifyFlashPage T (pageBase a / 2) page 64 0 s2 else (s2, true) := by
  have hw := wordAddr_pageBase a (by omega)
  have h1 := sends_loadFlashPage T page 64 0 s
  have h2 := sends_ispCommand T (loadFlashPage T page 64 0 s) 0x4C
    (pageBase a / 2 / 256) (pageBase a / 2) 0
  obtain ⟨f1, f2⟩ := (h1.trans h2) hs
  refine ⟨_, f1, ?_, hw.symm, ?_⟩
  · rw [f2, loadFrames_eq page hpage 64 0 (by omega)]
    have hb : pageBase a / 2 / 256 < 256 := by
      unfold pageBase
      omega
    rw [Nat.mod_eq_of_lt hb]
    simp
  · simp only [ispWriteFlashPage, FLASH_PAGE_SIZE, hw]
    cases ispWait T fuel (ispCommand T (loadFlashPage T page 64 0 s) 0x4C
      (pageBase a / 2 / 256) (pageBase a / 2) 0).1 with
    | none => rfl
    | some s2 => cases verify <;> rfl

/-- The page write for byte address `0x00C5` with the page buffer `0, 1, ..., 127`. -/
theorem ispWriteFlashPage_frames_witness :
    ∃ s1 : Isp Avr, Framed s1.log ∧
      frames s1.log = frames blankLink.log ++
        ((List.range' 0 64).flatMap fun i =>
          [[0x40, 0x00, i, 2 * i % 256], [0x48, 0x00, i, (2 * i + 1) % 256]]) ++
        [[0x4C, pageBase 0x00C5 / 2 / 256, pageBase 0x00C5 / 2 % 256, 0x00]] ∧
      pageBase 0x00C5 / 2 = 0x00C5 / 2 &&& 0xFFC0 ∧
      ispWriteFlashPage (avr (idealChip 2)) 5 blankLink 0x00C5 (fun x => x % 256) true =
        (ispWait (avr (idealChip 2)) 5 s1).map fun s2 =>
          if true then verifyFlashPage (avr (idealChip 2)) (pageBase 0x00C5 / 2)
            (fun x => x % 256) 64 0 s2
          else (s2, true) :=
  ispWriteFlashPage_frames (avr (idealChip 2)) 5 blankLink 0x00C5 (fun x => x % 256) true
    (by decide) (fun x _ => Nat.mod_lt x (by decide)) (by rfl)

/-! ## Polled traces -/

theorem Seg.nil (W F : Nat → Nat → Prop) : Seg W F [] := fun _ h => h

theorem Seg.append {W F : Nat → Nat → Prop} {a b : List Event} (ha : Seg W F a) (hb : Seg W F b) :
    Seg W F (a ++ b) := by
  intro rest h
  rw [List.append_assoc]
  exact ha _ (hb _ h)

theorem Seg.toPolled {W F : Nat → Nat → Prop} {a : List Event} (ha : Seg W F a) : Polled W F false a := by
  have := ha [] Polled.done
  simpa using this

theorem Polls.waited {W F : Nat → Nat → Prop} {ps : List Event} (h : Polls ps) :
    ∀ rest, Polled W F false rest → Polled W F true (ps ++ rest) := by
  induction h with
  | ready r1 r2 r3 r4 h => intro rest hr; exact Polled.ready r1 r2 r3 r4 h _ hr
  | busy r1 r2 r3 r4 h rest hrest ih =>
    intro tail ht
    exact Polled.busy r1 r2 r3 r4 h _ (ih tail ht)

theorem Does.same {σ : Type} (W F : Nat → Nat → Prop) (s : Isp σ) : Does W F s s :=
  ⟨[], rfl, Seg.nil W F⟩

theorem Does.andThen {σ : Type} {W F : Nat → Nat → Prop} {s1 s2 s3 : Isp σ}
    (h1 : Does W F s1 s2) (h2 : Does W F s2 s3) : Does W F s1 s3 := by
  obtain ⟨a, ha, sa⟩ := h1
  obtain ⟨b, hb, sb⟩ := h2
  exact ⟨a ++ b, by rw [hb, ha, List.reverse_append, List.append_assoc], sa.append sb⟩

theorem does_delay {σ : Type} (W F : Nat → Nat → Prop) (T : Target σ) (s : Isp σ) (ms : Nat) :
    Does W F s (delay T s ms) :=
  ⟨[Event.delay ms], rfl, fun _ h => Polled.delay ms _ h⟩

theorem does_setReset {σ : Type} (W F : Nat → Nat → Prop) (T : Target σ) (s : Isp σ)
    (level : Bool) : Does W F s (setReset T s level) :=
  ⟨[Event.rst level], rfl, fun _ h => Polled.rst level _ h⟩

theorem does_ispReset {σ : Type} (W F : Nat → Nat → Prop) (T : Target σ) (s : Isp σ) :
    Does W F s (ispReset T s) :=
  ((does_setReset W F T s true).andThen (does_delay W F T _ 1)).andThen (does_setReset W F T _ false)

/-- The events of `ispCommand`: four transfers. -/
theorem ispCommand_log {σ : Type} (T : Target σ) (s : Isp σ) (c1 c2 c3 c4 : Nat) :
    ∃ r1 r2 r3, (ispCommand T s c1 c2 c3 c4).1.log =
      [Event.xfer (c1 % 256) r1, Event.xfer (c2 % 256) r2, Event.xfer (c3 % 256) r3,
        Event.xfer (c4 % 256) (ispCommand T s c1 c2 c3 c4).2].reverse ++ s.log :=
  ⟨_, _, _, rfl⟩

/-- A frame that is not a write. -/
theorem does_ispCommand {σ : Type} (W F : Nat → Nat → Prop) (T : Target σ) (s : Isp σ)
    (c1 c2 c3 c4 : Nat) (hw : ¬ W (c1 % 256) (c2 % 256)) (hf : ¬ F (c1 % 256) (c2 % 256)) :
    Does W F s (ispCommand T s c1 c2 c3 c4).1 := by
  obtain ⟨r1, r2, r3, h⟩ := ispCommand_log T s c1 c2 c3 c4
  exact ⟨_, h, fun _ hr => Polled.frame _ _ _ _ _ _ _ _ hw hf _ hr⟩

/-- A write frame of the kind that is followed by a reset pulse, and the pulse. -/
theorem does_pulsed {σ : Type} (W F : Nat → Nat → Prop) (T : Target σ) (s : Isp σ)
    (c1 c2 c3 c4 : Nat) (hf : F (c1 % 256) (c2 % 256)) :
    Does W F s (ispReset T (ispCommand T s c1 c2 c3 c4).1) := by
  obtain ⟨r1, r2, r3, h⟩ := ispCommand_log T s c1 c2 c3 c4
  refine ⟨[Event.xfer (c1 % 256) r1, Event.xfer (c2 % 256) r2, Event.xfer (c3 % 256) r3,
    Event.xfer (c4 % 256) (ispCommand T s c1 c2 c3 c4).2, Event.rst true, Event.delay 1,
    Event.rst false], ?_, fun _ hr => Polled.pulsed _ _ _ _ _ _ _ _ hf _ hr⟩
  show Event.rst false :: Event.delay 1 :: Event.rst true :: (ispCommand T s c1 c2 c3 c4).1.log = _
  rw [h]
  rfl

/-- The events of a wait that ends: polling until ready. -/
theorem ispWait_polls {σ : Type} (T : Target σ) (fuel : Nat) :
    ∀ (s s' : Isp σ), ispWait T fuel s = some s' →
      ∃ ps, Polls ps ∧ s'.log = ps.reverse ++ s.log := by
  induction fuel with
  | zero => intro s s' h; simp [ispWait] at h
  | succ fuel ih =>
    intro s s' h
    simp only [ispWait] at h
    obtain ⟨r1, r2, r3, hlog⟩ := ispCommand_log T s 0xF0 0x00 0x00 0x00
    split_ifs at h with hb
    · obtain ⟨ps, hps, hl⟩ := ih _ _ h
      refine ⟨_, Polls.busy r1 r2 r3 _ hb ps hps, ?_⟩
      rw [hl]
      show ps.reverse ++ (Event.delay 1 :: (ispCommand T s 0xF0 0x00 0x00 0x00).1.log) = _
      rw [hlog]
      simp
    · simp only [Option.some.injEq] at h
      subst h
      exact ⟨_, Polls.ready r1 r2 r3 _ (by simpa using hb), hlog⟩

/-- A write frame followed by a wait that ends. -/
theorem does_write {σ : Type} (W F : Nat → Nat → Prop) (T : Target σ) (fuel : Nat) (s s' : Isp σ)
    (c1 c2 c3 c4 : Nat) (hw : W (c1 % 256) (c2 % 256))
    (h : ispWait T fuel (ispCommand T s c1 c2 c3 c4).1 = some s') : Does W F s s' := by
  obtain ⟨r1, r2, r3, hlog⟩ := ispCommand_log T s c1 c2 c3 c4
  obtain ⟨ps, hps, hl⟩ := ispWait_polls T fuel _ _ h
  refine ⟨[Event.xfer (c1 % 256) r1, Event.xfer (c2 % 256) r2, Event.xfer (c3 % 256) r3,
        Event.xfer (c4 % 256) (ispCommand T s c1 c2 c3 c4).2] ++ ps, ?_, ?_⟩
  · rw [hl, hlog]
    simp
  · intro rest hr
    exact Polled.write _ _ _ _ _ _ _ _ hw _ (by simpa using hps.waited rest hr)

theorem not_memoryWrite (c1 c2 : Nat)
    (h : c1 ≠ 0x4C ∧ c1 ≠ 0xC0 ∧ c1 ≠ 0xC2 ∧ (c1 ≠ 0xAC ∨ c2 ≠ 0x80)) : ¬ MemoryWrite c1 c2 := by
  unfold MemoryWrite
  omega

theorem not_fuseWrite (c1 c2 : Nat)
    (h : c1 ≠ 0xAC ∨ (c2 ≠ 0xA0 ∧ c2 ≠ 0xA8 ∧ c2 ≠ 0xA4 ∧ c2 ≠ 0xE0)) : ¬ FuseWrite c1 c2 := by
  unfold FuseWrite
  omega

/-- A frame that is no write of any kind. -/
theorem does_read {σ : Type} (T : Target σ) (s : Isp σ) (c1 c2 c3 c4 : Nat)
    (h : c1 % 256 ≠ 0x4C ∧ c1 % 256 ≠ 0xC0 ∧ c1 % 256 ≠ 0xC2 ∧ c1 % 256 ≠ 0xAC) :
    Does MemoryWrite FuseWrite s (ispCommand T s c1 c2 c3 c4).1 :=
  does_ispCommand _ _ T s c1 c2 c3 c4 (not_memoryWrite _ _ (by omega)) (not_fuseWrite _ _ (by omega))

theorem does_loadFlashPage {σ : Type} (T : Target σ) (page : Buf) (n : Nat) :
    ∀ (i : Nat) (s : Isp σ), Does MemoryWrite FuseWrite s (loadFlashPage T page n i s) := by
  induction n with
  | zero => intro i s; exact Does.same _ _ s
  | succ n ih =>
    intro i s
    simp only [loadFlashPage]
    exact ((does_read T s 0x40 0x00 i _ (by omega)).andThen
      (does_read T _ 0x48 0x00 i _ (by omega))).andThen (ih _ _)

theorem does_ispReadFlash {σ : Type} (T : Target σ) (s : Isp σ) (addr : Nat) :
    Does MemoryWrite FuseWrite s (ispReadFlash T s addr).1 := by
  unfold ispReadFlash
  apply does_read
  rw [Nat.and_one_is_mod]
  omega

theorem does_ispReadEeprom {σ : Type} (T : Target σ) (s : Isp σ) (addr : Nat) :
    Does MemoryWrite FuseWrite s (ispReadEeprom T s addr).1 := by
  unfold ispReadEeprom
  exact does_read T s _ _ _ _ (by omega)

theorem does_verifyFlashPage {σ : Type} (T : Target σ) (addr : Nat) (page : Buf) (n : Nat) :
    ∀ (i : Nat) (s : Isp σ), Does MemoryWrite FuseWrite s (verifyFlashPage T addr page n i s).1 := by
  induction n with
  | zero => intro i s; exact Does.same _ _ s
  | succ n ih =>
    intro i s
    simp only [verifyFlashPage]
    have h1 := does_ispReadFlash T s ((addr * 2 + i * 2) % 65536)
    have h2 := does_ispReadFlash T (ispReadFlash T s ((addr * 2 + i * 2) % 65536)).1
      ((addr * 2 + i * 2 + 1) % 65536)
    split_ifs
    · exact h1
    · exact h1.andThen h2
    · exact (h1.andThen h2).andThen (ih _ _)

theorem does_ispWriteFlashPage {σ : Type} (T : Target σ) (fuel : Nat) (s s' : Isp σ)
    (addr : Nat) (page : Buf) (verify res : Bool)
    (h : ispWriteFlashPage T fuel s addr page verify = some (s', res)) :
    Does MemoryWrite FuseWrite s s' := by
  simp only [ispWriteFlashPage] at h
  have h1 := does_loadFlashPage T page FLASH_PAGE_SIZE 0 s
  cases hw : ispWait T fuel (ispCommand T (loadFlashPage T page FLASH_PAGE_SIZE 0 s) 0x4C
    ((addr / 2 &&& 0xFFC0) / 256) (addr / 2 &&& 0xFFC0) 0).1 with
  | none => rw [hw] at h; simp at h
  | some s1 =>
    rw [hw] at h
    have h2 := does_write MemoryWrite FuseWrite T fuel _ _ _ _ _ _ (Or.inl rfl) hw
    cases verify with
    | false =>
      simp only [Bool.false_eq_true, if_false, Option.some.injEq, Prod.mk.injEq] at h
      rw [← h.1]
      exact h1.andThen h2
    | true =>
      simp only [if_true, Option.some.injEq] at h
      have h3 := does_verifyFlashPage T (addr / 2 &&& 0xFFC0) page FLASH_PAGE_SIZE 0 s1
      rw [h] at h3
      exact (h1.andThen h2).andThen h3

theorem does_ispChipErase {σ : Type} (T : Target σ) (fuel : Nat) (s s' : Isp σ)
    (h : ispChipErase T fuel s = some s') : Does MemoryWrite FuseWrite s s' :=
  does_write MemoryWrite FuseWrite T fuel s s' 0xAC 0x80 0x00 0x00 (Or.inr (Or.inr (Or.inr ⟨rfl, rfl⟩))) h

theorem does_ispWriteEeprom {σ : Type} (T : Target σ) (fuel : Nat) (s s' : Isp σ)
    (addr data : Nat) (verify res : Bool)
    (h : ispWriteEeprom T fuel s addr data verify = some (s', res)) : Does MemoryWrite FuseWrite s s' := by
  simp only [ispWriteEeprom] at h
  cases hw : ispWait T fuel (ispCommand T s 0xC0 (addr / 256) addr data).1 with
  | none => rw [hw] at h; simp at h
  | some s1 =>
    rw [hw] at h
    have h2 := does_write MemoryWrite FuseWrite T fuel _ _ _ _ _ _ (Or.inr (Or.inl rfl)) hw
    cases verify with
    | false =>
      simp only [Bool.false_eq_true, if_false, Option.some.injEq, Prod.mk.injEq] at h
      rw [← h.1]
      exact h2
    | true =>
      simp only [if_true, Option.some.injEq, Prod.mk.injEq] at h
      rw [← h.1]
      exact h2.andThen (does_ispReadEeprom T s1 addr)

theorem does_programFlashStep {σ : Type} (T : Target σ) (heap : Nat → Option Buf) (fuel : Nat)
    (p p' : Prog σ) (ok brk : Bool) (h : programFlashStep T heap fuel p = some (ok, brk, p')) :
    Does MemoryWrite FuseWrite p.isp p'.isp := by
  unfold programFlashStep at h
  simp only at h
  split_ifs at h
  all_goals first
    | (simp only [Option.some.injEq, Prod.mk.injEq] at h
       obtain ⟨_, _, rfl⟩ := h
       first
         | exact Does.same _ _ _
         | exact does_read T _ 0x4D 0x00 _ 0x00 (by omega))
    | (split at h
       all_goals first
         | (simp at h; done)
         | (rename_i heq
            simp only [Option.some.injEq, Prod.mk.injEq] at h
            obtain ⟨_, _, rfl⟩ := h
            exact does_ispWriteFlashPage T fuel _ _ _ _ _ _ heq))

theorem does_programFlashLoop {σ : Type} (T : Target σ) (heap : Nat → Option Buf) (fuel : Nat)
    (n : Nat) : ∀ (p p' : Prog σ) (ok : Bool),
      programFlashLoop T heap fuel n p = some (ok, p') → Does MemoryWrite FuseWrite p.isp p'.isp := by
  induction n with
  | zero => intro p p' ok h; simp [programFlashLoop] at h
  | succ n ih =>
    intro p p' ok h
    simp only [programFlashLoop] at h
    cases hs : programFlashStep T heap fuel p with
    | none => rw [hs] at h; simp at h
    | some r =>
      obtain ⟨ok1, brk, p1⟩ := r
      rw [hs] at h
      have h1 := does_programFlashStep T heap fuel p p1 ok1 brk hs
      simp only at h
      split_ifs at h with hb ho
      · simp only [Option.some.injEq, Prod.mk.injEq] at h
        rw [← h.2]
        exact h1
      · exact h1.andThen (ih _ _ _ h)
      · simp only [Option.some.injEq, Prod.mk.injEq] at h
        rw [← h.2]
        exact h1

theorem does_programFlash {σ : Type} (T : Target σ) (fuel : Nat) (file : Option (List Nat))
    (pageHeap dataHeap : Option Buf) (heap : Nat → Option Buf) (v0 : HexVars) (s : Isp σ)
    (ok : Bool) (p : Prog σ)
    (h : programFlash T fuel file pageHeap dataHeap heap v0 s = some (ok, p)) :
    Does MemoryWrite FuseWrite s p.isp := by
  unfold programFlash at h
  simp only at h
  split at h
  · cases he : ispChipErase T fuel s with
    | none => rw [he] at h; simp at h
    | some s1 =>
      rw [he] at h
      exact (does_ispChipErase T fuel s s1 he).andThen (does_programFlashLoop T heap fuel fuel _ _ _ h)
  · simp only [Option.some.injEq, Prod.mk.injEq] at h
    rw [← h.2]
    exact Does.same _ _ _

theorem does_writeEepromBytes {σ : Type} (T : Target σ) (fuel : Nat) (addr : Nat) (data : Buf)
    (n : Nat) : ∀ (i : Nat) (s s' : Isp σ) (res : Bool),
      writeEepromBytes T fuel addr data n i s = some (s', res) →
        Does MemoryWrite FuseWrite s s' := by
  induction n with
  | zero =>
    intro i s s' res h
    simp only [writeEepromBytes, Option.some.injEq, Prod.mk.injEq] at h
    rw [← h.1]
    exact Does.same _ _ s
  | succ n ih =>
    intro i s s' res h
    simp only [writeEepromBytes] at h
    split at h
    · simp at h
    · rename_i s1 heq
      simp only [Option.some.injEq, Prod.mk.injEq] at h
      rw [← h.1]
      exact does_ispWriteEeprom T fuel _ _ _ _ _ _ heq
    · rename_i s1 heq
      exact (does_ispWriteEeprom T fuel _ _ _ _ _ _ heq).andThen (ih _ _ _ _ h)

theorem does_programEepromStep {σ : Type} (T : Target σ) (heap : Nat → Option Buf) (fuel : Nat)
    (p p' : Prog σ) (ok brk : Bool) (h : programEepromStep T heap fuel p = some (ok, brk, p')) :
    Does MemoryWrite FuseWrite p.isp p'.isp := by
  unfold programEepromStep at h
  simp only at h
  split_ifs at h
  all_goals first
    | (simp only [Option.some.injEq, Prod.mk.injEq] at h
       obtain ⟨_, _, rfl⟩ := h
       exact Does.same _ _ _)
    | (split at h
       all_goals first
         | (simp at h; done)
         | (rename_i heq
            simp only [Option.some.injEq, Prod.mk.injEq] at h
            obtain ⟨_, _, rfl⟩ := h
            exact does_writeEepromBytes T fuel _ _ _ _ _ _ _ heq))

theorem does_programEepromLoop {σ : Type} (T : Target σ) (heap : Nat → Option Buf) (fuel : Nat)
    (n : Nat) : ∀ (p p' : Prog σ) (ok : Bool),
      programEepromLoop T heap fuel n p = some (ok, p') →
        Does MemoryWrite FuseWrite p.isp p'.isp := by
  induction n with
  | zero => intro p p' ok h; simp [programEepromLoop] at h
  | succ n ih =>
    intro p p' ok h
    simp only [programEepromLoop] at h
    cases hs : programEepromStep T heap fuel p with
    | none => rw [hs] at h; simp at h
    | some r =>
      obtain ⟨ok1, brk, p1⟩ := r
      rw [hs] at h
      have h1 := does_programEepromStep T heap fuel p p1 ok1 brk hs
      simp only at h
      split_ifs at h with hb ho
      · simp only [Option.some.injEq, Prod.mk.injEq] at h
        rw [← h.2]
        exact h1
      · exact h1.andThen (ih _ _ _ h)
      · simp only [Option.some.injEq, Prod.mk.injEq] at h
        rw [← h.2]
        exact h1

theorem does_programEeprom {σ : Type} (T : Target σ) (fuel : Nat) (file : Option (List Nat))
    (dataHeap : Option Buf) (heap : Nat → Option Buf) (v0 : HexVars) (s : Isp σ)
    (ok : Bool) (p : Prog σ)
    (h : programEeprom T fuel file dataHeap heap v0 s = some (ok, p)) :
    Does MemoryWrite FuseWrite s p.isp := by
  unfold programEeprom at h
  simp only at h
  split at h
  · exact does_programEepromLoop T heap fuel fuel _ _ _ h
  · simp only [Option.some.injEq, Prod.mk.injEq] at h
    rw [← h.2]
    exact Does.same _ _ _

/-- Four transfers that make a frame which is no write. -/
theorem does_transfers {σ : Type} (T : Target σ) (s : Isp σ) (c1 c2 c3 c4 : Nat)
    (hw : ¬ MemoryWrite c1 c2) (hf : ¬ FuseWrite c1 c2) :
    Does MemoryWrite FuseWrite s
      (ispTransfer T (ispTransfer T (ispTransfer T (ispTransfer T s c1).1 c2).1 c3).1 c4).1 :=
  ⟨[Event.xfer c1 _, Event.xfer c2 _, Event.xfer c3 _, Event.xfer c4 _], rfl,
    fun _ hr => Polled.frame _ _ _ _ _ _ _ _ hw hf _ hr⟩

theorem does_ispBeginLoop {σ : Type} (T : Target σ) (n : Nat) :
    ∀ (s : Isp σ) (b : Bool), Does MemoryWrite FuseWrite s (ispBeginLoop T n s b).1 := by
  induction n with
  | zero => intro s b; exact Does.same _ _ s
  | succ n ih =>
    intro s b
    have h1 := ((does_setReset MemoryWrite FuseWrite T s false).andThen
      (does_delay _ _ T _ 20)).andThen
      (does_transfers T (delay T (setReset T s false) 20) 0xAC 0x53 0x00 0x00
        (not_memoryWrite _ _ (by omega)) (not_fuseWrite _ _ (by omega)))
    simp only [ispBeginLoop]
    split_ifs
    · exact h1
    · exact (h1.andThen (does_ispReset _ _ T _)).andThen (ih _ _)

theorem does_ispBegin {σ : Type} (T : Target σ) (s : Isp σ) :
    Does MemoryWrite FuseWrite s (ispBegin T s).1 := does_ispBeginLoop T 5 s false

/-- A fuse or lock write, the reset pulse and the re-entry that follow it. -/
theorem does_fuseWrite {σ : Type} (T : Target σ) (s : Isp σ) (c2 bits : Nat)
    (h : c2 = 0xA0 ∨ c2 = 0xA8 ∨ c2 = 0xA4 ∨ c2 = 0xE0) :
    Does MemoryWrite FuseWrite s (ispBegin T (ispReset T (ispCommand T s 0xAC c2 0x00 bits).1)).1 :=
  (does_pulsed _ _ T s 0xAC c2 0x00 bits (by unfold FuseWrite; omega)).andThen (does_ispBegin T _)

theorem does_fuseStep {σ : Type} (T : Target σ) (s0 : Isp σ) (r : Isp σ × Bool) (c : Bool)
    (c2 bits : Nat) (h : c2 = 0xA0 ∨ c2 = 0xA8 ∨ c2 = 0xA4 ∨ c2 = 0xE0)
    (h0 : Does MemoryWrite FuseWrite s0 r.1) :
    Does MemoryWrite FuseWrite s0
      (if c then ispBegin T (ispReset T (ispCommand T r.1 0xAC c2 0x00 bits).1) else r).1 := by
  cases c with
  | false => exact h0
  | true => exact h0.andThen (does_fuseWrite T _ c2 bits h)

theorem does_writeFuses {σ : Type} (T : Target σ) (lock : Bool) (lb lf hf ef : Nat) (s : Isp σ) :
    Does MemoryWrite FuseWrite s (writeFuses T lock lb lf hf ef s).1 :=
  does_fuseStep T s _ _ 0xE0 lb (by omega)
    (does_fuseStep T s _ _ 0xA4 ef (by omega)
      (does_fuseStep T s _ _ 0xA8 hf (by omega) (does_fuseWrite T s 0xA0 lf (by omega))))

theorem does_programFuses {σ : Type} (T : Target σ) (file : Option (List Nat))
    (heap : Option Buf) (lock : Bool) (s : Isp σ) :
    Does MemoryWrite FuseWrite s (programFuses T file heap lock s).1 := by
  unfold programFuses
  split
  · split
    · exact does_writeFuses T lock _ _ _ _ s
    · exact Does.same _ _ s
  · exact Does.same _ _ s

theorem does_dumpRead {σ : Type} (read : Isp σ → Nat → Isp σ × Nat)
    (hread : ∀ s a, Does MemoryWrite FuseWrite s (read s a).1) (addr : Nat) (n : Nat) :
    ∀ (i : Nat) (s : Isp σ) (data : Buf) (crc : Nat),
      Does MemoryWrite FuseWrite s (dumpRead read addr n i s data crc).1 := by
  induction n with
  | zero => intro i s data crc; exact Does.same _ _ s
  | succ n ih =>
    intro i s data crc
    simp only [dumpRead]
    exact (hread s _).andThen (ih _ _ _ _)

theorem does_dumpLoop {σ : Type} (read : Isp σ → Nat → Isp σ × Nat)
    (hread : ∀ s a, Does MemoryWrite FuseWrite s (read s a).1) (bound : Nat) (fuel : Nat) :
    ∀ (addr : Nat) (s : Isp σ) (data : Buf) (out : List Nat),
      Does MemoryWrite FuseWrite s (dumpLoop read bound fuel addr s data out).1 := by
  induction fuel with
  | zero => intro addr s data out; exact Does.same _ _ s
  | succ fuel ih =>
    intro addr s data out
    simp only [dumpLoop]
    split_ifs
    · exact (does_dumpRead read hread addr _ 0 s data _).andThen (ih _ _ _ _)
    · exact (does_dumpRead read hread addr _ 0 s data _).andThen (ih _ _ _ _)
    · exact Does.same _ _ s

theorem does_dumpEeprom {σ : Type} (T : Target σ) (opened : Bool) (heap : Option Buf)
    (s : Isp σ) : Does MemoryWrite FuseWrite s (dumpEeprom T opened heap s).1 := by
  unfold dumpEeprom
  split_ifs
  · exact Does.same _ _ s
  · split
    · exact Does.same _ _ s
    · exact does_dumpLoop _ (does_ispReadEeprom T) _ _ _ _ _ _

theorem does_dumpFlash {σ : Type} (T : Target σ) (opened : Bool) (heap : Option Buf)
    (s : Isp σ) : Does MemoryWrite FuseWrite s (dumpFlash T opened heap s).1 := by
  unfold dumpFlash
  split_ifs
  · exact Does.same _ _ s
  · split
    · exact Does.same _ _ s
    · exact (does_read T s 0x58 0x08 0x00 0x00 (by omega)).andThen
        (does_dumpLoop _ (does_ispReadFlash T) _ _ _ _ _ _)

theorem does_dumpFuses {σ : Type} (T : Target σ) (opened : Bool) (s : Isp σ) :
    Does MemoryWrite FuseWrite s (dumpFuses T opened s).1 := by
  unfold dumpFuses
  split_ifs
  · exact Does.same _ _ s
  · exact (((does_read T s 0x58 0x00 0x00 0x00 (by omega)).andThen
      (does_read T _ 0x50 0x00 0x00 0x00 (by omega))).andThen
      (does_read T _ 0x58 0x08 0x00 0x00 (by omega))).andThen
      (does_read T _ 0x50 0x08 0x00 0x00 (by omega))

theorem Does.trace {σ : Type} {W F : Nat → Nat → Prop} {s s' : Isp σ} (h : Does W F s s') :
    ∃ evs, trace s'.log = trace s.log ++ evs ∧ Polled W F false evs := by
  obtain ⟨evs, h1, h2⟩ := h
  refine ⟨evs, ?_, h2.toPolled⟩
  unfold AVRizer.trace
  rw [h1]
  simp

/-! ## C14: what follows a write -/

set_option maxRecDepth 100000 in
/-- C14, as stated, fails on the fuse file of Scenario C. On the target model,
`programFuses` sends the low fuse write `AC A0 00 E2` first, and the next event
is the rise of the reset line, not a poll: the trace is not one in which every
write, fuse and lock writes included, is polled until ready before any
subsequent frame or reset, and it holds no poll frame `F0 00 00 00` at all. -/
theorem programFuses_write_not_polled :
    (trace (programFuses (avr (idealChip 1)) (some scenarioFuses) (some zeroBuf) false
      blankLink).1.log).take 5 =
      [Event.xfer 0xAC 0, Event.xfer 0xA0 0xAC, Event.xfer 0x00 0xA0, Event.xfer 0xE2 0x00,
        Event.rst true] ∧
    [0xF0, 0x00, 0x00, 0x00] ∉ frames (programFuses (avr (idealChip 1)) (some scenarioFuses)
      (some zeroBuf) false blankLink).1.log ∧
    ¬ Polled AnyWrite NoWrite false (trace (programFuses (avr (idealChip 1))
      (some scenarioFuses) (some zeroBuf) false blankLink).1.log) := by
  refine ⟨by decide, by decide, ?_⟩
  have e : trace (programFuses (avr (idealChip 1)) (some scenarioFuses) (some zeroBuf) false
      blankLink).1.log =
      Event.xfer 0xAC 0 :: Event.xfer 0xA0 0xAC :: Event.xfer 0x00 0xA0 :: Event.xfer 0xE2 0x00 ::
        Event.rst true :: (trace (programFuses (avr (idealChip 1)) (some scenarioFuses)
          (some zeroBuf) false blankLink).1.log).drop 5 := by
    decide
  intro h
  rw [e] at h
  cases h with
  | frame _ _ _ _ _ _ _ _ hw hf rest h => exact hw (Or.inr ⟨rfl, Or.inl rfl⟩)
  | write _ _ _ _ _ _ _ _ hw rest h => cases h
  | pulsed _ _ _ _ _ _ _ _ hf rest h => exact hf

/-- C14, amended. For every target and every state of the link, in the events
that each operation of the programmer adds to the trace - `ispBegin`, the three
dumps, `programFlash`, `programEeprom` and `programFuses`, the last three when
their waits end - each flash page write (`4C`), EEPROM byte write (`C0`), EEPROM
page write (`C2`) and chip erase (`AC 80`) is followed by polls `F0 00 00 00`,
each poll answered busy being followed by a wait of 1 ms, up to a poll whose
reply has bit 0 clear, before any other frame or change of the reset line; and
each fuse or lock write (`AC A0`, `AC A8`, `AC A4`, `AC E0`) is followed right
away by a reset pulse and is not polled. -/
theorem writes_waited_for {σ : Type} (T : Target σ) (fuel : Nat) (s : Isp σ) :
    WritesWaited s (ispBegin T s).1 ∧
    (∀ opened, WritesWaited s (dumpFuses T opened s).1) ∧
    (∀ opened heap, WritesWaited s (dumpEeprom T opened heap s).1) ∧
    (∀ opened heap, WritesWaited s (dumpFlash T opened heap s).1) ∧
    (∀ file pageHeap dataHeap heap v0 ok p,
      programFlash T fuel file pageHeap dataHeap heap v0 s = some (ok, p) →
        WritesWaited s p.isp) ∧
    (∀ file dataHeap heap v0 ok p,
      programEeprom T fuel file dataHeap heap v0 s = some (ok, p) → WritesWaited s p.isp) ∧
    (∀ file heap lock, WritesWaited s (programFuses T file heap lock s).1) :=
  ⟨(does_ispBegin T s).trace, fun o => (does_dumpFuses T o s).trace,
    fun o h => (does_dumpEeprom T o h s).trace, fun o h => (does_dumpFlash T o h s).trace,
    fun file ph dh heap v0 ok p h => (does_programFlash T fuel file ph dh heap v0 s ok p h).trace,
    fun file dh heap v0 ok p h => (does_programEeprom T fuel file dh heap v0 s ok p h).trace,
    fun file heap lock => (does_programFuses T file heap lock s).trace⟩

/-- The pass over the file with one data record at `0x0078`, on a target that
answers one poll busy after each write, ends, and every write in it is waited
for. -/
theorem writes_waited_for_witness :
    ∃ p, programFlash (avr (idealChip 1)) 2 (some straddleFile) (some zeroBuf) (some zeroBuf)
        (fun _ => some zeroBuf) zeroVars blankLink = some (true, p) ∧
      WritesWaited blankLink p.isp := by
  obtain ⟨p, hp, _⟩ := programFlash_flushes_runs 1 2 (fun _ => some zeroBuf) (by decide)
    (fun _ => by simp) [{ len := 16, addr := 0x0078, type := 0, data := countData }]
    straddleFile flashFile_straddle (by decide) zeroBuf zeroBuf zeroVars blankLink rfl rfl
  exact ⟨p, hp, (writes_waited_for (avr (idealChip 1)) 2 blankLink).2.2.2.2.1 _ _ _ _ _ _ _ hp⟩

/-! ## C18: the chip erase comes first -/

theorem does_log {σ : Type} {W F : Nat → Nat → Prop} {s s' : Isp σ} (h : Does W F s s') :
    ∃ evs, trace s'.log = trace s.log ++ evs := by
  obtain ⟨evs, h1, _⟩ := h.trace
  exact ⟨evs, h1⟩

/-- The events of `ispChipErase` when its wait ends: the erase frame and polling
until ready. -/
theorem ispChipErase_trace {σ : Type} (T : Target σ) (fuel : Nat) (s s1 : Isp σ)
    (h : ispChipErase T fuel s = some s1) :
    ∃ r1 r2 r3 r4 ps, Polls ps ∧
      trace s1.log = trace s.log ++
        ([Event.xfer 0xAC r1, Event.xfer 0x80 r2, Event.xfer 0x00 r3, Event.xfer 0x00 r4] ++ ps) := by
  obtain ⟨r1, r2, r3, hlog⟩ := ispCommand_log T s 0xAC 0x80 0x00 0x00
  obtain ⟨ps, hps, hl⟩ := ispWait_polls T fuel _ _ h
  refine ⟨r1, r2, r3, (ispCommand T s 0xAC 0x80 0x00 0x00).2, ps, hps, ?_⟩
  unfold trace
  rw [hl, hlog]
  simp

/-- C18. A run of `programFlash` that has opened its file and obtained its two
buffers starts with `ispChipErase`, whatever the file holds, and the loop that
decodes the lines starts from the state the erase leaves. When the wait of the
erase ends, what it added to the trace is the frame `AC 80 00 00` and polling
until ready; and when the run ends, its whole trace is that frame, that
polling, and then everything else the run did, load frames and page write
frames included. -/
theorem programFlash_erases_first {σ : Type} (T : Target σ) (fuel : Nat) (f : List Nat)
    (page data : Buf) (heap : Nat → Option Buf) (v0 : HexVars) (s : Isp σ) :
    programFlash T fuel (some f) (some page) (some data) heap v0 s =
      (ispChipErase T fuel s).bind (fun s1 =>
        programFlashLoop T heap fuel fuel
          { isp := s1, f := f, v := { v0 with data := data }, pageAddr := 0xFFFF, page := page,
            lines := 0 }) ∧
    (∀ s1, ispChipErase T fuel s = some s1 →
      ∃ r1 r2 r3 r4 ps, Polls ps ∧
        trace s1.log = trace s.log ++
          ([Event.xfer 0xAC r1, Event.xfer 0x80 r2, Event.xfer 0x00 r3, Event.xfer 0x00 r4] ++
            ps)) ∧
    (∀ ok p, programFlash T fuel (some f) (some page) (some data) heap v0 s = some (ok, p) →
      ∃ r1 r2 r3 r4 ps rest, Polls ps ∧
        trace p.isp.log = trace s.log ++
          ([Event.xfer 0xAC r1, Event.xfer 0x80 r2, Event.xfer 0x00 r3, Event.xfer 0x00 r4] ++
            ps ++ rest)) := by
  have hdef : programFlash T fuel (some f) (some page) (some data) heap v0 s =
      (ispChipErase T fuel s).bind (fun s1 =>
        programFlashLoop T heap fuel fuel
          { isp := s1, f := f, v := { v0 with data := data }, pageAddr := 0xFFFF, page := page,
            lines := 0 }) := by
    simp only [programFlash]
    cases ispChipErase T fuel s <;> rfl
  refine ⟨hdef, fun s1 h => ispChipErase_trace T fuel s s1 h, ?_⟩
  intro ok p h
  rw [hdef] at h
  cases he : ispChipErase T fuel s with
  | none => rw [he] at h; simp at h
  | some s1 =>
    rw [he] at h
    simp only [Option.some_bind] at h
    obtain ⟨r1, r2, r3, r4, ps, hps, ht⟩ := ispChipErase_trace T fuel s s1 he
    obtain ⟨rest, hr⟩ := does_log (does_programFlashLoop T heap fuel fuel _ _ _ h)
    refine ⟨r1, r2, r3, r4, ps, rest, hps, ?_⟩
    rw [hr]
    show trace s1.log ++ rest = _
    rw [ht]
    simp

/-- The run over the file with one data record at `0x0078`, on a target that
answers one poll busy after each write, ends and starts with the erase frame
and its polling. -/
theorem programFlash_erases_first_witness :
    ∃ p, programFlash (avr (idealChip 1)) 2 (some straddleFile) (some zeroBuf) (some zeroBuf)
        (fun _ => some zeroBuf) zeroVars blankLink = some (true, p) ∧
      ∃ r1 r2 r3 r4 ps rest, Polls ps ∧
        trace p.isp.log = trace blankLink.log ++
          ([Event.xfer 0xAC r1, Event.xfer 0x80 r2, Event.xfer 0x00 r3, Event.xfer 0x00 r4] ++
            ps ++ rest) := by
  obtain ⟨p, hp, _⟩ := programFlash_flushes_runs 1 2 (fun _ => some zeroBuf) (by decide)
    (fun _ => by simp) [{ len := 16, addr := 0x0078, type := 0, data := countData }]
    straddleFile flashFile_straddle (by decide) zeroBuf zeroBuf zeroVars blankLink rfl rfl
  exact ⟨p, hp, (programFlash_erases_first (avr (idealChip 1)) 2 straddleFile zeroBuf zeroBuf
    (fun _ => some zeroBuf) zeroVars blankLink).2.2 true p hp⟩

/-! ## C11: the text of a dump -/

theorem readBlock_length {σ : Type} (read : Isp σ → Nat → Isp σ × Nat) (addr : Nat) (n : Nat) :
    ∀ (i : Nat) (s : Isp σ), (readBlock read addr n i s).2.length = n := by
  induction n with
  | zero => intro i s; rfl
  | succ n ih => intro i s; simp [readBlock, ih]

theorem readBlock_lt {σ : Type} (read : Isp σ → Nat → Isp σ × Nat)
    (hread : ∀ s a, (read s a).2 < 256) (addr : Nat) (n : Nat) :
    ∀ (i : Nat) (s : Isp σ), ∀ x ∈ (readBlock read addr n i s).2, x < 256 := by
  induction n with
  | zero => intro i s x hx; simp [readBlock] at hx
  | succ n ih =>
    intro i s x hx
    simp only [readBlock, List.mem_cons] at hx
    rcases hx with rfl | hx
    · exact hread _ _
    · exact ih _ _ x hx

/-- The read loop of the dump functions reads a block. -/
theorem dumpRead_readBlock {σ : Type} (read : Isp σ → Nat → Isp σ × Nat)
    (hread : ∀ s a, (read s a).2 < 256) (addr : Nat) (n : Nat) :
    ∀ (i : Nat) (s : Isp σ) (data : Buf) (crc : Nat), crc < 256 → addr + i + n ≤ 65536 →
      (dumpRead read addr n i s data crc).1 = (readBlock read addr n i s).1 ∧
      ∀ j, j < n →
        (dumpRead read addr n i s data crc).2.1 (i + j) = (readBlock read addr n i s).2.getD j 0 := by
  induction n with
  | zero =>
    intro i s data crc _ _
    exact ⟨rfl, fun j hj => by omega⟩
  | succ n ih =>
    intro i s data crc hcrc hb
    simp only [dumpRead, readBlock]
    rw [Nat.mod_eq_of_lt (show addr + i < 65536 by omega)]
    obtain ⟨h1, h2⟩ := ih (i + 1) (read s (addr + i)).1 (Function.update data i (read s (addr + i)).2)
      ((crc + (read s (addr + i)).2) % 256) (Nat.mod_lt _ (by norm_num)) (by omega)
    refine ⟨h1, ?_⟩
    intro j hj
    cases j with
    | zero =>
      have h3 := (dumpRead_spec read hread addr n (i + 1) (read s (addr + i)).1
        (Function.update data i (read s (addr + i)).2) ((crc + (read s (addr + i)).2) % 256)
        (Nat.mod_lt _ (by norm_num))).2.2 i (by omega)
      rw [Function.update_same] at h3
      simpa using h3
    | succ j =>
      have := h2 j (by omega)
      rw [show i + (j + 1) = i + 1 + j by omega, this]
      simp

theorem printData_congr (d1 d2 : Buf) (n : Nat) :
    ∀ i, (∀ j, i ≤ j → j < i + n → d1 j = d2 j) → printData d1 n i = printData d2 n i := by
  induction n with
  | zero => intro i _; rfl
  | succ n ih =>
    intro i h
    simp only [printData]
    rw [h i (le_refl _) (by omega), ih (i + 1) (fun j h1 h2 => h j (by omega) (by omega))]

theorem sum_map_congr (d1 d2 : Buf) (n : Nat) :
    ∀ i, (∀ j, i ≤ j → j < i + n → d1 j = d2 j) →
      ((List.range' i n).map d1).sum = ((List.range' i n).map d2).sum := by
  induction n with
  | zero => intro i _; rfl
  | succ n ih =>
    intro i h
    simp only [List.range'_succ, List.map_cons, List.sum_cons]
    rw [h i (le_refl _) (by omega), ih (i + 1) (fun j h1 h2 => h j (by omega) (by omega))]

/-- What the body of the dump loop writes for a block. -/
theorem dumpBlock_text {σ : Type} (read : Isp σ → Nat → Isp σ × Nat)
    (hread : ∀ s a, (read s a).2 < 256) (addr : Nat) (ha : addr + 16 ≤ 65536) (s : Isp σ)
    (data : Buf) :
    (if isEmpty (dumpRead read addr 16 0 s data ((16 + addr / 256 + (addr &&& 0xFF)) % 256)).2.1 16 0
      then []
      else printRecord addr
        (dumpRead read addr 16 0 s data ((16 + addr / 256 + (addr &&& 0xFF)) % 256)).2.1
        (dumpRead read addr 16 0 s data ((16 + addr / 256 + (addr &&& 0xFF)) % 256)).2.2) =
    (if (readBlock read addr 16 0 s).2.all (fun x => x == 0xFF) then []
      else encodeDataRecord addr (fun i => (readBlock read addr 16 0 s).2.getD i 0)) := by
  have hc0 : (16 + addr / 256 + (addr &&& 0xFF)) % 256 < 256 := Nat.mod_lt _ (by norm_num)
  obtain ⟨_, hD⟩ := dumpRead_readBlock read hread addr 16 0 s data _ hc0 (by omega)
  have hcrc := (dumpRead_spec read hread addr 16 0 s data _ hc0).1
  have hlen := readBlock_length read addr 16 0 s
  have hlt := readBlock_lt read hread addr 16 0 s
  generalize (dumpRead read addr 16 0 s data ((16 + addr / 256 + (addr &&& 0xFF)) % 256)).2.1 = D
    at hD hcrc ⊢
  generalize (dumpRead read addr 16 0 s data ((16 + addr / 256 + (addr &&& 0xFF)) % 256)).2.2 = crc
    at hcrc ⊢
  generalize (readBlock read addr 16 0 s).2 = bs at hD hlen hlt ⊢
  have hD2 : ∀ j, j < 16 → D j = bs.getD j 0 := fun j hj => by
    have := hD j hj
    rwa [Nat.zero_add] at this
  have hempty : isEmpty D 16 0 = bs.all (fun x => x == 0xFF) := by
    rw [Bool.eq_iff_iff, isEmpty_iff, List.all_eq_true]
    constructor
    · intro h x hx
      obtain ⟨j, hj, rfl⟩ := List.getElem_of_mem hx
      have := h j (Nat.zero_le _) (by omega)
      rw [hD2 j (by omega), List.getD_eq_getElem _ _ hj] at this
      simpa using this
    · intro h j _ hj
      rw [hD2 j (by omega), List.getD_eq_getElem _ _ (by omega)]
      simpa using h _ (List.getElem_mem _)
  rw [hempty]
  split_ifs with he
  · rfl
  · obtain ⟨d, crc1, e1, e2, e3⟩ := encodeDataRecord_eq addr (fun i => bs.getD i 0) (by omega)
      (fun j hj => by
        show bs.getD j 0 < 256
        rw [List.getD_eq_getElem _ _ (by omega)]
        exact hlt _ (List.getElem_mem _))
    rw [e1]
    have hdd : ∀ j, 0 ≤ j → j < 0 + 16 → D j = d j := fun j _ hj => by
      rw [hD2 j (by omega), e2 j (by omega)]
    have hs := sum_map_congr D d 16 0 hdd
    have hp := printData_congr D d 16 0 hdd
    have hcc : crc = crc1 := by
      rw [hcrc, e3, hs]
      omega
    simp only [printRecord, HEX_PAGE_SIZE, hp, hcc]

/-- The dump loop over `k` blocks from `addr` up to the bound writes the text of
the dump over their addresses. -/
theorem dumpLoop_text {σ : Type} (read : Isp σ → Nat → Isp σ × Nat)
    (hread : ∀ s a, (read s a).2 < 256) (bound : Nat) (hbound : bound ≤ 65520) (k : Nat) :
    ∀ (fuel addr : Nat) (s : Isp σ) (data : Buf) (out : List Nat), k ≤ fuel →
      addr + 16 * k = bound →
      (dumpLoop read bound fuel addr s data out).1 = (dumpText read (List.range' addr k 16) s).1 ∧
      (dumpLoop read bound fuel addr s data out).2.2 =
        out ++ (dumpText read (List.range' addr k 16) s).2 := by
  induction k with
  | zero =>
    intro fuel addr s data out _ ha
    cases fuel with
    | zero => simp [dumpLoop, dumpText]
    | succ fuel =>
      simp only [dumpLoop]
      rw [if_neg (by omega)]
      simp [dumpText]
  | succ k ih =>
    intro fuel addr s data out hf ha
    obtain ⟨fuel, rfl⟩ : ∃ m, fuel = m + 1 := ⟨fuel - 1, by omega⟩
    simp only [dumpLoop, HEX_PAGE_SIZE]
    rw [if_pos (by omega), Nat.mod_eq_of_lt (show addr + 16 < 65536 by omega)]
    have hc0 : (16 + addr / 256 + (addr &&& 0xFF)) % 256 < 256 := Nat.mod_lt _ (by norm_num)
    obtain ⟨hs, _⟩ := dumpRead_readBlock read hread addr 16 0 s data _ hc0 (by omega)
    have hb := dumpBlock_text read hread addr (by omega) s data
    obtain ⟨h1, h2⟩ := ih fuel (addr + 16)
      (dumpRead read addr 16 0 s data ((16 + addr / 256 + (addr &&& 0xFF)) % 256)).1
      (dumpRead read addr 16 0 s data ((16 + addr / 256 + (addr &&& 0xFF)) % 256)).2.1
      (if isEmpty (dumpRead read addr 16 0 s data
          ((16 + addr / 256 + (addr &&& 0xFF)) % 256)).2.1 16 0 then out
        else out ++ printRecord addr
          (dumpRead read addr 16 0 s data ((16 + addr / 256 + (addr &&& 0xFF)) % 256)).2.1
          (dumpRead read addr 16 0 s data ((16 + addr / 256 + (addr &&& 0xFF)) % 256)).2.2)
      (by omega) (by omega)
    rw [h1, h2, List.range'_succ]
    simp only [dumpText]
    rw [hs, ← hb]
    refine ⟨rfl, ?_⟩
    split_ifs <;> simp

theorem ispCommand_lt {σ : Type} (T : Target σ) (s : Isp σ) (c1 c2 c3 c4 : Nat) :
    (ispCommand T s c1 c2 c3 c4).2 < 256 := Nat.mod_lt _ (by norm_num)

theorem flashTailOf_bound (h : Nat) : flashTailOf h % 16 = 0 ∧ flashTailOf h ≤ 0x3F00 := by
  unfold flashTailOf
  simp only
  split_ifs <;> omega

/-- C11. For every target, `dumpEeprom` (bound 1024) and `dumpFlash` (bound
`flashTail`, chosen from the high fuse read first) write exactly this text:
for each 16-byte-aligned address below the bound, in ascending order, the data
record of the 16 bytes read there when at least one of them differs from
`0xFF`, and nothing when all 16 are `0xFF`; and after that the end record line
`:00000001FF`. The link is left as the reads leave it and the result is true. -/
theorem dump_text {σ : Type} (T : Target σ) (s : Isp σ) (data : Buf) :
    dumpEeprom T true (some data) s =
      ((dumpText (ispReadEeprom T) (blockAddrs 1024) s).1,
        (dumpText (ispReadEeprom T) (blockAddrs 1024) s).2 ++ endRecord, true) ∧
    dumpFlash T true (some data) s =
      ((dumpText (ispReadFlash T) (blockAddrs (flashTailOf (ispReadHighFuseBits T s).2))
          (ispReadHighFuseBits T s).1).1,
        (dumpText (ispReadFlash T) (blockAddrs (flashTailOf (ispReadHighFuseBits T s).2))
          (ispReadHighFuseBits T s).1).2 ++ endRecord, true) := by
  constructor
  · obtain ⟨h1, h2⟩ := dumpLoop_text (ispReadEeprom T) (fun s a => ispCommand_lt T s _ _ _ _)
      1024 (by omega) 64 1024 0 s data [] (by omega) (by omega)
    have e : dumpEeprom T true (some data) s =
        ((dumpLoop (ispReadEeprom T) 1024 1024 0 s data []).1,
          (dumpLoop (ispReadEeprom T) 1024 1024 0 s data []).2.2 ++ endRecord, true) := rfl
    have hk : blockAddrs 1024 = List.range' 0 64 16 := rfl
    rw [e, h1, h2, hk, List.nil_append]
  · obtain ⟨hb1, hb2⟩ := flashTailOf_bound (ispReadHighFuseBits T s).2
    obtain ⟨h1, h2⟩ := dumpLoop_text (ispReadFlash T) (fun s a => ispCommand_lt T s _ _ _ _)
      (flashTailOf (ispReadHighFuseBits T s).2) (by omega)
      (flashTailOf (ispReadHighFuseBits T s).2 / 16)
      (flashTailOf (ispReadHighFuseBits T s).2) 0 (ispReadHighFuseBits T s).1 data []
      (Nat.div_le_self _ _) (by omega)
    have e : dumpFlash T true (some data) s =
        ((dumpLoop (ispReadFlash T) (flashTailOf (ispReadHighFuseBits T s).2)
            (flashTailOf (ispReadHighFuseBits T s).2) 0 (ispReadHighFuseBits T s).1 data []).1,
          (dumpLoop (ispReadFlash T) (flashTailOf (ispReadHighFuseBits T s).2)
            (flashTailOf (ispReadHighFuseBits T s).2) 0 (ispReadHighFuseBits T s).1 data []).2.2 ++
            endRecord, true) := rfl
    rw [e, h1, h2, List.nil_append]
    rfl

/-! ## C12: where the flash dump stops -/

theorem readFrames_append (m : Nat) :
    ∀ a n, readFrames a (m + n) = readFrames a m ++ readFrames (a + m) n := by
  induction m with
  | zero => intro a n; simp [readFrames]
  | succ m ih =>
    intro a n
    rw [show m + 1 + n = (m + n) + 1 by omega]
    simp only [readFrames, List.cons_append]
    rw [ih (a + 1) n, show a + 1 + m = a + (m + 1) by omega]

theorem sends_dumpRead {σ : Type} (T : Target σ) (addr : Nat) (n : Nat) :
    ∀ (i : Nat) (s : Isp σ) (data : Buf) (crc : Nat),
      Sends s (dumpRead (ispReadFlash T) addr n i s data crc).1 (readFrames (addr + i) n) := by
  induction n with
  | zero => intro i s data crc; exact Sends.refl s
  | succ n ih =>
    intro i s data crc
    simp only [dumpRead, readFrames]
    have h1 := sends_ispReadFlash T s ((addr + i) % 65536)
    have h2 := ih (i + 1) (ispReadFlash T s ((addr + i) % 65536)).1
      (Function.update data i (ispReadFlash T s ((addr + i) % 65536)).2)
      ((crc + (ispReadFlash T s ((addr + i) % 65536)).2) % 256)
    rw [show addr + (i + 1) = addr + i + 1 by omega] at h2
    exact h1.trans h2

/-- The flash dump loop over `k` blocks from `addr` up to the bound reads the
bytes from `addr` up to the bound, in ascending order. -/
theorem sends_dumpLoop {σ : Type} (T : Target σ) (bound : Nat) (hbound : bound ≤ 65520)
    (k : Nat) : ∀ (fuel addr : Nat) (s : Isp σ) (data : Buf) (out : List Nat), k ≤ fuel →
      addr + 16 * k = bound →
      Sends s (dumpLoop (ispReadFlash T) bound fuel addr s data out).1
        (readFrames addr (16 * k)) := by
  induction k with
  | zero =>
    intro fuel addr s data out _ ha
    cases fuel with
    | zero => exact Sends.refl s
    | succ fuel =>
      simp only [dumpLoop]
      rw [if_neg (by omega)]
      exact Sends.refl s
  | succ k ih =>
    intro fuel addr s data out hf ha
    obtain ⟨fuel, rfl⟩ : ∃ m, fuel = m + 1 := ⟨fuel - 1, by omega⟩
    simp only [dumpLoop, HEX_PAGE_SIZE]
    rw [if_pos (by omega), Nat.mod_eq_of_lt (show addr + 16 < 65536 by omega)]
    have h1 := sends_dumpRead T addr 16 0 s data ((16 + addr / 256 + (addr &&& 0xFF)) % 256)
    rw [show 16 * (k + 1) = 16 + 16 * k by omega, readFrames_append]
    exact h1.trans (ih fuel (addr + 16) _ _ _ (by omega) (by omega))

theorem sends_dumpFlash {σ : Type} (T : Target σ) (s : Isp σ) (data : Buf) :
    Sends s (dumpFlash T true (some data) s).1
      ([0x58, 0x08, 0x00, 0x00] :: readFrames 0 (flashTailOf (ispReadHighFuseBits T s).2)) := by
  obtain ⟨hb1, hb2⟩ := flashTailOf_bound (ispReadHighFuseBits T s).2
  have h1 : Sends s (ispReadHighFuseBits T s).1 [[0x58, 0x08, 0x00, 0x00]] :=
    sends_ispCommand T s 0x58 0x08 0x00 0x00
  have h2 := sends_dumpLoop T (flashTailOf (ispReadHighFuseBits T s).2) (by omega)
    (flashTailOf (ispReadHighFuseBits T s).2 / 16)
    (flashTailOf (ispReadHighFuseBits T s).2) 0 (ispReadHighFuseBits T s).1 data []
    (Nat.div_le_self _ _) (by omega)
  rw [show 16 * (flashTailOf (ispReadHighFuseBits T s).2 / 16) =
    flashTailOf (ispReadHighFuseBits T s).2 by omega] at h2
  exact h1.trans h2

/-- C12, what the code does. For every target and every state it is in, the
frames of `dumpFlash` on a fresh log are the read of the high fuse and then the
reads of the flash byte addresses `0`, `1`, ... up to and not including
`flashTail`, which is `0x3F00`, `0x3E00`, `0x3C00` or `0x3800` for the bit
patterns `0x06`, `0x04`, `0x02` and `0x00` of the high fuse: these are the word
addresses of the start of the boot section, used as a bound on byte addresses.
So `flashTail` is at most `0x3F00`, and no byte from `0x3F00` on is read,
whereas the boot section starts at byte address `0x7000` or above. -/
theorem dumpFlash_reads_below_flashTail {σ : Type} (T : Target σ) (d : σ) (data : Buf) :
    ∃ fs, frames (dumpFlash T true (some data) { dev := d, log := [] }).1.log =
        [0x58, 0x08, 0x00, 0x00] :: fs ∧
      flashReads fs =
        List.range' 0 (flashTailOf (ispReadHighFuseBits T { dev := d, log := [] }).2) ∧
      flashTailOf (ispReadHighFuseBits T { dev := d, log := [] }).2 =
        (if (ispReadHighFuseBits T { dev := d, log := [] }).2 &&& 0x06 = 0x06 then 0x3F00
          else if (ispReadHighFuseBits T { dev := d, log := [] }).2 &&& 0x06 = 0x04 then 0x3E00
          else if (ispReadHighFuseBits T { dev := d, log := [] }).2 &&& 0x06 = 0x02 then 0x3C00
          else 0x3800) ∧
      flashTailOf (ispReadHighFuseBits T { dev := d, log := [] }).2 ≤ 0x3F00 ∧
      0x3F00 < 0x7000 := by
  obtain ⟨_, h⟩ := sends_dumpFlash T { dev := d, log := [] } data rfl
  obtain ⟨_, hb2⟩ := flashTailOf_bound (ispReadHighFuseBits T { dev := d, log := [] }).2
  refine ⟨_, h, flashReads_readFrames _ 0 (by omega), rfl, hb2, by decide⟩

/-! ## Reading a fuse file -/

/-- What `freadUntil` leaves behind, for a buffer of any size. -/
theorem freadUntil_size (str0 : Buf) (size : Nat) (f : List Nat) :
    (freadUntil str0 size 10 13 f).1 = (stripTail 13 (takeLine 10 (size - 1) f)).length ∧
    (∀ i, i ≤ (stripTail 13 (takeLine 10 (size - 1) f)).length →
      (freadUntil str0 size 10 13 f).2.1 i =
        (stripTail 13 (takeLine 10 (size - 1) f)).getD i 0) ∧
    (freadUntil str0 size 10 13 f).2.2 = dropLine 10 (size - 1) f := by
  have hlen : (freadUntil str0 size 10 13 f).1 =
      (stripTail 13 (takeLine 10 (size - 1) f)).length := by
    simp only [freadUntil, readBytesUntil_count, readBytesUntil_buf, stripTail,
      Nat.zero_add, Nat.zero_le, true_and, Nat.sub_zero]
    generalize takeLine 10 (size - 1) f = cs
    rcases List.eq_nil_or_concat cs with h | ⟨L, b, h⟩
    · subst h; simp
    · subst h
      by_cases hb : b = 13
      · simp [hb]
      · simp [hb]
  refine ⟨hlen, ?_, ?_⟩
  · intro i hi
    have hlen2 := hlen
    simp only [freadUntil] at hlen2 ⊢
    rw [hlen2]
    by_cases hil : i = (stripTail 13 (takeLine 10 (size - 1) f)).length
    · subst hil
      rw [Function.update_same, List.getD_eq_default _ _ (le_refl _)]
    · have hlt : i < (stripTail 13 (takeLine 10 (size - 1) f)).length := by omega
      rw [Function.update_noteq hil, readBytesUntil_buf]
      have h1 := stripTail_length_le 13 (takeLine 10 (size - 1) f)
      rw [if_pos (by omega), stripTail_getD _ _ _ hlt]
      simp
  · simp [freadUntil, readBytesUntil_rest]

/-- A line `cs` without line feed and not ending in a carriage return, followed
by a line ending, is read whole into a buffer that is large enough. -/
theorem freadUntil_line (str0 : Buf) (size : Nat) (cs e : List Nat) (hcs : ∀ c ∈ cs, c ≠ 10)
    (hlast : cs.getLast? ≠ some 13) (hn : cs.length + 2 ≤ size - 1) (he : LineEnd e) :
    (freadUntil str0 size 10 13 (cs ++ e)).1 = cs.length ∧
    (∀ i, i < cs.length → (freadUntil str0 size 10 13 (cs ++ e)).2.1 i = cs.getD i 0) ∧
    (∀ r, e = 10 :: r ∨ e = 13 :: 10 :: r → (freadUntil str0 size 10 13 (cs ++ e)).2.2 = r) := by
  obtain ⟨h1, h2, h3⟩ := freadUntil_size str0 size (cs ++ e)
  obtain ⟨m, hm⟩ : ∃ m, size - 1 - cs.length = m + 2 := ⟨size - 1 - cs.length - 2, by omega⟩
  have hline : stripTail 13 (takeLine 10 (size - 1) (cs ++ e)) = cs := by
    rw [takeLine_append 10 _ cs e hcs (by omega), hm]
    rcases he with rfl | rfl | ⟨r, rfl⟩ | ⟨r, rfl⟩
    · simpa [takeLine] using stripTail_of_ne cs hlast
    · simpa [takeLine] using stripTail_concat cs
    · simpa [takeLine] using stripTail_of_ne cs hlast
    · simpa [takeLine] using stripTail_concat cs
  rw [hline] at h1 h2
  refine ⟨h1, fun i hi => h2 i (by omega), ?_⟩
  intro r hr
  rw [h3, dropLine_append 10 _ cs e hcs (by omega), hm]
  rcases hr with rfl | rfl <;> simp [dropLine]

theorem parseHexNum_eq_pairVal (str : Buf) (i : Nat) :
    parseHexNum str i = pairVal (str i, str (i + 1)) := by
  unfold parseHexNum pairVal
  cases hd : parseHexDigit (str i) with
  | none => simp
  | some hi =>
    cases hl : parseHexDigit (str (i + 1)) with
    | none => simp
    | some lo => simp [hex_nibbles_or hi lo (parseHexDigit_lt hd) (parseHexDigit_lt hl)]

/-- A well-formed fuse file is accepted and decodes to the values of its four
pairs of hex digits. -/
theorem readFuseFile_text (str0 : Buf) (b l h e : Nat × Nat) (lb lf hf ef : Nat)
    (hb : pairVal b = some lb) (hl : pairVal l = some lf) (hh : pairVal h = some hf)
    (he : pairVal e = some ef) (e1 e2 : List Nat) (he1 : e1 = [10] ∨ e1 = [13, 10])
    (he2 : LineEnd e2) :
    readFuseFile str0 (fuseText b l h e e1 e2) = some (lb, lf, hf, ef) := by
  obtain ⟨⟨b1, b2⟩, b3, b4⟩ := @pairVal_not_end b.1 b.2 _ hb
  obtain ⟨⟨l1, l2⟩, l3, l4⟩ := @pairVal_not_end l.1 l.2 _ hl
  obtain ⟨⟨h1, h2⟩, h3, h4⟩ := @pairVal_not_end h.1 h.2 _ hh
  obtain ⟨⟨x1, x2⟩, x3, x4⟩ := @pairVal_not_end e.1 e.2 _ he
  have hend1 : LineEnd (e1 ++ ([76, 58, l.1, l.2, 59, 72, 58, h.1, h.2, 59, 69, 58, e.1, e.2] ++ e2)) := by
    rcases he1 with rfl | rfl
    · exact Or.inr (Or.inr (Or.inl ⟨_, rfl⟩))
    · exact Or.inr (Or.inr (Or.inr ⟨_, rfl⟩))
  obtain ⟨p1, p2, p3⟩ := freadUntil_line str0 STR_SIZE [76, 66, 58, b.1, b.2] _
    (by simp [b1, b3]) (by simp [b4]) (by simp [STR_SIZE]) hend1
  have p4 := p3 ([76, 58, l.1, l.2, 59, 72, 58, h.1, h.2, 59, 69, 58, e.1, e.2] ++ e2)
    (by rcases he1 with rfl | rfl <;> simp)
  unfold readFuseFile fuseText
  simp only
  generalize freadUntil str0 STR_SIZE 10 13 ([76, 66, 58, b.1, b.2] ++
    (e1 ++ ([76, 58, l.1, l.2, 59, 72, 58, h.1, h.2, 59, 69, 58, e.1, e.2] ++ e2))) = L1
    at p1 p2 p4 ⊢
  have c1 : strncmpEq L1.2.1 0 [76, 66, 58] = true := by
    simp [strncmpEq, p2 0 (by simp), p2 1 (by simp), p2 2 (by simp)]
  have n1 : parseHexNum L1.2.1 3 = some lb := by
    rw [parseHexNum_eq_pairVal, p2 3 (by simp), p2 4 (by simp)]
    exact hb
  rw [if_pos ⟨p1, c1⟩, n1, p4]
  simp only
  obtain ⟨q1, q2, _⟩ := freadUntil_line L1.2.1 STR_SIZE
    [76, 58, l.1, l.2, 59, 72, 58, h.1, h.2, 59, 69, 58, e.1, e.2] e2
    (by simp [l1, l3, h1, h3, x1, x3]) (by simp [x4]) (by simp [STR_SIZE]) he2
  generalize freadUntil L1.2.1 STR_SIZE 10 13
    ([76, 58, l.1, l.2, 59, 72, 58, h.1, h.2, 59, 69, 58, e.1, e.2] ++ e2) = L2 at q1 q2 ⊢
  have c2 : strncmpEq L2.2.1 0 [76, 58] = true := by
    simp [strncmpEq, q2 0 (by simp), q2 1 (by simp)]
  have c3 : strncmpEq L2.2.1 5 [72, 58] = true := by
    simp [strncmpEq, q2 5 (by simp), q2 6 (by simp)]
  have c4 : strncmpEq L2.2.1 10 [69, 58] = true := by
    simp [strncmpEq, q2 10 (by simp), q2 11 (by simp)]
  have n2 : parseHexNum L2.2.1 2 = some lf := by
    rw [parseHexNum_eq_pairVal, q2 2 (by simp), q2 3 (by simp)]
    exact hl
  have n3 : parseHexNum L2.2.1 7 = some hf := by
    rw [parseHexNum_eq_pairVal, q2 7 (by simp), q2 8 (by simp)]
    exact hh
  have n4 : parseHexNum L2.2.1 12 = some ef := by
    rw [parseHexNum_eq_pairVal, q2 12 (by simp), q2 13 (by simp)]
    exact he
  rw [if_pos ⟨q1, c2⟩, n2]
  simp only
  rw [if_pos c3, n3]
  simp only
  rw [if_pos c4, n4]

/-! ## The frames of the fuse writes -/

theorem sends_transfers {σ : Type} (T : Target σ) (s : Isp σ) (c1 c2 c3 c4 : Nat) :
    Sends s (ispTransfer T (ispTransfer T (ispTransfer T (ispTransfer T s c1).1 c2).1 c3).1 c4).1
      [[c1, c2, c3, c4]] := by
  have h := sends_of_log s
    (ispTransfer T (ispTransfer T (ispTransfer T (ispTransfer T s c1).1 c2).1 c3).1 c4).1
    [Event.xfer c4 (ispTransfer T (ispTransfer T (ispTransfer T (ispTransfer T s c1).1 c2).1
        c3).1 c4).2,
      Event.xfer c3 (ispTransfer T (ispTransfer T (ispTransfer T s c1).1 c2).1 c3).2,
      Event.xfer c2 (ispTransfer T (ispTransfer T s c1).1 c2).2,
      Event.xfer c1 (ispTransfer T s c1).2] rfl (by simp [Framed, trace, outs])
  simpa [frames, trace, outs, chunk4] using h

theorem sends_ispReset {σ : Type} (T : Target σ) (s : Isp σ) : Sends s (ispReset T s) [] := by
  have h := ((sends_setReset T s true).trans (sends_delay T _ 1)).trans (sends_setReset T _ false)
  simpa using h

theorem sends_ispBeginLoop {σ : Type} (T : Target σ) (n : Nat) :
    ∀ (s : Isp σ) (b : Bool), ∃ k, k ≤ n ∧ (0 < n → 0 < k) ∧
      Sends s (ispBeginLoop T n s b).1 (List.replicate k syncFrame) := by
  induction n with
  | zero => intro s b; exact ⟨0, le_refl _, fun h => h, Sends.refl s⟩
  | succ n ih =>
    intro s b
    have h1 : Sends s _ ([] ++ [] ++ [syncFrame]) :=
      ((sends_setReset T s false).trans (sends_delay T _ 20)).trans
        (sends_transfers T (delay T (setReset T s false) 20) 0xAC 0x53 0x00 0x00)
    simp only [ispBeginLoop]
    generalize decide ((ispTransfer T (ispTransfer T (ispTransfer T
      (delay T (setReset T s false) 20) 0xAC).1 0x53).1 0x00).2 = 0x53) = bb
    split_ifs
    · exact ⟨1, by omega, fun _ => by omega, by simpa using h1⟩
    · obtain ⟨k, hk, _, hs⟩ := ih (ispReset T (ispTransfer T (ispTransfer T (ispTransfer T
        (ispTransfer T (delay T (setReset T s false) 20) 0xAC).1 0x53).1 0x00).1 0x00).1) bb
      refine ⟨k + 1, by omega, fun _ => by omega, ?_⟩
      have h2 := (h1.trans (sends_ispReset T _)).trans hs
      simpa [List.replicate_succ] using h2

theorem sends_fuseStep {σ : Type} (T : Target σ) (c2 v : Nat) (hc : c2 < 256) (hv : v < 256)
    (s : Isp σ) : ∃ k, 0 < k ∧ k ≤ 5 ∧
      Sends s (fuseStep T c2 v s).1 ([0xAC, c2, 0x00, v] :: List.replicate k syncFrame) := by
  obtain ⟨k, hk, hk0, hs⟩ := sends_ispBeginLoop T 5 (ispReset T (ispCommand T s 0xAC c2 0x00 v).1) false
  refine ⟨k, hk0 (by omega), hk, ?_⟩
  have h1 := sends_ispCommand T s 0xAC c2 0x00 v
  rw [Nat.mod_eq_of_lt hc, Nat.mod_eq_of_lt hv] at h1
  have h2 := (h1.trans (sends_ispReset T _)).trans hs
  simpa using h2

/-- The body of `programFuses` by steps: each write is made only when the
re-entries before it succeeded, and the lock write only when it is requested. -/
theorem writeFuses_eq {σ : Type} (T : Target σ) (lock : Bool) (lb lf hf ef : Nat) (s : Isp σ) :
    writeFuses T lock lb lf hf ef s =
      if (fuseStep T 0xA0 lf s).2 = true then
        if (fuseStep T 0xA8 hf (fuseStep T 0xA0 lf s).1).2 = true then
          if (fuseStep T 0xA4 ef (fuseStep T 0xA8 hf (fuseStep T 0xA0 lf s).1).1).2 = true then
            if lock = true then
              fuseStep T 0xE0 lb
                (fuseStep T 0xA4 ef (fuseStep T 0xA8 hf (fuseStep T 0xA0 lf s).1).1).1
            else fuseStep T 0xA4 ef (fuseStep T 0xA8 hf (fuseStep T 0xA0 lf s).1).1
          else fuseStep T 0xA4 ef (fuseStep T 0xA8 hf (fuseStep T 0xA0 lf s).1).1
        else fuseStep T 0xA8 hf (fuseStep T 0xA0 lf s).1
      else fuseStep T 0xA0 lf s := by
  have e : writeFuses T lock lb lf hf ef s =
      (let r := fuseStep T 0xA0 lf s
       let r := if r.2 then fuseStep T 0xA8 hf r.1 else r
       let r := if r.2 then fuseStep T 0xA4 ef r.1 else r
       if r.2 && lock then fuseStep T 0xE0 lb r.1 else r) := rfl
  rw [e]
  simp only
  by_cases h1 : (fuseStep T 0xA0 lf s).2 = true <;>
    by_cases h2 : (fuseStep T 0xA8 hf (fuseStep T 0xA0 lf s).1).2 = true <;>
    by_cases h3 : (fuseStep T 0xA4 ef (fuseStep T 0xA8 hf (fuseStep T 0xA0 lf s).1).1).2 = true <;>
    cases lock <;> simp [h1, h2, h3]

theorem pairVal_lt {p : Nat × Nat} {v : Nat} (h : pairVal p = some v) : v < 256 := by
  unfold pairVal at h
  split at h
  · rename_i a b ha hb
    simp only [Option.some.injEq] at h
    have := parseHexDigit_lt ha
    have := parseHexDigit_lt hb
    omega
  · simp at h

theorem noLock_fuseFrames (c2 v k : Nat) (hc : c2 ≠ 0xE0) :
    ∀ fr ∈ fuseFrames c2 v k, ¬ LockWrite fr := by
  intro fr hfr
  simp only [fuseFrames, List.mem_cons, List.mem_replicate] at hfr
  rcases hfr with rfl | ⟨_, rfl⟩
  · simp [LockWrite, hc]
  · simp [LockWrite, syncFrame]

/-- The frames of the body of `programFuses`, by the outcomes of the re-entries. -/
theorem writeFuses_frames {σ : Type} (T : Target σ) (lock : Bool) (lb lf hf ef : Nat)
    (hlb : lb < 256) (hlf : lf < 256) (hhf : hf < 256) (hef : ef < 256) (s : Isp σ) :
    ∃ k1 k2 k3 k4, (0 < k1 ∧ k1 ≤ 5) ∧ (0 < k2 ∧ k2 ≤ 5) ∧ (0 < k3 ∧ k3 ≤ 5) ∧ (0 < k4 ∧ k4 ≤ 5) ∧
      Sends s (writeFuses T lock lb lf hf ef s).1
        (if (fuseStep T 0xA0 lf s).2 = true then
          if (fuseStep T 0xA8 hf (fuseStep T 0xA0 lf s).1).2 = true then
            if (fuseStep T 0xA4 ef (fuseStep T 0xA8 hf (fuseStep T 0xA0 lf s).1).1).2 = true then
              if lock = true then
                fuseFrames 0xA0 lf k1 ++ (fuseFrames 0xA8 hf k2 ++ (fuseFrames 0xA4 ef k3 ++
                  fuseFrames 0xE0 lb k4))
              else fuseFrames 0xA0 lf k1 ++ (fuseFrames 0xA8 hf k2 ++ fuseFrames 0xA4 ef k3)
            else fuseFrames 0xA0 lf k1 ++ (fuseFrames 0xA8 hf k2 ++ fuseFrames 0xA4 ef k3)
          else fuseFrames 0xA0 lf k1 ++ fuseFrames 0xA8 hf k2
        else fuseFrames 0xA0 lf k1) := by
  obtain ⟨k1, a1, a2, s1⟩ := sends_fuseStep T 0xA0 lf (by omega) hlf s
  obtain ⟨k2, b1, b2, s2⟩ := sends_fuseStep T 0xA8 hf (by omega) hhf (fuseStep T 0xA0 lf s).1
  obtain ⟨k3, c1, c2, s3⟩ := sends_fuseStep T 0xA4 ef (by omega) hef
    (fuseStep T 0xA8 hf (fuseStep T 0xA0 lf s).1).1
  obtain ⟨k4, d1, d2, s4⟩ := sends_fuseStep T 0xE0 lb (by omega) hlb
    (fuseStep T 0xA4 ef (fuseStep T 0xA8 hf (fuseStep T 0xA0 lf s).1).1).1
  refine ⟨k1, k2, k3, k4, ⟨a1, a2⟩, ⟨b1, b2⟩, ⟨c1, c2⟩, ⟨d1, d2⟩, ?_⟩
  rw [writeFuses_eq]
  have t2 := s1.trans s2
  have t3 := t2.trans s3
  have t4 := t3.trans s4
  simp only [List.append_assoc] at t3 t4
  by_cases h1 : (fuseStep T 0xA0 lf s).2 = true
  · rw [if_pos h1, if_pos h1]
    by_cases h2 : (fuseStep T 0xA8 hf (fuseStep T 0xA0 lf s).1).2 = true
    · rw [if_pos h2, if_pos h2]
      by_cases h3 : (fuseStep T 0xA4 ef (fuseStep T 0xA8 hf (fuseStep T 0xA0 lf s).1).1).2 = true
      · rw [if_pos h3, if_pos h3]
        cases lock with
        | false => exact t3
        | true => exact t4
      · rw [if_neg h3, if_neg h3]
        exact t3
    · rw [if_neg h2, if_neg h2]
      exact t2
  · rw [if_neg h1, if_neg h1]
    exact s1

theorem programFuses_text {σ : Type} (T : Target σ) (str0 : Buf) (b l h e : Nat × Nat)
    (lb lf hf ef : Nat) (hb : pairVal b = some lb) (hl : pairVal l = some lf)
    (hh : pairVal h = some hf) (he : pairVal e = some ef) (e1 e2 : List Nat)
    (he1 : e1 = [10] ∨ e1 = [13, 10]) (he2 : LineEnd e2) (lock : Bool) (s : Isp σ) :
    programFuses T (some (fuseText b l h e e1 e2)) (some str0) lock s =
      writeFuses T lock lb lf hf ef s := by
  simp only [programFuses, readFuseFile_text str0 b l h e lb lf hf ef hb hl hh he e1 e2 he1 he2]

/-! ## C15: restoring the fuses -/

/-- On the target model every re-entry succeeds at the first attempt: the
target echoes `53` during the third transfer. -/
theorem avr_ispBegin (c : Chip) (s : Isp Avr) : (ispBegin (avr c) s).2 = true := rfl

/-- C15. Take any well-formed fuse file: the line `LB:XX`, LF or CR LF, the
line `L:XX;H:XX;E:XX` and a line ending or the end of the file, the four `XX`
being hex digits for the bytes `lb`, `lf`, `hf`, `ef`. When lock restoration is
not requested and every re-entry into programming mode succeeds,
`programFuses` is the write `AC A0 00 lf`, then `AC A8 00 hf`, then
`AC A4 00 ef`, each followed by a reset pulse and a re-entry; it returns true,
and the frames it sends are these three writes, each followed by the one to
five frames `AC 53 00 00` of its re-entry, and nothing else. When lock
restoration is not requested, no frame `AC E0` is sent, whatever the target
answers. When it is requested, a frame `AC E0` is sent only if the three
re-entries after the fuse writes succeeded, and then the frames are the three
fuse writes with their re-entries, in order, followed by `AC E0 00 lb` and its
re-entry. -/
theorem programFuses_restores {σ : Type} (T : Target σ) (str0 : Buf) (b l h e : Nat × Nat)
    (lb lf hf ef : Nat) (hb : pairVal b = some lb) (hl : pairVal l = some lf)
    (hh : pairVal h = some hf) (he : pairVal e = some ef) (e1 e2 : List Nat)
    (he1 : e1 = [10] ∨ e1 = [13, 10]) (he2 : LineEnd e2) (s : Isp σ) (hs : Framed s.log) :
    ((∀ s1, (ispBegin T s1).2 = true) →
      programFuses T (some (fuseText b l h e e1 e2)) (some str0) false s =
        fuseStep T 0xA4 ef (fuseStep T 0xA8 hf (fuseStep T 0xA0 lf s).1).1 ∧
      (programFuses T (some (fuseText b l h e e1 e2)) (some str0) false s).2 = true ∧
      ∃ k1 k2 k3, (0 < k1 ∧ k1 ≤ 5) ∧ (0 < k2 ∧ k2 ≤ 5) ∧ (0 < k3 ∧ k3 ≤ 5) ∧
        frames (programFuses T (some (fuseText b l h e e1 e2)) (some str0) false s).1.log =
          frames s.log ++
            (fuseFrames 0xA0 lf k1 ++ (fuseFrames 0xA8 hf k2 ++ fuseFrames 0xA4 ef k3))) ∧
    (∃ fs, frames (programFuses T (some (fuseText b l h e e1 e2)) (some str0) false s).1.log =
        frames s.log ++ fs ∧ ∀ fr ∈ fs, ¬ LockWrite fr) ∧
    (∃ fs, frames (programFuses T (some (fuseText b l h e e1 e2)) (some str0) true s).1.log =
        frames s.log ++ fs ∧
      ((∃ fr ∈ fs, LockWrite fr) →
        (fuseStep T 0xA0 lf s).2 = true ∧
        (fuseStep T 0xA8 hf (fuseStep T 0xA0 lf s).1).2 = true ∧
        (fuseStep T 0xA4 ef (fuseStep T 0xA8 hf (fuseStep T 0xA0 lf s).1).1).2 = true ∧
        ∃ k1 k2 k3 k4, fs = fuseFrames 0xA0 lf k1 ++ (fuseFrames 0xA8 hf k2 ++
          (fuseFrames 0xA4 ef k3 ++ fuseFrames 0xE0 lb k4)))) := by
  have hp := fun lock => programFuses_text T str0 b l h e lb lf hf ef hb hl hh he e1 e2 he1 he2
    lock s
  have n1 := noLock_fuseFrames 0xA0 lf
  have n2 := noLock_fuseFrames 0xA8 hf
  have n3 := noLock_fuseFrames 0xA4 ef
  refine ⟨?_, ?_, ?_⟩
  · intro hsync
    have h1 : (fuseStep T 0xA0 lf s).2 = true := hsync _
    have h2 : (fuseStep T 0xA8 hf (fuseStep T 0xA0 lf s).1).2 = true := hsync _
    have h3 : (fuseStep T 0xA4 ef (fuseStep T 0xA8 hf (fuseStep T 0xA0 lf s).1).1).2 = true :=
      hsync _
    obtain ⟨k1, k2, k3, k4, a1, a2, a3, _, hsend⟩ := writeFuses_frames T false lb lf hf ef
      (pairVal_lt hb) (pairVal_lt hl) (pairVal_lt hh) (pairVal_lt he) s
    rw [if_pos h1, if_pos h2, if_pos h3, if_neg (by simp)] at hsend
    have e : writeFuses T false lb lf hf ef s =
        fuseStep T 0xA4 ef (fuseStep T 0xA8 hf (fuseStep T 0xA0 lf s).1).1 := by
      rw [writeFuses_eq, if_pos h1, if_pos h2, if_pos h3, if_neg (by simp)]
    rw [hp false, e]
    rw [e] at hsend
    exact ⟨rfl, h3, k1, k2, k3, a1, a2, a3, (hsend hs).2⟩
  · obtain ⟨k1, k2, k3, k4, _, _, _, _, hsend⟩ := writeFuses_frames T false lb lf hf ef
      (pairVal_lt hb) (pairVal_lt hl) (pairVal_lt hh) (pairVal_lt he) s
    rw [hp false]
    refine ⟨_, (hsend hs).2, ?_⟩
    intro fr hfr hlock
    by_cases h1 : (fuseStep T 0xA0 lf s).2 = true
    · by_cases h2 : (fuseStep T 0xA8 hf (fuseStep T 0xA0 lf s).1).2 = true
      · have hfr2 : fr ∈ fuseFrames 0xA0 lf k1 ++ (fuseFrames 0xA8 hf k2 ++
            fuseFrames 0xA4 ef k3) := by
          rw [if_pos h1, if_pos h2] at hfr
          split_ifs at hfr <;> first | exact hfr | contradiction
        simp only [List.mem_append] at hfr2
        rcases hfr2 with hfr | hfr | hfr
        · exact n1 _ (by omega) fr hfr hlock
        · exact n2 _ (by omega) fr hfr hlock
        · exact n3 _ (by omega) fr hfr hlock
      · rw [if_pos h1, if_neg h2] at hfr
        simp only [List.mem_append] at hfr
        rcases hfr with hfr | hfr
        · exact n1 _ (by omega) fr hfr hlock
        · exact n2 _ (by omega) fr hfr hlock
    · rw [if_neg h1] at hfr
      exact n1 _ (by omega) fr hfr hlock
  · obtain ⟨k1, k2, k3, k4, _, _, _, _, hsend⟩ := writeFuses_frames T true lb lf hf ef
      (pairVal_lt hb) (pairVal_lt hl) (pairVal_lt hh) (pairVal_lt he) s
    rw [hp true]
    refine ⟨_, (hsend hs).2, ?_⟩
    rintro ⟨fr, hfr, hlock⟩
    by_cases h1 : (fuseStep T 0xA0 lf s).2 = true
    · by_cases h2 : (fuseStep T 0xA8 hf (fuseStep T 0xA0 lf s).1).2 = true
      · by_cases h3 : (fuseStep T 0xA4 ef (fuseStep T 0xA8 hf (fuseStep T 0xA0 lf s).1).1).2 = true
        · refine ⟨h1, h2, h3, k1, k2, k3, k4, ?_⟩
          rw [if_pos h1, if_pos h2, if_pos h3, if_pos rfl]
        · exfalso
          rw [if_pos h1, if_pos h2, if_neg h3] at hfr
          simp only [List.mem_append] at hfr
          rcases hfr with hfr | hfr | hfr
          · exact n1 _ (by omega) fr hfr hlock
          · exact n2 _ (by omega) fr hfr hlock
          · exact n3 _ (by omega) fr hfr hlock
      · exfalso
        rw [if_pos h1, if_neg h2] at hfr
        simp only [List.mem_append] at hfr
        rcases hfr with hfr | hfr
        · exact n1 _ (by omega) fr hfr hlock
        · exact n2 _ (by omega) fr hfr hlock
    · exfalso
      rw [if_neg h1] at hfr
      exact n1 _ (by omega) fr hfr hlock

/-- Scenario C on the target model: the file `LB:FF`, `L:E2;H:D9;E:FD` with LF
line endings restores low `0xE2`, high `0xD9` and extended `0xFD`, and returns
true. -/
theorem programFuses_restores_witness :
    (programFuses (avr (idealChip 1)) (some scenarioFuses) (some zeroBuf) false blankLink).2 =
      true ∧
    ∃ k1 k2 k3, (0 < k1 ∧ k1 ≤ 5) ∧ (0 < k2 ∧ k2 ≤ 5) ∧ (0 < k3 ∧ k3 ≤ 5) ∧
      frames (programFuses (avr (idealChip 1)) (some scenarioFuses) (some zeroBuf) false
        blankLink).1.log =
        frames blankLink.log ++
          (fuseFrames 0xA0 0xE2 k1 ++ (fuseFrames 0xA8 0xD9 k2 ++ fuseFrames 0xA4 0xFD k3)) := by
  have e : scenarioFuses = fuseText (70, 70) (69, 50) (68, 57) (70, 68) [10] [10] := by decide
  rw [e]
  exact ((programFuses_restores (avr (idealChip 1)) zeroBuf (70, 70) (69, 50) (68, 57) (70, 68)
    0xFF 0xE2 0xD9 0xFD (by decide) (by decide) (by decide) (by decide) [10] [10] (Or.inl rfl)
    (Or.inr (Or.inr (Or.inl ⟨[], rfl⟩))) blankLink rfl).1 (avr_ispBegin (idealChip 1))).2

/-! ## C16: fuse backup and restore -/

theorem hexPair_upperHex (v : Nat) (hv : v < 256) :
    upperHex (hexPair v).1 = (hexPair v).1 ∧ upperHex (hexPair v).2 = (hexPair v).2 := by
  have h := @hexPair_upper (hexPair v).1 (hexPair v).2 v (pairVal_hexPair v hv)
  exact ⟨(congrArg Prod.fst h).symm, (congrArg Prod.snd h).symm⟩

/-- The text `dumpFuses` writes. -/
theorem dumpFuses_text {σ : Type} (T : Target σ) (s : Isp σ) :
    (dumpFuses T true s).2.1 =
      fuseText (hexPair (ispReadLockBits T s).2)
        (hexPair (ispReadLowFuseBits T (ispReadLockBits T s).1).2)
        (hexPair (ispReadHighFuseBits T (ispReadLowFuseBits T (ispReadLockBits T s).1).1).2)
        (hexPair (ispReadExtFuseBits T (ispReadHighFuseBits T
          (ispReadLowFuseBits T (ispReadLockBits T s).1).1).1).2) [13, 10] [13, 10] := by
  simp [dumpFuses, fuseText, hex_eq_hexPair]

/-- C16. For every target, `dumpFuses` writes the two lines `LB:XX` and
`L:XX;H:XX;E:XX`, each ended by CR LF, where the four `XX` are the upper-case
hex digits of the lock, low, high and extended bytes it read, in that order.
`programFuses`, on any target and with any line buffer, accepts this text: it
decodes from it the same four values, and what it does is the body of
`programFuses` for these values. When every re-entry into programming mode
succeeds it returns true and the frames it sends are the writes of the same
low, high and extended values, in that order, each followed by the frames of
its re-entry, and after them the write of the same lock value when lock
restoration is requested. -/
theorem fuses_roundtrip {σ τ : Type} (T : Target σ) (s : Isp σ) (T2 : Target τ) (s2 : Isp τ)
    (str0 : Buf) (lock : Bool) :
    (dumpFuses T true s).2.2 = true ∧
    (dumpFuses T true s).2.1 =
      fuseText (hexPair (ispReadLockBits T s).2)
        (hexPair (ispReadLowFuseBits T (ispReadLockBits T s).1).2)
        (hexPair (ispReadHighFuseBits T (ispReadLowFuseBits T (ispReadLockBits T s).1).1).2)
        (hexPair (ispReadExtFuseBits T (ispReadHighFuseBits T
          (ispReadLowFuseBits T (ispReadLockBits T s).1).1).1).2) [13, 10] [13, 10] ∧
    (dumpFuses T true s).2.1.map upperHex = (dumpFuses T true s).2.1 ∧
    readFuseFile str0 (dumpFuses T true s).2.1 =
      some ((ispReadLockBits T s).2, (ispReadLowFuseBits T (ispReadLockBits T s).1).2,
        (ispReadHighFuseBits T (ispReadLowFuseBits T (ispReadLockBits T s).1).1).2,
        (ispReadExtFuseBits T (ispReadHighFuseBits T
          (ispReadLowFuseBits T (ispReadLockBits T s).1).1).1).2) ∧
    programFuses T2 (some (dumpFuses T true s).2.1) (some str0) lock s2 =
      writeFuses T2 lock (ispReadLockBits T s).2 (ispReadLowFuseBits T (ispReadLockBits T s).1).2
        (ispReadHighFuseBits T (ispReadLowFuseBits T (ispReadLockBits T s).1).1).2
        (ispReadExtFuseBits T (ispReadHighFuseBits T
          (ispReadLowFuseBits T (ispReadLockBits T s).1).1).1).2 s2 ∧
    ((∀ s1, (ispBegin T2 s1).2 = true) → Framed s2.log →
      (programFuses T2 (some (dumpFuses T true s).2.1) (some str0) lock s2).2 = true ∧
      ∃ k1 k2 k3 k4,
        frames (programFuses T2 (some (dumpFuses T true s).2.1) (some str0) lock s2).1.log =
          frames s2.log ++
            (fuseFrames 0xA0 (ispReadLowFuseBits T (ispReadLockBits T s).1).2 k1 ++
              (fuseFrames 0xA8
                (ispReadHighFuseBits T (ispReadLowFuseBits T (ispReadLockBits T s).1).1).2 k2 ++
              (fuseFrames 0xA4 (ispReadExtFuseBits T (ispReadHighFuseBits T
                (ispReadLowFuseBits T (ispReadLockBits T s).1).1).1).2 k3 ++
              (if lock = true then fuseFrames 0xE0 (ispReadLockBits T s).2 k4 else []))))) := by
  have htext := dumpFuses_text T s
  generalize hlb : (ispReadLockBits T s).2 = lb at htext ⊢
  generalize hlf : (ispReadLowFuseBits T (ispReadLockBits T s).1).2 = lf at htext ⊢
  generalize hhf : (ispReadHighFuseBits T (ispReadLowFuseBits T (ispReadLockBits T s).1).1).2 = hf
    at htext ⊢
  generalize hef : (ispReadExtFuseBits T (ispReadHighFuseBits T
    (ispReadLowFuseBits T (ispReadLockBits T s).1).1).1).2 = ef at htext ⊢
  have b1 : lb < 256 := by rw [← hlb]; exact ispCommand_lt T _ _ _ _ _
  have b2 : lf < 256 := by rw [← hlf]; exact ispCommand_lt T _ _ _ _ _
  have b3 : hf < 256 := by rw [← hhf]; exact ispCommand_lt T _ _ _ _ _
  have b4 : ef < 256 := by rw [← hef]; exact ispCommand_lt T _ _ _ _ _
  have hcr : LineEnd [13, 10] := Or.inr (Or.inr (Or.inr ⟨[], rfl⟩))
  have hread := readFuseFile_text str0 (hexPair lb) (hexPair lf) (hexPair hf) (hexPair ef)
    lb lf hf ef (pairVal_hexPair lb b1) (pairVal_hexPair lf b2) (pairVal_hexPair hf b3)
    (pairVal_hexPair ef b4) [13, 10] [13, 10] (Or.inr rfl) hcr
  have hprog := programFuses_text T2 str0 (hexPair lb) (hexPair lf) (hexPair hf) (hexPair ef)
    lb lf hf ef (pairVal_hexPair lb b1) (pairVal_hexPair lf b2) (pairVal_hexPair hf b3)
    (pairVal_hexPair ef b4) [13, 10] [13, 10] (Or.inr rfl) hcr lock s2
  rw [htext]
  refine ⟨rfl, rfl, ?_, hread, hprog, ?_⟩
  · obtain ⟨u1, u2⟩ := hexPair_upperHex lb b1
    obtain ⟨u3, u4⟩ := hexPair_upperHex lf b2
    obtain ⟨u5, u6⟩ := hexPair_upperHex hf b3
    obtain ⟨u7, u8⟩ := hexPair_upperHex ef b4
    simp only [fuseText, List.map_append, List.map_cons, List.map_nil, u1, u2, u3, u4, u5, u6,
      u7, u8]
    simp [upperHex]
  · intro hsync hs2
    have h1 : (fuseStep T2 0xA0 lf s2).2 = true := hsync _
    have h2 : (fuseStep T2 0xA8 hf (fuseStep T2 0xA0 lf s2).1).2 = true := hsync _
    have h3 : (fuseStep T2 0xA4 ef (fuseStep T2 0xA8 hf (fuseStep T2 0xA0 lf s2).1).1).2 = true :=
      hsync _
    obtain ⟨k1, k2, k3, k4, _, _, _, _, hsend⟩ := writeFuses_frames T2 lock lb lf hf ef b1 b2 b3 b4 s2
    rw [if_pos h1, if_pos h2, if_pos h3] at hsend
    rw [hprog]
    constructor
    · rw [writeFuses_eq, if_pos h1, if_pos h2, if_pos h3]
      cases lock with
      | false => exact h3
      | true => exact hsync _
    · refine ⟨k1, k2, k3, k4, ?_⟩
      rw [(hsend hs2).2]
      cases lock <;> simp

/-- The fuses of a target with high fuse `0xD9` and the other bytes at `0xFF`
are dumped and restored, lock included, on the target model. -/
theorem fuses_roundtrip_witness :
    (programFuses (avr (idealChip 1)) (some (dumpFuses (avr (idealChip 1)) true patternLink).2.1)
      (some zeroBuf) true blankLink).2 = true ∧
    ∃ k1 k2 k3 k4,
      frames (programFuses (avr (idealChip 1))
        (some (dumpFuses (avr (idealChip 1)) true patternLink).2.1) (some zeroBuf) true
        blankLink).1.log =
        frames blankLink.log ++
          (fuseFrames 0xA0 (ispReadLowFuseBits (avr (idealChip 1))
              (ispReadLockBits (avr (idealChip 1)) patternLink).1).2 k1 ++
            (fuseFrames 0xA8 (ispReadHighFuseBits (avr (idealChip 1))
              (ispReadLowFuseBits (avr (idealChip 1))
                (ispReadLockBits (avr (idealChip 1)) patternLink).1).1).2 k2 ++
            (fuseFrames 0xA4 (ispReadExtFuseBits (avr (idealChip 1))
              (ispReadHighFuseBits (avr (idealChip 1)) (ispReadLowFuseBits (avr (idealChip 1))
                (ispReadLockBits (avr (idealChip 1)) patternLink).1).1).1).2 k3 ++
            (if true = true then
              fuseFrames 0xE0 (ispReadLockBits (avr (idealChip 1)) patternLink).2 k4
            else [])))) :=
  (fuses_roundtrip (avr (idealChip 1)) patternLink (avr (idealChip 1)) blankLink zeroBuf
    true).2.2.2.2.2 (avr_ispBegin (idealChip 1)) rfl

/-! ## C17: programming the EEPROM byte by byte -/

theorem writeEepromBytes_eq {σ : Type} (T : Target σ) (fuel : Nat) (addr : Nat) (data : Buf)
    (n : Nat) : ∀ (i : Nat) (s : Isp σ), addr + i + n ≤ 65536 →
      writeEepromBytes T fuel addr data n i s =
        writeAll T fuel ((List.range' i n).map fun j => (addr + j, data j)) s := by
  induction n with
  | zero => intro i s _; rfl
  | succ n ih =>
    intro i s h
    simp only [writeEepromBytes, List.range'_succ, List.map_cons, writeAll]
    rw [Nat.mod_eq_of_lt (show addr + i < 65536 by omega)]
    cases hw : ispWriteEeprom T fuel s (addr + i) (data i) true with
    | none => rfl
    | some r =>
      obtain ⟨s1, ok⟩ := r
      cases ok with
      | false => rfl
      | true => exact ih (i + 1) s1 (by omega)

theorem writeAll_append {σ : Type} (T : Target σ) (fuel : Nat) (a b : List (Nat × Nat)) :
    ∀ s : Isp σ, writeAll T fuel (a ++ b) s =
      match writeAll T fuel a s with
      | none => none
      | some (s1, false) => some (s1, false)
      | some (s1, true) => writeAll T fuel b s1 := by
  induction a with
  | nil => intro s; rfl
  | cons x a ih =>
    intro s
    simp only [List.cons_append, writeAll]
    cases hw : ispWriteEeprom T fuel s x.1 x.2 true with
    | none => rfl
    | some r =>
      obtain ⟨s1, ok⟩ := r
      cases ok with
      | false => rfl
      | true => exact ih s1

theorem map_congr_range' {β : Type} (f g : Nat → β) (n : Nat) :
    ∀ i, (∀ j, i ≤ j → j < i + n → f j = g j) →
      (List.range' i n).map f = (List.range' i n).map g := by
  induction n with
  | zero => intro i _; rfl
  | succ n ih =>
    intro i h
    simp only [List.range'_succ, List.map_cons]
    rw [h i (le_refl _) (by omega), ih (i + 1) (fun j h1 h2 => h j (by omega) (by omega))]

/-- The pass of the loop of `programEeprom` over the line of a data record in
the range of the EEPROM: its bytes are written one by one. -/
theorem programEepromStep_data {σ : Type} (T : Target σ) (heap : Nat → Option Buf)
    (hheap : ∀ k, heap k ≠ none) (fuel : Nat) (p : Prog σ) (r : HexRecord)
    (hdec : decodeLine (nextLine p.f) = .ok r) (hty : r.type = 0)
    (hrange : r.addr + r.len ≤ 1024) :
    programEepromStep T heap fuel p =
      (writeAll T fuel (recordBytes r) p.isp).map fun w =>
        (w.2, false, { p with
          isp := w.1
          f := afterLine p.f
          v := (parseHexLine (heap p.lines) p.f p.v).2.1
          lines := p.lines + 1 }) := by
  obtain ⟨str0, hstr⟩ := Option.ne_none_iff_exists'.1 (hheap p.lines)
  obtain ⟨a1, a2, a3, a4, _, a6⟩ := parseHexLine_of_decodeLine str0 p.f p.v r hdec
  obtain ⟨r2, hdec2, _, _, _, a5⟩ := parseHexLine_ok_record str0 p.f p.v a1
  have hr : r2 = r := by
    rw [hdec] at hdec2
    exact (Except.ok.inj hdec2).symm
  subst hr
  rw [← hstr] at a1 a2 a3 a4 a5 a6
  have hw := writeEepromBytes_eq T fuel r2.addr (parseHexLine (heap p.lines) p.f p.v).2.1.data
    r2.len 0 p.isp (by omega)
  have hb : ((List.range' 0 r2.len).map fun j =>
      (r2.addr + j, (parseHexLine (heap p.lines) p.f p.v).2.1.data j)) = recordBytes r2 := by
    unfold recordBytes
    exact map_congr_range' _ _ _ 0 (fun j _ hj => by rw [a5 j (by omega)])
  rw [hb] at hw
  simp only [programEepromStep]
  rw [if_pos a1, if_pos (by rw [a4, hty]; rfl), a2, a3, if_pos (by
    rw [Nat.mod_eq_of_lt (by omega)]
    exact hrange), hw, a6]
  cases writeAll T fuel (recordBytes r2) p.isp with
  | none => rfl
  | some w => rfl

/-- The pass over the line of the end record: the loop is left with `ok`. -/
theorem programEepromStep_end {σ : Type} (T : Target σ) (heap : Nat → Option Buf)
    (hheap : ∀ k, heap k ≠ none) (fuel : Nat) (p : Prog σ)
    (hdec : decodeLine (nextLine p.f) = .ok { len := 0, addr := 0, type := 1, data := [] }) :
    programEepromStep T heap fuel p =
      some (true, true, { p with
        f := afterLine p.f
        v := (parseHexLine (heap p.lines) p.f p.v).2.1
        lines := p.lines + 1 }) := by
  obtain ⟨str0, hstr⟩ := Option.ne_none_iff_exists'.1 (hheap p.lines)
  obtain ⟨a1, a2, a3, a4, _, a6⟩ := parseHexLine_of_decodeLine str0 p.f p.v _ hdec
  rw [← hstr] at a1 a2 a3 a4 a6
  simp only [programEepromStep]
  rw [if_pos a1, if_neg (by rw [a4]; decide), if_pos (by rw [a4]; rfl),
    if_pos ⟨a2, a3⟩, a6]

/-- The loop of `programEeprom` over a file of data records in the range of the
EEPROM followed by the end record writes the bytes of the records one by one. -/
theorem programEepromLoop_writeAll {σ : Type} (T : Target σ) (heap : Nat → Option Buf)
    (hheap : ∀ k, heap k ≠ none) (fuel : Nat) :
    ∀ (rs : List HexRecord) (n : Nat) (p : Prog σ), rs.length < n → EepromFile rs p.f →
      (programEepromLoop T heap fuel n p).map (fun r => (r.2.isp, r.1)) =
        writeAll T fuel (fileBytes rs) p.isp := by
  intro rs
  induction rs with
  | nil =>
    intro n p hn hfile
    obtain ⟨m, rfl⟩ : ∃ m, n = m + 1 := ⟨n - 1, by simp at hn; omega⟩
    simp only [programEepromLoop, programEepromStep_end T heap hheap fuel p hfile, if_true]
    rfl
  | cons r rs ih =>
    intro n p hn hfile
    obtain ⟨m, rfl⟩ : ∃ m, n = m + 1 := ⟨n - 1, by simp at hn; omega⟩
    obtain ⟨hdec, hty, hrange, hrest⟩ := hfile
    have hstep := programEepromStep_data T heap hheap fuel p r hdec hty hrange
    have happ : fileBytes (r :: rs) = recordBytes r ++ fileBytes rs := by
      simp [fileBytes]
    rw [happ, writeAll_append]
    simp only [programEepromLoop, hstep]
    cases hw : writeAll T fuel (recordBytes r) p.isp with
    | none => rfl
    | some w =>
      obtain ⟨s1, ok⟩ := w
      cases ok with
      | false => rfl
      | true =>
        simp only [Option.map_some', Bool.false_eq_true, if_false, if_true]
        exact ih m _ (by simp at hn; omega) hrest

theorem sends_ispWriteEeprom {σ : Type} (T : Target σ) (fuel : Nat) (s s' : Isp σ)
    (a d : Nat) (ok : Bool) (h : ispWriteEeprom T fuel s a d true = some (s', ok)) :
    ∃ k, Sends s s' ([0xC0, a / 256 % 256, a % 256, d % 256] ::
      (List.replicate k [0xF0, 0, 0, 0] ++ [[0xA0, a / 256 % 256, a % 256, 0]])) := by
  simp only [ispWriteEeprom] at h
  have h1 := sends_ispCommand T s 0xC0 (a / 256) a d
  cases hw : ispWait T fuel (ispCommand T s 0xC0 (a / 256) a d).1 with
  | none => rw [hw] at h; simp at h
  | some s1 =>
    rw [hw] at h
    obtain ⟨k, hk⟩ := sends_ispWait T fuel _ _ hw
    simp only [if_true, Option.some.injEq, Prod.mk.injEq] at h
    have h3 : Sends s1 (ispReadEeprom T s1 a).1 [[0xA0, a / 256 % 256, a % 256, 0]] :=
      sends_ispCommand T s1 0xA0 (a / 256) a 0x00
    rw [h.1] at h3
    exact ⟨k, by simpa using (h1.trans hk).trans h3⟩

theorem eepromWrites_polls (k : Nat) : eepromWrites (List.replicate k [0xF0, 0, 0, 0]) = [] := by
  induction k with
  | zero => rfl
  | succ k ih =>
    rw [List.replicate_succ]
    simp [eepromWrites, eepromWriteOf]

theorem eepromOp_polls (k : Nat) : ∀ fr ∈ List.replicate k [0xF0, 0, 0, 0], EepromOp fr := by
  intro fr hfr
  rw [List.mem_replicate] at hfr
  rw [hfr.2]
  exact Or.inr (Or.inl rfl)

/-- The frames of writing bytes one by one: only byte writes, polls and byte
reads, and the byte writes are those of the bytes up to the last one written. -/
theorem writeAll_frames {σ : Type} (T : Target σ) (fuel : Nat) :
    ∀ (bs : List (Nat × Nat)) (s s' : Isp σ) (ok : Bool),
      (∀ b ∈ bs, b.1 < 65536 ∧ b.2 < 256) → writeAll T fuel bs s = some (s', ok) →
      ∃ fs n, Sends s s' fs ∧ (∀ fr ∈ fs, EepromOp fr) ∧ n ≤ bs.length ∧
        eepromWrites fs = bs.take n ∧ (ok = true → n = bs.length) ∧ (ok = false → 0 < n) := by
  intro bs
  induction bs with
  | nil =>
    intro s s' ok _ h
    simp only [writeAll, Option.some.injEq, Prod.mk.injEq] at h
    obtain ⟨rfl, rfl⟩ := h
    exact ⟨[], 0, Sends.refl s, by simp, le_refl _, rfl, fun _ => rfl, fun h => by simp at h⟩
  | cons b bs ih =>
    intro s s' ok hb h
    obtain ⟨hb1, hb2⟩ := hb b (by simp)
    simp only [writeAll] at h
    have hone : ∀ k, eepromWrites ([0xC0, b.1 / 256 % 256, b.1 % 256, b.2 % 256] ::
        (List.replicate k [0xF0, 0, 0, 0] ++ [[0xA0, b.1 / 256 % 256, b.1 % 256, 0]])) = [b] := by
      intro k
      have e1 : b.1 / 256 % 256 * 256 + b.1 % 256 = b.1 := by omega
      have e2 : b.2 % 256 = b.2 := Nat.mod_eq_of_lt hb2
      have hp := eepromWrites_polls k
      simp only [eepromWrites] at hp
      simp [eepromWrites, eepromWriteOf, List.filterMap_append, hp, e1, e2]
    have hop : ∀ k, ∀ fr ∈ ([0xC0, b.1 / 256 % 256, b.1 % 256, b.2 % 256] ::
        (List.replicate k [0xF0, 0, 0, 0] ++ [[0xA0, b.1 / 256 % 256, b.1 % 256, 0]])),
        EepromOp fr := by
      intro k fr hfr
      simp only [List.mem_cons, List.mem_append, List.mem_singleton] at hfr
      rcases hfr with rfl | hfr | rfl | hfr
      · exact Or.inl rfl
      · exact eepromOp_polls k fr hfr
      · exact Or.inr (Or.inr rfl)
      · simp at hfr
    cases hw : ispWriteEeprom T fuel s b.1 b.2 true with
    | none => rw [hw] at h; simp at h
    | some r =>
      obtain ⟨s1, ok1⟩ := r
      obtain ⟨k, hk⟩ := sends_ispWriteEeprom T fuel s s1 b.1 b.2 ok1 hw
      rw [hw] at h
      cases ok1 with
      | false =>
        simp only [Option.some.injEq, Prod.mk.injEq] at h
        obtain ⟨rfl, rfl⟩ := h
        exact ⟨_, 1, hk, hop k, by simp, by rw [hone k]; rfl, fun h => by simp at h,
          fun _ => by omega⟩
      | true =>
        simp only at h
        obtain ⟨fs, n, h1, h2, h3, h4, h5, h6⟩ := ih s1 s' ok
          (fun x hx => hb x (by simp [hx])) h
        refine ⟨_, n + 1, hk.trans h1, ?_, by simpa using h3, ?_, ?_, fun _ => by omega⟩
        · intro fr hfr
          rcases List.mem_append.1 hfr with hfr | hfr
          · exact hop k fr hfr
          · exact h2 fr hfr
        · have := hone k
          simp only [eepromWrites] at this h4 ⊢
          rw [List.filterMap_append, this, h4]
          rfl
        · intro hok
          rw [h5 hok]
          rfl

theorem fileBytes_lt : ∀ (rs : List HexRecord) (f : List Nat), EepromFile rs f →
    ∀ b ∈ fileBytes rs, b.1 < 65536 ∧ b.2 < 256 := by
  intro rs
  induction rs with
  | nil => intro f _ b hb; simp [fileBytes] at hb
  | cons r rs ih =>
    intro f hfile b hb
    obtain ⟨hdec, _, hrange, hrest⟩ := hfile
    obtain ⟨_, _, _, _, hd⟩ := decodeLine_ok hdec
    simp only [fileBytes, List.flatMap_cons, List.mem_append] at hb
    rcases hb with hb | hb
    · simp only [recordBytes, List.mem_map, List.mem_range'_1] at hb
      obtain ⟨i, ⟨_, hi⟩, rfl⟩ := hb
      exact ⟨by simp only; omega, hd i (by omega)⟩
    · exact ih _ hrest b hb

/-- C17. For every target and every file made of valid data records in the
range of the EEPROM followed by the end record, `programEeprom` does what
writing the data bytes one by one does - `ispWriteEeprom(addr + i, data[i],
true)` for the records in file order and `i` ascending, up to the first write
whose readback differs: same state of the link, and the result is true exactly
when every byte verified. The frames sent are byte writes `C0`, polls `F0` and
byte reads `A0` only, and the byte writes are, in order, those of the first `n`
bytes of the file: all of them when the result is true, and at least one, the
last being the one that failed, when it is false. -/
theorem programEeprom_bytewise {σ : Type} (T : Target σ) (fuel : Nat) (heap : Nat → Option Buf)
    (hheap : ∀ k, heap k ≠ none) (rs : List HexRecord) (f : List Nat)
    (hfile : EepromFile rs f) (hn : rs.length < fuel) (data0 : Buf) (v0 : HexVars)
    (s : Isp σ) :
    (programEeprom T fuel (some f) (some data0) heap v0 s).map (fun r => (r.2.isp, r.1)) =
      writeAll T fuel (fileBytes rs) s ∧
    (∀ ok p, programEeprom T fuel (some f) (some data0) heap v0 s = some (ok, p) →
      Framed s.log →
      ∃ fs n, frames p.isp.log = frames s.log ++ fs ∧ (∀ fr ∈ fs, EepromOp fr) ∧
        n ≤ (fileBytes rs).length ∧ eepromWrites fs = (fileBytes rs).take n ∧
        (ok = true → n = (fileBytes rs).length) ∧ (ok = false → 0 < n)) := by
  have heq : (programEeprom T fuel (some f) (some data0) heap v0 s).map
      (fun r => (r.2.isp, r.1)) = writeAll T fuel (fileBytes rs) s :=
    programEepromLoop_writeAll T heap hheap fuel rs fuel
      { isp := s, f := f, v := { v0 with data := data0 }, pageAddr := 0xFFFF,
        page := fun _ => 0, lines := 0 } hn hfile
  refine ⟨heq, ?_⟩
  intro ok p hp hs
  rw [hp] at heq
  obtain ⟨fs, n, h1, h2, h3, h4, h5, h6⟩ := writeAll_frames T fuel (fileBytes rs) s p.isp ok
    (fileBytes_lt rs f hfile) heq.symm
  exact ⟨fs, n, (h1 hs).2, h2, h3, h4, h5, h6⟩

theorem eepromFile_sample :
    EepromFile [{ len := 4, addr := 0, type := 0, data := [0xDE, 0xAD, 0xBE, 0xEF] }]
      eepromSample := by
  refine ⟨by rfl, rfl, by decide, by rfl⟩

/-- The file with the bytes `DE AD BE EF` at address 0 is programmed byte by
byte on the target model. -/
theorem programEeprom_bytewise_witness :
    (programEeprom (avr (idealChip 1)) 3 (some eepromSample) (some zeroBuf)
      (fun _ => some zeroBuf) zeroVars blankLink).map (fun r => (r.2.isp, r.1)) =
      writeAll (avr (idealChip 1)) 3
        (fileBytes [{ len := 4, addr := 0, type := 0, data := [0xDE, 0xAD, 0xBE, 0xEF] }])
        blankLink :=
  (programEeprom_bytewise (avr (idealChip 1)) 3 (fun _ => some zeroBuf) (fun _ => by simp)
    [{ len := 4, addr := 0, type := 0, data := [0xDE, 0xAD, 0xBE, 0xEF] }] eepromSample
    eepromFile_sample (by decide) zeroBuf zeroVars blankLink).1

/-! ## C19: records of an unexpected type -/

set_option maxRecDepth 100000 in
/-- C19, as stated, fails in `programEeprom` on an extended-address record. The
line `:020000040000FA` is a syntactically valid record of type 04; the pass of
`programEeprom` over it prints `unexpected type!`, and `programEeprom` on the
file returns false without having sent a frame; the pass of `programFlash` over
the same line prints nothing. -/
theorem programEeprom_rejects_extaddr :
    (parseHexLine (some zeroBuf) extFile zeroVars).1 = HEX_OK ∧
    (parseHexLine (some zeroBuf) extFile zeroVars).2.1.type = HEX_EXTADDR ∧
    programEepromSays (avr (idealChip 1)) (fun _ => some zeroBuf) 3 (firstPass extFile) =
      some (some Message.unexpectedType) ∧
    (programEeprom (avr (idealChip 1)) 3 (some extFile) (some zeroBuf) (fun _ => some zeroBuf)
      zeroVars blankLink).map (fun r => (r.1, frames r.2.isp.log)) = some (false, []) ∧
    programFlashSays (avr (idealChip 1)) (fun _ => some zeroBuf) 3 (firstPass extFile) =
      some none := by
  decide

/-- C19, amended. Take a pass of the loop of `programFlash` or of
`programEeprom` over a syntactically valid record (`parseHexLine` returns
`HEX_OK`, so its type is at most 5). In `programFlash` the pass prints
`unexpected type!` if and only if the type is not 00 (data), 01 (end) or 04
(extended address); in `programEeprom`, if and only if the type is not 00 or
01: an extended-address record is rejected there too. In both, a record
rejected this way ends the loop with failure and leaves the link as it was: no
frame is sent for it. -/
theorem unexpected_type {σ : Type} (T : Target σ) (heap : Nat → Option Buf) (fuel : Nat)
    (p : Prog σ) (hok : (parseHexLine (heap p.lines) p.f p.v).1 = HEX_OK) :
    (parseHexLine (heap p.lines) p.f p.v).2.1.type ≤ 5 ∧
    (programFlashSays T heap fuel p = some (some Message.unexpectedType) ↔
      (parseHexLine (heap p.lines) p.f p.v).2.1.type ≠ HEX_BIN ∧
      (parseHexLine (heap p.lines) p.f p.v).2.1.type ≠ HEX_END ∧
      (parseHexLine (heap p.lines) p.f p.v).2.1.type ≠ HEX_EXTADDR) ∧
    ((parseHexLine (heap p.lines) p.f p.v).2.1.type ≠ HEX_BIN ∧
      (parseHexLine (heap p.lines) p.f p.v).2.1.type ≠ HEX_END ∧
      (parseHexLine (heap p.lines) p.f p.v).2.1.type ≠ HEX_EXTADDR →
      ∀ n, programFlashLoop T heap fuel (n + 1) p =
        some (false, { p with
          f := (parseHexLine (heap p.lines) p.f p.v).2.2
          v := (parseHexLine (heap p.lines) p.f p.v).2.1
          lines := p.lines + 1 })) ∧
    (programEepromSays T heap fuel p = some (some Message.unexpectedType) ↔
      (parseHexLine (heap p.lines) p.f p.v).2.1.type ≠ HEX_BIN ∧
      (parseHexLine (heap p.lines) p.f p.v).2.1.type ≠ HEX_END) ∧
    ((parseHexLine (heap p.lines) p.f p.v).2.1.type ≠ HEX_BIN ∧
      (parseHexLine (heap p.lines) p.f p.v).2.1.type ≠ HEX_END →
      ∀ n, programEepromLoop T heap fuel (n + 1) p =
        some (false, { p with
          f := (parseHexLine (heap p.lines) p.f p.v).2.2
          v := (parseHexLine (heap p.lines) p.f p.v).2.1
          lines := p.lines + 1 })) := by
  have hty : (parseHexLine (heap p.lines) p.f p.v).2.1.type ≤ 5 := by
    cases hh : heap p.lines with
    | none => rw [hh] at hok; simp [parseHexLine] at hok
    | some str0 =>
      rw [hh] at hok
      obtain ⟨r, hdec, _, _, e, _⟩ := parseHexLine_ok_record str0 p.f p.v hok
      rw [e]
      exact (decodeLine_ok hdec).2.2.1
  refine ⟨hty, ?_, ?_, ?_, ?_⟩
  · simp only [programFlashSays]
    rw [if_pos hok]
    by_cases h4 : (parseHexLine (heap p.lines) p.f p.v).2.1.type = HEX_EXTADDR
    · rw [if_pos h4]
      split_ifs <;> simp [h4]
    · rw [if_neg h4]
      by_cases h0 : (parseHexLine (heap p.lines) p.f p.v).2.1.type = HEX_BIN
      · rw [if_pos h0]
        constructor
        · intro h
          exfalso
          split_ifs at h
          all_goals first
            | (simp at h)
            | (split at h <;> simp at h)
        · intro h
          exact absurd h0 h.1
      · rw [if_neg h0]
        by_cases h1 : (parseHexLine (heap p.lines) p.f p.v).2.1.type = HEX_END
        · rw [if_pos h1]
          constructor
          · intro h
            exfalso
            split_ifs at h
            all_goals first
              | (simp at h)
              | (split at h <;> simp at h)
          · intro h
            exact absurd h1 h.2.1
        · rw [if_neg h1]
          simp [h0, h1, h4]
  · rintro ⟨h0, h1, h4⟩ n
    simp only [programFlashLoop, programFlashStep]
    rw [if_pos hok, if_neg h4, if_neg h0, if_neg h1]
    rfl
  · simp only [programEepromSays]
    rw [if_pos hok]
    by_cases h0 : (parseHexLine (heap p.lines) p.f p.v).2.1.type = HEX_BIN
    · rw [if_pos h0]
      constructor
      · intro h
        exfalso
        split_ifs at h
        all_goals first
          | (simp at h)
          | (split at h <;> simp at h)
      · intro h
        exact absurd h0 h.1
    · rw [if_neg h0]
      by_cases h1 : (parseHexLine (heap p.lines) p.f p.v).2.1.type = HEX_END
      · rw [if_pos h1]
        split_ifs <;> simp [h1]
      · rw [if_neg h1]
        simp [h0, h1]
  · rintro ⟨h0, h1⟩ n
    simp only [programEepromLoop, programEepromStep]
    rw [if_pos hok, if_neg h0, if_neg h1]
    rfl

set_option maxRecDepth 100000 in
/-- The extended-address record `:020000040000FA` as the first line of a pass. -/
theorem unexpected_type_witness :
    (parseHexLine ((fun _ => some zeroBuf) (firstPass extFile).lines) (firstPass extFile).f
      (firstPass extFile).v).1 = HEX_OK ∧
    (programEepromSays (avr (idealChip 1)) (fun _ => some zeroBuf) 3 (firstPass extFile) =
        some (some Message.unexpectedType) ↔
      (parseHexLine ((fun _ => some zeroBuf) (firstPass extFile).lines) (firstPass extFile).f
        (firstPass extFile).v).2.1.type ≠ HEX_BIN ∧
      (parseHexLine ((fun _ => some zeroBuf) (firstPass extFile).lines) (firstPass extFile).f
        (firstPass extFile).v).2.1.type ≠ HEX_END) :=
  ⟨by decide, (unexpected_type (avr (idealChip 1)) (fun _ => some zeroBuf) 3 (firstPass extFile)
    (by decide)).2.2.2.1⟩

/-! ## C21: Scenario A -/

set_option maxRecDepth 100000 in
theorem flashFile_scenarioA (e1 e2 : List Nat) (he1 : e1 = [10] ∨ e1 = [13, 10])
    (he2 : LineEnd e2) :
    FlashFile [scenarioARecord] (scenarioAFile e1 e2) ∧
    afterLine (scenarioAFile e1 e2) = endText.chars ++ e2 := by
  have hc1 : ∀ c ∈ sampleText.chars, c ≠ 10 := by decide
  have hc2 : ∀ c ∈ endText.chars, c ≠ 10 := by decide
  have hend1 : LineEnd (e1 ++ (endText.chars ++ e2)) := by
    rcases he1 with rfl | rfl
    · exact Or.inr (Or.inr (Or.inl ⟨_, rfl⟩))
    · exact Or.inr (Or.inr (Or.inr ⟨_, rfl⟩))
  have hl1 : nextLine (scenarioAFile e1 e2) = sampleText.chars :=
    nextLine_append _ _ hc1 (by decide) (by decide) hend1
  have ha1 : afterLine (scenarioAFile e1 e2) = endText.chars ++ e2 := by
    rcases he1 with rfl | rfl
    · exact afterLine_append_lf _ _ hc1 (by decide)
    · exact afterLine_append_crlf _ _ hc1 (by decide)
  have hl2 : nextLine (endText.chars ++ e2) = endText.chars :=
    nextLine_append _ _ hc2 (by decide) (by decide) he2
  refine ⟨⟨?_, rfl, by decide, ?_⟩, ha1⟩
  · rw [hl1]; rfl
  · show decodeLine (nextLine (afterLine (scenarioAFile e1 e2))) = _
    rw [ha1, hl2]; rfl

/-- The first data record of a pass, at address 0: nothing is sent, and the
bytes of the record are copied into the page buffer, which is filled with
`0xFF` first. -/
theorem programFlashStep_first {σ : Type} (T : Target σ) (heap : Nat → Option Buf) (fuel : Nat)
    (p : Prog σ) (hpa : p.pageAddr = 0xFFFF)
    (hok : (parseHexLine (heap p.lines) p.f p.v).1 = HEX_OK)
    (hty : (parseHexLine (heap p.lines) p.f p.v).2.1.type = HEX_BIN)
    (haddr : (parseHexLine (heap p.lines) p.f p.v).2.1.addr = 0)
    (hlen : (parseHexLine (heap p.lines) p.f p.v).2.1.len ≤ 16) :
    programFlashStep T heap fuel p =
      some (true, false,
        { p with
          f := (parseHexLine (heap p.lines) p.f p.v).2.2
          v := (parseHexLine (heap p.lines) p.f p.v).2.1
          pageAddr := 0
          page := copyToPage 0 (parseHexLine (heap p.lines) p.f p.v).2.1.data
            (parseHexLine (heap p.lines) p.f p.v).2.1.len 0 (memsetPage p.page)
          lines := p.lines + 1 }) := by
  simp only [programFlashStep]
  generalize parseHexLine (heap p.lines) p.f p.v = r at *
  obtain ⟨code, v, f'⟩ := r
  simp only at hok hty haddr hlen
  subst hok
  have hne4 : ¬ HEX_BIN = HEX_EXTADDR := by decide
  have hsum : (0 + v.len) % 65536 ≤ FLASH_SIZE := by
    simp only [FLASH_SIZE]; omega
  have hm : (0 &&& 0xFF80 : Nat) ≠ 0xFFFF := by decide
  have hm0 : (0 &&& 0xFF80 : Nat) = 0 := by decide
  simp only [if_true, hne4, if_false, hty, haddr, hsum, hpa, hm, ne_eq, not_true_eq_false,
    not_false_eq_true, hm0]
  rw [if_pos (by omega)]

/-- The end record when a page is open: the page is written with verification
and the pass ends with what the page write returns. -/
theorem programFlashStep_last {σ : Type} (T : Target σ) (heap : Nat → Option Buf) (fuel : Nat)
    (p : Prog σ) (hpa : p.pageAddr ≠ 0xFFFF)
    (hok : (parseHexLine (heap p.lines) p.f p.v).1 = HEX_OK)
    (hty : (parseHexLine (heap p.lines) p.f p.v).2.1.type = HEX_END)
    (hlen : (parseHexLine (heap p.lines) p.f p.v).2.1.len = 0)
    (haddr : (parseHexLine (heap p.lines) p.f p.v).2.1.addr = 0) :
    programFlashStep T heap fuel p =
      (ispWriteFlashPage T fuel p.isp p.pageAddr p.page true).map fun q =>
        (q.2, true,
          { p with
            isp := q.1
            f := (parseHexLine (heap p.lines) p.f p.v).2.2
            v := (parseHexLine (heap p.lines) p.f p.v).2.1
            lines := p.lines + 1 }) := by
  simp only [programFlashStep]
  generalize parseHexLine (heap p.lines) p.f p.v = r at *
  obtain ⟨code, v, f'⟩ := r
  simp only at hok hty hlen haddr
  subst hok
  have hne4 : ¬ HEX_END = HEX_EXTADDR := by decide
  have hne0 : ¬ HEX_END = HEX_BIN := by decide
  simp only [if_true, hne4, hne0, if_false, hty, hlen, haddr, and_self, hpa, ne_eq,
    not_false_eq_true]
  cases ispWriteFlashPage T fuel p.isp p.pageAddr p.page true with
  | none => rfl
  | some q => rfl


/-- A file of one data record at address 0 and the end record: after the chip
erase, `programFlash` writes one page, the page at 0, with verification, and
returns what the page write returns. The page buffer holds the bytes of the
record from offset 0 on and `0xFF` after them. -/
theorem programFlash_single {σ : Type} (T : Target σ) (fuel : Nat) (f : List Nat)
    (r : HexRecord) (hfile : FlashFile [r] f) (haddr : r.addr = 0) (page0 data0 : Buf)
    (heap : Nat → Option Buf) (hheap : ∀ k, heap k ≠ none) (v0 : HexVars) (s : Isp σ)
    (hfuel : 2 ≤ fuel) :
    ∃ pg : Buf,
      (∀ y, y < 128 → pg y = if y < r.len then r.data.getD y 0 else 0xFF) ∧
      (programFlash T fuel (some f) (some page0) (some data0) heap v0 s).map
          (fun q => (q.1, q.2.isp)) =
        (ispChipErase T fuel s).bind fun s1 =>
          (ispWriteFlashPage T fuel s1 0 pg true).map fun q => (q.2, q.1) := by
  obtain ⟨hd1, hty, hrange, hd2⟩ := hfile
  obtain ⟨str1, hs1⟩ := Option.ne_none_iff_exists'.mp (hheap 0)
  obtain ⟨str2, hs2⟩ := Option.ne_none_iff_exists'.mp (hheap 1)
  obtain ⟨n, rfl⟩ : ∃ n, fuel = n + 2 := ⟨fuel - 2, by omega⟩
  have hlen := (decodeLine_ok hd1).1
  -- the first line
  obtain ⟨a0, a1⟩ := parseHexLine_decode str1 f { v0 with data := data0 }
  rw [hd1] at a1
  obtain ⟨a1, a2, a3, a4, a5, a6⟩ := a1
  -- the second line
  obtain ⟨b0, b1⟩ := parseHexLine_decode str2 (afterLine f)
    (parseHexLine (some str1) f { v0 with data := data0 }).2.1
  rw [show decodeLine (nextLine (afterLine f)) = _ from hd2] at b1
  obtain ⟨b1, b2, b3, b4, _, _⟩ := b1
  refine ⟨copyToPage 0 (parseHexLine (some str1) f { v0 with data := data0 }).2.1.data r.len 0
    (memsetPage page0), ?_, ?_⟩
  · intro y hy
    rw [copyToPage_block 0 _ r.len 0 _ (by omega) (by omega) y]
    simp only [Nat.zero_mod, Nat.zero_add, Nat.zero_le, true_and, Nat.sub_zero]
    by_cases hyl : y < r.len
    · rw [if_pos hyl, if_pos hyl, a6 y, if_pos hyl]
    · rw [if_neg hyl, if_neg hyl]
      simp [memsetPage, FLASH_PAGE_SIZE, hy]
  · simp only [programFlash]
    cases ispChipErase T (n + 2) s with
    | none => rfl
    | some s1 =>
      have st1 := programFlashStep_first T heap (n + 2)
        { isp := s1, f := f, v := { v0 with data := data0 }, pageAddr := 0xFFFF, page := page0,
          lines := 0 } rfl (by simp only [hs1]; exact a1)
        (by simp only [hs1]; rw [a4, hty]; rfl) (by simp only [hs1]; rw [a3, haddr])
        (by simp only [hs1]; rw [a2]; exact hlen)
      simp only [hs1, a0, a2] at st1
      have st2 := programFlashStep_last T heap (n + 2)
        { isp := s1, f := afterLine f,
          v := (parseHexLine (some str1) f { v0 with data := data0 }).2.1, pageAddr := 0,
          page := copyToPage 0 (parseHexLine (some str1) f { v0 with data := data0 }).2.1.data
            r.len 0 (memsetPage page0),
          lines := 0 + 1 } (by simp) (by simp only [hs2]; exact b1)
        (by simp only [hs2]; rw [b4]; rfl) (by simp only [hs2]; rw [b2])
        (by simp only [hs2]; rw [b3])
      simp only [Option.some_bind, programFlashLoop, st1, st2]
      cases ispWriteFlashPage T (n + 2) s1 0
        (copyToPage 0 (parseHexLine (some str1) f { v0 with data := data0 }).2.1.data r.len 0
          (memsetPage page0)) true with
      | none => rfl
      | some q => rfl

set_option maxRecDepth 100000 in
/-- C21, as stated, fails. The line `:10000000214601360121470136007EFE09D21901`
has 41 characters: the byte count `10`, the address `0000`, the type `00` and 16
data bytes, the last one being `01`, fill it, and no checksum field is left.
`parseHexLine` returns `HEX_WRONGCRC` on it, and `programFlash` on the file made
of this line and the end record returns false, with no page written and the
flash left erased. -/
theorem scenarioA_line_rejected :
    scenarioALine.length = 41 ∧
    scenarioAPrinted = scenarioALine ++ bytes "\r\n:00000001FF\r\n" ∧
    (parseHexLine (some zeroBuf) scenarioAPrinted zeroVars).1 = HEX_WRONGCRC ∧
    (programFlash (avr (idealChip 0)) 2 (some scenarioAPrinted) (some zeroBuf) (some zeroBuf)
        (fun _ => some zeroBuf) zeroVars blankLink).map
      (fun r => (r.1, pageWrites r.2.isp.log, r.2.isp.dev.flash 0)) = some (false, [], 0xFF) := by
  decide

/-- The same file on an ideal target: the pass succeeds and leaves the bytes of
the record at the start of the flash, which is blank after them. -/
theorem programFlash_single_ideal (L fuel : Nat) (f : List Nat) (r : HexRecord)
    (hfile : FlashFile [r] f) (haddr : r.addr = 0) (page0 data0 : Buf)
    (heap : Nat → Option Buf) (hheap : ∀ k, heap k ≠ none) (v0 : HexVars) (s : Isp Avr)
    (hf : s.dev.frame = []) (hL : L < fuel) (hfuel : 2 ≤ fuel) :
    ∃ p', programFlash (avr (idealChip L)) fuel (some f) (some page0) (some data0) heap v0 s =
        some (true, p') ∧
      ∀ x, p'.isp.dev.flash x = if x < r.len then r.data.getD x 0 else 0xFF := by
  obtain ⟨pg, hpg, hrun⟩ := programFlash_single (avr (idealChip L)) fuel f r hfile haddr page0
    data0 heap hheap v0 s hfuel
  obtain ⟨hlen, _, _, _, hbytes⟩ := decodeLine_ok hfile.1
  obtain ⟨s1, p, he1, he2, _⟩ := avr_ispChipErase (idealChip L) fuel s hf hL
  obtain ⟨s2, hw, hfl, _⟩ := flush_ideal L fuel s1 0 pg (by rw [he2]; exact hf) hL (by decide)
    (by decide) (by
      intro x hx
      rw [hpg x hx]
      split_ifs with h
      · exact hbytes x h
      · decide)
  rw [he1, Option.some_bind, hw] at hrun
  cases hq : programFlash (avr (idealChip L)) fuel (some f) (some page0) (some data0) heap v0 s with
  | none => rw [hq] at hrun; simp at hrun
  | some q =>
    rw [hq] at hrun
    simp only [Option.map_some', Option.some.injEq, Prod.mk.injEq] at hrun
    obtain ⟨ok, p'⟩ := q
    simp only at hrun
    obtain ⟨rfl, hisp⟩ := hrun
    refine ⟨p', rfl, ?_⟩
    intro x
    rw [hisp, hfl, he2]
    simp only [Nat.zero_mod, Nat.zero_le, true_and, Nat.zero_add, Nat.sub_zero]
    by_cases hx : x < 128
    · rw [if_pos hx, hpg x hx]
    · rw [if_neg hx, if_neg (by omega)]

/-- C21, amended. The first line of Scenario A lacks its checksum field; with
the field `41` appended, the scenario holds. Take the file made of the line
`:10000000214601360121470136007EFE09D2190141`, a line ending (LF or CR LF),
the line `:00000001FF` and any line ending. Whatever the line buffer held
before, `parseHexLine` returns `HEX_OK` on the first line with `len = 16`,
address 0, type data and the data bytes `21 46 01 36 01 21 47 01 36 00 7E FE 09
D2 19 01`, and on the second line `HEX_OK` with `len = 0`, address 0 and type
end. On every target, `programFlash` on the file is the chip erase followed by
one page write with verification, of the page at address 0, from a page buffer
that holds the 16 bytes at offsets 0..15 and `0xFF` at offsets 16..127, and it
returns what that page write returns. On an ideal target it returns true and
leaves the 16 bytes at the flash addresses 0..15 and `0xFF` everywhere else. -/
theorem scenarioA_programs {σ : Type} (T : Target σ) (fuel : Nat) (e1 e2 : List Nat)
    (he1 : e1 = [10] ∨ e1 = [13, 10]) (he2 : LineEnd e2) (page0 data0 : Buf)
    (heap : Nat → Option Buf) (hheap : ∀ k, heap k ≠ none) (v0 : HexVars) (s : Isp σ)
    (hfuel : 2 ≤ fuel) :
    (∀ (str0 : Buf) (v : HexVars),
      (parseHexLine (some str0) (scenarioAFile e1 e2) v).1 = HEX_OK ∧
      (parseHexLine (some str0) (scenarioAFile e1 e2) v).2.1.len = 16 ∧
      (parseHexLine (some str0) (scenarioAFile e1 e2) v).2.1.addr = 0 ∧
      (parseHexLine (some str0) (scenarioAFile e1 e2) v).2.1.type = HEX_BIN ∧
      (∀ i, i < 16 →
        (parseHexLine (some str0) (scenarioAFile e1 e2) v).2.1.data i = sampleData.getD i 0) ∧
      (parseHexLine (some str0) (scenarioAFile e1 e2) v).2.2 = endText.chars ++ e2) ∧
    (∀ (str0 : Buf) (v : HexVars),
      (parseHexLine (some str0) (endText.chars ++ e2) v).1 = HEX_OK ∧
      (parseHexLine (some str0) (endText.chars ++ e2) v).2.1.len = 0 ∧
      (parseHexLine (some str0) (endText.chars ++ e2) v).2.1.addr = 0 ∧
      (parseHexLine (some str0) (endText.chars ++ e2) v).2.1.type = HEX_END) ∧
    (∃ pg : Buf,
      (∀ y, y < 128 → pg y = if y < 16 then sampleData.getD y 0 else 0xFF) ∧
      (programFlash T fuel (some (scenarioAFile e1 e2)) (some page0) (some data0) heap v0 s).map
          (fun q => (q.1, q.2.isp)) =
        (ispChipErase T fuel s).bind fun s1 =>
          (ispWriteFlashPage T fuel s1 0 pg true).map fun q => (q.2, q.1)) ∧
    (∀ (L : Nat) (a : Isp Avr), L < fuel → a.dev.frame = [] →
      ∃ p', programFlash (avr (idealChip L)) fuel (some (scenarioAFile e1 e2)) (some page0)
          (some data0) heap v0 a = some (true, p') ∧
        ∀ x, p'.isp.dev.flash x = if x < 16 then sampleData.getD x 0 else 0xFF) := by
  obtain ⟨hfile, hafter⟩ := flashFile_scenarioA e1 e2 he1 he2
  refine ⟨?_, ?_, ?_, ?_⟩
  · intro str0 v
    obtain ⟨a0, a1⟩ := parseHexLine_decode str0 (scenarioAFile e1 e2) v
    rw [hfile.1] at a1
    obtain ⟨a1, a2, a3, a4, _, a6⟩ := a1
    refine ⟨a1, a2, a3, a4, ?_, a0.trans hafter⟩
    intro i hi
    rw [a6 i]
    exact if_pos hi
  · intro str0 v
    have hd : decodeLine (nextLine (endText.chars ++ e2)) =
        .ok { len := 0, addr := 0, type := 1, data := [] } := by
      have := hfile.2.2.2
      rw [hafter] at this
      exact this
    obtain ⟨_, a1⟩ := parseHexLine_decode str0 (endText.chars ++ e2) v
    rw [hd] at a1
    exact ⟨a1.1, a1.2.1, a1.2.2.1, a1.2.2.2.1⟩
  · exact programFlash_single T fuel _ scenarioARecord hfile rfl page0 data0 heap hheap v0 s hfuel
  · intro L a hL hf
    exact programFlash_single_ideal L fuel _ scenarioARecord hfile rfl page0 data0 heap hheap v0
      a hf hL hfuel

set_option maxRecDepth 100000 in
/-- The file of Scenario A with CR LF line endings, programmed into a blank
ideal target. -/
theorem scenarioA_programs_witness :
    scenarioAFile [13, 10] [13, 10] =
      bytes ":10000000214601360121470136007EFE09D2190141\r\n:00000001FF\r\n" ∧
    ∃ p', programFlash (avr (idealChip 0)) 2 (some (scenarioAFile [13, 10] [13, 10]))
        (some zeroBuf) (some zeroBuf) (fun _ => some zeroBuf) zeroVars blankLink =
          some (true, p') ∧
      ∀ x, p'.isp.dev.flash x = if x < 16 then sampleData.getD x 0 else 0xFF :=
  ⟨by decide,
    (scenarioA_programs (avr (idealChip 0)) 2 [13, 10] [13, 10] (Or.inr rfl)
      (Or.inr (Or.inr (Or.inr ⟨[], rfl⟩))) zeroBuf zeroBuf (fun _ => some zeroBuf)
      (fun _ => by simp) zeroVars blankLink (by decide)).2.2.2 0 blankLink (by decide) rfl⟩

/-! ## C22: the parser stays within the line -/

theorem parseHexNumTraced_fst (str : Buf) (i : Nat) :
    (parseHexNumTraced str i).1 = parseHexNum str i := by
  unfold parseHexNumTraced parseHexNum
  cases parseHexDigit (str i) with
  | none => rfl
  | some hi =>
    simp only
    cases parseHexDigit (str (i + 1)) with
    | none => rfl
    | some lo => rfl

theorem parseHexDataTraced_fst (str : Buf) (n : Nat) :
    ∀ (i : Nat) (data : Buf) (crc : Nat) (rd : List Nat),
      (parseHexDataTraced str n i data crc rd).1 = parseHexData str n i data crc := by
  induction n with
  | zero => intro i data crc rd; rfl
  | succ n ih =>
    intro i data crc rd
    simp only [parseHexDataTraced, parseHexData, parseHexNumTraced_fst]
    cases parseHexNum str (9 + i * 2) with
    | none => rfl
    | some d => exact ih _ _ _ _

/-- Leaving out the reads gives `parseHexLine`. -/
theorem parseHexLineTraced_fst (heap : Option Buf) (f : List Nat) (v : HexVars) :
    (parseHexLineTraced heap f v).1 = parseHexLine heap f v := by
  cases heap with
  | none => rfl
  | some str0 =>
    simp only [parseHexLineTraced, parseHexLine, parseHexNumTraced_fst, parseHexDataTraced_fst]
    generalize freadUntil str0 LINE_SIZE 10 13 f = r
    by_cases h11 : r.1 < 11
    · simp only [h11, if_true]
    simp only [h11, if_false]
    by_cases h58 : r.2.1 0 ≠ 58
    · rw [if_pos h58, if_pos h58]
    rw [if_neg h58, if_neg h58]
    cases parseHexNum r.2.1 1 with
    | none => rfl
    | some len =>
      try dsimp only
      by_cases hlen : len > HEX_PAGE_SIZE
      · simp only [hlen, if_true]
      simp only [hlen, if_false]
      cases parseHexNum r.2.1 3 with
      | none => rfl
      | some ah =>
        try dsimp only
        cases parseHexNum r.2.1 5 with
        | none => rfl
        | some al =>
          try dsimp only
          cases parseHexNum r.2.1 7 with
          | none => rfl
          | some tt =>
            try dsimp only
            by_cases htt : tt > HEX_START32
            · simp only [htt, if_true]
            simp only [htt, if_false]
            by_cases hd : (parseHexData r.2.1 len 0 v.data
                ((((len + ah) % 256 + al) % 256 + tt) % 256)).1 = false
            · simp only [hd, if_true]
            simp only [hd, if_false]
            cases parseHexNum r.2.1 (9 + len * 2) with
            | none => rfl
            | some cc =>
              try dsimp only
              split_ifs <;> rfl

/-- Reading a number at an index up to the NUL stays within the line; when the
number parses, both its characters stand before the NUL. -/
theorem parseHexNumTraced_reads {str : Buf} {line : List Nat} (h : Holds str line) (i : Nat)
    (hi : i ≤ line.length) :
    (∀ j ∈ (parseHexNumTraced str i).2, j ≤ line.length) ∧
    (∀ d, (parseHexNumTraced str i).1 = some d → i + 2 ≤ line.length) := by
  have hz : ∀ k, k ≤ line.length → parseHexDigit (str k) ≠ none → k < line.length := by
    intro k hk hd
    by_contra hc
    have hkl : k = line.length := by omega
    have h0 : str k = 0 := by
      rw [h k hk, hkl, List.getD_eq_default _ _ (le_refl _)]
    rw [h0] at hd
    exact hd (by simp [parseHexDigit])
  unfold parseHexNumTraced
  cases hd : parseHexDigit (str i) with
  | none =>
    refine ⟨?_, ?_⟩
    · intro j hj
      simp only [List.mem_singleton] at hj
      omega
    · intro d hd2
      simp at hd2
  | some hi1 =>
    have h1 := hz i hi (by rw [hd]; simp)
    simp only
    cases hd2 : parseHexDigit (str (i + 1)) with
    | none =>
      refine ⟨?_, ?_⟩
      · intro j hj
        simp only [List.mem_cons, List.mem_singleton, List.not_mem_nil, or_false] at hj
        omega
      · intro d hd3
        simp at hd3
    | some lo =>
      have h2 := hz (i + 1) (by omega) (by rw [hd2]; simp)
      refine ⟨?_, ?_⟩
      · intro j hj
        simp only [List.mem_cons, List.mem_singleton, List.not_mem_nil, or_false] at hj
        omega
      · intro d _
        omega

theorem parseHexDataTraced_reads {str : Buf} {line : List Nat} (h : Holds str line) (n : Nat) :
    ∀ (i : Nat) (data : Buf) (crc : Nat) (rd : List Nat), 9 + i * 2 ≤ line.length →
      (∀ j ∈ rd, j ≤ line.length) →
      (∀ j ∈ (parseHexDataTraced str n i data crc rd).2, j ≤ line.length) ∧
      ((parseHexDataTraced str n i data crc rd).1.1 = true → 9 + (i + n) * 2 ≤ line.length) := by
  induction n with
  | zero =>
    intro i data crc rd hi hrd
    exact ⟨hrd, fun _ => hi⟩
  | succ n ih =>
    intro i data crc rd hi hrd
    obtain ⟨r1, r2⟩ := parseHexNumTraced_reads h (9 + i * 2) hi
    simp only [parseHexDataTraced]
    cases hp : (parseHexNumTraced str (9 + i * 2)).1 with
    | none =>
      refine ⟨?_, ?_⟩
      · intro j hj
        simp only [List.mem_append] at hj
        rcases hj with hj | hj
        · exact hrd j hj
        · exact r1 j hj
      · intro hc
        simp at hc
    | some d =>
      have h2 := r2 d hp
      obtain ⟨a1, a2⟩ := ih (i + 1) (Function.update data i d) ((crc + d) % 256)
        (rd ++ (parseHexNumTraced str (9 + i * 2)).2) (by omega) (by
          intro j hj
          simp only [List.mem_append] at hj
          rcases hj with hj | hj
          · exact hrd j hj
          · exact r1 j hj)
      refine ⟨a1, fun hc => ?_⟩
      have := a2 hc
      omega

/-- The data loop writes only the elements `i`, ..., `i + n - 1` of the data
buffer. -/
theorem parseHexData_untouched (str : Buf) (n : Nat) :
    ∀ (i : Nat) (data : Buf) (crc : Nat) (j : Nat), (j < i ∨ i + n ≤ j) →
      (parseHexData str n i data crc).2.1 j = data j := by
  induction n with
  | zero => intro i data crc j _; rfl
  | succ n ih =>
    intro i data crc j hj
    simp only [parseHexData]
    cases parseHexNum str (9 + i * 2) with
    | none => rfl
    | some d =>
      simp only
      rw [ih (i + 1) _ _ j (by omega), Function.update_noteq (by omega)]

/-- The data loop on two buffers that hold the same line. -/
theorem parseHexData_holds {strA strB : Buf} {line : List Nat} (hA : Holds strA line)
    (hB : Holds strB line) (n : Nat) :
    ∀ (i : Nat) (data : Buf) (crc : Nat), 9 + i * 2 ≤ line.length →
      parseHexData strA n i data crc = parseHexData strB n i data crc := by
  induction n with
  | zero => intro i data crc _; rfl
  | succ n ih =>
    intro i data crc hi
    simp only [parseHexData, parseHexNum_holds hA _ hi, parseHexNum_holds hB _ hi]
    cases hd : hexPairAt line (9 + i * 2) with
    | none => rfl
    | some d =>
      have hin := hexPairAt_inside hd
      exact ih (i + 1) _ _ (by omega)

/-- When the data loop succeeds, the checksum field starts at or before the
NUL. -/
theorem parseHexData_inside {str : Buf} {line : List Nat} (h : Holds str line) (n : Nat)
    (i : Nat) (data : Buf) (crc : Nat) (hi : 9 + i * 2 ≤ line.length)
    (hok : (parseHexData str n i data crc).1 = true) : 9 + (i + n) * 2 ≤ line.length := by
  have := (parseHexDataTraced_reads h n i data crc [] hi (by simp)).2
  rw [parseHexDataTraced_fst] at this
  exact this hok

/-- Every index of the line buffer that `parseHexLine` reads is at most the
index of the NUL that `freadUntil` has stored. -/
theorem parseHexLineTraced_reads (str0 : Buf) (f : List Nat) (v : HexVars) :
    ∀ j ∈ (parseHexLineTraced (some str0) f v).2, j ≤ (freadUntil str0 LINE_SIZE 10 13 f).1 := by
  obtain ⟨hl, hbuf, _⟩ := freadUntil_spec str0 f
  have hold : Holds (freadUntil str0 LINE_SIZE 10 13 f).2.1 (nextLine f) := hbuf
  simp only [parseHexLineTraced, hl]
  generalize (freadUntil str0 LINE_SIZE 10 13 f).2.1 = str at *
  generalize (freadUntil str0 LINE_SIZE 10 13 f).2.2 = f1 at *
  generalize nextLine f = line at *
  by_cases h11 : line.length < 11
  · rw [if_pos h11]
    intro j hj
    simp at hj
  rw [if_neg h11]
  by_cases h58 : str 0 ≠ 58
  · rw [if_pos h58]
    intro j hj
    simp only [List.mem_singleton] at hj
    omega
  rw [if_neg h58]
  obtain ⟨r1, _⟩ := parseHexNumTraced_reads hold 1 (by omega)
  obtain ⟨r3, _⟩ := parseHexNumTraced_reads hold 3 (by omega)
  obtain ⟨r5, _⟩ := parseHexNumTraced_reads hold 5 (by omega)
  obtain ⟨r7, _⟩ := parseHexNumTraced_reads hold 7 (by omega)
  have m1 : ∀ j ∈ 0 :: (parseHexNumTraced str 1).2, j ≤ line.length := by
    intro j hj
    simp only [List.mem_cons] at hj
    rcases hj with hj | hj
    · omega
    · exact r1 j hj
  have m3 : ∀ j ∈ 0 :: (parseHexNumTraced str 1).2 ++ (parseHexNumTraced str 3).2,
      j ≤ line.length := by
    intro j hj
    rcases List.mem_append.mp hj with hj | hj
    · exact m1 j hj
    · exact r3 j hj
  have m5 : ∀ j ∈ 0 :: (parseHexNumTraced str 1).2 ++ (parseHexNumTraced str 3).2 ++
      (parseHexNumTraced str 5).2, j ≤ line.length := by
    intro j hj
    rcases List.mem_append.mp hj with hj | hj
    · exact m3 j hj
    · exact r5 j hj
  have m7 : ∀ j ∈ 0 :: (parseHexNumTraced str 1).2 ++ (parseHexNumTraced str 3).2 ++
      (parseHexNumTraced str 5).2 ++ (parseHexNumTraced str 7).2, j ≤ line.length := by
    intro j hj
    rcases List.mem_append.mp hj with hj | hj
    · exact m5 j hj
    · exact r7 j hj
  cases parseHexNumTraced str 1 |>.1 with
  | none => exact m1
  | some len =>
    dsimp only
    by_cases hlen : len > HEX_PAGE_SIZE
    · rw [if_pos hlen]; exact m1
    rw [if_neg hlen]
    cases parseHexNumTraced str 3 |>.1 with
    | none => exact m3
    | some ah =>
      dsimp only
      cases parseHexNumTraced str 5 |>.1 with
      | none => exact m5
      | some al =>
        dsimp only
        cases parseHexNumTraced str 7 |>.1 with
        | none => exact m7
        | some tt =>
          dsimp only
          by_cases htt : tt > HEX_START32
          · rw [if_pos htt]; exact m7
          rw [if_neg htt]
          obtain ⟨d1, d2⟩ := parseHexDataTraced_reads hold len 0 v.data
            ((((len + ah) % 256 + al) % 256 + tt) % 256) _ (by omega) m7
          by_cases hd : (parseHexDataTraced str len 0 v.data
              ((((len + ah) % 256 + al) % 256 + tt) % 256)
              (0 :: (parseHexNumTraced str 1).2 ++ (parseHexNumTraced str 3).2 ++
                (parseHexNumTraced str 5).2 ++ (parseHexNumTraced str 7).2)).1.1 = false
          · rw [if_pos hd]; exact d1
          rw [if_neg hd]
          have hpos := d2 (by simpa using hd)
          obtain ⟨rc, _⟩ := parseHexNumTraced_reads hold (9 + len * 2) (by omega)
          have mc : ∀ j ∈ (parseHexDataTraced str len 0 v.data
              ((((len + ah) % 256 + al) % 256 + tt) % 256)
              (0 :: (parseHexNumTraced str 1).2 ++ (parseHexNumTraced str 3).2 ++
                (parseHexNumTraced str 5).2 ++ (parseHexNumTraced str 7).2)).2 ++
              (parseHexNumTraced str (9 + len * 2)).2, j ≤ line.length := by
            intro j hj
            rcases List.mem_append.mp hj with hj | hj
            · exact d1 j hj
            · exact rc j hj
          cases parseHexNumTraced str (9 + len * 2) |>.1 with
          | none => exact mc
          | some cc =>
            dsimp only
            split_ifs <;> exact mc

/-- The result, the output parameters and the rest of the file do not depend
on what the line buffer held when it was allocated. -/
theorem parseHexLine_stale (str0 str1 : Buf) (f : List Nat) (v : HexVars) :
    parseHexLine (some str0) f v = parseHexLine (some str1) f v := by
  obtain ⟨hl0, hb0, hr0⟩ := freadUntil_spec str0 f
  obtain ⟨hl1, hb1, hr1⟩ := freadUntil_spec str1 f
  have hA : Holds (freadUntil str0 LINE_SIZE 10 13 f).2.1 (nextLine f) := hb0
  have hB : Holds (freadUntil str1 LINE_SIZE 10 13 f).2.1 (nextLine f) := hb1
  simp only [parseHexLine, hl0, hl1, hr0, hr1]
  generalize (freadUntil str0 LINE_SIZE 10 13 f).2.1 = A at *
  generalize (freadUntil str1 LINE_SIZE 10 13 f).2.1 = B at *
  generalize nextLine f = line at *
  by_cases h11 : line.length < 11
  · rw [if_pos h11, if_pos h11]
  rw [if_neg h11, if_neg h11, hA 0 (by omega), hB 0 (by omega),
    parseHexNum_holds hA 1 (by omega), parseHexNum_holds hB 1 (by omega),
    parseHexNum_holds hA 3 (by omega), parseHexNum_holds hB 3 (by omega),
    parseHexNum_holds hA 5 (by omega), parseHexNum_holds hB 5 (by omega),
    parseHexNum_holds hA 7 (by omega), parseHexNum_holds hB 7 (by omega)]
  by_cases h58 : line.getD 0 0 ≠ 58
  · rw [if_pos h58, if_pos h58]
  rw [if_neg h58, if_neg h58]
  cases hexPairAt line 1 with
  | none => rfl
  | some len =>
    dsimp only
    by_cases hlen : len > HEX_PAGE_SIZE
    · rw [if_pos hlen, if_pos hlen]
    rw [if_neg hlen, if_neg hlen]
    cases hexPairAt line 3 with
    | none => rfl
    | some ah =>
      dsimp only
      cases hexPairAt line 5 with
      | none => rfl
      | some al =>
        dsimp only
        cases hexPairAt line 7 with
        | none => rfl
        | some tt =>
          dsimp only
          by_cases htt : tt > HEX_START32
          · rw [if_pos htt, if_pos htt]
          rw [if_neg htt, if_neg htt]
          rw [parseHexData_holds hA hB len 0 v.data _ (by omega)]
          by_cases hd : (parseHexData B len 0 v.data
              ((((len + ah) % 256 + al) % 256 + tt) % 256)).1 = false
          · rw [if_pos hd, if_pos hd]
          rw [if_neg hd, if_neg hd]
          have hpos := parseHexData_inside hB len 0 v.data _ (by omega) (by simpa using hd)
          rw [parseHexNum_holds hA _ (by omega), parseHexNum_holds hB _ (by omega)]

/-- Whatever the result, `parseHexLine` leaves the elements of the data buffer
from index 16 on as they were. -/
theorem parseHexLine_untouched (heap : Option Buf) (f : List Nat) (v : HexVars) (j : Nat)
    (hj : 16 ≤ j) : (parseHexLine heap f v).2.1.data j = v.data j := by
  cases heap with
  | none => rfl
  | some str0 =>
    simp only [parseHexLine]
    generalize freadUntil str0 LINE_SIZE 10 13 f = r
    by_cases h11 : r.1 < 11
    · rw [if_pos h11]
    rw [if_neg h11]
    by_cases h58 : r.2.1 0 ≠ 58
    · rw [if_pos h58]
    rw [if_neg h58]
    cases parseHexNum r.2.1 1 with
    | none => rfl
    | some len =>
      dsimp only
      by_cases hlen : len > HEX_PAGE_SIZE
      · rw [if_pos hlen]
      rw [if_neg hlen]
      have hlen16 : len ≤ 16 := by simpa [HEX_PAGE_SIZE] using hlen
      cases parseHexNum r.2.1 3 with
      | none => rfl
      | some ah =>
        dsimp only
        cases parseHexNum r.2.1 5 with
        | none => rfl
        | some al =>
          dsimp only
          cases parseHexNum r.2.1 7 with
          | none => rfl
          | some tt =>
            dsimp only
            have hdata := parseHexData_untouched r.2.1 len 0 v.data
              ((((len + ah) % 256 + al) % 256 + tt) % 256) j (Or.inr (by omega))
            by_cases htt : tt > HEX_START32
            · rw [if_pos htt]
            rw [if_neg htt]
            by_cases hd : (parseHexData r.2.1 len 0 v.data
                ((((len + ah) % 256 + al) % 256 + tt) % 256)).1 = false
            · rw [if_pos hd]; exact hdata
            rw [if_neg hd]
            cases parseHexNum r.2.1 (9 + len * 2) with
            | none => exact hdata
            | some cc =>
              dsimp only
              split_ifs <;> exact hdata

/-- An accepted line holds all the fields that its byte count announces: it has
at least `11 + 2 * len` characters, `len` is at most 16 and is the value of the
byte count field. -/
theorem parseHexLine_ok_length (str0 : Buf) (f : List Nat) (v : HexVars)
    (h : (parseHexLine (some str0) f v).1 = HEX_OK) :
    (parseHexLine (some str0) f v).2.1.len ≤ 16 ∧
    11 + 2 * (parseHexLine (some str0) f v).2.1.len ≤ (freadUntil str0 LINE_SIZE 10 13 f).1 ∧
    parseHexNum (freadUntil str0 LINE_SIZE 10 13 f).2.1 1 =
      some (parseHexLine (some str0) f v).2.1.len := by
  obtain ⟨hl, hbuf, _⟩ := freadUntil_spec str0 f
  have hold : Holds (freadUntil str0 LINE_SIZE 10 13 f).2.1 (nextLine f) := hbuf
  obtain ⟨r, hdec, hlen, _⟩ := parseHexLine_ok_record str0 f v h
  obtain ⟨h11, _, ah, al, cc, e1, e2, _, _, _, _, _, ec, _⟩ := decodeLine_fields hdec
  have hin := hexPairAt_inside ec
  rw [hlen, hl, parseHexNum_holds hold 1 (by omega)]
  exact ⟨e2, by omega, e1⟩

/-- A line whose start, byte count, address and type fields pass fails, if it
fails, at the data bytes or at the checksum. -/
theorem parseHexLine_header (str0 : Buf) (f : List Nat) (v : HexVars) (LL ah al tt : Nat)
    (h11 : 11 ≤ (freadUntil str0 LINE_SIZE 10 13 f).1)
    (h58 : (freadUntil str0 LINE_SIZE 10 13 f).2.1 0 = 58)
    (h1 : parseHexNum (freadUntil str0 LINE_SIZE 10 13 f).2.1 1 = some LL) (hLL : LL ≤ 16)
    (h3 : parseHexNum (freadUntil str0 LINE_SIZE 10 13 f).2.1 3 = some ah)
    (h5 : parseHexNum (freadUntil str0 LINE_SIZE 10 13 f).2.1 5 = some al)
    (h7 : parseHexNum (freadUntil str0 LINE_SIZE 10 13 f).2.1 7 = some tt) (htt : tt ≤ 5) :
    (parseHexLine (some str0) f v).1 = HEX_WRONGDATA ∨
    (parseHexLine (some str0) f v).1 = HEX_WRONGCRC ∨
    (parseHexLine (some str0) f v).1 = HEX_OK := by
  simp only [parseHexLine]
  generalize freadUntil str0 LINE_SIZE 10 13 f = r at *
  rw [if_neg (by omega), if_neg (by simp [h58]), h1]
  dsimp only
  rw [if_neg (by simp only [HEX_PAGE_SIZE]; omega), h3]
  dsimp only
  rw [h5]
  dsimp only
  rw [h7]
  dsimp only
  rw [if_neg (by simp only [HEX_START32]; omega)]
  split_ifs with hd
  · exact Or.inl rfl
  · cases parseHexNum r.2.1 (9 + LL * 2) with
    | none => exact Or.inr (Or.inl rfl)
    | some cc =>
      dsimp only
      split_ifs
      · exact Or.inr (Or.inl rfl)
      · exact Or.inr (Or.inr rfl)

set_option maxRecDepth 100000 in
/-- C22, as stated, fails for a short line whose fields before the data do not
all pass. The line `:10ZZ000000` has 11 characters and declares 16 data bytes,
which would need 43 characters; `parseHexLine` returns `HEX_WRONGADDRHI` on it,
not `HEX_WRONGDATA` or `HEX_WRONGCRC`. -/
theorem parseHexLine_short_line_bad_address :
    (freadUntil zeroBuf LINE_SIZE 10 13 badAddressFile).1 = 11 ∧
    parseHexNum (freadUntil zeroBuf LINE_SIZE 10 13 badAddressFile).2.1 1 = some 16 ∧
    (freadUntil zeroBuf LINE_SIZE 10 13 badAddressFile).1 < 11 + 2 * 16 ∧
    (parseHexLine (some zeroBuf) badAddressFile zeroVars).1 = HEX_WRONGADDRHI := by
  decide

/-- C22, amended: a line that is too short for its byte count yields
`HEX_WRONGDATA` or `HEX_WRONGCRC` when its start, address and type fields
pass; the rest is as stated. For every file, every content `str0` of the line
buffer at allocation and every content of the output parameters: `freadUntil`
stores a NUL at the index `length`, which lies inside the buffer of
`LINE_SIZE` characters; every index of the buffer that `parseHexLine` reads is
at most `length` (`parseHexLineTraced` is `parseHexLine` with the list of the
indices read); the result, the output parameters and the file position are the
same for any other content `str1` of the buffer at allocation; a line of fewer
than 11 characters yields `HEX_TOOSHORT`; a line of at least 11 characters
whose byte count field has a value `LL ≤ 16` and which has fewer than
`11 + 2 * LL` characters never yields `HEX_OK`, and yields `HEX_WRONGDATA` or
`HEX_WRONGCRC` when its first character is the colon, its address fields are
hex digits and its type field has a value of at most 5; on `HEX_OK`,
`len ≤ 16`; and whatever the result, the data buffer is left unchanged from
index 16 on. -/
theorem parseHexLine_within_line (str0 str1 : Buf) (f : List Nat) (v : HexVars) :
    (freadUntil str0 LINE_SIZE 10 13 f).1 < LINE_SIZE ∧
    (freadUntil str0 LINE_SIZE 10 13 f).2.1 (freadUntil str0 LINE_SIZE 10 13 f).1 = 0 ∧
    (parseHexLineTraced (some str0) f v).1 = parseHexLine (some str0) f v ∧
    (∀ j ∈ (parseHexLineTraced (some str0) f v).2,
      j ≤ (freadUntil str0 LINE_SIZE 10 13 f).1) ∧
    parseHexLine (some str0) f v = parseHexLine (some str1) f v ∧
    ((freadUntil str0 LINE_SIZE 10 13 f).1 < 11 →
      (parseHexLine (some str0) f v).1 = HEX_TOOSHORT) ∧
    (∀ LL, 11 ≤ (freadUntil str0 LINE_SIZE 10 13 f).1 →
      parseHexNum (freadUntil str0 LINE_SIZE 10 13 f).2.1 1 = some LL → LL ≤ 16 →
      (freadUntil str0 LINE_SIZE 10 13 f).1 < 11 + 2 * LL →
      (parseHexLine (some str0) f v).1 ≠ HEX_OK ∧
      ((freadUntil str0 LINE_SIZE 10 13 f).2.1 0 = 58 →
        parseHexNum (freadUntil str0 LINE_SIZE 10 13 f).2.1 3 ≠ none →
        parseHexNum (freadUntil str0 LINE_SIZE 10 13 f).2.1 5 ≠ none →
        (∃ t, parseHexNum (freadUntil str0 LINE_SIZE 10 13 f).2.1 7 = some t ∧ t ≤ 5) →
        (parseHexLine (some str0) f v).1 = HEX_WRONGDATA ∨
          (parseHexLine (some str0) f v).1 = HEX_WRONGCRC)) ∧
    ((parseHexLine (some str0) f v).1 = HEX_OK → (parseHexLine (some str0) f v).2.1.len ≤ 16) ∧
    (∀ j, 16 ≤ j → (parseHexLine (some str0) f v).2.1.data j = v.data j) := by
  obtain ⟨hl, hbuf, _⟩ := freadUntil_spec str0 f
  have h45 := nextLine_length_le f
  have hnot : ∀ LL, parseHexNum (freadUntil str0 LINE_SIZE 10 13 f).2.1 1 = some LL →
      (freadUntil str0 LINE_SIZE 10 13 f).1 < 11 + 2 * LL →
      (parseHexLine (some str0) f v).1 ≠ HEX_OK := by
    intro LL h1 hshort hok
    obtain ⟨_, a2, a3⟩ := parseHexLine_ok_length str0 f v hok
    rw [h1, Option.some.injEq] at a3
    omega
  refine ⟨?_, ?_, parseHexLineTraced_fst _ f v, parseHexLineTraced_reads str0 f v,
    parseHexLine_stale str0 str1 f v, ?_, ?_, ?_, fun j hj => parseHexLine_untouched _ f v j hj⟩
  · rw [hl]
    simp only [LINE_SIZE, HEX_PAGE_SIZE]
    omega
  · rw [hbuf _ (by omega), hl, List.getD_eq_default _ _ (le_refl _)]
  · intro h
    simp only [parseHexLine]
    rw [if_pos h]
  · intro LL h11 h1 hLL hshort
    refine ⟨hnot LL h1 hshort, ?_⟩
    intro h58 h3 h5 h7
    obtain ⟨ah, h3⟩ := Option.ne_none_iff_exists'.mp h3
    obtain ⟨al, h5⟩ := Option.ne_none_iff_exists'.mp h5
    obtain ⟨tt, h7, htt⟩ := h7
    rcases parseHexLine_header str0 f v LL ah al tt h11 h58 h1 hLL h3 h5 h7 htt with h | h | h
    · exact Or.inl h
    · exact Or.inr h
    · exact absurd h (hnot LL h1 hshort)
  · intro hok
    exact (parseHexLine_ok_length str0 f v hok).1

set_option maxRecDepth 100000 in
/-- The record `:10000000214601360121`, cut after its sixth data byte, read into
a line buffer that held the hex digit `A` everywhere: the seventh data byte
field starts at the NUL, and the result is `HEX_WRONGDATA`. -/
theorem parseHexLine_within_line_witness :
    (freadUntil staleBuf LINE_SIZE 10 13 cutFile).1 = 21 ∧
    parseHexNum (freadUntil staleBuf LINE_SIZE 10 13 cutFile).2.1 1 = some 16 ∧
    (parseHexLineTraced (some staleBuf) cutFile zeroVars).2 =
      [0, 1, 2, 3, 4, 5, 6, 7, 8, 9, 10, 11, 12, 13, 14, 15, 16, 17, 18, 19, 20, 21] ∧
    (parseHexLine (some staleBuf) cutFile zeroVars).1 = HEX_WRONGDATA ∧
    ((parseHexLine (some staleBuf) cutFile zeroVars).1 = HEX_WRONGDATA ∨
      (parseHexLine (some staleBuf) cutFile zeroVars).1 = HEX_WRONGCRC) :=
  ⟨by decide, by decide, by decide, by decide,
    ((parseHexLine_within_line staleBuf zeroBuf cutFile zeroVars).2.2.2.2.2.2.1 16 (by decide)
      (by decide) (by decide) (by decide)).2 (by decide) (by decide) (by decide)
      ⟨0, by decide⟩⟩

/-! ## C23: the layout of a fuse file -/

theorem strncmpEq_three (str : Buf) (i a b c : Nat) :
    strncmpEq str i [a, b, c] = true ↔ str i = a ∧ str (i + 1) = b ∧ str (i + 2) = c := by
  simp [strncmpEq]

theorem strncmpEq_two (str : Buf) (i a b : Nat) :
    strncmpEq str i [a, b] = true ↔ str i = a ∧ str (i + 1) = b := by
  simp [strncmpEq]

/-- What `readFuseFile` computes, in terms of the two lines of the file. -/
theorem readFuseFile_lines (str : Buf) (f : List Nat) :
    readFuseFile str f =
      if (fuseLine f).length = 5 ∧
          ((fuseLine f).getD 0 0 = 76 ∧ (fuseLine f).getD 1 0 = 66 ∧ (fuseLine f).getD 2 0 = 58) then
        (hexPairAt (fuseLine f) 3).bind fun lb =>
          if (fuseLine (afterFuseLine f)).length = 14 ∧
              ((fuseLine (afterFuseLine f)).getD 0 0 = 76 ∧
                (fuseLine (afterFuseLine f)).getD 1 0 = 58) then
            (hexPairAt (fuseLine (afterFuseLine f)) 2).bind fun lf =>
              if (fuseLine (afterFuseLine f)).getD 5 0 = 72 ∧
                  (fuseLine (afterFuseLine f)).getD 6 0 = 58 then
                (hexPairAt (fuseLine (afterFuseLine f)) 7).bind fun hf =>
                  if (fuseLine (afterFuseLine f)).getD 10 0 = 69 ∧
                      (fuseLine (afterFuseLine f)).getD 11 0 = 58 then
                    (hexPairAt (fuseLine (afterFuseLine f)) 12).bind fun ef =>
                      some (lb, lf, hf, ef)
                  else none
              else none
          else none
      else none := by
  obtain ⟨p1, p2, p3⟩ := freadUntil_size str STR_SIZE f
  obtain ⟨q1, q2, q3⟩ := freadUntil_size (freadUntil str STR_SIZE 10 13 f).2.1 STR_SIZE
    (freadUntil str STR_SIZE 10 13 f).2.2
  rw [p3] at q1 q2
  change (freadUntil str STR_SIZE 10 13 f).1 = (fuseLine f).length at p1
  change Holds (freadUntil str STR_SIZE 10 13 f).2.1 (fuseLine f) at p2
  change _ = (fuseLine (afterFuseLine f)).length at q1
  change Holds _ (fuseLine (afterFuseLine f)) at q2
  simp only [readFuseFile, p3, p1, q1, strncmpEq_three, strncmpEq_two]
  generalize (freadUntil str STR_SIZE 10 13 f).2.1 = A at *
  generalize (freadUntil A STR_SIZE 10 13 (dropLine 10 (STR_SIZE - 1) f)).2.1 = B at *
  generalize fuseLine (afterFuseLine f) = L2 at *
  generalize fuseLine f = L1 at *
  by_cases h5 : L1.length = 5
  · rw [p2 0 (by omega), p2 1 (by omega), p2 2 (by omega), parseHexNum_holds p2 3 (by omega)]
    by_cases hLB : L1.getD 0 0 = 76 ∧ L1.getD 1 0 = 66 ∧ L1.getD 2 0 = 58
    · rw [if_pos ⟨h5, hLB⟩, if_pos ⟨h5, hLB⟩]
      cases hexPairAt L1 3 with
      | none => rfl
      | some lb =>
        dsimp only [Option.some_bind]
        by_cases h14 : L2.length = 14
        · rw [q2 0 (by omega), q2 1 (by omega), q2 5 (by omega), q2 6 (by omega),
            q2 10 (by omega), q2 11 (by omega), parseHexNum_holds q2 2 (by omega),
            parseHexNum_holds q2 7 (by omega), parseHexNum_holds q2 12 (by omega)]
          by_cases hL : L2.getD 0 0 = 76 ∧ L2.getD 1 0 = 58
          · rw [if_pos ⟨h14, hL⟩, if_pos ⟨h14, hL⟩]
            cases hexPairAt L2 2 with
            | none => rfl
            | some lf =>
              dsimp only [Option.some_bind]
              by_cases hH : L2.getD 5 0 = 72 ∧ L2.getD 6 0 = 58
              · rw [if_pos hH, if_pos hH]
                cases hexPairAt L2 7 with
                | none => rfl
                | some hf =>
                  dsimp only [Option.some_bind]
                  by_cases hE : L2.getD 10 0 = 69 ∧ L2.getD 11 0 = 58
                  · rw [if_pos hE, if_pos hE]
                    cases hexPairAt L2 12 with
                    | none => rfl
                    | some ef => rfl
                  · rw [if_neg hE, if_neg hE]
              · rw [if_neg hH, if_neg hH]
          · rw [if_neg (fun h => hL h.2), if_neg (fun h => hL h.2)]
        · rw [if_neg (fun h => h14 h.1), if_neg (fun h => h14 h.1)]
    · rw [if_neg (fun h => hLB h.2), if_neg (fun h => hLB h.2)]
  · rw [if_neg (fun h => h5 h.1), if_neg (fun h => h5 h.1)]

/-- The file is accepted exactly when its first two lines have the labels and
hex digits of a fuse file, and the values read are those of the hex digits. -/
theorem readFuseFile_labels (str : Buf) (f : List Nat) :
    (¬ FuseLabels (fuseLine f) (fuseLine (afterFuseLine f)) → readFuseFile str f = none) ∧
    (FuseLabels (fuseLine f) (fuseLine (afterFuseLine f)) →
      ∃ lb lf hf ef, hexPairAt (fuseLine f) 3 = some lb ∧
        hexPairAt (fuseLine (afterFuseLine f)) 2 = some lf ∧
        hexPairAt (fuseLine (afterFuseLine f)) 7 = some hf ∧
        hexPairAt (fuseLine (afterFuseLine f)) 12 = some ef ∧
        readFuseFile str f = some (lb, lf, hf, ef)) := by
  rw [readFuseFile_lines]
  generalize fuseLine (afterFuseLine f) = L2
  generalize fuseLine f = L1
  constructor
  · intro hn
    by_contra hc
    apply hn
    by_cases c1 : L1.length = 5 ∧ (L1.getD 0 0 = 76 ∧ L1.getD 1 0 = 66 ∧ L1.getD 2 0 = 58)
    swap
    · rw [if_neg c1] at hc; exact absurd rfl hc
    rw [if_pos c1] at hc
    cases e1 : hexPairAt L1 3 with
    | none => rw [e1] at hc; exact absurd rfl hc
    | some lb =>
      rw [e1, Option.some_bind] at hc
      by_cases c2 : L2.length = 14 ∧ (L2.getD 0 0 = 76 ∧ L2.getD 1 0 = 58)
      swap
      · rw [if_neg c2] at hc; exact absurd rfl hc
      rw [if_pos c2] at hc
      cases e2 : hexPairAt L2 2 with
      | none => rw [e2] at hc; exact absurd rfl hc
      | some lf =>
        rw [e2, Option.some_bind] at hc
        by_cases c3 : L2.getD 5 0 = 72 ∧ L2.getD 6 0 = 58
        swap
        · rw [if_neg c3] at hc; exact absurd rfl hc
        rw [if_pos c3] at hc
        cases e3 : hexPairAt L2 7 with
        | none => rw [e3] at hc; exact absurd rfl hc
        | some hf =>
          rw [e3, Option.some_bind] at hc
          by_cases c4 : L2.getD 10 0 = 69 ∧ L2.getD 11 0 = 58
          swap
          · rw [if_neg c4] at hc; exact absurd rfl hc
          rw [if_pos c4] at hc
          cases e4 : hexPairAt L2 12 with
          | none => rw [e4] at hc; exact absurd rfl hc
          | some ef =>
            exact ⟨c1.1, c1.2, by simp [e1], c2.1, c2.2, by simp [e2], c3, by simp [e3], c4,
              by simp [e4]⟩
  · rintro ⟨a1, a2, a3, a4, a5, a6, a7, a8, a9, a10⟩
    obtain ⟨lb, e1⟩ := Option.ne_none_iff_exists'.mp a3
    obtain ⟨lf, e2⟩ := Option.ne_none_iff_exists'.mp a6
    obtain ⟨hf, e3⟩ := Option.ne_none_iff_exists'.mp a8
    obtain ⟨ef, e4⟩ := Option.ne_none_iff_exists'.mp a10
    refine ⟨lb, lf, hf, ef, e1, e2, e3, e4, ?_⟩
    rw [if_pos ⟨a1, a2⟩, e1, Option.some_bind, if_pos ⟨a4, a5⟩, e2, Option.some_bind, if_pos a7,
      e3, Option.some_bind, if_pos a9, e4, Option.some_bind]

/-- With values that are bytes, the fuse writes begin with the frame
`AC A0 00 lf`. -/
theorem writeFuses_first {σ : Type} (T : Target σ) (lock : Bool) (lb lf hf ef : Nat)
    (hlb : lb < 256) (hlf : lf < 256) (hhf : hf < 256) (hef : ef < 256) (s : Isp σ) :
    ∃ fs, Sends s (writeFuses T lock lb lf hf ef s).1 ([0xAC, 0xA0, 0x00, lf] :: fs) := by
  obtain ⟨k1, k2, k3, k4, _, _, _, _, h⟩ := writeFuses_frames T lock lb lf hf ef hlb hlf hhf hef s
  split_ifs at h
  all_goals exact ⟨_, h⟩

set_option maxRecDepth 100000 in
/-- C23, as stated, fails. In the file `LB:FF`, `L:E2xH:D9yE:FD` the second line
has the letters `x` and `y` at positions 4 and 9, not semicolons; on the target
model `programFuses` returns true on it and sends the three fuse writes
`AC A0 00 E2`, `AC A8 00 D9` and `AC A4 00 FD`. -/
theorem programFuses_accepts_other_separators :
    fuseLine (afterFuseLine separatorFile) = bytes "L:E2xH:D9yE:FD" ∧
    (fuseLine (afterFuseLine separatorFile)).getD 4 0 ≠ 59 ∧
    (fuseLine (afterFuseLine separatorFile)).getD 9 0 ≠ 59 ∧
    (programFuses (avr (idealChip 1)) (some separatorFile) (some zeroBuf) false blankLink).2 =
      true ∧
    frames (programFuses (avr (idealChip 1)) (some separatorFile) (some zeroBuf) false
      blankLink).1.log =
      [[0xAC, 0xA0, 0x00, 0xE2], syncFrame, [0xAC, 0xA8, 0x00, 0xD9], syncFrame,
        [0xAC, 0xA4, 0x00, 0xFD], syncFrame] := by
  decide

/-- C23, amended: the characters at positions 4 and 9 of the second line are
not checked; the rest is as stated. Take the first two lines of the file as
`freadUntil` delivers them (at most 16 characters up to the line feed, one
trailing carriage return removed). If they are not `LB:` with two hex digits (5
characters) and a line of 14 characters with `L:` at position 0, `H:` at
position 5, `E:` at position 10 and two hex digits after each label, then
`programFuses` returns false and leaves the link as it was: no frame at all is
sent. If they are, then whatever stands at positions 4 and 9, `programFuses`
runs the fuse writes with the values of the hex digits, and the first frame it
sends is the low fuse write `AC A0 00 lf`. -/
theorem programFuses_layout {σ : Type} (T : Target σ) (f : List Nat) (str : Buf) (lock : Bool)
    (s : Isp σ) :
    (¬ FuseLabels (fuseLine f) (fuseLine (afterFuseLine f)) →
      programFuses T (some f) (some str) lock s = (s, false)) ∧
    (FuseLabels (fuseLine f) (fuseLine (afterFuseLine f)) →
      ∃ lb lf hf ef, hexPairAt (fuseLine f) 3 = some lb ∧
        hexPairAt (fuseLine (afterFuseLine f)) 2 = some lf ∧
        hexPairAt (fuseLine (afterFuseLine f)) 7 = some hf ∧
        hexPairAt (fuseLine (afterFuseLine f)) 12 = some ef ∧
        programFuses T (some f) (some str) lock s = writeFuses T lock lb lf hf ef s ∧
        ∃ fs, Sends s (programFuses T (some f) (some str) lock s).1
          ([0xAC, 0xA0, 0x00, lf] :: fs)) ∧
    (FuseLayout (fuseLine f) (fuseLine (afterFuseLine f)) →
      FuseLabels (fuseLine f) (fuseLine (afterFuseLine f))) := by
  obtain ⟨h1, h2⟩ := readFuseFile_labels str f
  refine ⟨?_, ?_, fun h => h.1⟩
  · intro hn
    simp only [programFuses, h1 hn]
  · intro hl
    obtain ⟨lb, lf, hf, ef, e1, e2, e3, e4, e5⟩ := h2 hl
    have hp : programFuses T (some f) (some str) lock s = writeFuses T lock lb lf hf ef s := by
      simp only [programFuses, e5]
    refine ⟨lb, lf, hf, ef, e1, e2, e3, e4, hp, ?_⟩
    rw [hp]
    exact writeFuses_first T lock lb lf hf ef (hexPairAt_lt e1) (hexPairAt_lt e2) (hexPairAt_lt e3)
      (hexPairAt_lt e4) s

set_option maxRecDepth 100000 in
/-- The fuse file of Scenario C has the layout; a file whose first line is
`LB:F` has not, and nothing is sent for it. -/
theorem programFuses_layout_witness :
    FuseLayout (fuseLine scenarioFuses) (fuseLine (afterFuseLine scenarioFuses)) ∧
    (∃ fs, Sends blankLink
      (programFuses (avr (idealChip 1)) (some scenarioFuses) (some zeroBuf) false blankLink).1
      ([0xAC, 0xA0, 0x00, 0xE2] :: fs)) ∧
    programFuses (avr (idealChip 1)) (some (bytes "LB:F\nL:E2;H:D9;E:FD\n")) (some zeroBuf) false
      blankLink = (blankLink, false) := by
  have hw := programFuses_layout (avr (idealChip 1)) scenarioFuses zeroBuf false blankLink
  have hl : FuseLayout (fuseLine scenarioFuses) (fuseLine (afterFuseLine scenarioFuses)) := by
    unfold FuseLayout FuseLabels
    decide
  refine ⟨hl, ?_, ?_⟩
  · obtain ⟨lb, lf, hf, ef, _, e2, _, _, _, fs, hs⟩ := hw.2.1 hl.1
    have e : hexPairAt (fuseLine (afterFuseLine scenarioFuses)) 2 = some 0xE2 := by decide
    rw [e, Option.some.injEq] at e2
    subst e2
    exact ⟨fs, hs⟩
  · exact (programFuses_layout (avr (idealChip 1)) (bytes "LB:F\nL:E2;H:D9;E:FD\n") zeroBuf false
      blankLink).1 (by unfold FuseLabels; decide)

end AVRizer
